import Mathlib

/-!
# xv6 lab kernel: virtual memory (vm.c), buffer cache (bio.c), mmap (sysfile.c)

A shallow embedding of the kernel sources and theorems about it.

Representation choices, used throughout:

* Kernel functions that can `panic` return `Except String _`; the string is the
  panic message of the source.  A C return value `-1` is the integer `-1`.
* Physical memory is seen through two typed views: `Machine.ptes` holds the
  64-bit words of page-table pages, keyed by the physical address of the word
  (`&pagetable[i]` is `pagetable + 8 * i`), and `Machine.bytes` holds data bytes
  keyed by physical address.  A null pointer is the address `0`.
* `uint64` values are natural numbers; a wrap modulo `2 ^ 64` is written where
  the source can overflow.
* Loops are structural recursions on a fuel argument whose guard is the guard
  of the source loop; running out of fuel is the error `"fuel"`.
* Spin locks (`acquire`/`release`) and the `DEBUG` print statements have no
  effect on the sequential state and are left out.
-/

namespace Kernel

/-! ## riscv.h, memlayout.h -/

/-- Modelled from the spec: riscv.h is absent; the page size is 4096 bytes. -/
def PGSIZE : Nat := 4096

/-- Modelled from the spec: riscv.h is absent; Sv39 with three levels of
512-entry tables bounds virtual addresses by `1 << (9 + 9 + 9 + 12 - 1)`. -/
def MAXVA : Nat := 2 ^ 38

/-- Modelled from the spec: memlayout.h is absent; start of kernel RAM. -/
def KERNBASE : Nat := 0x80000000

/-- Modelled from the spec: riscv.h is absent; Sv39 valid bit. -/
def PTE_V : Nat := 1

/-- Modelled from the spec: riscv.h is absent; Sv39 read bit. -/
def PTE_R : Nat := 2

/-- Modelled from the spec: riscv.h is absent; Sv39 write bit. -/
def PTE_W : Nat := 4

/-- Modelled from the spec: riscv.h is absent; Sv39 execute bit. -/
def PTE_X : Nat := 8

/-- Modelled from the spec: riscv.h is absent; Sv39 user bit. -/
def PTE_U : Nat := 16

/-- Modelled from the spec: riscv.h is absent; Sv39 dirty bit. -/
def PTE_D : Nat := 128

/-- Modelled from the spec: riscv.h is absent; the first of the two
software-reserved PTE bits (bit 8) marks a page that was readable before it
was shared. -/
def PTE_COW_R : Nat := 256

/-- Modelled from the spec: riscv.h is absent; the second of the two
software-reserved PTE bits (bit 9) marks a page that was writable before it
was shared. -/
def PTE_COW_W : Nat := 512

/-- Truncation of a value to `uint64`. -/
def u64 (x : Nat) : Nat := x % 2 ^ 64

/-- The 64-bit complement `~x`. -/
def not64 (x : Nat) : Nat := 2 ^ 64 - 1 - x

/-- Modelled from the spec: riscv.h is absent;
`PGROUNDUP(sz) = (sz + PGSIZE - 1) & ~(PGSIZE - 1)`. -/
def PGROUNDUP (sz : Nat) : Nat := u64 (sz + PGSIZE - 1) &&& not64 (PGSIZE - 1)

/-- Modelled from the spec: riscv.h is absent;
`PGROUNDDOWN(a) = a & ~(PGSIZE - 1)`. -/
def PGROUNDDOWN (a : Nat) : Nat := a &&& not64 (PGSIZE - 1)

/-- Modelled from the spec: riscv.h is absent;
`PX(level, va) = (va >> (12 + 9 * level)) & 0x1FF`. -/
def PX (level va : Nat) : Nat := (va >>> (12 + 9 * level)) &&& 0x1FF

/-- Modelled from the spec: riscv.h is absent;
`PTE2PA(pte) = (pte >> 10) << 12` in 64-bit arithmetic. -/
def PTE2PA (pte : Nat) : Nat := u64 ((pte >>> 10) <<< 12)

/-- Modelled from the spec: riscv.h is absent;
`PA2PTE(pa) = (pa >> 12) << 10`. -/
def PA2PTE (pa : Nat) : Nat := (pa >>> 12) <<< 10

/-- Modelled from the spec: riscv.h is absent;
`PTE_FLAGS(pte) = pte & 0x3FF`. -/
def PTE_FLAGS (pte : Nat) : Nat := pte &&& 0x3FF

/-! ## Machine state seen by vm.c -/

/-- The state vm.c works on: page-table words, data bytes, the COW reference
counts (`uchar cow_ref[]`) and the frames held by the allocator. -/
structure Machine where
  /-- The 64-bit word of a page-table page at a physical address. -/
  ptes : Nat → Nat
  /-- The data byte at a physical address. -/
  bytes : Nat → Nat
  /-- The array `cow_ref`. -/
  cow_ref : Nat → Nat
  /-- The frames the allocator can hand out, next one first. -/
  freelist : List Nat

/-- The store `*pte = v` into a page-table page. -/
def Machine.setPte (m : Machine) (pte v : Nat) : Machine :=
  { m with ptes := fun a => if a = pte then v else m.ptes a }

/-- The store `cow_ref[i] = v`. -/
def Machine.setRef (m : Machine) (i v : Nat) : Machine :=
  { m with cow_ref := fun j => if j = i then v else m.cow_ref j }

/-- The call `memset(pagetable, 0, PGSIZE)` on a page-table page. -/
def Machine.zeroTable (m : Machine) (pa : Nat) : Machine :=
  { m with ptes := fun a => if pa ≤ a ∧ a < pa + PGSIZE then 0 else m.ptes a }

/-- The call `memset(pa, 0, PGSIZE)` on a data page. -/
def Machine.zeroPage (m : Machine) (pa : Nat) : Machine :=
  { m with bytes := fun a => if pa ≤ a ∧ a < pa + PGSIZE then 0 else m.bytes a }

/-- The call `memmove(dst, src, n)` between data pages. -/
def Machine.memmove (m : Machine) (dst src n : Nat) : Machine :=
  { m with bytes := fun a => if dst ≤ a ∧ a < dst + n then m.bytes (src + (a - dst)) else m.bytes a }

/-- The call `memmove(dst, src, n)` from a kernel buffer, given by its bytes,
into a data page. -/
def Machine.write (m : Machine) (dst : Nat) (src : Nat → Nat) (n : Nat) : Machine :=
  { m with bytes := fun a => if dst ≤ a ∧ a < dst + n then src (a - dst) else m.bytes a }

/-- Modelled from the spec: kalloc.c is absent; `kalloc` obtains a frame from
the allocator, and returns 0 when none is left. -/
def kalloc (m : Machine) : Nat × Machine :=
  match m.freelist with
  | [] => (0, m)
  | pa :: rest => (pa, { m with freelist := rest })

/-- Modelled from the spec: kalloc.c is absent; `kfree` returns a frame to the
allocator. -/
def kfree (m : Machine) (pa : Nat) : Machine :=
  { m with freelist := pa :: m.freelist }

/-! ## vm.c -/

/-- The loop of `walk`, from `level` down to 1, and its final
`return &pagetable[PX(0, va)]`. -/
def walk_level : Nat → Machine → Nat → Nat → Bool → Nat × Machine
  | 0, m, pagetable, va, _ => (pagetable + 8 * PX 0 va, m)
  | level + 1, m, pagetable, va, alloc =>
    let pte := pagetable + 8 * PX (level + 1) va
    if m.ptes pte &&& PTE_V ≠ 0 then
      walk_level level m (PTE2PA (m.ptes pte)) va alloc
    else if alloc = false then (0, m)
    else
      match kalloc m with
      | (pagetable1, m1) =>
        if pagetable1 = 0 then (0, m1)
        else
          walk_level level ((m1.zeroTable pagetable1).setPte pte (PA2PTE pagetable1 ||| PTE_V))
            pagetable1 va alloc

/-- The function `walk`: the address of the PTE for `va`, or 0. -/
def walk (m : Machine) (pagetable va : Nat) (alloc : Bool) : Except String (Nat × Machine) :=
  if va ≥ MAXVA then .error "walk"
  else .ok (walk_level 2 m pagetable va alloc)

/-- The function `walkaddr`. -/
def walkaddr (m : Machine) (pagetable va : Nat) : Except String Nat :=
  if va ≥ MAXVA then .ok 0
  else
    match walk m pagetable va false with
    | .error e => .error e
    | .ok (pte, _) =>
      if pte = 0 then .ok 0
      else if m.ptes pte &&& PTE_V = 0 then .ok 0
      else if m.ptes pte &&& PTE_U = 0 then .ok 0
      else .ok (PTE2PA (m.ptes pte))

/-- The `for(;;)` loop of `mappages`. -/
def mappages_loop : Nat → Machine → Nat → Nat → Nat → Nat → Nat → Except String (Int × Machine)
  | 0, _, _, _, _, _, _ => .error "fuel"
  | fuel + 1, m, pagetable, a, last, pa, perm =>
    match walk m pagetable a true with
    | .error e => .error e
    | .ok (pte, m1) =>
      if pte = 0 then .ok (-1, m1)
      else if m1.ptes pte &&& PTE_V ≠ 0 then .error "remap"
      else
        let m2 := m1.setPte pte (PA2PTE pa ||| perm ||| PTE_V)
        if a = last then .ok (0, m2)
        else mappages_loop fuel m2 pagetable (u64 (a + PGSIZE)) last (u64 (pa + PGSIZE)) perm

/-- The function `mappages`.  Every iteration but the last moves `a` up by one
page and `walk` panics from `MAXVA` on, so `MAXVA / PGSIZE + 1` iterations are
never exceeded. -/
def mappages (m : Machine) (pagetable va size pa perm : Nat) : Except String (Int × Machine) :=
  mappages_loop (MAXVA / PGSIZE + 1) m pagetable (PGROUNDDOWN va)
    (PGROUNDDOWN (u64 (va + size + (2 ^ 64 - 1)))) pa perm

/-- The `for` loop of `uvmunmap`. -/
def uvmunmap_loop : Nat → Machine → Nat → Nat → Nat → Bool → Except String Machine
  | 0, _, _, _, _, _ => .error "fuel"
  | fuel + 1, m, pagetable, a, lim, do_free =>
    if a < lim then
      match walk m pagetable a false with
      | .error e => .error e
      | .ok (pte, _) =>
        if pte = 0 then .error "uvmunmap: walk"
        else if m.ptes pte &&& PTE_V = 0 then .error "uvmunmap: not mapped"
        else if PTE_FLAGS (m.ptes pte) = PTE_V then .error "uvmunmap: not a leaf"
        else
          let m1 := if do_free then kfree m (PTE2PA (m.ptes pte)) else m
          uvmunmap_loop fuel (m1.setPte pte 0) pagetable (u64 (a + PGSIZE)) lim do_free
    else .ok m

/-- The function `uvmunmap`. -/
def uvmunmap (m : Machine) (pagetable va npages : Nat) (do_free : Bool) : Except String Machine :=
  if va % PGSIZE ≠ 0 then .error "uvmunmap: not aligned"
  else uvmunmap_loop (npages + 1) m pagetable va (u64 (va + npages * PGSIZE)) do_free

/-- The local `flags` of `uvmcopy` after the `if(flags&PTE_U)` block. -/
def uvmcopy_flags (flags : Nat) : Nat :=
  if flags &&& PTE_U ≠ 0 then
    let flags1 := if flags &&& (PTE_R ||| PTE_COW_R) ≠ 0 then flags ||| PTE_COW_R else flags
    if flags1 &&& (PTE_W ||| PTE_COW_W) ≠ 0 then (flags1 &&& not64 PTE_W) ||| PTE_COW_W
    else flags1
  else flags

/-- The parent entry `*pte` of `uvmcopy` after the `if(flags&PTE_U)` block. -/
def uvmcopy_pte (pte : Nat) : Nat :=
  let flags := PTE_FLAGS pte
  if flags &&& PTE_U ≠ 0 then
    let flags1 := if flags &&& (PTE_R ||| PTE_COW_R) ≠ 0 then flags ||| PTE_COW_R else flags
    let pte1 := if flags &&& (PTE_R ||| PTE_COW_R) ≠ 0 then pte ||| PTE_COW_R else pte
    if flags1 &&& (PTE_W ||| PTE_COW_W) ≠ 0 then (pte1 ||| PTE_COW_W) &&& not64 PTE_W
    else pte1
  else pte

/-- The two statements of `uvmcopy` that raise `cow_ref[COWREFINDEX(pa)]`:
"if count is 0, add 2; else add 1", on an `uchar`. -/
def cow_share (r : Nat) : Nat :=
  let r1 := if r = 0 then (r + 1) % 256 else r
  (r1 + 1) % 256

/-- The `for` loop of `uvmcopy`.  `COWREFINDEX` is a macro of a header that is
absent; it is a parameter. -/
def uvmcopy_loop (COWREFINDEX : Nat → Nat) :
    Nat → Machine → Nat → Nat → Nat → Nat → Except String (Int × Machine)
  | 0, _, _, _, _, _ => .error "fuel"
  | fuel + 1, m, old, new, i, sz =>
    if i < sz then
      match walk m old i false with
      | .error e => .error e
      | .ok (pte, _) =>
        if pte = 0 then .error "uvmcopy: pte should exist"
        else if m.ptes pte &&& PTE_V = 0 then .error "uvmcopy: page not present"
        else
          let pa := PTE2PA (m.ptes pte)
          let flags := uvmcopy_flags (PTE_FLAGS (m.ptes pte))
          let m1 := m.setPte pte (uvmcopy_pte (m.ptes pte))
          let m2 := m1.setRef (COWREFINDEX pa) (cow_share (m1.cow_ref (COWREFINDEX pa)))
          match mappages m2 new i PGSIZE pa flags with
          | .error e => .error e
          | .ok (r, m3) =>
            if r ≠ 0 then .error "uvmcopy_cow: mappages fail"
            else uvmcopy_loop COWREFINDEX fuel m3 old new (u64 (i + PGSIZE)) sz
    else .ok (0, m)

/-- The function `uvmcopy` (the COW variant). -/
def uvmcopy (COWREFINDEX : Nat → Nat) (m : Machine) (old new sz : Nat) :
    Except String (Int × Machine) :=
  uvmcopy_loop COWREFINDEX (sz / PGSIZE + 2) m old new 0 sz

/-- The local `flags` that `uvmuncow` computes from `*pte`. -/
def uvmuncow_flags (pte : Nat) : Nat :=
  let flags := PTE_V ||| PTE_X ||| PTE_U
  let flags1 := if pte &&& PTE_COW_R ≠ 0 then flags ||| PTE_R else flags
  if pte &&& PTE_COW_W ≠ 0 then flags1 ||| PTE_W else flags1

/-- The function `uvmuncow`; `p_sz` is `myproc()->sz`. -/
def uvmuncow (COWREFINDEX : Nat → Nat) (m : Machine) (pagetable va p_sz : Nat) :
    Except String (Int × Machine) :=
  if va ≥ p_sz then .ok (-1, m)
  else
    match walk m pagetable va false with
    | .error e => .error e
    | .ok (pte, _) =>
      if pte = 0 then .ok (-1, m)
      else
        let pa := PTE2PA (m.ptes pte)
        if m.cow_ref (COWREFINDEX pa) = 0 then .error "uvmuncow: pa not a cow page\n"
        else if m.ptes pte &&& PTE_U = 0 ∧ m.ptes pte &&& (PTE_COW_R ||| PTE_COW_W) = 0 then
          .ok (-1, m)
        else
          let flags := uvmuncow_flags (m.ptes pte)
          if m.cow_ref (COWREFINDEX pa) ≥ 2 then
            match kalloc m with
            | (mem, m1) =>
              if mem = 0 then .ok (-1, m1)
              else
                let m2 := m1.setRef (COWREFINDEX pa) ((m1.cow_ref (COWREFINDEX pa) + 255) % 256)
                match uvmunmap m2 pagetable (PGROUNDDOWN va) 1 false with
                | .error e => .error e
                | .ok m3 =>
                  match mappages (m3.memmove mem pa PGSIZE) pagetable (PGROUNDDOWN va) PGSIZE mem
                      flags with
                  | .error e => .error e
                  | .ok (r, m5) => if r ≠ 0 then .ok (-1, m5) else .ok (0, m5)
          else if m.cow_ref (COWREFINDEX pa) = 1 then
            .ok (0, (m.setRef (COWREFINDEX pa) 0).setPte pte
              ((m.ptes pte ||| flags) &&& not64 (PTE_COW_R ||| PTE_COW_W)))
          else .error "uvmuncow: cow ref count 0"

/-- The `while` loop of `copyout`; `src` gives the bytes of the kernel buffer
from the current source pointer on. -/
def copyout_loop : Nat → Machine → Nat → Nat → (Nat → Nat) → Nat → Except String (Int × Machine)
  | 0, _, _, _, _, _ => .error "fuel"
  | fuel + 1, m, pagetable, dstva, src, len =>
    if len > 0 then
      let va0 := PGROUNDDOWN dstva
      match walkaddr m pagetable va0 with
      | .error e => .error e
      | .ok pa0 =>
        if pa0 = 0 then .ok (-1, m)
        else
          let n0 := PGSIZE - (dstva - va0)
          let n := if n0 > len then len else n0
          copyout_loop fuel (m.write (pa0 + (dstva - va0)) src n) pagetable (u64 (va0 + PGSIZE))
            (fun k => src (k + n)) (len - n)
    else .ok (0, m)

/-- The function `copyout`.  Every iteration copies at least one byte. -/
def copyout (m : Machine) (pagetable dstva : Nat) (src : Nat → Nat) (len : Nat) :
    Except String (Int × Machine) :=
  copyout_loop (len + 1) m pagetable dstva src len

/-- The `while` loop of `copyin`; `dst` gives the bytes of the kernel buffer and
`off` is the distance of the current destination pointer from its start. -/
def copyin_loop : Nat → Machine → Nat → (Nat → Nat) → Nat → Nat → Nat →
    Except String (Int × (Nat → Nat))
  | 0, _, _, _, _, _, _ => .error "fuel"
  | fuel + 1, m, pagetable, dst, off, srcva, len =>
    if len > 0 then
      let va0 := PGROUNDDOWN srcva
      match walkaddr m pagetable va0 with
      | .error e => .error e
      | .ok pa0 =>
        if pa0 = 0 then .ok (-1, dst)
        else
          let n0 := PGSIZE - (srcva - va0)
          let n := if n0 > len then len else n0
          copyin_loop fuel m pagetable
            (fun k => if off ≤ k ∧ k < off + n then m.bytes (pa0 + (srcva - va0) + (k - off)) else dst k)
            (off + n) (u64 (va0 + PGSIZE)) (len - n)
    else .ok (0, dst)

/-- The function `copyin`; the result carries the bytes of the kernel buffer
`dst` after the call. -/
def copyin (m : Machine) (pagetable : Nat) (dst : Nat → Nat) (srcva len : Nat) :
    Except String (Int × (Nat → Nat)) :=
  copyin_loop (len + 1) m pagetable dst 0 srcva len


/-! ## vm.c: `uvmdealloc`, `uvmalloc`, `copyinstr` -/

/-- The conversion of a value to `int` and back to `uint64`, as for the local
`int npages` of `uvmdealloc` when it is passed to `uvmunmap`. -/
def intToU64 (x : Nat) : Nat :=
  if x % 2 ^ 32 < 2 ^ 31 then x % 2 ^ 32 else x % 2 ^ 32 + (2 ^ 64 - 2 ^ 32)

/-- The function `uvmdealloc`; the result carries the returned size. -/
def uvmdealloc (m : Machine) (pagetable oldsz newsz : Nat) : Except String (Nat × Machine) :=
  if newsz ≥ oldsz then .ok (oldsz, m)
  else if PGROUNDUP newsz < PGROUNDUP oldsz then
    let npages := intToU64 ((PGROUNDUP oldsz - PGROUNDUP newsz) / PGSIZE)
    match uvmunmap m pagetable (PGROUNDUP newsz) npages true with
    | .error e => .error e
    | .ok m1 => .ok (newsz, m1)
  else .ok (newsz, m)

/-- The `for` loop of `uvmalloc`; `oldsz` is the rounded-up old size. -/
def uvmalloc_loop : Nat → Machine → Nat → Nat → Nat → Nat → Except String (Nat × Machine)
  | 0, _, _, _, _, _ => .error "fuel"
  | fuel + 1, m, pagetable, a, oldsz, newsz =>
    if a < newsz then
      match kalloc m with
      | (mem, m1) =>
        if mem = 0 then
          match uvmdealloc m1 pagetable a oldsz with
          | .error e => .error e
          | .ok (_, m2) => .ok (0, m2)
        else
          match mappages (m1.zeroPage mem) pagetable a PGSIZE mem
              (PTE_W ||| PTE_X ||| PTE_R ||| PTE_U) with
          | .error e => .error e
          | .ok (r, m2) =>
            if r ≠ 0 then
              match uvmdealloc (kfree m2 mem) pagetable a oldsz with
              | .error e => .error e
              | .ok (_, m3) => .ok (0, m3)
            else uvmalloc_loop fuel m2 pagetable (u64 (a + PGSIZE)) oldsz newsz
    else .ok (newsz, m)

/-- The function `uvmalloc`; the result carries the returned size. -/
def uvmalloc (m : Machine) (pagetable oldsz newsz : Nat) : Except String (Nat × Machine) :=
  if newsz < oldsz then .ok (oldsz, m)
  else uvmalloc_loop (newsz / PGSIZE + 2) m pagetable (PGROUNDUP oldsz) (PGROUNDUP oldsz) newsz

/-- The result of the inner `while(n > 0)` loop of `copyinstr`. -/
structure StrChunk where
  got_null : Bool
  dst : Nat → Nat
  off : Nat
  max : Nat

/-- The inner `while(n > 0)` loop of `copyinstr`: `p` is the source pointer,
`dst` gives the bytes of the kernel buffer and `off` is the distance of the
destination pointer from its start. -/
def copyinstr_chunk : Nat → Machine → (Nat → Nat) → Nat → Nat → Nat → StrChunk
  | 0, _, dst, off, _, max => ⟨false, dst, off, max⟩
  | n + 1, m, dst, off, p, max =>
    if m.bytes p = 0 then ⟨true, fun k => if k = off then 0 else dst k, off, max⟩
    else
      copyinstr_chunk n m (fun k => if k = off then m.bytes p else dst k) (off + 1) (p + 1)
        (max - 1)

/-- The outer `while` loop of `copyinstr`, entered with `got_null == 0`. -/
def copyinstr_loop : Nat → Machine → Nat → (Nat → Nat) → Nat → Nat → Nat →
    Except String (Int × (Nat → Nat))
  | 0, _, _, _, _, _, _ => .error "fuel"
  | fuel + 1, m, pagetable, dst, off, srcva, max =>
    if max > 0 then
      let va0 := PGROUNDDOWN srcva
      match walkaddr m pagetable va0 with
      | .error e => .error e
      | .ok pa0 =>
        if pa0 = 0 then .ok (-1, dst)
        else
          let n0 := PGSIZE - (srcva - va0)
          let n := if n0 > max then max else n0
          let c := copyinstr_chunk n m dst off (pa0 + (srcva - va0)) max
          if c.got_null then .ok (0, c.dst)
          else copyinstr_loop fuel m pagetable c.dst c.off (u64 (va0 + PGSIZE)) c.max
    else .ok (-1, dst)

/-- The function `copyinstr`; the result carries the bytes of the kernel
buffer `dst` after the call.  Every iteration of the outer loop that does not
end the call consumes at least one byte of `max`. -/
def copyinstr (m : Machine) (pagetable : Nat) (dst : Nat → Nat) (srcva max : Nat) :
    Except String (Int × (Nat → Nat)) :=
  copyinstr_loop (max + 1) m pagetable dst 0 srcva max

/-- The function `uvmcreate`: the address of a zeroed root page, or 0. -/
def uvmcreate (m : Machine) : Nat × Machine :=
  match kalloc m with
  | (pagetable, m1) =>
    if pagetable = 0 then (0, m1)
    else (pagetable, m1.zeroTable pagetable)

/-- The local `flags` of `copyout_cow` after the `if(flags)` block. -/
def copyout_cow_flags (flags : Nat) : Nat :=
  if flags ≠ 0 then
    let flags1 := if flags &&& (PTE_R ||| PTE_COW_R) ≠ 0 then flags ||| PTE_COW_R else flags
    if flags1 &&& (PTE_W ||| PTE_COW_W) ≠ 0 then (flags1 &&& not64 PTE_W) ||| PTE_COW_W
    else flags1
  else flags

/-- The kernel entry `*pte` of `copyout_cow` after the `if(flags)` block. -/
def copyout_cow_pte (pte : Nat) : Nat :=
  let flags := PTE_FLAGS pte
  if flags ≠ 0 then
    let flags1 := if flags &&& (PTE_R ||| PTE_COW_R) ≠ 0 then flags ||| PTE_COW_R else flags
    let pte1 := if flags &&& (PTE_R ||| PTE_COW_R) ≠ 0 then pte ||| PTE_COW_R else pte
    if flags1 &&& (PTE_W ||| PTE_COW_W) ≠ 0 then (pte1 ||| PTE_COW_W) &&& not64 PTE_W
    else pte1
  else pte

/-- The `for` loop of `copyout_cow`; `kernel_pagetable` is a global of vm.c
and `lim` is `src + len`. -/
def copyout_cow_loop (COWREFINDEX : Nat → Nat) :
    Nat → Machine → Nat → Nat → Nat → Nat → Nat → Except String (Int × Machine)
  | 0, _, _, _, _, _, _ => .error "fuel"
  | fuel + 1, m, kernel_pagetable, pagetable, i, dstva, lim =>
    if i < lim then
      match walk m kernel_pagetable i false with
      | .error e => .error e
      | .ok (pte, _) =>
        if pte = 0 then .error "copyout: pte should exist"
        else if m.ptes pte &&& PTE_V = 0 then .error "copyout: page not present"
        else
          let pa := PTE2PA (m.ptes pte)
          let flags := copyout_cow_flags (PTE_FLAGS (m.ptes pte))
          let m1 := m.setPte pte (copyout_cow_pte (m.ptes pte))
          let m2 := m1.setRef (COWREFINDEX pa) (cow_share (m1.cow_ref (COWREFINDEX pa)))
          match mappages m2 pagetable dstva PGSIZE pa flags with
          | .error e => .error e
          | .ok (r, m3) =>
            if r ≠ 0 then .error "uvmcopy_cow: mappages fail"
            else
              copyout_cow_loop COWREFINDEX fuel m3 kernel_pagetable pagetable (u64 (i + PGSIZE))
                (u64 (dstva + PGSIZE)) lim
    else .ok (0, m)

/-- The function `copyout_cow`; `src` is the kernel address of the source
buffer.  The loop runs at most once per page of `[src, src + len)`. -/
def copyout_cow (COWREFINDEX : Nat → Nat) (m : Machine) (kernel_pagetable pagetable dstva src
    len : Nat) : Except String (Int × Machine) :=
  copyout_cow_loop COWREFINDEX (len / PGSIZE + 3) m kernel_pagetable pagetable (PGROUNDDOWN src)
    dstva (u64 (src + len))

/-! ## bio.c

The circular list of a bucket, `head.next ... head.prev`, is represented by the
list of the buffers on it in `next` order; the sentinel `head` is left out.
Unlinking a buffer removes it from the list, and linking it behind `head` puts
it in front.  A call that has to wait in `acquiresleep` does not return in a
sequential run; it ends with the error `"acquiresleep: sleeps"`. -/

/-- The constant `BCACHE_BUCKET` of bio.c. -/
def BCACHE_BUCKET : Nat := 17

/-- A pointer `&bcache.buf[bucket][idx]`. -/
structure BufId where
  bucket : Nat
  idx : Nat
deriving DecidableEq

/-- Modelled from the spec: buf.h is absent; a buffer carries its device,
block number, valid flag, reference count (an `uint`), sleep-lock and one
block of data. -/
structure Buf where
  valid : Nat
  dev : Nat
  blockno : Nat
  refcnt : Nat
  locked : Bool
  data : Nat → Nat

/-- One call of `virtio_disk_rw`. -/
structure DiskOp where
  write : Bool
  dev : Nat
  blockno : Nat
deriving DecidableEq

/-- The buffer cache `bcache`, the disk behind it, and the calls of
`virtio_disk_rw` made so far, latest last. -/
structure Bio where
  buf : BufId → Buf
  lru : Nat → List BufId
  disk : Nat → Nat → Nat → Nat
  diskops : List DiskOp

/-- The assignment of new fields to `*b`. -/
def Bio.setBuf (s : Bio) (b : BufId) (v : Buf) : Bio :=
  { s with buf := fun c => if c = b then v else s.buf c }

/-- Modelled from the spec: the virtio driver is absent; `virtio_disk_rw(b, write)`
synchronously copies the block between the buffer and the disk. -/
def virtio_disk_rw (s : Bio) (b : BufId) (write : Bool) : Bio :=
  if write then
    { s with
      disk := fun d n => if d = (s.buf b).dev ∧ n = (s.buf b).blockno then (s.buf b).data else s.disk d n
      diskops := s.diskops ++ [⟨true, (s.buf b).dev, (s.buf b).blockno⟩] }
  else
    { (s.setBuf b { s.buf b with data := s.disk (s.buf b).dev (s.buf b).blockno }) with
      diskops := s.diskops ++ [⟨false, (s.buf b).dev, (s.buf b).blockno⟩] }

/-- Modelled from the spec: sleeplock.c is absent; `holdingsleep(&b->lock)`. -/
def holdingsleep (s : Bio) (b : BufId) : Bool := (s.buf b).locked

/-- Modelled from the spec: sleeplock.c is absent; `acquiresleep(&b->lock)`
takes the lock when it is free and suspends the caller otherwise. -/
def acquiresleep (s : Bio) (b : BufId) : Except String Bio :=
  if (s.buf b).locked then .error "acquiresleep: sleeps"
  else .ok (s.setBuf b { s.buf b with locked := true })

/-- Modelled from the spec: sleeplock.c is absent; `releasesleep(&b->lock)`. -/
def releasesleep (s : Bio) (b : BufId) : Bio :=
  s.setBuf b { s.buf b with locked := false }

/-- The inner loop of `binit` over `bcache.buf[buci]`, from index `i` on for
`n` buffers: `initsleeplock` and linking behind `head`. -/
def binit_bucket (buci : Nat) : Nat → Nat → Bio → Bio
  | 0, _, s => s
  | n + 1, i, s =>
    binit_bucket buci n (i + 1)
      { (s.setBuf ⟨buci, i⟩ { s.buf ⟨buci, i⟩ with locked := false }) with
        lru := fun k => if k = buci then ⟨buci, i⟩ :: s.lru k else s.lru k }

/-- The outer loop of `binit`, from bucket `buci` on for `n` buckets.  `NBUF`
is a constant of param.h, which is absent; it is a parameter. -/
def binit_loop (NBUF : Nat) : Nat → Nat → Bio → Bio
  | 0, _, s => s
  | n + 1, buci, s =>
    binit_loop NBUF n (buci + 1)
      (binit_bucket buci NBUF 0 { s with lru := fun k => if k = buci then [] else s.lru k })

/-- The function `binit`. -/
def binit (NBUF : Nat) (s : Bio) : Bio := binit_loop NBUF BCACHE_BUCKET 0 s

/-- The static storage of `bcache` before `binit`: every field is zero; the
disk is given. -/
def bcacheZero (disk : Nat → Nat → Nat → Nat) : Bio where
  buf := fun _ => ⟨0, 0, 0, 0, false, fun _ => 0⟩
  lru := fun _ => []
  disk := disk
  diskops := []

/-- The part of `bget` that runs under `bcache.lock[buci]`: the two scans.  It
yields the buffer on whose sleep-lock `bget` then waits. -/
def bget_find (s : Bio) (dev blockno : Nat) : Except String (BufId × Bio) :=
  let buci := blockno % BCACHE_BUCKET
  match (s.lru buci).find? (fun b => (s.buf b).dev = dev ∧ (s.buf b).blockno = blockno) with
  | some b => .ok (b, s.setBuf b { s.buf b with refcnt := ((s.buf b).refcnt + 1) % 2 ^ 32 })
  | none =>
    match (s.lru buci).reverse.find? (fun b => (s.buf b).refcnt = 0) with
    | some b => .ok (b, s.setBuf b { s.buf b with dev := dev, blockno := blockno, valid := 0, refcnt := 1 })
    | none => .error "bget: no buffers"

/-- The function `bget`. -/
def bget (s : Bio) (dev blockno : Nat) : Except String (BufId × Bio) :=
  match bget_find s dev blockno with
  | .error e => .error e
  | .ok (b, s1) =>
    match acquiresleep s1 b with
    | .error e => .error e
    | .ok s2 => .ok (b, s2)

/-- The function `bread`. -/
def bread (s : Bio) (dev blockno : Nat) : Except String (BufId × Bio) :=
  match bget s dev blockno with
  | .error e => .error e
  | .ok (b, s1) =>
    if (s1.buf b).valid = 0 then
      let s2 := virtio_disk_rw s1 b false
      .ok (b, s2.setBuf b { s2.buf b with valid := 1 })
    else .ok (b, s1)

/-- The function `bwrite`. -/
def bwrite (s : Bio) (b : BufId) : Except String Bio :=
  if holdingsleep s b = false then .error "bwrite"
  else .ok (virtio_disk_rw s b true)

/-- The function `brelse`. -/
def brelse (s : Bio) (b : BufId) : Except String Bio :=
  if holdingsleep s b = false then .error "brelse"
  else
    let s1 := releasesleep s b
    let buci := (s1.buf b).blockno % BCACHE_BUCKET
    let s2 := s1.setBuf b { s1.buf b with refcnt := ((s1.buf b).refcnt + (2 ^ 32 - 1)) % 2 ^ 32 }
    if (s2.buf b).refcnt = 0 then
      .ok { s2 with lru := fun k => if k = buci then b :: (s2.lru k).erase b else (s2.lru k).erase b }
    else .ok s2

/-- The function `bpin`. -/
def bpin (s : Bio) (b : BufId) : Bio :=
  s.setBuf b { s.buf b with refcnt := ((s.buf b).refcnt + 1) % 2 ^ 32 }

/-- The function `bunpin`. -/
def bunpin (s : Bio) (b : BufId) : Bio :=
  s.setBuf b { s.buf b with refcnt := ((s.buf b).refcnt + (2 ^ 32 - 1)) % 2 ^ 32 }

/-- A call into the buffer cache. -/
inductive BioCall where
  | bget (dev blockno : Nat)
  | bread (dev blockno : Nat)
  | bwrite (b : BufId)
  | brelse (b : BufId)
  | bpin (b : BufId)
  | bunpin (b : BufId)

/-- The state after a call that returns. -/
def BioCall.run (s : Bio) : BioCall → Except String Bio
  | .bget dev blockno => (Kernel.bget s dev blockno).map Prod.snd
  | .bread dev blockno => (Kernel.bread s dev blockno).map Prod.snd
  | .bwrite b => Kernel.bwrite s b
  | .brelse b => Kernel.brelse s b
  | .bpin b => .ok (Kernel.bpin s b)
  | .bunpin b => .ok (Kernel.bunpin s b)

/-- The state after a sequence of calls that all return. -/
def runCalls (s : Bio) : List BioCall → Except String Bio
  | [] => .ok s
  | c :: cs =>
    match c.run s with
    | .error e => .error e
    | .ok s1 => runCalls s1 cs

/-! ## sysfile.c: `sys_mmap` and `sys_munmap` -/

/-- Modelled from the spec: fcntl.h is absent; protection bit of readable
mappings. -/
def PROT_READ : Nat := 1

/-- Modelled from the spec: fcntl.h is absent; protection bit of writable
mappings. -/
def PROT_WRITE : Nat := 2

/-- Modelled from the spec: fcntl.h is absent; protection bit of executable
mappings. -/
def PROT_EXEC : Nat := 4

/-- Modelled from the spec: fcntl.h is absent; flag of shared mappings. -/
def MAP_SHARED : Nat := 1

/-- Modelled from the spec: fcntl.h is absent; flag of private mappings. -/
def MAP_PRIVATE : Nat := 2

/-- The value `-1` as `uint64`. -/
def minusOne : Nat := 2 ^ 64 - 1

/-- Modelled from the spec: file.h is absent; the fields of `struct file` that
`sys_mmap` and `sys_munmap` touch. -/
structure File where
  writable : Bool
  ref : Nat
  off : Nat

/-- Modelled from the spec: the declaration of `struct vmae` is absent; the
fields are those that sysfile.c assigns.  `file_t` is a file pointer, 0 for
null. -/
structure Vmae where
  start : Nat
  length : Nat
  prot : Nat
  flags : Nat
  file_t : Nat
  offset : Nat

/-- Modelled from the spec: proc.h is absent; the fields of `struct proc` that
`sys_mmap` and `sys_munmap` touch.  An open file is a file pointer, 0 for
null; a slot of `vmaep` is null or points to an entry of the global pool,
given by its index. -/
structure Proc where
  pagetable : Nat
  sz : Nat
  ofile : Nat → Nat
  vmaep : Nat → Option Nat

/-- A record of a call `filewrite(f, addr, n)`, with the offset `f->off` that
the file has at the call. -/
structure FileWrite where
  f : Nat
  addr : Nat
  n : Nat
  off : Nat
deriving DecidableEq

/-- The kernel state seen by `sys_mmap` and `sys_munmap`: memory, the calling
process, the global pool `vma.vmae`, the files by pointer, and the calls of
`filewrite` so far. -/
structure Sys where
  mem : Machine
  p : Proc
  vmae : Nat → Vmae
  file : Nat → File
  written : List FileWrite

/-- Modelled from the spec: file.c is absent; `filedup(f)` raises the
reference count. -/
def filedup (s : Sys) (f : Nat) : Sys :=
  { s with file := fun g => if g = f then { s.file f with ref := (s.file f).ref + 1 } else s.file g }

/-- Modelled from the spec: file.c is absent; `fileclose(f)` panics on a
reference count below 1 and lowers it. -/
def fileclose (s : Sys) (f : Nat) : Except String Sys :=
  if (s.file f).ref < 1 then .error "fileclose"
  else .ok { s with
    file := fun g => if g = f then { s.file f with ref := (s.file f).ref - 1 } else s.file g }

/-- Modelled from the spec: file.c is absent; `filewrite(f, addr, n)` writes at
the offset `f->off`; the call is recorded with that offset. -/
def filewrite (s : Sys) (f addr n : Nat) : Sys :=
  { s with written := s.written ++ [⟨f, addr, n, (s.file f).off⟩] }

/-- Modelled from the spec: the definition of `vmaeclear` is absent; it closes
the file of the entry and zeroes the entry. -/
def vmaeclear (s : Sys) (g : Nat) : Except String Sys :=
  match fileclose s (s.vmae g).file_t with
  | .error e => .error e
  | .ok s1 => .ok { s1 with vmae := fun k => if k = g then ⟨0, 0, 0, 0, 0, 0⟩ else s1.vmae k }

/-- The scan `for(jlength = istart; jlength < istart + PGROUNDUP(length); ...)`
of `sys_mmap` for a valid entry: the first `jlength` with a valid entry, if
any.  The result of `walk` is dereferenced unchecked; a null result traps. -/
def mmap_scan : Nat → Machine → Nat → Nat → Nat → Except String (Option Nat)
  | 0, _, _, _, _ => .error "fuel"
  | fuel + 1, m, pagetable, jlength, lim =>
    if jlength < lim then
      match walk m pagetable jlength false with
      | .error e => .error e
      | .ok (pte_j, _) =>
        if pte_j = 0 then .error "kerneltrap"
        else if m.ptes pte_j &&& PTE_V ≠ 0 then .ok (some jlength)
        else mmap_scan fuel m pagetable (u64 (jlength + PGSIZE)) lim
    else .ok none

/-- The search loop of `sys_mmap` from the label `TRY_ISTART` on: the `istart`
at which the loop breaks, if it does.  `len` is `PGROUNDUP(length)`. -/
def mmap_try : Nat → Machine → Nat → Nat → Nat → Except String (Option Nat)
  | 0, _, _, _, _ => .error "fuel"
  | fuel + 1, m, pagetable, istart, len =>
    match walk m pagetable istart false with
    | .error e => .error e
    | .ok (pte_i, _) =>
      if pte_i = 0 then .error "kerneltrap"
      else if m.ptes pte_i &&& PTE_V = 0 then
        match mmap_scan (len / PGSIZE + 1) m pagetable istart (u64 (istart + len)) with
        | .error e => .error e
        | .ok (some jlength) => mmap_try fuel m pagetable jlength len
        | .ok none => .ok (some istart)
      else if u64 (u64 (istart + PGSIZE) + len) < KERNBASE then
        mmap_try fuel m pagetable (u64 (istart + PGSIZE)) len
      else .ok none

/-- The loop of `sys_mmap` that allocates, zeroes and maps the pages. -/
def mmap_alloc : Nat → Machine → Nat → Nat → Nat → Nat → Except String Machine
  | 0, _, _, _, _, _ => .error "fuel"
  | fuel + 1, m, pagetable, jlength, lim, perm =>
    if jlength < lim then
      match kalloc m with
      | (pa, m1) =>
        if pa = 0 then .error "mmap: kalloc failed"
        else
          match mappages (m1.zeroPage pa) pagetable jlength PGSIZE pa perm with
          | .error e => .error e
          | .ok (_, m2) => mmap_alloc fuel m2 pagetable (u64 (jlength + PGSIZE)) lim perm
    else .ok m

/-- The local `perm` of `sys_mmap`. -/
def mmap_perm (prot : Nat) : Nat :=
  ((if prot &&& PROT_EXEC ≠ 0 then PTE_X else 0) |||
    (if prot &&& PROT_WRITE ≠ 0 then PTE_W else 0)) |||
    (if prot &&& PROT_READ ≠ 0 then PTE_R else 0)

/-- The part of `sys_mmap` from the label `FILECLOSE` on. -/
def mmap_fileclose (s : Sys) (f : Nat) : Except String (Nat × Sys) :=
  match fileclose s f with
  | .error e => .error e
  | .ok s1 => .ok (minusOne, s1)

/-- The part of `sys_mmap` after the pages are mapped at `start`. -/
def mmap_record (s : Sys) (start length prot flags f offset : Nat) : Except String (Nat × Sys) :=
  if start = 0 then .ok (minusOne, s)
  else
    let s1 := filedup s f
    if flags &&& MAP_SHARED ≠ 0 ∧ (s1.file f).writable = false ∧ prot &&& PROT_WRITE ≠ 0 then
      mmap_fileclose s1 f
    else
      match (List.range 20).find? (fun i => (s1.vmae i).length = 0) with
      | none => mmap_fileclose s1 f
      | some g =>
        let s2 := { s1 with
          vmae := fun k => if k = g then ⟨start, length, prot, flags, f, offset⟩ else s1.vmae k }
        match (List.range 16).find? (fun i => (s2.p.vmaep i).isNone) with
        | none => mmap_fileclose s2 f
        | some i =>
          .ok (start, { s2 with
            p := { s2.p with vmaep := fun k => if k = i then some g else s2.p.vmaep k } })

/-- The function `sys_mmap`, with its arguments as fetched by `argaddr` and
`argint`; the `int` arguments are taken in the range where the `int`
arithmetic does not overflow, and `DEBUG` is taken as 0.  The result is the
returned `uint64`. -/
def sys_mmap (s : Sys) (addr length prot flags fd offset : Nat) : Except String (Nat × Sys) :=
  let f := s.p.ofile fd
  if f = 0 then .ok (minusOne, s)
  else
    let len := PGROUNDUP length
    let search :=
      if u64 (PGROUNDUP addr + len) < KERNBASE then
        mmap_try (2 * (KERNBASE / PGSIZE) + 2) s.mem s.p.pagetable (PGROUNDUP addr) len
      else .ok none
    match search with
    | .error e => .error e
    | .ok none => .ok (minusOne, s)
    | .ok (some istart) =>
      let p1 := if s.p.sz < u64 (istart + len) then { s.p with sz := u64 (istart + len) } else s.p
      match mmap_alloc (len / PGSIZE + 1) s.mem s.p.pagetable istart (u64 (istart + len))
          (mmap_perm prot) with
      | .error e => .error e
      | .ok m1 => mmap_record { s with mem := m1, p := p1 } istart length prot flags f offset

/-- The write-back loop of `sys_munmap` for a shared mapping. -/
def munmap_writeback : Nat → Sys → Nat → Nat → Nat → Nat → Except String Sys
  | 0, _, _, _, _, _ => .error "fuel"
  | fuel + 1, s, g, pg, addr, lim =>
    if pg < lim then
      match walk s.mem s.p.pagetable pg false with
      | .error e => .error e
      | .ok (pte, _) =>
        if pte = 0 then .error "kerneltrap"
        else
          let f := (s.vmae g).file_t
          let s1 := { s with
            file := fun k =>
              if k = f then { s.file f with off := ((s.vmae g).offset + pg - addr) % 2 ^ 32 }
              else s.file k }
          let s2 := if s1.mem.ptes pte &&& PTE_D ≠ 0 then filewrite s1 f pg PGSIZE else s1
          munmap_writeback fuel s2 g (u64 (pg + PGSIZE)) addr lim
    else .ok s

/-- The last loop of `sys_munmap`: `uvmunmap(p->pagetable, pg, 1, 1)` for each
page. -/
def munmap_pages : Nat → Machine → Nat → Nat → Nat → Except String Machine
  | 0, _, _, _, _ => .error "fuel"
  | fuel + 1, m, pagetable, pg, lim =>
    if pg < lim then
      match uvmunmap m pagetable pg 1 true with
      | .error e => .error e
      | .ok m1 => munmap_pages fuel m1 pagetable (u64 (pg + PGSIZE)) lim
    else .ok m

/-- The update of the entry in `sys_munmap`: the whole region, its head, or
its tail. -/
def munmap_evict (s : Sys) (i g addr length : Nat) : Except String Sys :=
  let v := s.vmae g
  if v.start = addr ∧ length = v.length then
    match vmaeclear s g with
    | .error e => .error e
    | .ok s1 => .ok { s1 with p := { s1.p with vmaep := fun k => if k = i then none else s1.p.vmaep k } }
  else if v.start = addr then
    .ok { s with
      vmae := fun k =>
        if k = g then { v with start := u64 (addr + length), length := v.length - length }
        else s.vmae k }
  else if u64 (addr + length) = u64 (v.start + v.length) then
    .ok { s with vmae := fun k => if k = g then { v with length := addr - v.start } else s.vmae k }
  else .ok s

/-- The function `sys_munmap`, with its arguments as fetched by `argaddr` and
`argint`. -/
def sys_munmap (s : Sys) (addr length : Nat) : Except String (Nat × Sys) :=
  let found := (List.range 16).find? (fun i =>
    match s.p.vmaep i with
    | none => false
    | some g => decide ((s.vmae g).start ≤ addr ∧
        u64 (addr + length) ≤ u64 ((s.vmae g).start + (s.vmae g).length)))
  match found with
  | none => .ok (minusOne, s)
  | some i =>
    match s.p.vmaep i with
    | none => .ok (minusOne, s)
    | some g =>
      let v := s.vmae g
      if v.start < addr ∧ u64 (addr + length) < u64 (v.start + v.length) then .ok (minusOne, s)
      else
        let wb :=
          if v.flags &&& MAP_SHARED ≠ 0 then
            munmap_writeback (length / PGSIZE + 2) s g addr addr (u64 (addr + length))
          else .ok s
        match wb with
        | .error e => .error e
        | .ok s1 =>
          match munmap_evict s1 i g addr length with
          | .error e => .error e
          | .ok s2 =>
            match munmap_pages (length / PGSIZE + 2) s2.mem s2.p.pagetable addr
                (u64 (addr + length)) with
            | .error e => .error e
            | .ok m1 => .ok (0, { s2 with mem := m1 })

/-! ## Predicates used to state the theorems about vm.c -/

/-- The address of the level-2 entry that `walk` reads for `va`. -/
def l2slot (pagetable va : Nat) : Nat := pagetable + 8 * PX 2 va

/-- The address of the level-1 entry that `walk` reads for `va`, when the
level-2 entry is valid. -/
def l1slot (m : Machine) (pagetable va : Nat) : Nat :=
  PTE2PA (m.ptes (l2slot pagetable va)) + 8 * PX 1 va

/-- The address of the level-0 entry that `walk` returns for `va`, when the
level-2 and level-1 entries are valid. -/
def l0slot (m : Machine) (pagetable va : Nat) : Nat :=
  PTE2PA (m.ptes (l1slot m pagetable va)) + 8 * PX 0 va

/-- The page-table pages for `va` exist and the entry for `va` is at `a`. -/
def Mapped (m : Machine) (pagetable va a : Nat) : Prop :=
  m.ptes (l2slot pagetable va) &&& PTE_V ≠ 0 ∧ m.ptes (l1slot m pagetable va) &&& PTE_V ≠ 0 ∧
    a = l0slot m pagetable va

/-- The address lies in a frame that the allocator holds. -/
def InFree (m : Machine) (a : Nat) : Prop :=
  ∃ f ∈ m.freelist, f ≤ a ∧ a < f + PGSIZE

/-- Consistency of the allocator with the page tables: it holds every frame
once, its frames are page-aligned non-null 64-bit addresses, and no valid page-table
word outside its frames refers to one of its frames. -/
structure AllocOK (m : Machine) : Prop where
  nodup : m.freelist.Nodup
  aligned : ∀ f ∈ m.freelist, f % PGSIZE = 0 ∧ f < 2 ^ 64 ∧ f ≠ 0
  nodangling : ∀ a, m.ptes a &&& PTE_V ≠ 0 → ¬ InFree m a → PTE2PA (m.ptes a) ∉ m.freelist

/-- The frame that the parent maps at page number `j` before `uvmcopy`. -/
def parentFrame (m0 : Machine) (old j : Nat) : Nat :=
  PTE2PA (m0.ptes (l0slot m0 old (j * PGSIZE)))

/-- The array `cow_ref` after `uvmcopy` has shared the first `n` pages. -/
def cowRefAfter (COWREFINDEX : Nat → Nat) (m0 : Machine) (old : Nat) : Nat → Nat → Nat
  | 0 => m0.cow_ref
  | n + 1 => fun k =>
    if k = COWREFINDEX (parentFrame m0 old n) then
      cow_share (cowRefAfter COWREFINDEX m0 old n (COWREFINDEX (parentFrame m0 old n)))
    else cowRefAfter COWREFINDEX m0 old n k

/-- The address holds an entry that `walk` visits for a page of the parent
below `sz`. -/
def PSlot (m0 : Machine) (old sz a : Nat) : Prop :=
  ∃ j, j * PGSIZE < sz ∧ (a = l2slot old (j * PGSIZE) ∨ a = l1slot m0 old (j * PGSIZE) ∨
    a = l0slot m0 old (j * PGSIZE))

/-- What `uvmcopy` needs of the state it starts in: a consistent allocator
that holds neither root page, and a parent whose pages below `sz` are all
mapped by a valid entry. -/
structure CopyPre (m0 : Machine) (old new sz : Nat) : Prop where
  ok : AllocOK m0
  old_al : old % PGSIZE = 0
  old_nf : old ∉ m0.freelist
  new_al : new % PGSIZE = 0
  new_nf : new ∉ m0.freelist
  valid : ∀ j, j * PGSIZE < sz → j * PGSIZE < MAXVA ∧
    Mapped m0 old (j * PGSIZE) (l0slot m0 old (j * PGSIZE)) ∧ l0slot m0 old (j * PGSIZE) ≠ 0 ∧
    m0.ptes (l0slot m0 old (j * PGSIZE)) &&& PTE_V ≠ 0

/-- The state of `uvmcopy` when its loop has shared the pages below page
number `k`. -/
structure CopyInv (COWREFINDEX : Nat → Nat) (m0 : Machine) (old new sz k : Nat) (m : Machine) :
    Prop where
  ok : AllocOK m
  suffix : m.freelist <:+ m0.freelist
  bytes : m.bytes = m0.bytes
  refs : m.cow_ref = cowRefAfter COWREFINDEX m0 old k
  parent : ∀ a, PSlot m0 old sz a → m.ptes a = m0.ptes a ∨ m.ptes a = uvmcopy_pte (m0.ptes a)
  done : ∀ j, j < k → j * PGSIZE < sz →
    m.ptes (l0slot m0 old (j * PGSIZE)) = uvmcopy_pte (m0.ptes (l0slot m0 old (j * PGSIZE))) ∧
    ∃ c, c ≠ 0 ∧ Mapped m new (j * PGSIZE) c ∧
      m.ptes c = PA2PTE (parentFrame m0 old j) |||
        uvmcopy_flags (PTE_FLAGS (m0.ptes (l0slot m0 old (j * PGSIZE)))) ||| PTE_V ∧
      ¬ PSlot m0 old sz c ∧ c ≠ l2slot new (j * PGSIZE) ∧ c ≠ l1slot m new (j * PGSIZE)

/-- The state after `uvmuncow` has given `va` a private copy `mem` of its
shared frame. -/
def uncowCopied (COWREFINDEX : Nat → Nat) (m : Machine) (a mem : Nat) (rest : List Nat) : Machine :=
  ((((({ m with freelist := rest } : Machine).setRef (COWREFINDEX (PTE2PA (m.ptes a)))
    ((m.cow_ref (COWREFINDEX (PTE2PA (m.ptes a))) + 255) % 256)).setPte a 0).memmove mem
      (PTE2PA (m.ptes a)) PGSIZE).setPte a (PA2PTE mem ||| uvmuncow_flags (m.ptes a) ||| PTE_V))

/-! ## Predicates used to state the theorems about bio.c -/

/-- The test `b->dev == dev && b->blockno == blockno` of the first scan of
`bget`. -/
def holdsBlock (s : Bio) (dev blockno : Nat) (b : BufId) : Bool :=
  decide ((s.buf b).dev = dev ∧ (s.buf b).blockno = blockno)

/-- The buffer is the one that the first scan of `bget` finds for the block
the buffer holds. -/
def cachedAt (s : Bio) (b : BufId) : Prop :=
  (s.lru ((s.buf b).blockno % BCACHE_BUCKET)).find?
    (holdsBlock s (s.buf b).dev (s.buf b).blockno) = some b

/-- The invariant of the buffer cache: the bucket lists have no repetition and
no buffer in common, a buffer that is sleep-locked or valid is found by `bget`
for its own block, and the valid flag is 0 or 1. -/
structure BioInv (s : Bio) : Prop where
  nodup : ∀ k, (s.lru k).Nodup
  disjoint : ∀ k1 k2 b, b ∈ s.lru k1 → b ∈ s.lru k2 → k1 = k2
  first : ∀ b, ((s.buf b).locked = true ∨ (s.buf b).valid ≠ 0) → cachedAt s b
  valid01 : ∀ b, (s.buf b).valid ≤ 1

/-- The state after a sequence of calls that all return and after each of
which the reference count of `x` is above 0. -/
def runHolding (x : BufId) (s : Bio) : List BioCall → Except String Bio
  | [] => .ok s
  | c :: cs =>
    match c.run s with
    | .error e => .error e
    | .ok s1 => if (s1.buf x).refcnt = 0 then .error "released" else runHolding x s1 cs

/-- The call is open to the rest of the kernel; `bget` is `static`. -/
def BioCall.isPublic : BioCall → Bool
  | .bget _ _ => false
  | _ => true

/-- A sleep-locked buffer is valid: the rest of the kernel gets a locked buffer
from `bread` only. -/
def LockValid (s : Bio) : Prop := ∀ b, (s.buf b).locked = true → (s.buf b).valid = 1

/-- The call is `brelse`, `bpin` or `bunpin` of a buffer whose reference count
is 0. -/
def BioCall.unheld (s : Bio) : BioCall → Bool
  | .brelse b => decide ((s.buf b).refcnt = 0)
  | .bpin b => decide ((s.buf b).refcnt = 0)
  | .bunpin b => decide ((s.buf b).refcnt = 0)
  | _ => false

/-- The state after a sequence of calls that all return and in which `brelse`,
`bpin` and `bunpin` are applied to held buffers only. -/
def runHeld (s : Bio) : List BioCall → Except String Bio
  | [] => .ok s
  | c :: cs =>
    if c.unheld s then .error "not held"
    else
      match c.run s with
      | .error e => .error e
      | .ok s1 => runHeld s1 cs

/-- The shard membership invariant for `NBUF` buffers per bucket: the list of
bucket `k` holds every buffer of `bcache.buf[k]` once and nothing else, and a
buffer with a reference is one of the arrays whose block number selects its
own bucket. -/
structure ShardInv (NBUF : Nat) (s : Bio) : Prop where
  nodup : ∀ k, (s.lru k).Nodup
  members : ∀ k b, b ∈ s.lru k ↔ (k < BCACHE_BUCKET ∧ b.bucket = k ∧ b.idx < NBUF)
  home : ∀ b, (s.buf b).refcnt ≠ 0 →
    b.bucket < BCACHE_BUCKET ∧ b.idx < NBUF ∧ (s.buf b).blockno % BCACHE_BUCKET = b.bucket

/-- Modelled from the spec: the clients of bio.c (fs.c, log.c) are absent; each
buffer owns a sleep-lock covering its data, and the holder of the lock
overwrites the data of the buffer, as a client does between `bread` and
`bwrite`. -/
def bstore (s : Bio) (b : BufId) (data : Nat → Nat) : Except String Bio :=
  if holdingsleep s b = false then .error "bstore"
  else .ok (s.setBuf b { s.buf b with data := data })

/-- A step of a client of the buffer cache: a call into bio.c, or a store into
the data of a buffer whose sleep-lock is held. -/
inductive BioStep where
  | call (c : BioCall)
  | store (b : BufId) (data : Nat → Nat)

/-- The state after a step that returns. -/
def BioStep.run (s : Bio) : BioStep → Except String Bio
  | .call c => c.run s
  | .store b data => bstore s b data

/-- The step is open to the rest of the kernel: a store, or a call other than
`bget`. -/
def BioStep.isPublic : BioStep → Bool
  | .call c => c.isPublic
  | .store _ _ => true

/-- The step stores into the data of `x`. -/
def BioStep.overwrites (x : BufId) : BioStep → Bool
  | .call _ => false
  | .store b _ => decide (b = x)

/-- The state after a sequence of steps that all return. -/
def runSteps (s : Bio) : List BioStep → Except String Bio
  | [] => .ok s
  | t :: ts =>
    match t.run s with
    | .error e => .error e
    | .ok s1 => runSteps s1 ts

/-- The bytes that the buffer `x` holds after the steps, when it held `d`
before them and no step has loaded it from the disk: the bytes of the latest
store into `x`, and `d` when there is none. -/
def lastStored (x : BufId) (d : Nat → Nat) : List BioStep → Nat → Nat
  | [] => d
  | .call _ :: ts => lastStored x d ts
  | .store b data :: ts => lastStored x (if b = x then data else d) ts

/-- The state after a sequence of steps that all return and after each of
which `x` still holds block `blockno` of `dev`. -/
def runKeeping (x : BufId) (dev blockno : Nat) (s : Bio) : List BioStep → Except String Bio
  | [] => .ok s
  | t :: ts =>
    match t.run s with
    | .error e => .error e
    | .ok s1 =>
      if (s1.buf x).dev = dev ∧ (s1.buf x).blockno = blockno then runKeeping x dev blockno s1 ts
      else .error "recycled"

/-! ## Page tables as trees -/

/-- The level-1 table that the level-2 entry for `va` points to. -/
def l1table (m : Machine) (pt va : Nat) : Nat := PTE2PA (m.ptes (l2slot pt va))

/-- The level-0 table that the level-1 entry for `va` points to. -/
def l0table (m : Machine) (pt va : Nat) : Nat := PTE2PA (m.ptes (l1slot m pt va))

/-- The level-2 and level-1 entries for `va` are valid: `walk` reaches the
level-0 table. -/
def HasPath (m : Machine) (pt va : Nat) : Prop :=
  m.ptes (l2slot pt va) &&& PTE_V ≠ 0 ∧ m.ptes (l1slot m pt va) &&& PTE_V ≠ 0

/-- The entry of the page of `va` as translation sees it: the word that `walk`
points to, and 0 where a page-table page is missing. -/
def leafPte (m : Machine) (pt va : Nat) : Nat :=
  if m.ptes (l2slot pt va) &&& PTE_V ≠ 0 ∧ m.ptes (l1slot m pt va) &&& PTE_V ≠ 0 then
    m.ptes (l0slot m pt va)
  else 0

/-- The page table rooted at `pt` is a tree of page-table pages: the root is
page-aligned, no table is the root or at address 0 where a pointer to an entry
would be null, a level-0 table is not a level-1 table, and two entries point
to the same table only if they are the same entry. -/
structure PtOK (m : Machine) (pt : Nat) : Prop where
  root : pt % PGSIZE = 0
  l1ne : ∀ va, m.ptes (l2slot pt va) &&& PTE_V ≠ 0 → l1table m pt va ≠ pt
  l0ne : ∀ va, HasPath m pt va → l0table m pt va ≠ pt ∧ l0table m pt va ≠ 0
  l01 : ∀ va vb, HasPath m pt va → m.ptes (l2slot pt vb) &&& PTE_V ≠ 0 →
    l0table m pt va ≠ l1table m pt vb
  inj1 : ∀ va vb, m.ptes (l2slot pt va) &&& PTE_V ≠ 0 → m.ptes (l2slot pt vb) &&& PTE_V ≠ 0 →
    l1table m pt va = l1table m pt vb → PX 2 va = PX 2 vb
  inj0 : ∀ va vb, HasPath m pt va → HasPath m pt vb → l0table m pt va = l0table m pt vb →
    PX 2 va = PX 2 vb ∧ PX 1 va = PX 1 vb

/-- The page of `va` is mapped for user code: its entry is valid and has U. -/
def UserOK (m : Machine) (pt va : Nat) : Prop :=
  va < MAXVA ∧ leafPte m pt va &&& PTE_V ≠ 0 ∧ leafPte m pt va &&& PTE_U ≠ 0

/-- The physical address that the entry of the page of `va` gives to `va`. -/
def physAddr (m : Machine) (pt va : Nat) : Nat := PTE2PA (leafPte m pt va) + va % PGSIZE

/-- The byte of user memory at `va`. -/
def userByte (m : Machine) (pt va : Nat) : Nat := m.bytes (physAddr m pt va)

/-- The entry of the page of `va` is a valid leaf: `uvmunmap` accepts it. -/
def LeafOK (m : Machine) (pt va : Nat) : Prop :=
  leafPte m pt va &&& PTE_V ≠ 0 ∧ PTE_FLAGS (leafPte m pt va) ≠ PTE_V

/-- The message of the panic of `uvmunmap` at a page that it does not accept. -/
def unmapPanic (m : Machine) (pt va : Nat) : String :=
  if m.ptes (l2slot pt va) &&& PTE_V ≠ 0 ∧ m.ptes (l1slot m pt va) &&& PTE_V ≠ 0 then
    if leafPte m pt va &&& PTE_V = 0 then "uvmunmap: not mapped" else "uvmunmap: not a leaf"
  else "uvmunmap: walk"

/-- The frames of the `n` pages from `a` on, last page first: the order in
which `uvmunmap` leaves them at the head of the allocator's list. -/
def unmappedFrames (m : Machine) (pt a n : Nat) : List Nat :=
  ((List.range n).map (fun k => PTE2PA (leafPte m pt (a + k * PGSIZE)))).reverse

/-- No valid page-table word, wherever it lies, refers to a frame that the
allocator holds. -/
def FreeClean (m : Machine) : Prop :=
  ∀ a, m.ptes a &&& PTE_V ≠ 0 → PTE2PA (m.ptes a) ∉ m.freelist

/-- The frame that the entry of the `k`-th page from `a0` on refers to. -/
def frameAt (m : Machine) (pt a0 k : Nat) : Nat := PTE2PA (leafPte m pt (a0 + k * PGSIZE))

/-- The state `ms` of `uvmalloc`, started in `m`, when it has added the `i`
pages from `a0` on: each of them is mapped with R, W, X and U to a frame of
its own that the allocator held in `m` and that is filled with zeros, the
entry of every other page and the bytes outside the frames that the allocator
held are as in `m`, and the allocator and the tree are consistent. -/
structure Grown (m ms : Machine) (pt a0 i : Nat) : Prop where
  ok : AllocOK ms
  clean : FreeClean ms
  tree : PtOK ms pt
  root : pt ∉ ms.freelist
  suffix : ms.freelist <:+ m.freelist
  refs : ms.cow_ref = m.cow_ref
  other : ∀ vb, vb < MAXVA → (vb / PGSIZE < a0 / PGSIZE ∨ a0 / PGSIZE + i ≤ vb / PGSIZE) →
    leafPte ms pt vb = leafPte m pt vb
  page : ∀ k, k < i →
    leafPte ms pt (a0 + k * PGSIZE) =
      PA2PTE (frameAt ms pt a0 k) ||| (PTE_W ||| PTE_X ||| PTE_R ||| PTE_U) ||| PTE_V ∧
    frameAt ms pt a0 k ∈ m.freelist ∧ frameAt ms pt a0 k ∉ ms.freelist ∧
    ∀ x, x < PGSIZE → ms.bytes (frameAt ms pt a0 k + x) = 0
  distinct : ∀ k j, k < i → j < i → frameAt ms pt a0 k = frameAt ms pt a0 j → k = j
  bytes : ∀ b, ¬ InFree m b → ms.bytes b = m.bytes b

/-- The test of the search loop of `sys_munmap` on an entry: the range
`[addr, addr+length)` lies inside the region of the entry. -/
def munmap_encloses (v : Vmae) (addr length : Nat) : Prop :=
  v.start ≤ addr ∧ u64 (addr + length) ≤ u64 (v.start + v.length)

/-- The state `ms` of the allocation loop of `sys_mmap`, started in `m`, when
it has mapped the `i` pages from `a0` on: the `k`-th of them is mapped with
`perm` to the `k`-th frame that the allocator held in `m`, which is filled
with zeros, the allocator holds the frames after the first `i`, the entry of
every other page and the bytes outside the frames that the allocator held are
as in `m`, and the allocator and the tree are consistent. -/
structure Placed (perm : Nat) (m ms : Machine) (pt a0 i : Nat) : Prop where
  ok : AllocOK ms
  clean : FreeClean ms
  tree : PtOK ms pt
  root : pt ∉ ms.freelist
  path : ∀ vb, HasPath ms pt vb ↔ HasPath m pt vb
  rest : ms.freelist = m.freelist.drop i
  room : i ≤ m.freelist.length
  refs : ms.cow_ref = m.cow_ref
  other : ∀ vb, vb < MAXVA → (vb / PGSIZE < a0 / PGSIZE ∨ a0 / PGSIZE + i ≤ vb / PGSIZE) →
    leafPte ms pt vb = leafPte m pt vb
  page : ∀ k, k < i →
    leafPte ms pt (a0 + k * PGSIZE) = PA2PTE (m.freelist.getD k 0) ||| perm ||| PTE_V ∧
    ∀ x, x < PGSIZE → ms.bytes (m.freelist.getD k 0 + x) = 0
  bytes : ∀ b, ¬ InFree m b → ms.bytes b = m.bytes b

/-! ## Address spaces that share frames copy-on-write -/

/-- The machine together with the roots of the address spaces that live in it. -/
structure World where
  m : Machine
  spaces : List Nat

/-- The address space rooted at `r` maps the frame `F` at some page. -/
def Maps (m : Machine) (r F : Nat) : Prop :=
  ∃ va, va < MAXVA ∧ (leafPte m r va &&& PTE_V ≠ 0 ∧ PTE2PA (leafPte m r va) = F)

instance decMaps (m : Machine) (r F : Nat) : Decidable (Maps m r F) := by
  unfold Maps
  exact inferInstance

/-- The number of address spaces that map the frame `F`. -/
def mappers (w : World) (F : Nat) : Nat :=
  w.spaces.countP (fun r => decide (Maps w.m r F))

/-- The page `T` is a page-table page of the tree rooted at `r`. -/
def Tab (m : Machine) (r T : Nat) : Prop :=
  T = r ∨ (∃ vb, m.ptes (l2slot r vb) &&& PTE_V ≠ 0 ∧ T = l1table m r vb) ∨
    (∃ vb, HasPath m r vb ∧ T = l0table m r vb)

/-- The two kinds of step that change COW reference counts: a fork, which
creates an empty page table with `uvmcreate` and shares the pages of `parent`
below `sz` with it by `uvmcopy`, and the resolution of a write fault at `va` in
the address space `root` by `uvmuncow`. -/
inductive CowStep where
  | fork (parent sz : Nat)
  | fault (root va sz : Nat)

/-- The effect of a step on the world; `COWREFINDEX` is a parameter as in
`uvmcopy`. -/
def cowStep (COWREFINDEX : Nat → Nat) (w : World) : CowStep → Except String World
  | .fork parent sz =>
    match uvmcreate w.m with
    | (child, m1) =>
      if child = 0 then .error "uvmcreate: out of memory"
      else
        match uvmcopy COWREFINDEX m1 parent child sz with
        | .error e => .error e
        | .ok (_, m2) => .ok ⟨m2, child :: w.spaces⟩
  | .fault root va sz =>
    match uvmuncow COWREFINDEX w.m root va sz with
    | .error e => .error e
    | .ok (_, m1) => .ok ⟨m1, w.spaces⟩

/-- The steps considered: a fork of one of the address spaces while fewer than
255 exist (the counts are of type `uchar`), and a fault at an address whose
entry is valid in one of the address spaces. -/
def Legal (w : World) : CowStep → Prop
  | .fork parent _ => parent ∈ w.spaces ∧ w.spaces.length < 255
  | .fault root va _ => root ∈ w.spaces ∧ leafPte w.m root va &&& PTE_V ≠ 0

/-- The worlds reached from `w0` by steps that return. -/
inductive Reach (COWREFINDEX : Nat → Nat) (w0 : World) : World → Prop where
  | init : Reach COWREFINDEX w0 w0
  | step (w w1 : World) (a : CowStep) : Reach COWREFINDEX w0 w → Legal w a →
      cowStep COWREFINDEX w a = .ok w1 → Reach COWREFINDEX w0 w1

/-- The shape of a world: a consistent allocator, and address spaces with
tree-shaped page tables that the allocator does not hold, that have no
page-table page in common, and none of which maps a frame at two pages. -/
structure Shape (w : World) : Prop where
  ok : AllocOK w.m
  clean : FreeClean w.m
  nodup : w.spaces.Nodup
  few : w.spaces.length ≤ 255
  tree : ∀ r, r ∈ w.spaces → PtOK w.m r ∧ r ∉ w.m.freelist
  sep : ∀ r r1, r ∈ w.spaces → r1 ∈ w.spaces → r ≠ r1 → ∀ T, Tab w.m r T → ¬ Tab w.m r1 T
  single : ∀ r, r ∈ w.spaces → ∀ va vb, va < MAXVA → vb < MAXVA →
    leafPte w.m r va &&& PTE_V ≠ 0 → leafPte w.m r vb &&& PTE_V ≠ 0 →
    PTE2PA (leafPte w.m r va) = PTE2PA (leafPte w.m r vb) → va / PGSIZE = vb / PGSIZE

/-- The law of the COW reference counts: the count of a frame is the number
of address spaces that map it, or it is 0 and at most one address space maps
the frame. -/
def RefLaw (COWREFINDEX : Nat → Nat) (w : World) : Prop :=
  ∀ F, F % PGSIZE = 0 →
    w.m.cow_ref (COWREFINDEX F) = mappers w F ∨
      (w.m.cow_ref (COWREFINDEX F) = 0 ∧ mappers w F ≤ 1)

/-- The address `a` lies in one of the page-table pages that `walk` visits
from the level-`level` table `T` on for `va`. -/
def OnPath : Nat → Machine → Nat → Nat → Nat → Prop
  | 0, _, T, _, a => T ≤ a ∧ a < T + PGSIZE
  | level + 1, m, T, va, a =>
    (T ≤ a ∧ a < T + PGSIZE) ∨
      (m.ptes (T + 8 * PX (level + 1) va) &&& PTE_V ≠ 0 ∧
        OnPath level m (PTE2PA (m.ptes (T + 8 * PX (level + 1) va))) va a)

/-- A page-table word that is valid and carries COW_W does not carry W. -/
def CowOK (v : Nat) : Prop := v &&& PTE_V ≠ 0 → v &&& PTE_COW_W ≠ 0 → v &&& PTE_W = 0

/-- The same for the permission bits handed to `mappages`. -/
def PermOK (perm : Nat) : Prop := perm &&& PTE_COW_W ≠ 0 → perm &&& PTE_W = 0

/-- The invariant "COW_W implies not W" of every valid page-table word of the
machine, whichever table it belongs to. -/
def WInv (m : Machine) : Prop := ∀ a, CowOK (m.ptes a)

/-- The address space `child` maps pages below page number `k` only, and each
of them to the frame that `parent` maps there. -/
def Mirror (m : Machine) (parent child k : Nat) : Prop :=
  ∀ vb, vb < MAXVA → leafPte m child vb &&& PTE_V ≠ 0 →
    vb / PGSIZE < k ∧ leafPte m parent vb &&& PTE_V ≠ 0 ∧
    PTE2PA (leafPte m child vb) = PTE2PA (leafPte m parent vb)

/-! ## A small machine on which the theorems are exercised -/

/-- One way of indexing `cow_ref` by frame: the frame number. -/
def demoIndex (pa : Nat) : Nat := pa / PGSIZE

/-- A parent address space rooted at `0x80010000` with two user pages: page 0
on frame `0x80020000` and page `0x1000` on frame `0x80021000`, both RWX+U and
unshared; the second one starts with the byte `0xAA`.  The allocator holds
three frames. -/
def demoMachine : Machine where
  ptes := fun a =>
    if a = 0x80010000 then PA2PTE 0x80011000 ||| PTE_V
    else if a = 0x80011000 then PA2PTE 0x80012000 ||| PTE_V
    else if a = 0x80012000 then PA2PTE 0x80020000 ||| (PTE_R ||| PTE_W ||| PTE_X ||| PTE_U) ||| PTE_V
    else if a = 0x80012008 then PA2PTE 0x80021000 ||| (PTE_R ||| PTE_W ||| PTE_X ||| PTE_U) ||| PTE_V
    else 0
  bytes := fun a => if a = 0x80021000 then 0xAA else 0
  cow_ref := fun _ => 0
  freelist := [0x80031000, 0x80032000, 0x80033000]

/-- The machine after `uvmcopy` from the parent of `demoMachine` into an empty
child rooted at `0x80030000`. -/
def demoForked : Machine :=
  match uvmcopy demoIndex demoMachine 0x80010000 0x80030000 0x2000 with
  | .ok (_, m) => m
  | .error _ => demoMachine

/-- The machine after the kernel has written the byte `0xBB` with `copyout` to
address `0x1000` of the child of `demoForked`, right after the fork. -/
def demoClobbered : Machine :=
  match copyout demoForked 0x80030000 0x1000 (fun _ => 0xBB) 1 with
  | .ok (_, m) => m
  | .error _ => demoForked

/-- The machine after the child of `demoForked` has resolved its write fault
at `0x1000` with `uvmuncow`. -/
def demoUncowed : Machine :=
  match uvmuncow demoIndex demoForked 0x80030000 0x1000 0x2000 with
  | .ok (_, m) => m
  | .error _ => demoForked

/-- The machine after the child has then stored the byte `0xBB` at `0x1000`. -/
def demoWritten : Machine :=
  match copyout demoUncowed 0x80030000 0x1000 (fun _ => 0xBB) 1 with
  | .ok (_, m) => m
  | .error _ => demoUncowed

/-- The buffer cache right after `binit`, with `NBUF` buffers per bucket and a
disk of zeros. -/
def bootCache (NBUF : Nat) : Bio := binit NBUF (bcacheZero (fun _ _ _ => 0))

/-- The cache with three buffers per bucket after `bget(1, 17)`, which hands
out `bcache.buf[0][0]`. -/
def demoHeld : Bio :=
  match bget (bootCache 3) 1 17 with
  | .ok (_, s) => s
  | .error _ => bootCache 3

/-- The cache with one buffer per bucket after `bget(1, 17)`: the only buffer
of bucket 0 is held, and the buffers of the other buckets are free. -/
def demoFull : Bio :=
  match bget (bootCache 1) 1 17 with
  | .ok (_, s) => s
  | .error _ => bootCache 1

/-- The cache after the holder has then pinned the buffer and released it: the
reference count stays above 0. -/
def demoPinned : Bio :=
  match runHolding ⟨0, 0⟩ demoHeld [.bpin ⟨0, 0⟩, .brelse ⟨0, 0⟩] with
  | .ok s => s
  | .error _ => demoHeld

/-- The outcome of the bucket-collision scenario: the buffers returned for
blocks 0, 17, 34 and 51, the state before the read of block 51 and the state
after it. -/
structure Collision where
  b0 : BufId
  b17 : BufId
  b34 : BufId
  b51 : BufId
  s4 : Bio
  s5 : Bio

/-- The bucket-collision scenario on device `dev`: `bread` of blocks 0, 17 and
34, `brelse` of the buffer of block 0, then `bread` of block 51. -/
def collision (s0 : Bio) (dev : Nat) : Except String Collision :=
  match bread s0 dev 0 with
  | .error e => .error e
  | .ok (b0, s1) =>
    match bread s1 dev 17 with
    | .error e => .error e
    | .ok (b17, s2) =>
      match bread s2 dev 34 with
      | .error e => .error e
      | .ok (b34, s3) =>
        match brelse s3 b0 with
        | .error e => .error e
        | .ok s4 =>
          match bread s4 dev 51 with
          | .error e => .error e
          | .ok (b51, s5) => .ok ⟨b0, b17, b34, b51, s4, s5⟩

/-- The four buffers of an outcome. -/
def Collision.slots (r : Collision) : BufId × BufId × BufId × BufId :=
  (r.b0, r.b17, r.b34, r.b51)

/-- A disk whose block `n` of device `d` holds the byte `d + n + i` at offset
`i`. -/
def demoDisk (d n i : Nat) : Nat := d + n + i

/-- The cache with three buffers per bucket after `bread(1, 17)` and a store
of the byte `0x5A` at every offset of the buffer, `bcache.buf[0][0]`, which
is sleep-locked. -/
def demoStored : Bio :=
  match runSteps (binit 3 (bcacheZero demoDisk))
      [.call (.bread 1 17), .store ⟨0, 0⟩ (fun _ => 0x5A)] with
  | .ok s => s
  | .error _ => bcacheZero demoDisk

/-- The cache after `bwrite` of that buffer. -/
def demoFlushed : Bio :=
  match bwrite demoStored ⟨0, 0⟩ with
  | .ok s => s
  | .error _ => demoStored

/-- The cache after the buffer was then released, and block 34 was read,
overwritten, written and released. -/
def demoLater : Bio :=
  match runKeeping ⟨0, 0⟩ 1 17 demoFlushed
      [.call (.brelse ⟨0, 0⟩), .call (.bread 1 34), .store ⟨0, 1⟩ (fun _ => 0x77),
        .call (.bwrite ⟨0, 1⟩), .call (.brelse ⟨0, 1⟩)] with
  | .ok s => s
  | .error _ => demoFlushed

/-- A process on `demoMachine`: its page table is the one rooted at
`0x80010000`, its size is two pages, file descriptor 3 is open on the file at
pointer 1, which is readable and writable with one reference, and it has no
mapping; the global pool is empty. -/
def demoSys : Sys where
  mem := demoMachine
  p := ⟨0x80010000, 0x2000, fun fd => if fd = 3 then 1 else 0, fun _ => none⟩
  vmae := fun _ => ⟨0, 0, 0, 0, 0, 0⟩
  file := fun _ => ⟨true, 1, 0⟩
  written := []

/-- The state after `mmap(0, 4096, PROT_NONE, MAP_PRIVATE, 3, 0)` in `demoSys`,
which returns `0x2000`. -/
def demoMapped : Sys :=
  match sys_mmap demoSys 0 4096 0 MAP_PRIVATE 3 0 with
  | .ok (_, s) => s
  | .error _ => demoSys

/-- The state after `mmap(0, 4096, PROT_READ, MAP_PRIVATE, 3, 0)` in `demoSys`,
which returns `0x2000`. -/
def demoMappedRead : Sys :=
  match sys_mmap demoSys 0 4096 PROT_READ MAP_PRIVATE 3 0 with
  | .ok (_, s) => s
  | .error _ => demoSys

/-- The state after `mmap(0, 8192, PROT_READ | PROT_WRITE, MAP_SHARED, 3, 0)` in
`demoSys`, which returns `0x2000`: the region is the pages `0x2000` and
`0x3000`, with the entries at `0x80012010` and `0x80012018`. -/
def demoShared : Sys :=
  match sys_mmap demoSys 0 8192 (PROT_READ ||| PROT_WRITE) MAP_SHARED 3 0 with
  | .ok (_, s) => s
  | .error _ => demoSys

/-- The state `demoShared` after a store to the page `0x3000`: the hardware
has set the dirty bit of its entry. -/
def demoDirty : Sys :=
  { demoShared with
    mem := demoShared.mem.setPte 0x80012018 (demoShared.mem.ptes 0x80012018 ||| PTE_D) }

/-- The process of `demoSys` with file descriptor 3 open on a file that is not
writable. -/
def demoSysRO : Sys :=
  { demoSys with file := fun _ => ⟨false, 1, 0⟩ }

/-- The state after `mmap(0, 4096, PROT_READ | PROT_WRITE, MAP_SHARED, 3, 0)` in
`demoSysRO`, which returns -1. -/
def demoRejected : Sys :=
  match sys_mmap demoSysRO 0 4096 (PROT_READ ||| PROT_WRITE) MAP_SHARED 3 0 with
  | .ok (_, s) => s
  | .error _ => demoSysRO

/-- The machine after `uvmalloc` has grown the address space of `demoMachine`
from size `0x1800` to size `0x3000`. -/
def demoGrown : Machine :=
  match uvmalloc demoMachine 0x80010000 0x1800 0x3000 with
  | .ok (_, m) => m
  | .error _ => demoMachine

/-- The machine after `uvmdealloc` has shrunk the address space of `demoGrown`
from size `0x3000` back to size `0x1800`. -/
def demoShrunk : Machine :=
  match uvmdealloc demoGrown 0x80010000 0x3000 0x1800 with
  | .ok (_, m) => m
  | .error _ => demoGrown

/-- A machine like `demoMachine` whose allocator is empty. -/
def demoStarved : Machine := { demoMachine with freelist := [] }

/-- A machine like `demoMachine` with one more page, mapped read-only by
`mappages` at `0x3000`, one page above the end of the image. -/
def demoAbove : Machine :=
  match mappages demoMachine 0x80010000 0x3000 PGSIZE 0x80040000 (PTE_R ||| PTE_U) with
  | .ok (_, m) => m
  | .error _ => demoMachine

/-- The machine after `uvmalloc` has grown the address space of `demoAbove`
from size `0x1800` to size `0x3000`. -/
def demoAboveGrown : Machine :=
  match uvmalloc demoAbove 0x80010000 0x1800 0x3000 with
  | .ok (_, m) => m
  | .error _ => demoAbove

/-- The process of `demoSys` at a time when all 20 entries of the global pool
are taken by mappings of other processes. -/
def demoPoolFull : Sys :=
  { demoSys with vmae := fun _ => ⟨0x100000, 4096, PROT_READ, MAP_PRIVATE, 2, 0⟩ }

/-- The state after `mmap(0, 4096, PROT_READ, MAP_PRIVATE, 3, 0)` in
`demoPoolFull`, which returns -1. -/
def demoPoolRejected : Sys :=
  match sys_mmap demoPoolFull 0 4096 PROT_READ MAP_PRIVATE 3 0 with
  | .ok (_, s) => s
  | .error _ => demoPoolFull

/-- The process of `demoSys` on a machine whose allocator holds 24 frames. -/
def demoRoomy : Sys :=
  { demoSys with
    mem := { demoMachine with
      freelist := (List.range 24).map (fun k => 0x80040000 + k * 0x1000) } }

/-- The kernel's page table on the machine of `demoRoomy`: `kvminit` takes the
root `0x80040000` from the allocator and `kvmmap` maps the kernel data page
`0x80060000` at its own address with R and W. -/
def demoKernel : Machine :=
  match mappages (uvmcreate demoRoomy.mem).2 0x80040000 0x80060000 PGSIZE 0x80060000
      (PTE_R ||| PTE_W) with
  | .ok (_, m) => m
  | .error _ => demoRoomy.mem

/-- The machine after `copyout_cow` has shared the kernel page `0x80060000`
into the user address space rooted at `0x80010000`, at address `0x2000`. -/
def demoLent : Machine :=
  match copyout_cow demoIndex demoKernel 0x80040000 0x80010000 0x2000 0x80060000 0x1000 with
  | .ok (_, m) => m
  | .error _ => demoKernel

/-- The machine after `uvmuncow` has resolved the page `0x2000` of the user
address space of `demoLent`. -/
def demoLentUncowed : Machine :=
  match uvmuncow demoIndex demoLent 0x80010000 0x2000 0x3000 with
  | .ok (_, m) => m
  | .error _ => demoLent

/-- The state after one more `mmap(0, 4096, PROT_READ, MAP_PRIVATE, 3, 0)`. -/
def mmapAgain (s : Sys) : Sys :=
  match sys_mmap s 0 4096 PROT_READ MAP_PRIVATE 3 0 with
  | .ok (_, s1) => s1
  | .error _ => s

/-- The state of `demoRoomy` after 16 calls of `mmap`, each of one page: the
16 slots of the process are taken, by the entries 0 to 15 of the pool. -/
def demoSlots : Sys := (List.range 16).foldl (fun s _ => mmapAgain s) demoRoomy

/-- The state after the 17th call, which returns -1. -/
def demoSlotsRejected : Sys := mmapAgain demoSlots

/-- A machine like `demoMachine` in which the page `0x1000` is the last
reference to a frame that was shared: its entry is V, R, X and U with COW_R
and COW_W, and the COW reference count of the frame is 1. -/
def demoLastRef : Machine :=
  { (demoMachine.setPte 0x80012008
      (PA2PTE 0x80021000 ||| (PTE_R ||| PTE_X ||| PTE_U ||| PTE_COW_R ||| PTE_COW_W) ||| PTE_V)) with
    cow_ref := fun i => if i = demoIndex 0x80021000 then 1 else 0 }

/-- The cache with three buffers per bucket after `bread(1, 17)`, `bpin` and
`brelse` of the buffer read, and `bread(1, 5)`. -/
def demoSharded : Bio :=
  match runHeld (bootCache 3) [.bread 1 17, .bpin ⟨0, 0⟩, .brelse ⟨0, 0⟩, .bread 1 5] with
  | .ok s => s
  | .error _ => bootCache 3

/-- The process of `demoSys` with one mapping: slot 0 points to entry 0 of the
pool, a shared readable and writable region `[0, 0x2000)` of the file at
pointer 1, the two pages of `demoMachine`. -/
def demoOwner : Sys :=
  { demoSys with
    p := { demoSys.p with vmaep := fun k => if k = 0 then some 0 else none }
    vmae := fun k =>
      if k = 0 then ⟨0, 0x2000, PROT_READ ||| PROT_WRITE, MAP_SHARED, 1, 0⟩ else ⟨0, 0, 0, 0, 0, 0⟩ }

/-- The state after `mmap(0, 0, PROT_READ, MAP_PRIVATE, 3, 0)` in `demoSys`,
which returns `0x2000`: slot 0 of the process points to entry 0 of the pool,
whose length is 0. -/
def demoEmptyMapped : Sys :=
  match sys_mmap demoSys 0 0 PROT_READ MAP_PRIVATE 3 0 with
  | .ok (_, s) => s
  | .error _ => demoSys

/-- The state after `mmap(0, 4096, PROT_READ, MAP_PRIVATE, 3, 0)` in
`demoEmptyMapped`, which returns `0x2000` again: the call has taken entry 0 of
the pool, whose length was 0, and slot 1 of the process, so that the slots 0
and 1 both point to entry 0, the region `[0x2000, 0x3000)`. -/
def demoAliased : Sys :=
  match sys_mmap demoEmptyMapped 0 4096 PROT_READ MAP_PRIVATE 3 0 with
  | .ok (_, s) => s
  | .error _ => demoEmptyMapped

/-- The world of the one address space of `demoRoomy`, rooted at
`0x80010000`, with 24 free frames. -/
def demoWorld : World := ⟨demoRoomy.mem, [0x80010000]⟩

/-- The world after a fork of the address space of `demoWorld` with size
`0x2000`: the child is rooted at `0x80040000`, the first free frame. -/
def demoWorldForked : World :=
  match cowStep demoIndex demoWorld (.fork 0x80010000 0x2000) with
  | .ok w => w
  | .error _ => demoWorld

/-- The world after the child of `demoWorldForked` has resolved a write fault
at `0x1000`. -/
def demoWorldUncowed : World :=
  match cowStep demoIndex demoWorldForked (.fault 0x80040000 0x1000 0x2000) with
  | .ok w => w
  | .error _ => demoWorldForked

/-! ## Bit-level facts about page-table entries -/

theorem and_two_pow_ne_zero (x k : Nat) : x &&& 2 ^ k ≠ 0 ↔ x.testBit k = true := by
  rw [Nat.and_two_pow]
  cases x.testBit k <;> simp

theorem and_two_pow_eq_zero (x k : Nat) : x &&& 2 ^ k = 0 ↔ x.testBit k = false := by
  rw [Nat.and_two_pow]
  cases x.testBit k <;> simp

theorem and_V (x : Nat) : x &&& PTE_V ≠ 0 ↔ x.testBit 0 = true := and_two_pow_ne_zero x 0
theorem and_R (x : Nat) : x &&& PTE_R ≠ 0 ↔ x.testBit 1 = true := and_two_pow_ne_zero x 1
theorem and_W (x : Nat) : x &&& PTE_W ≠ 0 ↔ x.testBit 2 = true := and_two_pow_ne_zero x 2
theorem and_X (x : Nat) : x &&& PTE_X ≠ 0 ↔ x.testBit 3 = true := and_two_pow_ne_zero x 3
theorem and_U (x : Nat) : x &&& PTE_U ≠ 0 ↔ x.testBit 4 = true := and_two_pow_ne_zero x 4
theorem and_COW_R (x : Nat) : x &&& PTE_COW_R ≠ 0 ↔ x.testBit 8 = true := and_two_pow_ne_zero x 8
theorem and_COW_W (x : Nat) : x &&& PTE_COW_W ≠ 0 ↔ x.testBit 9 = true := and_two_pow_ne_zero x 9

theorem or_eq_zero (a b : Nat) (h : a ||| b = 0) : a = 0 ∧ b = 0 := by
  constructor
  · apply Nat.zero_of_testBit_eq_false
    intro i
    have := congrArg (fun n => Nat.testBit n i) h
    simp only [Nat.testBit_or, Nat.zero_testBit, Bool.or_eq_false_iff] at this
    exact this.1
  · apply Nat.zero_of_testBit_eq_false
    intro i
    have := congrArg (fun n => Nat.testBit n i) h
    simp only [Nat.testBit_or, Nat.zero_testBit, Bool.or_eq_false_iff] at this
    exact this.2

theorem and_or_ne_zero (x a b : Nat) : x &&& (a ||| b) ≠ 0 ↔ (x &&& a ≠ 0 ∨ x &&& b ≠ 0) := by
  rw [Nat.and_or_distrib_left]
  constructor
  · intro h
    by_contra hc
    push_neg at hc
    apply h
    rw [hc.1, hc.2]
    rfl
  · intro h hc
    have h0 := or_eq_zero _ _ hc
    rcases h with h | h
    · exact h h0.1
    · exact h h0.2

theorem testBit_V (i : Nat) : PTE_V.testBit i = decide (i = 0) := by
  rw [show PTE_V = 2 ^ 0 from rfl, Nat.testBit_two_pow]; simp [eq_comm]
theorem testBit_R (i : Nat) : PTE_R.testBit i = decide (i = 1) := by
  rw [show PTE_R = 2 ^ 1 from rfl, Nat.testBit_two_pow]; simp [eq_comm]
theorem testBit_W (i : Nat) : PTE_W.testBit i = decide (i = 2) := by
  rw [show PTE_W = 2 ^ 2 from rfl, Nat.testBit_two_pow]; simp [eq_comm]
theorem testBit_X (i : Nat) : PTE_X.testBit i = decide (i = 3) := by
  rw [show PTE_X = 2 ^ 3 from rfl, Nat.testBit_two_pow]; simp [eq_comm]
theorem testBit_U (i : Nat) : PTE_U.testBit i = decide (i = 4) := by
  rw [show PTE_U = 2 ^ 4 from rfl, Nat.testBit_two_pow]; simp [eq_comm]
theorem testBit_COW_R (i : Nat) : PTE_COW_R.testBit i = decide (i = 8) := by
  rw [show PTE_COW_R = 2 ^ 8 from rfl, Nat.testBit_two_pow]; simp [eq_comm]
theorem testBit_COW_W (i : Nat) : PTE_COW_W.testBit i = decide (i = 9) := by
  rw [show PTE_COW_W = 2 ^ 9 from rfl, Nat.testBit_two_pow]; simp [eq_comm]

theorem testBit_not64 (x i : Nat) (h : x < 2 ^ 64) :
    (not64 x).testBit i = (decide (i < 64) && !x.testBit i) := by
  have : not64 x = 2 ^ 64 - (x + 1) := by unfold not64; omega
  rw [this, Nat.testBit_two_pow_sub_succ h]

theorem testBit_PTE_FLAGS (x i : Nat) : (PTE_FLAGS x).testBit i = (decide (i < 10) && x.testBit i) := by
  unfold PTE_FLAGS
  rw [show (0x3FF : Nat) = 2 ^ 10 - 1 from rfl, Nat.and_pow_two_sub_one_eq_mod, Nat.testBit_mod_two_pow]

theorem testBit_PTE2PA (x i : Nat) :
    (PTE2PA x).testBit i = (decide (i < 64) && (decide (12 ≤ i) && x.testBit (i - 2))) := by
  unfold PTE2PA u64
  rw [Nat.testBit_mod_two_pow, Nat.testBit_shiftLeft, Nat.testBit_shiftRight]
  by_cases h : 12 ≤ i
  · have : 10 + (i - 12) = i - 2 := by omega
    simp [h, this]
  · simp [h]

theorem testBit_PA2PTE (x i : Nat) :
    (PA2PTE x).testBit i = (decide (10 ≤ i) && x.testBit (i + 2)) := by
  unfold PA2PTE
  rw [Nat.testBit_shiftLeft, Nat.testBit_shiftRight]
  by_cases h : 10 ≤ i
  · have : 12 + (i - 10) = i + 2 := by omega
    simp [h, this]
  · simp [h]

theorem PTE2PA_aligned (x : Nat) : PTE2PA x % PGSIZE = 0 := by
  unfold PTE2PA u64 PGSIZE
  rw [Nat.shiftLeft_eq]
  omega

theorem PTE2PA_lt (x : Nat) : PTE2PA x < 2 ^ 64 := by
  unfold PTE2PA u64
  exact Nat.mod_lt _ (by norm_num)

theorem PX_lt (l va : Nat) : PX l va < 512 := by
  unfold PX
  exact Nat.and_lt_two_pow _ (by norm_num : (0x1FF : Nat) < 2 ^ 9)

theorem testBit_of_aligned (pa i : Nat) (h : pa % PGSIZE = 0) (hi : i < 12) : pa.testBit i = false := by
  have : pa % 2 ^ 12 = 0 := h
  have h2 := Nat.testBit_mod_two_pow pa 12 i
  rw [this] at h2
  simpa [hi] using h2.symm

theorem testBit_of_lt64 (pa i : Nat) (h : pa < 2 ^ 64) (hi : 64 ≤ i) : pa.testBit i = false := by
  apply Nat.testBit_lt_two_pow
  calc pa < 2 ^ 64 := h
    _ ≤ 2 ^ i := Nat.pow_le_pow_right (by norm_num) hi

theorem testBit_of_lt1024 (fl i : Nat) (h : fl < 1024) (hi : 10 ≤ i) : fl.testBit i = false := by
  apply Nat.testBit_lt_two_pow
  calc fl < 2 ^ 10 := h
    _ ≤ 2 ^ i := Nat.pow_le_pow_right (by norm_num) hi

/-- A leaf entry built by `mappages` maps the frame it was given. -/
theorem PTE2PA_leaf (pa fl : Nat) (h : pa % PGSIZE = 0) (h2 : pa < 2 ^ 64) (hf : fl < 1024) :
    PTE2PA (PA2PTE pa ||| fl ||| PTE_V) = pa := by
  apply Nat.eq_of_testBit_eq
  intro i
  rw [testBit_PTE2PA, Nat.testBit_or, Nat.testBit_or, testBit_PA2PTE, testBit_V]
  by_cases h64 : i < 64
  · by_cases h12 : 12 ≤ i
    · have e : i - 2 + 2 = i := by omega
      have : fl.testBit (i - 2) = false := testBit_of_lt1024 fl _ hf (by omega)
      have h3 : ¬ (i - 2 = 0) := by omega
      have h4 : 10 ≤ i - 2 := by omega
      simp [h64, h12, e, this, h3, h4]
    · have := testBit_of_aligned pa i h (by omega)
      simp [h12, this]
  · have := testBit_of_lt64 pa i h2 (by omega)
    simp [h64, this]

theorem PTE_FLAGS_leaf (pa fl : Nat) (hf : fl < 1024) :
    PTE_FLAGS (PA2PTE pa ||| fl ||| PTE_V) = fl ||| PTE_V := by
  apply Nat.eq_of_testBit_eq
  intro i
  rw [testBit_PTE_FLAGS, Nat.testBit_or, Nat.testBit_or, testBit_PA2PTE, Nat.testBit_or, testBit_V]
  by_cases h10 : i < 10
  · have : ¬ (10 ≤ i) := by omega
    simp [h10, this]
  · have := testBit_of_lt1024 fl i hf (by omega)
    have h3 : ¬ (i = 0) := by omega
    simp [h10, this, h3]

theorem PTE_FLAGS_lt (x : Nat) : PTE_FLAGS x < 1024 := by
  unfold PTE_FLAGS
  exact Nat.and_lt_two_pow _ (by norm_num : (0x3FF : Nat) < 2 ^ 10)

theorem testBit_not64_W (i : Nat) : (not64 PTE_W).testBit i = (decide (i < 64) && !decide (i = 2)) := by
  rw [testBit_not64 _ _ (by decide), testBit_W]

theorem testBit_not64_COW (i : Nat) :
    (not64 (PTE_COW_R ||| PTE_COW_W)).testBit i = (decide (i < 64) && !(decide (i = 8) || decide (i = 9))) := by
  rw [testBit_not64 _ _ (by decide), Nat.testBit_or, testBit_COW_R, testBit_COW_W]

theorem testBit_uvmcopy_pte (x i : Nat) :
    (uvmcopy_pte x).testBit i =
      if x.testBit 4 = true then
        if i = 8 then (x.testBit 1 || x.testBit 8)
        else if i = 9 then (x.testBit 2 || x.testBit 9)
        else if i = 2 then false
        else (x.testBit i && (decide (i < 64) || !(x.testBit 2 || x.testBit 9)))
      else x.testBit i := by
  unfold uvmcopy_pte
  by_cases hU : x.testBit 4 = true
  · by_cases hi : i < 64 <;>
    by_cases h1 : x.testBit 1 = true <;> by_cases h8 : x.testBit 8 = true <;>
    by_cases h2 : x.testBit 2 = true <;> by_cases h9 : x.testBit 9 = true <;>
    by_cases e8 : i = 8 <;> by_cases e9 : i = 9 <;> by_cases e2 : i = 2 <;>
    simp [and_or_ne_zero, and_U, and_R, and_W, and_COW_R, and_COW_W, testBit_PTE_FLAGS,
      Nat.testBit_and, Nat.testBit_or, testBit_not64_W, testBit_W, testBit_COW_R,
      testBit_COW_W, hU, h1, h8, h2, h9, e8, e9, e2, hi]
  · simp [and_U, testBit_PTE_FLAGS, hU]

theorem testBit_uvmcopy_pte_low (x i : Nat) (hi : i < 64) :
    (uvmcopy_pte x).testBit i =
      if x.testBit 4 = true then
        if i = 8 then (x.testBit 1 || x.testBit 8)
        else if i = 9 then (x.testBit 2 || x.testBit 9)
        else if i = 2 then false
        else x.testBit i
      else x.testBit i := by
  rw [testBit_uvmcopy_pte]
  simp [hi]

theorem testBit_uvmcopy_flags (fl i : Nat) (hf : fl < 1024) :
    (uvmcopy_flags fl).testBit i =
      if fl.testBit 4 = true then
        if i = 8 then (fl.testBit 1 || fl.testBit 8)
        else if i = 9 then (fl.testBit 2 || fl.testBit 9)
        else if i = 2 then false
        else fl.testBit i
      else fl.testBit i := by
  unfold uvmcopy_flags
  by_cases hU : fl.testBit 4 = true
  · by_cases hi : i < 64
    · by_cases h1 : fl.testBit 1 = true <;> by_cases h8 : fl.testBit 8 = true <;>
      by_cases h2 : fl.testBit 2 = true <;> by_cases h9 : fl.testBit 9 = true <;>
      by_cases e8 : i = 8 <;> by_cases e9 : i = 9 <;> by_cases e2 : i = 2 <;>
      simp [and_or_ne_zero, and_U, and_R, and_W, and_COW_R, and_COW_W,
        Nat.testBit_and, Nat.testBit_or, testBit_not64_W, testBit_W, testBit_COW_R,
        testBit_COW_W, hU, h1, h8, h2, h9, e8, e9, e2, hi]
    · have hz : fl.testBit i = false := testBit_of_lt1024 fl i hf (by omega)
      have e8 : ¬ i = 8 := by omega
      have e9 : ¬ i = 9 := by omega
      have e2 : ¬ i = 2 := by omega
      by_cases h1 : fl.testBit 1 = true <;> by_cases h8 : fl.testBit 8 = true <;>
      by_cases h2 : fl.testBit 2 = true <;> by_cases h9 : fl.testBit 9 = true <;>
      simp [and_or_ne_zero, and_U, and_R, and_W, and_COW_R, and_COW_W,
        Nat.testBit_and, Nat.testBit_or, testBit_not64_W, testBit_W, testBit_COW_R,
        testBit_COW_W, hU, h1, h8, h2, h9, e8, e9, e2, hi, hz]
  · simp [and_U, hU]

theorem uvmcopy_flags_lt (fl : Nat) (hf : fl < 1024) : uvmcopy_flags fl < 1024 := by
  apply Nat.lt_pow_two_of_testBit (n := 10)
  intro i hi
  rw [testBit_uvmcopy_flags fl i hf]
  have hz : fl.testBit i = false := testBit_of_lt1024 fl i hf hi
  have e8 : ¬ i = 8 := by omega
  have e9 : ¬ i = 9 := by omega
  have e2 : ¬ i = 2 := by omega
  simp [hz, e8, e9, e2]

theorem PTE2PA_congr (x y : Nat) (h : ∀ i, 10 ≤ i → i < 62 → x.testBit i = y.testBit i) :
    PTE2PA x = PTE2PA y := by
  apply Nat.eq_of_testBit_eq
  intro i
  rw [testBit_PTE2PA, testBit_PTE2PA]
  by_cases h64 : i < 64
  · by_cases h12 : 12 ≤ i
    · rw [h (i - 2) (by omega) (by omega)]
    · simp [h12]
  · simp [h64]

theorem PTE2PA_uvmcopy_pte (x : Nat) : PTE2PA (uvmcopy_pte x) = PTE2PA x := by
  apply PTE2PA_congr
  intro i h10 h62
  rw [testBit_uvmcopy_pte_low x i (by omega)]
  have e8 : ¬ i = 8 := by omega
  have e9 : ¬ i = 9 := by omega
  have e2 : ¬ i = 2 := by omega
  simp [e8, e9, e2]

theorem uvmcopy_pte_V (x : Nat) : (uvmcopy_pte x).testBit 0 = x.testBit 0 := by
  rw [testBit_uvmcopy_pte_low x 0 (by omega)]
  simp

theorem uvmcopy_pte_U (x : Nat) : (uvmcopy_pte x).testBit 4 = x.testBit 4 := by
  rw [testBit_uvmcopy_pte_low x 4 (by omega)]
  simp

theorem PTE_FLAGS_uvmcopy_pte (x : Nat) :
    PTE_FLAGS (uvmcopy_pte x) = uvmcopy_flags (PTE_FLAGS x) := by
  apply Nat.eq_of_testBit_eq
  intro i
  rw [testBit_PTE_FLAGS, testBit_uvmcopy_flags _ _ (PTE_FLAGS_lt x)]
  simp only [testBit_PTE_FLAGS]
  by_cases h10 : i < 10
  · rw [testBit_uvmcopy_pte_low x i (by omega)]
    simp [h10]
  · have e8 : ¬ i = 8 := by omega
    have e9 : ¬ i = 9 := by omega
    have e2 : ¬ i = 2 := by omega
    simp [h10, e8, e9, e2]

/-- Sharing an entry a second time changes nothing. -/
theorem uvmcopy_pte_idem (x : Nat) : uvmcopy_pte (uvmcopy_pte x) = uvmcopy_pte x := by
  apply Nat.eq_of_testBit_eq
  intro i
  rw [testBit_uvmcopy_pte (uvmcopy_pte x) i]
  simp only [testBit_uvmcopy_pte x]
  by_cases hU : x.testBit 4 = true <;> by_cases hi : i < 64 <;>
    by_cases h2 : x.testBit 2 = true <;> by_cases h9 : x.testBit 9 = true <;>
    by_cases e8 : i = 8 <;> by_cases e9 : i = 9 <;> by_cases e2 : i = 2 <;>
    simp [hU, e8, e9, e2, hi, h2, h9]

/-! ## `walk` -/

theorem walk_level_two (m : Machine) (pagetable va : Nat) (alloc : Bool) :
    walk_level 2 m pagetable va alloc =
      if m.ptes (l2slot pagetable va) &&& PTE_V ≠ 0 then
        walk_level 1 m (PTE2PA (m.ptes (l2slot pagetable va))) va alloc
      else if alloc = false then (0, m)
      else
        match kalloc m with
        | (pagetable1, m1) =>
          if pagetable1 = 0 then (0, m1)
          else
            walk_level 1 ((m1.zeroTable pagetable1).setPte (l2slot pagetable va)
              (PA2PTE pagetable1 ||| PTE_V)) pagetable1 va alloc := rfl

theorem walk_level_noalloc (m : Machine) (pagetable va : Nat) :
    walk_level 2 m pagetable va false =
      (if m.ptes (l2slot pagetable va) &&& PTE_V ≠ 0 then
        if m.ptes (l1slot m pagetable va) &&& PTE_V ≠ 0 then l0slot m pagetable va else 0
      else 0, m) := by
  simp only [walk_level, l2slot, l1slot, l0slot]
  split_ifs <;> simp_all

theorem walk_noalloc (m : Machine) (pagetable va : Nat) (h : va < MAXVA) :
    walk m pagetable va false =
      .ok (if m.ptes (l2slot pagetable va) &&& PTE_V ≠ 0 then
        if m.ptes (l1slot m pagetable va) &&& PTE_V ≠ 0 then l0slot m pagetable va else 0
      else 0, m) := by
  unfold walk
  rw [if_neg (by omega), walk_level_noalloc]

theorem walk_of_mapped (m : Machine) (pagetable va a : Nat) (h : va < MAXVA)
    (hm : Mapped m pagetable va a) : walk m pagetable va false = .ok (a, m) := by
  rw [walk_noalloc m pagetable va h, if_pos hm.1, if_pos hm.2.1, hm.2.2]

theorem mapped_of_walk (m m1 : Machine) (pagetable va a : Nat)
    (hw : walk m pagetable va false = .ok (a, m1)) (ha : a ≠ 0) :
    va < MAXVA ∧ m1 = m ∧ Mapped m pagetable va a := by
  by_cases h : va < MAXVA
  · rw [walk_noalloc m pagetable va h] at hw
    simp only [Except.ok.injEq, Prod.mk.injEq] at hw
    obtain ⟨h1, h2⟩ := hw
    refine ⟨h, h2.symm, ?_⟩
    unfold Mapped
    split_ifs at h1 with c2 c1
    · exact ⟨c2, c1, h1.symm⟩
    · exact absurd h1.symm ha
    · exact absurd h1.symm ha
  · unfold walk at hw
    rw [if_pos (by omega)] at hw
    cases hw

/-! ## The allocator and the page tables -/

theorem inFree_of_suffix (m m1 : Machine) (a : Nat) (h : m1.freelist <:+ m.freelist)
    (ha : InFree m1 a) : InFree m a := by
  obtain ⟨f, hf, h1⟩ := ha
  exact ⟨f, h.subset hf, h1⟩

theorem not_inFree_page (m : Machine) (T i : Nat) (hok : AllocOK m) (hT : T % PGSIZE = 0)
    (hTf : T ∉ m.freelist) (hi : i < 512) : ¬ InFree m (T + 8 * i) := by
  rintro ⟨f, hf, h1, h2⟩
  have hal := (hok.aligned f hf).1
  have : f = T := by
    unfold PGSIZE at *
    omega
  exact hTf (this ▸ hf)

theorem path_not_free (m : Machine) (pagetable va a : Nat) (hok : AllocOK m)
    (hT : pagetable % PGSIZE = 0) (hTf : pagetable ∉ m.freelist) (hm : Mapped m pagetable va a) :
    ¬ InFree m (l2slot pagetable va) ∧ ¬ InFree m (l1slot m pagetable va) ∧ ¬ InFree m a := by
  obtain ⟨h2, h1, h0⟩ := hm
  have n2 : ¬ InFree m (l2slot pagetable va) := not_inFree_page m _ _ hok hT hTf (PX_lt 2 va)
  have n1 : ¬ InFree m (l1slot m pagetable va) :=
    not_inFree_page m _ _ hok (PTE2PA_aligned _) (hok.nodangling _ h2 n2) (PX_lt 1 va)
  refine ⟨n2, n1, ?_⟩
  rw [h0]
  exact not_inFree_page m _ _ hok (PTE2PA_aligned _) (hok.nodangling _ h1 n1) (PX_lt 0 va)

theorem walk_level_succ (level : Nat) (m : Machine) (pagetable va : Nat) (alloc : Bool) :
    walk_level (level + 1) m pagetable va alloc =
      if m.ptes (pagetable + 8 * PX (level + 1) va) &&& PTE_V ≠ 0 then
        walk_level level m (PTE2PA (m.ptes (pagetable + 8 * PX (level + 1) va))) va alloc
      else if alloc = false then (0, m)
      else
        match kalloc m with
        | (pagetable1, m1) =>
          if pagetable1 = 0 then (0, m1)
          else
            walk_level level ((m1.zeroTable pagetable1).setPte (pagetable + 8 * PX (level + 1) va)
              (PA2PTE pagetable1 ||| PTE_V)) pagetable1 va alloc := rfl

theorem PTE2PA_table (f : Nat) (h : f % PGSIZE = 0) (h2 : f < 2 ^ 64) :
    PTE2PA (PA2PTE f ||| PTE_V) = f := by
  have := PTE2PA_leaf f 0 h h2 (by norm_num)
  simpa using this

theorem table_entry_valid (f : Nat) : (PA2PTE f ||| PTE_V) &&& PTE_V ≠ 0 := by
  rw [and_V, Nat.testBit_or, testBit_V]
  simp

/-- Taking a frame from the allocator for a new page-table page, clearing it
and linking it keeps the allocator consistent. -/
theorem allocOK_link (m : Machine) (f s : Nat) (rest : List Nat) (hok : AllocOK m)
    (hfl : m.freelist = f :: rest) :
    AllocOK ((({ m with freelist := rest } : Machine).zeroTable f).setPte s (PA2PTE f ||| PTE_V)) := by
  have hnd : (f :: rest).Nodup := hfl ▸ hok.nodup
  have hf := hok.aligned f (by rw [hfl]; exact List.mem_cons_self _ _)
  refine ⟨(List.nodup_cons.mp hnd).2, ?_, ?_⟩
  · intro g hg
    exact hok.aligned g (by rw [hfl]; exact List.mem_cons_of_mem _ hg)
  · intro a hv hnf
    simp only [Machine.setPte, Machine.zeroTable] at hv hnf ⊢
    by_cases has : a = s
    · simp only [has, if_true]
      rw [PTE2PA_table f hf.1 hf.2.1]
      exact (List.nodup_cons.mp hnd).1
    · simp only [has, if_false] at hv ⊢
      by_cases hin : f ≤ a ∧ a < f + PGSIZE
      · rw [if_pos hin] at hv
        exact absurd rfl hv
      · rw [if_neg hin] at hv ⊢
        have hnf2 : ¬ InFree m a := by
          rintro ⟨g, hg, h1⟩
          rw [hfl] at hg
          rcases List.mem_cons.mp hg with e | e
          · exact hin (e ▸ h1)
          · exact hnf ⟨g, e, h1⟩
        have := hok.nodangling a hv hnf2
        rw [hfl] at this
        exact fun hc => this (List.mem_cons_of_mem _ hc)

theorem walk_alloc_spec (level : Nat) : ∀ (m : Machine) (T va : Nat), AllocOK m →
    T % PGSIZE = 0 → T ∉ m.freelist →
    AllocOK (walk_level level m T va true).2 ∧
    (walk_level level m T va true).2.freelist <:+ m.freelist ∧
    (walk_level level m T va true).2.bytes = m.bytes ∧
    (walk_level level m T va true).2.cow_ref = m.cow_ref ∧
    (∀ a, m.ptes a &&& PTE_V ≠ 0 → ¬ InFree m a →
      (walk_level level m T va true).2.ptes a = m.ptes a) ∧
    ((walk_level level m T va true).1 ≠ 0 →
      walk_level level (walk_level level m T va true).2 T va false =
        walk_level level m T va true) := by
  induction level with
  | zero =>
    intro m T va hok _ _
    have e : walk_level 0 m T va true = (T + 8 * PX 0 va, m) := rfl
    rw [e]
    exact ⟨hok, List.suffix_refl _, rfl, rfl, fun _ _ _ => rfl, fun _ => rfl⟩
  | succ level ih =>
    intro m T va hok hT hTf
    have hs : ¬ InFree m (T + 8 * PX (level + 1) va) :=
      not_inFree_page m _ _ hok hT hTf (PX_lt _ va)
    rw [walk_level_succ]
    by_cases hv : m.ptes (T + 8 * PX (level + 1) va) &&& PTE_V ≠ 0
    · rw [if_pos hv]
      obtain ⟨i1, i2, i3, i4, i5, i6⟩ := ih m (PTE2PA (m.ptes (T + 8 * PX (level + 1) va))) va hok
        (PTE2PA_aligned _) (hok.nodangling _ hv hs)
      refine ⟨i1, i2, i3, i4, i5, ?_⟩
      intro hne
      rw [walk_level_succ, i5 _ hv hs, if_pos hv]
      exact i6 hne
    · rw [if_neg hv, if_neg (by simp)]
      by_cases hnil : m.freelist = []
      · have e : kalloc m = (0, m) := by simp only [kalloc, hnil]
        rw [e]
        simp only [if_true]
        exact ⟨hok, List.suffix_refl _, trivial, trivial, fun _ _ _ => trivial, fun h => absurd rfl h⟩
      · obtain ⟨f, rest, hfl⟩ := List.exists_cons_of_ne_nil hnil
        have hf := hok.aligned f (by rw [hfl]; exact List.mem_cons_self _ _)
        have hnd : (f :: rest).Nodup := hfl ▸ hok.nodup
        have e : kalloc m = (f, { m with freelist := rest }) := by simp only [kalloc, hfl]
        rw [e]
        simp only [if_neg hf.2.2]
        have hok3 := allocOK_link m f (T + 8 * PX (level + 1) va) rest hok hfl
        obtain ⟨i1, i2, i3, i4, i5, i6⟩ := ih _ f va hok3 hf.1 (List.nodup_cons.mp hnd).1
        have hsuf : rest <:+ m.freelist := by rw [hfl]; exact List.suffix_cons f rest
        refine ⟨i1, i2.trans hsuf, i3, i4, ?_, ?_⟩
        · intro a hav hanf
          have has : a ≠ T + 8 * PX (level + 1) va := fun e => hv (e ▸ hav)
          have hin : ¬ (f ≤ a ∧ a < f + PGSIZE) := fun h =>
            hanf ⟨f, by rw [hfl]; exact List.mem_cons_self _ _, h⟩
          have e3 : (((({ m with freelist := rest } : Machine).zeroTable f).setPte
              (T + 8 * PX (level + 1) va) (PA2PTE f ||| PTE_V))).ptes a = m.ptes a := by
            simp only [Machine.setPte, Machine.zeroTable, if_neg has, if_neg hin]
          rw [i5 a (by rw [e3]; exact hav) ?_, e3]
          rintro ⟨g, hg, h1⟩
          exact hanf ⟨g, by rw [hfl]; exact List.mem_cons_of_mem _ hg, h1⟩
        · intro hne
          have hs3 : ¬ InFree ((({ m with freelist := rest } : Machine).zeroTable f).setPte
              (T + 8 * PX (level + 1) va) (PA2PTE f ||| PTE_V)) (T + 8 * PX (level + 1) va) := by
            apply not_inFree_page _ _ _ hok3 hT _ (PX_lt _ va)
            intro hc
            exact hTf (by rw [hfl]; exact List.mem_cons_of_mem _ hc)
          have e3 : (((({ m with freelist := rest } : Machine).zeroTable f).setPte
              (T + 8 * PX (level + 1) va) (PA2PTE f ||| PTE_V))).ptes (T + 8 * PX (level + 1) va)
              = PA2PTE f ||| PTE_V := by
            simp only [Machine.setPte, if_true]
          have e4 := i5 (T + 8 * PX (level + 1) va) (by rw [e3]; exact table_entry_valid f) hs3
          rw [walk_level_succ, e4, e3, if_pos (table_entry_valid f), PTE2PA_table f hf.1 hf.2.1]
          exact i6 hne

/-! ## `mappages` on one page -/

theorem testBit_not64_pgmask (i : Nat) :
    (not64 (PGSIZE - 1)).testBit i = (decide (i < 64) && !decide (i < 12)) := by
  rw [testBit_not64 _ _ (by decide)]
  have : PGSIZE - 1 = 2 ^ 12 - 1 := rfl
  rw [this, Nat.testBit_two_pow_sub_one]

theorem PGROUNDDOWN_eq (a : Nat) (h : a < 2 ^ 64) : PGROUNDDOWN a = a / PGSIZE * PGSIZE := by
  have e : a / PGSIZE * PGSIZE = (a >>> 12) <<< 12 := by
    rw [Nat.shiftLeft_eq, Nat.shiftRight_eq_div_pow]
    rfl
  rw [e]
  apply Nat.eq_of_testBit_eq
  intro i
  unfold PGROUNDDOWN
  rw [Nat.testBit_and, testBit_not64_pgmask, Nat.testBit_shiftLeft, Nat.testBit_shiftRight]
  by_cases h12 : 12 ≤ i
  · have e2 : 12 + (i - 12) = i := by omega
    have h3 : ¬ i < 12 := by omega
    by_cases h64 : i < 64
    · simp [h12, e2, h3, h64]
    · simp [h12, e2, h3, h64, testBit_of_lt64 a i h (by omega)]
  · have h3 : i < 12 := by omega
    simp [h12, h3]

theorem PGROUNDDOWN_aligned (a : Nat) (h : a < 2 ^ 64) (ha : a % PGSIZE = 0) : PGROUNDDOWN a = a := by
  rw [PGROUNDDOWN_eq a h]
  unfold PGSIZE at *
  omega

theorem PGROUNDDOWN_last (a : Nat) (h : a < MAXVA) (ha : a % PGSIZE = 0) :
    PGROUNDDOWN (u64 (a + PGSIZE + (2 ^ 64 - 1))) = a := by
  have e : u64 (a + PGSIZE + (2 ^ 64 - 1)) = a + 4095 := by
    unfold u64 PGSIZE
    unfold MAXVA at h
    omega
  rw [e, PGROUNDDOWN_eq _ (by unfold MAXVA at h; omega)]
  unfold PGSIZE at *
  omega

theorem PX_PGROUNDDOWN (l a : Nat) (h : a < 2 ^ 64) : PX l (PGROUNDDOWN a) = PX l a := by
  unfold PX
  congr 1
  apply Nat.eq_of_testBit_eq
  intro i
  rw [Nat.testBit_shiftRight, Nat.testBit_shiftRight]
  unfold PGROUNDDOWN
  rw [Nat.testBit_and, testBit_not64_pgmask]
  have h3 : ¬ (12 + 9 * l + i < 12) := by omega
  by_cases h64 : 12 + 9 * l + i < 64
  · simp [h3, h64]
  · simp [h3, h64, testBit_of_lt64 a _ h (by omega : 64 ≤ 12 + 9 * l + i)]

/-- One page of `mappages`, first iteration reaching `last`. -/
theorem mappages_one (m : Machine) (pagetable va pa perm : Nat) (h : va < MAXVA)
    (ha : va % PGSIZE = 0) :
    mappages m pagetable va PGSIZE pa perm =
      if (walk_level 2 m pagetable va true).1 = 0 then .ok (-1, (walk_level 2 m pagetable va true).2)
      else if (walk_level 2 m pagetable va true).2.ptes (walk_level 2 m pagetable va true).1
          &&& PTE_V ≠ 0 then .error "remap"
      else .ok (0, (walk_level 2 m pagetable va true).2.setPte
        (walk_level 2 m pagetable va true).1 (PA2PTE pa ||| perm ||| PTE_V)) := by
  unfold mappages
  rw [PGROUNDDOWN_last va h ha, PGROUNDDOWN_aligned va (by unfold MAXVA at h; omega) ha]
  have e : MAXVA / PGSIZE + 1 = (MAXVA / PGSIZE) + 1 := rfl
  rw [e, mappages_loop]
  unfold walk
  rw [if_neg (by omega)]
  simp only [if_true]

theorem mappages_maxva (m : Machine) (pagetable va size pa perm : Nat) (h : MAXVA ≤ PGROUNDDOWN va) :
    mappages m pagetable va size pa perm = .error "walk" := by
  unfold mappages
  have e : MAXVA / PGSIZE + 1 = (MAXVA / PGSIZE) + 1 := rfl
  rw [e, mappages_loop]
  unfold walk
  rw [if_pos h]

theorem allocOK_setPte (m : Machine) (a v : Nat) (hok : AllocOK m)
    (hv : v &&& PTE_V ≠ 0 → PTE2PA v ∉ m.freelist) : AllocOK (m.setPte a v) := by
  refine ⟨hok.nodup, hok.aligned, ?_⟩
  intro b hb hnf
  simp only [Machine.setPte] at hb ⊢
  by_cases e : b = a
  · simp only [e, if_true] at hb ⊢
    exact hv hb
  · simp only [e, if_false] at hb ⊢
    exact hok.nodangling b hb hnf

theorem allocOK_setRef (m : Machine) (i v : Nat) (hok : AllocOK m) : AllocOK (m.setRef i v) :=
  ⟨hok.nodup, hok.aligned, hok.nodangling⟩

theorem leaf_entry_valid (pa perm : Nat) : (PA2PTE pa ||| perm ||| PTE_V) &&& PTE_V ≠ 0 := by
  rw [and_V, Nat.testBit_or, testBit_V]
  simp

/-- A successful `mappages` of one page: what it changes and what it leaves alone. -/
theorem mappages_page (m m1 : Machine) (pt va pa perm : Nat) (hok : AllocOK m)
    (hT : pt % PGSIZE = 0) (hTf : pt ∉ m.freelist) (hva : va < MAXVA) (hal : va % PGSIZE = 0)
    (hpa : pa % PGSIZE = 0) (hpa2 : pa < 2 ^ 64) (hpaf : pa ∉ m.freelist) (hperm : perm < 1024)
    (h : mappages m pt va PGSIZE pa perm = .ok (0, m1)) :
    AllocOK m1 ∧ m1.freelist <:+ m.freelist ∧ m1.bytes = m.bytes ∧ m1.cow_ref = m.cow_ref ∧
    (∀ a, m.ptes a &&& PTE_V ≠ 0 → ¬ InFree m a → m1.ptes a = m.ptes a) ∧
    ∃ c, c ≠ 0 ∧ Mapped m1 pt va c ∧ m1.ptes c = PA2PTE pa ||| perm ||| PTE_V ∧
      (m.ptes c &&& PTE_V ≠ 0 → InFree m c) ∧ c ≠ l2slot pt va ∧ c ≠ l1slot m1 pt va := by
  rw [mappages_one m pt va pa perm hva hal] at h
  obtain ⟨w1, w2, w3, w4, w5, w6⟩ := walk_alloc_spec 2 m pt va hok hT hTf
  generalize hw : walk_level 2 m pt va true = w at h w1 w2 w3 w4 w5 w6
  obtain ⟨c, mw⟩ := w
  simp only at h w1 w2 w3 w4 w5 w6
  by_cases hc : c = 0
  · rw [if_pos hc] at h
    simp only [Except.ok.injEq, Prod.mk.injEq] at h
    exact absurd h.1 (by decide)
  · rw [if_neg hc] at h
    by_cases hcv : mw.ptes c &&& PTE_V ≠ 0
    · rw [if_pos hcv] at h
      cases h
    · rw [if_neg hcv] at h
      simp only [Except.ok.injEq, Prod.mk.injEq, true_and] at h
      have hwalk := w6 hc
      rw [walk_level_noalloc] at hwalk
      simp only [Prod.mk.injEq, and_true] at hwalk
      have hv2 : mw.ptes (l2slot pt va) &&& PTE_V ≠ 0 := by
        intro hn
        rw [if_neg (not_not.mpr hn)] at hwalk
        exact hc hwalk.symm
      rw [if_pos hv2] at hwalk
      have hv1 : mw.ptes (l1slot mw pt va) &&& PTE_V ≠ 0 := by
        intro hn
        rw [if_neg (not_not.mpr hn)] at hwalk
        exact hc hwalk.symm
      rw [if_pos hv1] at hwalk
      have hc2 : c ≠ l2slot pt va := fun e => hcv (e ▸ hv2)
      have hc1 : c ≠ l1slot mw pt va := fun e => hcv (e ▸ hv1)
      have e2 : m1.ptes (l2slot pt va) = mw.ptes (l2slot pt va) := by
        rw [← h]
        simp only [Machine.setPte, if_neg (Ne.symm hc2)]
      have el1 : l1slot m1 pt va = l1slot mw pt va := by
        unfold l1slot
        rw [e2]
      have e1 : m1.ptes (l1slot mw pt va) = mw.ptes (l1slot mw pt va) := by
        rw [← h]
        simp only [Machine.setPte, if_neg (Ne.symm hc1)]
      have el0 : l0slot m1 pt va = l0slot mw pt va := by
        unfold l0slot
        rw [el1, e1]
      have ec : m1.ptes c = PA2PTE pa ||| perm ||| PTE_V := by
        rw [← h]
        simp only [Machine.setPte, if_true]
      have hfl : m1.freelist = mw.freelist := by rw [← h]; rfl
      refine ⟨?_, ?_, ?_, ?_, ?_, c, hc, ?_, ec, ?_, hc2, ?_⟩
      · rw [← h]
        apply allocOK_setPte mw c _ w1
        intro _
        rw [PTE2PA_leaf pa perm hpa hpa2 hperm]
        exact fun hx => hpaf (w2.subset hx)
      · rw [hfl]
        exact w2
      · rw [← h]
        exact w3
      · rw [← h]
        exact w4
      · intro a hav hanf
        have := w5 a hav hanf
        have hne : a ≠ c := by
          intro e
          rw [e] at this hav
          exact hcv (this ▸ hav)
        rw [← h]
        simp only [Machine.setPte, if_neg hne]
        exact this
      · refine ⟨?_, ?_, ?_⟩
        · rw [e2]
          exact hv2
        · rw [el1, e1]
          exact hv1
        · rw [el0]
          exact hwalk.symm
      · intro hv
        by_contra hnf
        exact hcv (w5 c hv hnf ▸ hv)
      · rw [el1]
        exact hc1

/-! ## `uvmcopy` -/

theorem and_V_uvmcopy_pte (x : Nat) : uvmcopy_pte x &&& PTE_V ≠ 0 ↔ x &&& PTE_V ≠ 0 := by
  rw [and_V, and_V, uvmcopy_pte_V]

theorem and_U_uvmcopy_pte (x : Nat) : uvmcopy_pte x &&& PTE_U ≠ 0 ↔ x &&& PTE_U ≠ 0 := by
  rw [and_U, and_U, uvmcopy_pte_U]

/-- Entries that agree up to sharing are followed by `walk` in the same way. -/
theorem shared_same (x y : Nat) (h : y = x ∨ y = uvmcopy_pte x) :
    (y &&& PTE_V ≠ 0 ↔ x &&& PTE_V ≠ 0) ∧ PTE2PA y = PTE2PA x ∧
      uvmcopy_pte y = uvmcopy_pte x := by
  rcases h with h | h
  · rw [h]
    exact ⟨Iff.rfl, rfl, rfl⟩
  · rw [h]
    exact ⟨and_V_uvmcopy_pte x, PTE2PA_uvmcopy_pte x, uvmcopy_pte_idem x⟩

theorem pslot_valid (m0 : Machine) (old new sz a : Nat) (hp : CopyPre m0 old new sz)
    (ha : PSlot m0 old sz a) : m0.ptes a &&& PTE_V ≠ 0 ∧ ¬ InFree m0 a := by
  obtain ⟨j, hj, h⟩ := ha
  obtain ⟨_, hm, _, hv⟩ := hp.valid j hj
  obtain ⟨n2, n1, n0⟩ := path_not_free m0 old _ _ hp.ok hp.old_al hp.old_nf hm
  rcases h with h | h | h
  · rw [h]; exact ⟨hm.1, n2⟩
  · rw [h]; exact ⟨hm.2.1, n1⟩
  · rw [h]; exact ⟨hv, n0⟩

/-- While `uvmcopy` runs, `walk` on the parent finds what it found at the
start. -/
theorem parent_path (idx : Nat → Nat) (m0 m : Machine) (old new sz k j : Nat)
    (hp : CopyPre m0 old new sz) (hi : CopyInv idx m0 old new sz k m) (hj : j * PGSIZE < sz) :
    l1slot m old (j * PGSIZE) = l1slot m0 old (j * PGSIZE) ∧
    l0slot m old (j * PGSIZE) = l0slot m0 old (j * PGSIZE) ∧
    Mapped m old (j * PGSIZE) (l0slot m0 old (j * PGSIZE)) := by
  obtain ⟨_, hm, _, hv⟩ := hp.valid j hj
  have s2 := shared_same _ _ (hi.parent (l2slot old (j * PGSIZE)) ⟨j, hj, Or.inl rfl⟩)
  have e1 : l1slot m old (j * PGSIZE) = l1slot m0 old (j * PGSIZE) := by
    unfold l1slot
    rw [s2.2.1]
  have s1 := shared_same _ _ (hi.parent (l1slot m0 old (j * PGSIZE)) ⟨j, hj, Or.inr (Or.inl rfl)⟩)
  have e0 : l0slot m old (j * PGSIZE) = l0slot m0 old (j * PGSIZE) := by
    unfold l0slot
    rw [e1, s1.2.1]
  refine ⟨e1, e0, s2.1.mpr hm.1, ?_, e0.symm⟩
  rw [e1]
  exact s1.1.mpr hm.2.1

theorem mapped_of_same (m m1 : Machine) (pt va c : Nat) (hm : Mapped m pt va c)
    (h2 : (m1.ptes (l2slot pt va) &&& PTE_V ≠ 0 ↔ m.ptes (l2slot pt va) &&& PTE_V ≠ 0) ∧
      PTE2PA (m1.ptes (l2slot pt va)) = PTE2PA (m.ptes (l2slot pt va)))
    (h1 : (m1.ptes (l1slot m pt va) &&& PTE_V ≠ 0 ↔ m.ptes (l1slot m pt va) &&& PTE_V ≠ 0) ∧
      PTE2PA (m1.ptes (l1slot m pt va)) = PTE2PA (m.ptes (l1slot m pt va))) :
    Mapped m1 pt va c ∧ l1slot m1 pt va = l1slot m pt va := by
  have e1 : l1slot m1 pt va = l1slot m pt va := by
    unfold l1slot
    rw [h2.2]
  have e0 : l0slot m1 pt va = l0slot m pt va := by
    unfold l0slot
    rw [e1, h1.2]
  refine ⟨⟨h2.1.mpr hm.1, ?_, ?_⟩, e1⟩
  · rw [e1]
    exact h1.1.mpr hm.2.1
  · rw [e0]
    exact hm.2.2

theorem cowRefAfter_succ (idx : Nat → Nat) (m0 : Machine) (old n : Nat) :
    cowRefAfter idx m0 old (n + 1) = fun k =>
      if k = idx (parentFrame m0 old n) then
        cow_share (cowRefAfter idx m0 old n (idx (parentFrame m0 old n)))
      else cowRefAfter idx m0 old n k := rfl

/-- One iteration of the loop of `uvmcopy` keeps the invariant. -/
theorem copy_step (idx : Nat → Nat) (m0 m m3 : Machine) (old new sz k : Nat)
    (hp : CopyPre m0 old new sz) (hi : CopyInv idx m0 old new sz k m) (hk : k * PGSIZE < sz)
    (h : mappages
      ((m.setPte (l0slot m0 old (k * PGSIZE)) (uvmcopy_pte (m.ptes (l0slot m0 old (k * PGSIZE))))).setRef
        (idx (PTE2PA (m.ptes (l0slot m0 old (k * PGSIZE)))))
        (cow_share (m.cow_ref (idx (PTE2PA (m.ptes (l0slot m0 old (k * PGSIZE))))))))
      new (k * PGSIZE) PGSIZE (PTE2PA (m.ptes (l0slot m0 old (k * PGSIZE))))
      (uvmcopy_flags (PTE_FLAGS (m.ptes (l0slot m0 old (k * PGSIZE))))) = .ok (0, m3)) :
    CopyInv idx m0 old new sz (k + 1) m3 := by
  obtain ⟨hmax, hm0, hne0, hv0⟩ := hp.valid k hk
  obtain ⟨pl1, pl0, pm⟩ := parent_path idx m0 m old new sz k k hp hi hk
  generalize ha : l0slot m0 old (k * PGSIZE) = a at h hm0 hne0 hv0 pl0 pm
  have hPa : PSlot m0 old sz a := ⟨k, hk, Or.inr (Or.inr ha.symm)⟩
  have sa := shared_same _ _ (hi.parent a hPa)
  have hva : m.ptes a &&& PTE_V ≠ 0 := sa.1.mpr hv0
  obtain ⟨_, _, nfa⟩ := path_not_free m old _ _ hi.ok hp.old_al
    (fun hc => hp.old_nf (hi.suffix.subset hc)) pm
  have hpaf : PTE2PA (m.ptes a) ∉ m.freelist := hi.ok.nodangling a hva nfa
  generalize hm2 : (m.setPte a (uvmcopy_pte (m.ptes a))).setRef (idx (PTE2PA (m.ptes a)))
    (cow_share (m.cow_ref (idx (PTE2PA (m.ptes a))))) = m2 at h
  have p2 : ∀ b, m2.ptes b = if b = a then uvmcopy_pte (m.ptes a) else m.ptes b := by
    intro b; rw [← hm2]; rfl
  have f2 : m2.freelist = m.freelist := by rw [← hm2]; rfl
  have ok2 : AllocOK m2 := by
    rw [← hm2]
    apply allocOK_setRef
    apply allocOK_setPte _ _ _ hi.ok
    intro _
    rw [PTE2PA_uvmcopy_pte]
    exact hpaf
  have same2 : ∀ b, m2.ptes b = m.ptes b ∨ m2.ptes b = uvmcopy_pte (m.ptes b) := by
    intro b
    rw [p2 b]
    by_cases e : b = a
    · rw [if_pos e, e]; exact Or.inr rfl
    · rw [if_neg e]; exact Or.inl rfl
  have inf2 : ∀ b, InFree m2 b ↔ InFree m b := by
    intro b; unfold InFree; rw [f2]
  obtain ⟨ok3, suf3, by3, rf3, fr3, c, hc0, hcm, hcv, hcfree, hc2, hc1⟩ :=
    mappages_page m2 m3 new (k * PGSIZE) _ _ ok2 hp.new_al
      (fun hc => hp.new_nf (hi.suffix.subset (f2 ▸ hc))) hmax
      (by rw [Nat.mul_mod_left]) (PTE2PA_aligned _) (PTE2PA_lt _) (f2 ▸ hpaf)
      (uvmcopy_flags_lt _ (PTE_FLAGS_lt _)) h
  have par2 : ∀ b, PSlot m0 old sz b →
      (m2.ptes b = m0.ptes b ∨ m2.ptes b = uvmcopy_pte (m0.ptes b)) ∧
      m2.ptes b &&& PTE_V ≠ 0 ∧ ¬ InFree m2 b := by
    intro b hb
    obtain ⟨hbv, hbf⟩ := pslot_valid m0 old new sz b hp hb
    have sb := shared_same _ _ (hi.parent b hb)
    have h1 : m2.ptes b = m0.ptes b ∨ m2.ptes b = uvmcopy_pte (m0.ptes b) := by
      rw [p2 b]
      by_cases e : b = a
      · rw [if_pos e, ← e, sb.2.2]; exact Or.inr rfl
      · rw [if_neg e]; exact hi.parent b hb
    refine ⟨h1, (shared_same _ _ h1).1.mpr hbv, ?_⟩
    intro hc
    exact hbf (inFree_of_suffix m0 m b hi.suffix ((inf2 b).mp hc))
  have hcP : ¬ PSlot m0 old sz c := by
    intro hc
    obtain ⟨_, hv, hf⟩ := par2 c hc
    exact hf (hcfree hv)
  refine ⟨ok3, suf3.trans (f2 ▸ hi.suffix), ?_, ?_, ?_, ?_⟩
  · rw [by3, ← hm2]; exact hi.bytes
  · rw [rf3, ← hm2, cowRefAfter_succ]
    funext j
    simp only [Machine.setRef, Machine.setPte]
    unfold parentFrame
    rw [ha, ← sa.2.1, hi.refs]
  · intro b hb
    obtain ⟨h1, hv, hf⟩ := par2 b hb
    rw [fr3 b hv hf]
    exact h1
  · intro j hj hjs
    by_cases hjk : j < k
    · obtain ⟨d1, cj, d2, d3, d4, d5, d6, d7⟩ := hi.done j hjk hjs
      have hPj : PSlot m0 old sz (l0slot m0 old (j * PGSIZE)) := ⟨j, hjs, Or.inr (Or.inr rfl)⟩
      obtain ⟨h1, hv, hf⟩ := par2 _ hPj
      refine ⟨?_, cj, d2, ?_⟩
      · rw [fr3 _ hv hf, p2]
        by_cases e : l0slot m0 old (j * PGSIZE) = a
        · rw [if_pos e, ← e, d1, uvmcopy_pte_idem]
        · rw [if_neg e, d1]
      · have g2 := shared_same _ _ (same2 (l2slot new (j * PGSIZE)))
        have g1 := shared_same _ _ (same2 (l1slot m new (j * PGSIZE)))
        obtain ⟨mp2, el2⟩ := mapped_of_same m m2 new (j * PGSIZE) cj d3 ⟨g2.1, g2.2.1⟩ ⟨g1.1, g1.2.1⟩
        obtain ⟨n2, n1, n0⟩ := path_not_free m2 new _ _ ok2 hp.new_al
          (fun hc => hp.new_nf (hi.suffix.subset (f2 ▸ hc))) mp2
        have k2 := fr3 _ mp2.1 n2
        have k1 := fr3 _ mp2.2.1 n1
        obtain ⟨mp3, el3⟩ := mapped_of_same m2 m3 new (j * PGSIZE) cj mp2
          ⟨by rw [k2], by rw [k2]⟩ ⟨by rw [k1], by rw [k1]⟩
        have hca : cj ≠ a := fun e => d5 (e ▸ hPa)
        have v2 : m2.ptes cj = m.ptes cj := by rw [p2, if_neg hca]
        have hcjv : m2.ptes cj &&& PTE_V ≠ 0 := by
          rw [v2, d4]; exact leaf_entry_valid _ _
        refine ⟨mp3, ?_, d5, d6, ?_⟩
        · rw [fr3 cj hcjv n0, v2, d4]
        · rw [el3, el2]; exact d7
    · have e : j = k := by omega
      subst e
      rw [ha]
      obtain ⟨h1, hv, hf⟩ := par2 a hPa
      refine ⟨?_, c, hc0, hcm, ?_, hcP, hc2, hc1⟩
      · rw [fr3 a hv hf, p2, if_pos rfl, sa.2.2]
      · rw [hcv]
        unfold parentFrame
        rw [ha, sa.2.1]
        congr 2
        rcases hi.parent a hPa with e | e
        · rw [e]
        · rw [e, PTE_FLAGS_uvmcopy_pte, ← PTE_FLAGS_uvmcopy_pte (m0.ptes a),
            ← PTE_FLAGS_uvmcopy_pte, uvmcopy_pte_idem]

theorem copyInv_init (idx : Nat → Nat) (m0 : Machine) (old new sz : Nat)
    (hp : CopyPre m0 old new sz) : CopyInv idx m0 old new sz 0 m0 :=
  ⟨hp.ok, List.suffix_refl _, rfl, rfl, fun _ _ => Or.inl rfl,
    fun j hj _ => absurd hj (Nat.not_lt_zero j)⟩

/-- The loop of `uvmcopy` from page number `k` on: if it returns, it returns 0
and has shared every page below `sz`. -/
theorem copy_loop (idx : Nat → Nat) (m0 : Machine) (old new sz : Nat)
    (hp : CopyPre m0 old new sz) : ∀ (fuel k : Nat) (m : Machine) (r : Int) (m1 : Machine),
    CopyInv idx m0 old new sz k m → (∀ j, j < k → j * PGSIZE < sz) →
    uvmcopy_loop idx fuel m old new (k * PGSIZE) sz = .ok (r, m1) →
    r = 0 ∧ ∃ n, CopyInv idx m0 old new sz n m1 ∧ sz ≤ n * PGSIZE ∧
      ∀ j, j < n → j * PGSIZE < sz := by
  intro fuel
  induction fuel with
  | zero =>
    intro k m r m1 _ _ h
    simp only [uvmcopy_loop] at h
    cases h
  | succ fuel ih =>
    intro k m r m1 hi hlt h
    rw [uvmcopy_loop] at h
    by_cases hk : k * PGSIZE < sz
    · rw [if_pos hk] at h
      obtain ⟨hmax, hm0, hne0, hv0⟩ := hp.valid k hk
      obtain ⟨_, _, pm⟩ := parent_path idx m0 m old new sz k k hp hi hk
      rw [walk_of_mapped m old _ _ hmax pm] at h
      simp only [if_neg hne0] at h
      have sa := shared_same _ _ (hi.parent _ ⟨k, hk, Or.inr (Or.inr rfl)⟩)
      have hva : m.ptes (l0slot m0 old (k * PGSIZE)) &&& PTE_V ≠ 0 := sa.1.mpr hv0
      rw [if_neg hva] at h
      split at h
      · cases h
      · rename_i r3 m3 hmap
        by_cases hr : r3 ≠ 0
        · rw [if_pos hr] at h
          cases h
        · rw [if_neg hr] at h
          have hr0 : r3 = 0 := not_not.mp hr
          rw [hr0] at hmap
          have hstep := copy_step idx m0 m m3 old new sz k hp hi hk hmap
          have e : u64 (k * PGSIZE + PGSIZE) = (k + 1) * PGSIZE := by
            unfold u64
            unfold MAXVA at hmax
            unfold PGSIZE at *
            omega
          rw [e] at h
          refine ih (k + 1) m3 r m1 hstep ?_ h
          intro j hj
          by_cases e : j = k
          · rw [e]; exact hk
          · exact hlt j (by omega)
    · rw [if_neg hk] at h
      simp only [Except.ok.injEq, Prod.mk.injEq] at h
      exact ⟨h.1.symm, k, h.2 ▸ hi, by omega, hlt⟩

/-- What a successful `uvmcopy` leaves behind. -/
theorem uvmcopy_spec (idx : Nat → Nat) (m0 m1 : Machine) (old new sz : Nat) (r : Int)
    (hp : CopyPre m0 old new sz) (h : uvmcopy idx m0 old new sz = .ok (r, m1)) :
    r = 0 ∧ ∃ n, CopyInv idx m0 old new sz n m1 ∧ sz ≤ n * PGSIZE ∧
      ∀ j, j < n → j * PGSIZE < sz := by
  unfold uvmcopy at h
  have := copy_loop idx m0 old new sz hp (sz / PGSIZE + 2) 0 m0 r m1
    (copyInv_init idx m0 old new sz hp) (fun j hj => absurd hj (Nat.not_lt_zero j))
  rw [Nat.zero_mul] at this
  exact this h

theorem copyPre_of_walk (m : Machine) (old new sz : Nat) (hok : AllocOK m)
    (hold : old % PGSIZE = 0 ∧ old ∉ m.freelist) (hnew : new % PGSIZE = 0 ∧ new ∉ m.freelist)
    (hvalid : ∀ va, va % PGSIZE = 0 → va < sz → ∃ a, a ≠ 0 ∧ walk m old va false = .ok (a, m) ∧
      m.ptes a &&& PTE_V ≠ 0 ∧ m.ptes a &&& PTE_U ≠ 0) :
    CopyPre m old new sz := by
  refine ⟨hok, hold.1, hold.2, hnew.1, hnew.2, ?_⟩
  intro j hj
  obtain ⟨a, ha, hw, hv, _⟩ := hvalid (j * PGSIZE) (Nat.mul_mod_left _ _) hj
  obtain ⟨h1, _, h3⟩ := mapped_of_walk m m old _ a hw ha
  have e : a = l0slot m old (j * PGSIZE) := h3.2.2
  rw [← e]
  exact ⟨h1, h3, ha, hv⟩

theorem demoMachine_allocOK : AllocOK demoMachine := by
  refine ⟨by decide, by decide, ?_⟩
  intro a hv _
  by_cases h1 : a = 0x80010000
  · subst h1; decide
  by_cases h2 : a = 0x80011000
  · subst h2; decide
  by_cases h3 : a = 0x80012000
  · subst h3; decide
  by_cases h4 : a = 0x80012008
  · subst h4; decide
  exfalso
  apply hv
  simp only [demoMachine, if_neg h1, if_neg h2, if_neg h3, if_neg h4]
  rfl

theorem demoForked_eq :
    uvmcopy demoIndex demoMachine 0x80010000 0x80030000 0x2000 = .ok (0, demoForked) := by
  have h : (uvmcopy demoIndex demoMachine 0x80010000 0x80030000 0x2000).toOption.map Prod.fst
      = some 0 := by decide
  unfold demoForked
  cases hr : uvmcopy demoIndex demoMachine 0x80010000 0x80030000 0x2000 with
  | error e => rw [hr] at h; cases h
  | ok p =>
    rw [hr] at h
    simp only [Except.toOption, Option.map_some', Option.some.injEq] at h
    obtain ⟨r, m⟩ := p
    simp only at h
    rw [h]

theorem demoMachine_valid : ∀ va, va % PGSIZE = 0 → va < 0x2000 → ∃ a, a ≠ 0 ∧
    walk demoMachine 0x80010000 va false = .ok (a, demoMachine) ∧
    demoMachine.ptes a &&& PTE_V ≠ 0 ∧ demoMachine.ptes a &&& PTE_U ≠ 0 := by
  intro va h1 h2
  have : va = 0 ∨ va = 4096 := by
    unfold PGSIZE at h1
    omega
  rcases this with e | e
  · subst e
    exact ⟨0x80012000, by decide, rfl, by decide, by decide⟩
  · subst e
    exact ⟨0x80012008, by decide, rfl, by decide, by decide⟩

theorem PGROUNDDOWN_le (a : Nat) (h : a < 2 ^ 64) :
    PGROUNDDOWN a ≤ a ∧ PGROUNDDOWN a % PGSIZE = 0 := by
  rw [PGROUNDDOWN_eq a h]
  unfold PGSIZE
  omega

theorem l2slot_PGROUNDDOWN (pt va : Nat) (h : va < 2 ^ 64) :
    l2slot pt (PGROUNDDOWN va) = l2slot pt va := by
  unfold l2slot
  rw [PX_PGROUNDDOWN 2 va h]

theorem l1slot_PGROUNDDOWN (m : Machine) (pt va : Nat) (h : va < 2 ^ 64) :
    l1slot m pt (PGROUNDDOWN va) = l1slot m pt va := by
  unfold l1slot
  rw [PX_PGROUNDDOWN 1 va h, l2slot_PGROUNDDOWN pt va h]

theorem l0slot_PGROUNDDOWN (m : Machine) (pt va : Nat) (h : va < 2 ^ 64) :
    l0slot m pt (PGROUNDDOWN va) = l0slot m pt va := by
  unfold l0slot
  rw [PX_PGROUNDDOWN 0 va h, l1slot_PGROUNDDOWN m pt va h]

theorem mapped_PGROUNDDOWN (m : Machine) (pt va a : Nat) (h : va < 2 ^ 64)
    (hm : Mapped m pt va a) : Mapped m pt (PGROUNDDOWN va) a := by
  unfold Mapped at *
  rw [l2slot_PGROUNDDOWN pt va h, l1slot_PGROUNDDOWN m pt va h, l0slot_PGROUNDDOWN m pt va h]
  exact hm

/-- With the page-table pages in place `walk` allocates nothing. -/
theorem walk_level_mapped (m : Machine) (pt va a : Nat) (alloc : Bool) (hm : Mapped m pt va a) :
    walk_level 2 m pt va alloc = (a, m) := by
  obtain ⟨h2, h1, h0⟩ := hm
  rw [walk_level_two, if_pos h2]
  have e : walk_level 1 m (PTE2PA (m.ptes (l2slot pt va))) va alloc =
      walk_level (0 + 1) m (PTE2PA (m.ptes (l2slot pt va))) va alloc := rfl
  rw [e, walk_level_succ]
  have h1' : m.ptes (PTE2PA (m.ptes (l2slot pt va)) + 8 * PX (0 + 1) va) &&& PTE_V ≠ 0 := h1
  rw [if_pos h1', h0]
  rfl

/-- Changing the entry for `va` itself, or anything but page-table words,
leaves the way to the entry in place. -/
theorem mapped_setPte (m m1 : Machine) (pt va a v : Nat) (hm : Mapped m pt va a)
    (h2 : a ≠ l2slot pt va) (h1 : a ≠ l1slot m pt va)
    (hp : m1.ptes = fun b => if b = a then v else m.ptes b) :
    Mapped m1 pt va a ∧ l1slot m1 pt va = l1slot m pt va := by
  have e2 : m1.ptes (l2slot pt va) = m.ptes (l2slot pt va) := by
    rw [hp]; simp only [if_neg (Ne.symm h2)]
  have e1 : m1.ptes (l1slot m pt va) = m.ptes (l1slot m pt va) := by
    rw [hp]; simp only [if_neg (Ne.symm h1)]
  exact mapped_of_same m m1 pt va a hm ⟨by rw [e2], by rw [e2]⟩ ⟨by rw [e1], by rw [e1]⟩

theorem uvmunmap_one (m : Machine) (pt va a : Nat) (hva : va < MAXVA) (hal : va % PGSIZE = 0)
    (hm : Mapped m pt va a) (ha : a ≠ 0) (hv : m.ptes a &&& PTE_V ≠ 0)
    (hl : PTE_FLAGS (m.ptes a) ≠ PTE_V) :
    uvmunmap m pt va 1 false = .ok (m.setPte a 0) := by
  unfold uvmunmap
  rw [if_neg (not_not.mpr hal)]
  have e1 : u64 (va + 1 * PGSIZE) = va + PGSIZE := by
    unfold u64 PGSIZE
    unfold MAXVA at hva
    omega
  have e2 : u64 (va + PGSIZE) = va + PGSIZE := by
    unfold u64 PGSIZE
    unfold MAXVA at hva
    omega
  rw [e1, uvmunmap_loop, if_pos (by unfold PGSIZE; omega), walk_of_mapped m pt va a hva hm]
  simp only [if_neg ha, if_neg hv, if_neg hl, Bool.false_eq_true, if_false]
  rw [e2, uvmunmap_loop, if_neg (by omega)]

theorem mappages_existing (m : Machine) (pt va a pa perm : Nat) (hva : va < MAXVA)
    (hal : va % PGSIZE = 0) (hm : Mapped m pt va a) (ha : a ≠ 0) (hv : m.ptes a &&& PTE_V = 0) :
    mappages m pt va PGSIZE pa perm = .ok (0, m.setPte a (PA2PTE pa ||| perm ||| PTE_V)) := by
  rw [mappages_one m pt va pa perm hva hal, walk_level_mapped m pt va a true hm]
  simp only [if_neg ha, hv, ne_eq, not_true_eq_false, if_false]

/-! ## `uvmuncow` -/

theorem testBit_uvmuncow_flags (x i : Nat) :
    (uvmuncow_flags x).testBit i =
      (decide (i = 0) || decide (i = 3) || decide (i = 4) || (decide (i = 1) && x.testBit 8) ||
        (decide (i = 2) && x.testBit 9)) := by
  unfold uvmuncow_flags
  by_cases h8 : x.testBit 8 = true <;> by_cases h9 : x.testBit 9 = true <;>
    simp [and_COW_R, and_COW_W, h8, h9, Nat.testBit_or, testBit_V, testBit_X, testBit_U, testBit_R,
      testBit_W]

theorem uvmuncow_flags_lt (x : Nat) : uvmuncow_flags x < 1024 := by
  apply Nat.lt_pow_two_of_testBit (n := 10)
  intro i hi
  rw [testBit_uvmuncow_flags]
  have e0 : ¬ i = 0 := by omega
  have e1 : ¬ i = 1 := by omega
  have e2 : ¬ i = 2 := by omega
  have e3 : ¬ i = 3 := by omega
  have e4 : ¬ i = 4 := by omega
  simp [e0, e1, e2, e3, e4]

theorem flags_ne_V_of_U (x : Nat) (hu : x &&& PTE_U ≠ 0) : PTE_FLAGS x ≠ PTE_V := by
  intro h
  have := congrArg (fun n => Nat.testBit n 4) h
  simp only [testBit_PTE_FLAGS, testBit_V] at this
  rw [(and_U x).mp hu] at this
  simp at this

/-- The branch of `uvmuncow` for a frame with at least two references. -/
theorem uvmuncow_copy_eq (idx : Nat → Nat) (m : Machine) (pagetable va p_sz a mem : Nat)
    (rest : List Nat) (hsz : va < p_sz) (hva : va < MAXVA) (hm : Mapped m pagetable va a)
    (ha : a ≠ 0) (hv : m.ptes a &&& PTE_V ≠ 0) (hu : m.ptes a &&& PTE_U ≠ 0)
    (h2 : a ≠ l2slot pagetable va) (h1 : a ≠ l1slot m pagetable va)
    (href : 2 ≤ m.cow_ref (idx (PTE2PA (m.ptes a))))
    (hfree : m.freelist = mem :: rest) (hmem : mem ≠ 0) :
    uvmuncow idx m pagetable va p_sz = .ok (0, uncowCopied idx m a mem rest) := by
  have h64 : va < 2 ^ 64 := by unfold MAXVA at hva; omega
  obtain ⟨gle, gal⟩ := PGROUNDDOWN_le va h64
  have gva : PGROUNDDOWN va < MAXVA := by omega
  unfold uvmuncow
  rw [if_neg (by omega), walk_of_mapped m pagetable va a hva hm]
  simp only [if_neg ha]
  rw [if_neg (by omega), if_neg (fun hc => hu hc.1), if_pos href]
  have ek : kalloc m = (mem, { m with freelist := rest }) := by simp only [kalloc, hfree]
  rw [ek]
  simp only [if_neg hmem]
  have hm2 : Mapped ((({ m with freelist := rest } : Machine).setRef (idx (PTE2PA (m.ptes a)))
      ((m.cow_ref (idx (PTE2PA (m.ptes a))) + 255) % 256))) pagetable (PGROUNDDOWN va) a :=
    mapped_PGROUNDDOWN _ _ _ _ h64 hm
  rw [uvmunmap_one _ pagetable (PGROUNDDOWN va) a gva gal hm2 ha hv (flags_ne_V_of_U _ hu)]
  simp only
  have hm3 : Mapped (((({ m with freelist := rest } : Machine).setRef (idx (PTE2PA (m.ptes a)))
      ((m.cow_ref (idx (PTE2PA (m.ptes a))) + 255) % 256)).setPte a 0).memmove mem
        (PTE2PA (m.ptes a)) PGSIZE) pagetable (PGROUNDDOWN va) a := by
    apply mapped_PGROUNDDOWN _ _ _ _ h64
    exact (mapped_setPte m _ pagetable va a 0 hm h2 h1 rfl).1
  rw [mappages_existing _ pagetable (PGROUNDDOWN va) a mem _ gva gal hm3 ha
    (by simp only [Machine.memmove, Machine.setPte, if_true]; rfl)]
  rfl

/-- C4: for `va < proc.size` whose entry is valid with U and whose frame F has
COW refcount at least 2, if the allocator has a frame then `uvmuncow` returns 0
and afterwards `va` maps the newly allocated frame, whose 4096 bytes equal
those of F; the new entry has R iff the old one had COW_R, W iff it had COW_W,
and no COW bit; F is not freed, its bytes are unchanged, and its refcount is
one less than before. -/
theorem uvmuncow_copies_shared (COWREFINDEX : Nat → Nat) (m : Machine)
    (pagetable va p_sz a mem : Nat) (rest : List Nat) (hsz : va < p_sz)
    (hw : walk m pagetable va false = .ok (a, m)) (ha : a ≠ 0)
    (hv : m.ptes a &&& PTE_V ≠ 0) (hu : m.ptes a &&& PTE_U ≠ 0)
    (hleaf : a ≠ l2slot pagetable va ∧ a ≠ l1slot m pagetable va)
    (href : 2 ≤ m.cow_ref (COWREFINDEX (PTE2PA (m.ptes a))))
    (href8 : m.cow_ref (COWREFINDEX (PTE2PA (m.ptes a))) < 256)
    (hfree : m.freelist = mem :: rest)
    (hmem : mem ≠ 0 ∧ mem % PGSIZE = 0 ∧ mem < 2 ^ 64 ∧ mem ≠ PTE2PA (m.ptes a)) :
    ∃ m1, uvmuncow COWREFINDEX m pagetable va p_sz = .ok (0, m1) ∧
      walk m1 pagetable va false = .ok (a, m1) ∧ m1.ptes a &&& PTE_V ≠ 0 ∧
      PTE2PA (m1.ptes a) = mem ∧
      (∀ k, k < PGSIZE → m1.bytes (mem + k) = m.bytes (PTE2PA (m.ptes a) + k)) ∧
      (m1.ptes a &&& PTE_R ≠ 0 ↔ m.ptes a &&& PTE_COW_R ≠ 0) ∧
      (m1.ptes a &&& PTE_W ≠ 0 ↔ m.ptes a &&& PTE_COW_W ≠ 0) ∧
      m1.ptes a &&& PTE_COW_R = 0 ∧ m1.ptes a &&& PTE_COW_W = 0 ∧
      m1.freelist = rest ∧
      (∀ k, k < PGSIZE → m1.bytes (PTE2PA (m.ptes a) + k) = m.bytes (PTE2PA (m.ptes a) + k)) ∧
      m1.cow_ref (COWREFINDEX (PTE2PA (m.ptes a))) + 1 =
        m.cow_ref (COWREFINDEX (PTE2PA (m.ptes a))) ∧
      (∀ j, j ≠ COWREFINDEX (PTE2PA (m.ptes a)) → m1.cow_ref j = m.cow_ref j) := by
  obtain ⟨hva, _, hm⟩ := mapped_of_walk m m pagetable va a hw ha
  have heq := uvmuncow_copy_eq COWREFINDEX m pagetable va p_sz a mem rest hsz hva hm ha hv hu
    hleaf.1 hleaf.2 href hfree hmem.1
  have hp : (uncowCopied COWREFINDEX m a mem rest).ptes a =
      PA2PTE mem ||| uvmuncow_flags (m.ptes a) ||| PTE_V := by
    simp only [uncowCopied, Machine.setPte, if_true]
  have hmp := mapped_setPte m (uncowCopied COWREFINDEX m a mem rest) pagetable va a
    (PA2PTE mem ||| uvmuncow_flags (m.ptes a) ||| PTE_V) hm hleaf.1 hleaf.2 (by
      funext b
      simp only [uncowCopied, Machine.setPte, Machine.memmove, Machine.setRef]
      by_cases e : b = a
      · simp only [e, if_true]
      · simp only [e, if_false])
  have bit : ∀ k, k < 10 → ((uncowCopied COWREFINDEX m a mem rest).ptes a).testBit k =
      (uvmuncow_flags (m.ptes a) ||| PTE_V).testBit k := by
    intro k hk
    have e1 := congrArg (fun n => Nat.testBit n k)
      (PTE_FLAGS_leaf mem (uvmuncow_flags (m.ptes a)) (uvmuncow_flags_lt _))
    simp only [testBit_PTE_FLAGS, hk, decide_True, Bool.true_and] at e1
    rw [hp]
    exact e1
  refine ⟨uncowCopied COWREFINDEX m a mem rest, heq, walk_of_mapped _ _ _ _ hva hmp.1, ?_, ?_, ?_,
    ?_, ?_, ?_, ?_, rfl, ?_, ?_, ?_⟩
  · rw [hp]; exact leaf_entry_valid _ _
  · rw [hp]; exact PTE2PA_leaf mem _ hmem.2.1 hmem.2.2.1 (uvmuncow_flags_lt _)
  · intro k hk
    simp only [uncowCopied, Machine.setPte, Machine.memmove, Machine.setRef]
    rw [if_pos (by omega)]
    congr 1
    omega
  · rw [and_R, bit 1 (by omega), Nat.testBit_or, testBit_V, testBit_uvmuncow_flags, and_COW_R]
    simp
  · rw [and_W, bit 2 (by omega), Nat.testBit_or, testBit_V, testBit_uvmuncow_flags, and_COW_W]
    simp
  · rw [show PTE_COW_R = 2 ^ 8 from rfl, and_two_pow_eq_zero, bit 8 (by omega), Nat.testBit_or,
      testBit_V, testBit_uvmuncow_flags]
    simp
  · rw [show PTE_COW_W = 2 ^ 9 from rfl, and_two_pow_eq_zero, bit 9 (by omega), Nat.testBit_or,
      testBit_V, testBit_uvmuncow_flags]
    simp
  · intro k hk
    simp only [uncowCopied, Machine.setPte, Machine.memmove, Machine.setRef]
    rw [if_neg]
    have := hmem.2.1
    have := hmem.2.2.2
    have := PTE2PA_aligned (m.ptes a)
    unfold PGSIZE at *
    omega
  · simp only [uncowCopied, Machine.setPte, Machine.memmove, Machine.setRef, if_true]
    omega
  · intro j hj
    simp only [uncowCopied, Machine.setPte, Machine.memmove, Machine.setRef, if_neg hj]

theorem uvmuncow_copies_shared_witness :
    (0x1000 < 0x2000 ∧
      walk demoForked 0x80030000 0x1000 false = .ok (0x80032008, demoForked) ∧
      demoForked.ptes 0x80032008 &&& PTE_V ≠ 0 ∧ demoForked.ptes 0x80032008 &&& PTE_U ≠ 0 ∧
      2 ≤ demoForked.cow_ref (demoIndex (PTE2PA (demoForked.ptes 0x80032008))) ∧
      demoForked.freelist = [0x80033000]) ∧
    ∃ m1, uvmuncow demoIndex demoForked 0x80030000 0x1000 0x2000 = .ok (0, m1) ∧
      walk m1 0x80030000 0x1000 false = .ok (0x80032008, m1) ∧ m1.ptes 0x80032008 &&& PTE_V ≠ 0 ∧
      PTE2PA (m1.ptes 0x80032008) = 0x80033000 ∧
      (∀ k, k < PGSIZE →
        m1.bytes (0x80033000 + k) = demoForked.bytes (PTE2PA (demoForked.ptes 0x80032008) + k)) ∧
      (m1.ptes 0x80032008 &&& PTE_R ≠ 0 ↔ demoForked.ptes 0x80032008 &&& PTE_COW_R ≠ 0) ∧
      (m1.ptes 0x80032008 &&& PTE_W ≠ 0 ↔ demoForked.ptes 0x80032008 &&& PTE_COW_W ≠ 0) ∧
      m1.ptes 0x80032008 &&& PTE_COW_R = 0 ∧ m1.ptes 0x80032008 &&& PTE_COW_W = 0 ∧
      m1.freelist = [] ∧
      (∀ k, k < PGSIZE → m1.bytes (PTE2PA (demoForked.ptes 0x80032008) + k) =
        demoForked.bytes (PTE2PA (demoForked.ptes 0x80032008) + k)) ∧
      m1.cow_ref (demoIndex (PTE2PA (demoForked.ptes 0x80032008))) + 1 =
        demoForked.cow_ref (demoIndex (PTE2PA (demoForked.ptes 0x80032008))) ∧
      (∀ j, j ≠ demoIndex (PTE2PA (demoForked.ptes 0x80032008)) →
        m1.cow_ref j = demoForked.cow_ref j) :=
  ⟨⟨by decide, rfl, by decide, by decide, by decide, rfl⟩,
    uvmuncow_copies_shared demoIndex demoForked 0x80030000 0x1000 0x2000 0x80032008 0x80033000 []
      (by decide) rfl (by decide) (by decide) (by decide) (by decide) (by decide) (by decide) rfl
      (by decide)⟩

/-- C5 (failing input): the page at `0x2000` of `demoMachine` lies below the
process size `0x3000`, its page-table pages exist, and its entry is 0, so V is
clear; `uvmuncow` does not return -1 there but panics, whatever `COWREFINDEX`
is. -/
theorem uvmuncow_invalid_entry_panics :
    walk demoMachine 0x80010000 0x2000 false = .ok (0x80012010, demoMachine) ∧
    demoMachine.ptes 0x80012010 &&& PTE_V = 0 ∧
    ∀ COWREFINDEX : Nat → Nat,
      uvmuncow COWREFINDEX demoMachine 0x80010000 0x2000 0x3000 =
        .error "uvmuncow: pa not a cow page\n" :=
  ⟨rfl, by decide, fun _ => rfl⟩

/-- A call whose evaluated return value is 0 returned 0 with the state that
the evaluation yields. -/
theorem eq_ok_of_fst (x : Except String (Int × Machine)) (d : Machine)
    (h : x.toOption.map Prod.fst = some 0) :
    x = .ok (0, match x with
      | .ok (_, m) => m
      | .error _ => d) := by
  cases x with
  | error e => cases h
  | ok p =>
    obtain ⟨r, m⟩ := p
    simp only [Except.toOption, Option.map_some', Option.some.injEq] at h
    subst h
    rfl

/-- C3 (failing input): after the fork of `demoMachine` the parent reads `0xAA`
at `0x1000`; a successful `copyout` of the byte `0xBB` to `0x1000` of the child
writes into the frame that both still share, and the parent then reads `0xBB`
at `0x1000`. -/
theorem copyout_writes_shared_frame :
    uvmcopy demoIndex demoMachine 0x80010000 0x80030000 0x2000 = .ok (0, demoForked) ∧
    (copyin demoForked 0x80010000 (fun _ => 0) 0x1000 1).toOption.map (fun r => (r.1, r.2 0)) =
      some (0, 0xAA) ∧
    copyout demoForked 0x80030000 0x1000 (fun _ => 0xBB) 1 = .ok (0, demoClobbered) ∧
    (copyin demoClobbered 0x80010000 (fun _ => 0) 0x1000 1).toOption.map (fun r => (r.1, r.2 0)) =
      some (0, 0xBB) :=
  ⟨demoForked_eq, by decide, eq_ok_of_fst _ demoForked (by decide), by decide⟩

theorem demoUncowed_eq :
    uvmuncow demoIndex demoForked 0x80030000 0x1000 0x2000 = .ok (0, demoUncowed) :=
  eq_ok_of_fst _ demoForked (by decide)

theorem demoWritten_eq :
    copyout demoUncowed 0x80030000 0x1000 (fun _ => 0xBB) 1 = .ok (0, demoWritten) :=
  eq_ok_of_fst _ demoUncowed (by decide)

/-- C2 (counterexample): on `demoMachine`, whose page `0x1000` is a private
RWX+U frame with refcount 0 holding `0xAA`, after the fork, the child's
`uvmuncow` at `0x1000` and the child's store of `0xBB`, the parent still maps
frame `0x80021000` and reads `0xAA`, the child reads `0xBB`, but the COW
refcount of the parent's frame is 1, not 0. -/
theorem cow_fork_refcount_counterexample :
    uvmcopy demoIndex demoMachine 0x80010000 0x80030000 0x2000 = .ok (0, demoForked) ∧
    uvmuncow demoIndex demoForked 0x80030000 0x1000 0x2000 = .ok (0, demoUncowed) ∧
    copyout demoUncowed 0x80030000 0x1000 (fun _ => 0xBB) 1 = .ok (0, demoWritten) ∧
    (copyin demoWritten 0x80010000 (fun _ => 0) 0x1000 1).toOption.map (fun r => (r.1, r.2 0)) =
      some (0, 0xAA) ∧
    (copyin demoWritten 0x80030000 (fun _ => 0) 0x1000 1).toOption.map (fun r => (r.1, r.2 0)) =
      some (0, 0xBB) ∧
    walkaddr demoWritten 0x80010000 0x1000 = .ok 0x80021000 ∧
    demoWritten.cow_ref (demoIndex 0x80021000) = 1 ∧
    ¬ demoWritten.cow_ref (demoIndex 0x80021000) = 0 :=
  ⟨demoForked_eq, demoUncowed_eq, demoWritten_eq, by decide, by decide, rfl, by decide,
    by decide⟩

/-! ## `copyout` and `copyin` of one byte, and the fork scenario -/

theorem walkaddr_mapped (m : Machine) (pt va a : Nat) (hva : va < MAXVA) (hm : Mapped m pt va a)
    (ha : a ≠ 0) (hv : m.ptes a &&& PTE_V ≠ 0) (hu : m.ptes a &&& PTE_U ≠ 0) :
    walkaddr m pt va = .ok (PTE2PA (m.ptes a)) := by
  unfold walkaddr
  rw [if_neg (by omega), walk_of_mapped m pt va a hva hm]
  simp only [if_neg ha, if_neg hv, if_neg hu]

theorem copyout_byte (m : Machine) (pt va pa : Nat) (src : Nat → Nat) (hva : va < MAXVA)
    (hal : va % PGSIZE = 0) (hw : walkaddr m pt va = .ok pa) (hpa : pa ≠ 0) :
    copyout m pt va src 1 = .ok (0, m.write pa src 1) := by
  have h64 : va < 2 ^ 64 := by unfold MAXVA at hva; omega
  have hP : PGSIZE > 1 := by decide
  unfold copyout
  rw [copyout_loop, if_pos (by omega), PGROUNDDOWN_aligned va h64 hal]
  simp only [hw, if_neg hpa, Nat.sub_self, Nat.add_zero, Nat.sub_zero, if_pos hP]
  rw [copyout_loop, if_neg (by omega)]

theorem copyin_byte (m : Machine) (pt va pa : Nat) (dst : Nat → Nat) (hva : va < MAXVA)
    (hal : va % PGSIZE = 0) (hw : walkaddr m pt va = .ok pa) (hpa : pa ≠ 0) :
    ∃ d, copyin m pt dst va 1 = .ok (0, d) ∧ d 0 = m.bytes pa := by
  have h64 : va < 2 ^ 64 := by unfold MAXVA at hva; omega
  have hP : PGSIZE > 1 := by decide
  unfold copyin
  rw [copyin_loop, if_pos (by omega), PGROUNDDOWN_aligned va h64 hal]
  simp only [hw, if_neg hpa, Nat.sub_self, Nat.add_zero, Nat.sub_zero, if_pos hP]
  rw [copyin_loop, if_neg (by omega)]
  refine ⟨_, rfl, ?_⟩
  simp

theorem cowRefAfter_untouched (idx : Nat → Nat) (m0 : Machine) (old i : Nat) :
    ∀ n, (∀ j, j < n → idx (parentFrame m0 old j) ≠ i) → cowRefAfter idx m0 old n i = m0.cow_ref i := by
  intro n
  induction n with
  | zero => intro _; rfl
  | succ n ih =>
    intro h
    rw [cowRefAfter_succ]
    simp only [if_neg (Ne.symm (h n (by omega)))]
    exact ih (fun j hj => h j (by omega))

theorem cowRefAfter_private (idx : Nat → Nat) (m0 : Machine) (old i jv : Nat)
    (h0 : m0.cow_ref i = 0) (hjv : idx (parentFrame m0 old jv) = i) :
    ∀ n, jv < n → (∀ j, j < n → j ≠ jv → idx (parentFrame m0 old j) ≠ i) →
      cowRefAfter idx m0 old n i = 2 := by
  intro n
  induction n with
  | zero => intro h; omega
  | succ n ih =>
    intro hn h
    rw [cowRefAfter_succ]
    by_cases e : n = jv
    · subst e
      simp only [hjv, if_true]
      rw [cowRefAfter_untouched idx m0 old i n (fun j hj => h j (by omega) (by omega)), h0]
      rfl
    · simp only [if_neg (Ne.symm (h n (by omega) e))]
      exact ih (by omega) (fun j hj hne => h j (by omega) hne)

theorem testBit_of_PTE_FLAGS (x k : Nat) (hk : k < 10) : x.testBit k = (PTE_FLAGS x).testBit k := by
  rw [testBit_PTE_FLAGS]
  simp [hk]

/-- `walkaddr` reads page-table words only. -/
theorem walkaddr_congr (m m1 : Machine) (pt va : Nat) (h : m1.ptes = m.ptes) :
    walkaddr m1 pt va = walkaddr m pt va := by
  unfold walkaddr
  by_cases hva : va ≥ MAXVA
  · rw [if_pos hva, if_pos hva]
  · rw [if_neg hva, if_neg hva, walk_noalloc m1 pt va (by omega), walk_noalloc m pt va (by omega)]
    simp only [l1slot, l0slot, h]

/-- C2 (amended): for a parent whose page at `va` is a private frame F (COW
refcount 0, flags RWX+U) holding the byte `0xAA`, after `uvmcopy` with
`va < sz`, the child's `uvmuncow` at `va` and the child's store of `0xBB`, the
parent reads `0xAA` at `va` and the child reads `0xBB`; the COW refcount of F,
which the parent still maps, is 1, and that of the child's new frame is 0.  F
is private in that no other page of the parent below `sz` uses its refcount
slot; the frame the allocator hands out has refcount 0 and a slot of its
own. -/
theorem cow_fork_scenario (COWREFINDEX : Nat → Nat) (m m1 : Machine)
    (old new sz va p_sz a mem : Nat) (rest : List Nat) (dst : Nat → Nat)
    (hok : AllocOK m) (hold : old % PGSIZE = 0 ∧ old ∉ m.freelist)
    (hnew : new % PGSIZE = 0 ∧ new ∉ m.freelist)
    (hvalid : ∀ va, va % PGSIZE = 0 → va < sz → ∃ a, a ≠ 0 ∧ walk m old va false = .ok (a, m) ∧
      m.ptes a &&& PTE_V ≠ 0 ∧ m.ptes a &&& PTE_U ≠ 0)
    (hal : va % PGSIZE = 0) (hlt : va < sz) (hsz : va < p_sz)
    (hw : walk m old va false = .ok (a, m)) (ha : a ≠ 0)
    (hflags : PTE_FLAGS (m.ptes a) = PTE_R ||| PTE_W ||| PTE_X ||| PTE_U ||| PTE_V)
    (hF : PTE2PA (m.ptes a) ≠ 0) (hbyte : m.bytes (PTE2PA (m.ptes a)) = 0xAA)
    (hpriv : m.cow_ref (COWREFINDEX (PTE2PA (m.ptes a))) = 0)
    (honly : ∀ va1 a1, va1 % PGSIZE = 0 → va1 < sz → va1 ≠ va →
      walk m old va1 false = .ok (a1, m) →
      COWREFINDEX (PTE2PA (m.ptes a1)) ≠ COWREFINDEX (PTE2PA (m.ptes a)))
    (hcopy : uvmcopy COWREFINDEX m old new sz = .ok (0, m1))
    (hfree : m1.freelist = mem :: rest)
    (hmem0 : m.cow_ref (COWREFINDEX mem) = 0)
    (hmemidx : ∀ va1 a1, va1 % PGSIZE = 0 → va1 < sz → walk m old va1 false = .ok (a1, m) →
      COWREFINDEX (PTE2PA (m.ptes a1)) ≠ COWREFINDEX mem) :
    ∃ m2 m3, uvmuncow COWREFINDEX m1 new va p_sz = .ok (0, m2) ∧
      copyout m2 new va (fun _ => 0xBB) 1 = .ok (0, m3) ∧
      walkaddr m3 old va = .ok (PTE2PA (m.ptes a)) ∧ walkaddr m3 new va = .ok mem ∧
      (∃ d, copyin m3 old dst va 1 = .ok (0, d) ∧ d 0 = 0xAA) ∧
      (∃ d, copyin m3 new dst va 1 = .ok (0, d) ∧ d 0 = 0xBB) ∧
      m3.cow_ref (COWREFINDEX (PTE2PA (m.ptes a))) = 1 ∧ m3.cow_ref (COWREFINDEX mem) = 0 := by
  have hp := copyPre_of_walk m old new sz hok hold hnew hvalid
  obtain ⟨_, n, hi, hn, hlt1⟩ := uvmcopy_spec COWREFINDEX m m1 old new sz 0 hp hcopy
  obtain ⟨hva, _, hm⟩ := mapped_of_walk m m old va a hw ha
  have eva : va / PGSIZE * PGSIZE = va := by
    unfold PGSIZE at *
    omega
  have hj : va / PGSIZE < n := by
    by_contra hc
    have : n * PGSIZE ≤ va / PGSIZE * PGSIZE := Nat.mul_le_mul_right _ (by omega)
    omega
  obtain ⟨d1, c, d2, d3, d4, d5, d6, d7⟩ := hi.done (va / PGSIZE) hj (by rw [eva]; exact hlt)
  obtain ⟨pl1, _, pm⟩ := parent_path COWREFINDEX m m1 old new sz n (va / PGSIZE) hp hi
    (by rw [eva]; exact hlt)
  have hpf : parentFrame m old (va / PGSIZE) = PTE2PA (m.ptes a) := by
    unfold parentFrame
    rw [eva, ← hm.2.2]
  rw [hpf] at d4
  rw [eva] at d1 d3 d4 d6 d7 pm pl1
  rw [← hm.2.2] at d1 d4 pm
  -- the bits of the parent entry
  have hv : (m.ptes a).testBit 0 = true := by
    rw [testBit_of_PTE_FLAGS _ 0 (by omega), hflags]; decide
  have hu : (m.ptes a).testBit 4 = true := by
    rw [testBit_of_PTE_FLAGS _ 4 (by omega), hflags]; decide
  -- the child entry after the fork
  have hcF : PTE2PA (m1.ptes c) = PTE2PA (m.ptes a) := by
    rw [d4, PTE2PA_leaf _ _ (PTE2PA_aligned _) (PTE2PA_lt _) (uvmcopy_flags_lt _ (PTE_FLAGS_lt _))]
  have hcv : m1.ptes c &&& PTE_V ≠ 0 := by rw [d4]; exact leaf_entry_valid _ _
  have hcu : m1.ptes c &&& PTE_U ≠ 0 := by
    rw [and_U, testBit_of_PTE_FLAGS _ 4 (by omega), d4,
      PTE_FLAGS_leaf _ _ (uvmcopy_flags_lt _ (PTE_FLAGS_lt _)), Nat.testBit_or,
      testBit_uvmcopy_flags _ _ (PTE_FLAGS_lt _), ← testBit_of_PTE_FLAGS _ 4 (by omega), hu]
    simp [← testBit_of_PTE_FLAGS, hu]
  -- reference counts after the fork
  have frameOf : ∀ j, j * PGSIZE < sz → walk m old (j * PGSIZE) false =
      .ok (l0slot m old (j * PGSIZE), m) := by
    intro j hjs
    obtain ⟨h1, h2, _, _⟩ := hp.valid j hjs
    exact walk_of_mapped m old _ _ h1 h2
  have hrefF : m1.cow_ref (COWREFINDEX (PTE2PA (m.ptes a))) = 2 := by
    rw [hi.refs]
    apply cowRefAfter_private COWREFINDEX m old _ (va / PGSIZE) hpriv (by rw [hpf]) n hj
    intro j hjn hjne
    have hjs := hlt1 j hjn
    have := honly (j * PGSIZE) _ (Nat.mul_mod_left _ _) hjs (by
      intro e
      apply hjne
      rw [← e, Nat.mul_div_cancel _ (by decide : 0 < PGSIZE)]) (frameOf j hjs)
    exact this
  have hrefM : m1.cow_ref (COWREFINDEX mem) = 0 := by
    rw [hi.refs, cowRefAfter_untouched COWREFINDEX m old _ n, hmem0]
    intro j hjn
    exact hmemidx (j * PGSIZE) _ (Nat.mul_mod_left _ _) (hlt1 j hjn) (frameOf j (hlt1 j hjn))
  -- the frame handed out by the allocator
  have hmemin : mem ∈ m1.freelist := by rw [hfree]; exact List.mem_cons_self _ _
  obtain ⟨mal, m64, mne⟩ := hi.ok.aligned mem hmemin
  have hav1 : m1.ptes a &&& PTE_V ≠ 0 := by
    rw [d1, and_V_uvmcopy_pte, and_V]; exact hv
  have hau1 : m1.ptes a &&& PTE_U ≠ 0 := by
    rw [d1, and_U_uvmcopy_pte, and_U]; exact hu
  have haF : PTE2PA (m1.ptes a) = PTE2PA (m.ptes a) := by rw [d1, PTE2PA_uvmcopy_pte]
  obtain ⟨_, _, nfa⟩ := path_not_free m1 old _ _ hi.ok hp.old_al
    (fun hc => hp.old_nf (hi.suffix.subset hc)) pm
  have hmF : mem ≠ PTE2PA (m.ptes a) := by
    intro e
    have := hi.ok.nodangling a hav1 nfa
    rw [haF, ← e] at this
    exact this hmemin
  -- the child resolves its fault
  have heq := uvmuncow_copy_eq COWREFINDEX m1 new va p_sz c mem rest hsz hva d3 d2 hcv hcu d6 d7
    (by rw [hcF, hrefF]) hfree mne
  generalize hm2 : uncowCopied COWREFINDEX m1 c mem rest = m2 at heq
  have p2 : m2.ptes = fun b => if b = c then
      PA2PTE mem ||| uvmuncow_flags (m1.ptes c) ||| PTE_V else m1.ptes b := by
    rw [← hm2]
    funext b
    simp only [uncowCopied, Machine.setPte, Machine.memmove, Machine.setRef]
    by_cases e : b = c
    · simp only [e, if_true]
    · simp only [e, if_false]
  have b2 : ∀ b, m2.bytes b = if mem ≤ b ∧ b < mem + PGSIZE then
      m1.bytes (PTE2PA (m.ptes a) + (b - mem)) else m1.bytes b := by
    intro b
    rw [← hm2, ← hcF]
    rfl
  have r2 : ∀ i, m2.cow_ref i = if i = COWREFINDEX (PTE2PA (m.ptes a)) then 1 else m1.cow_ref i := by
    intro i
    rw [← hm2]
    simp only [uncowCopied, Machine.setPte, Machine.memmove, Machine.setRef, hcF, hrefF]
  have hcm2 := (mapped_setPte m1 m2 new va c _ d3 d6 d7 p2).1
  have hc2 : m2.ptes c = PA2PTE mem ||| uvmuncow_flags (m1.ptes c) ||| PTE_V := by
    rw [p2]; simp only [if_true]
  have hcv2 : m2.ptes c &&& PTE_V ≠ 0 := by rw [hc2]; exact leaf_entry_valid _ _
  have hcu2 : m2.ptes c &&& PTE_U ≠ 0 := by
    rw [and_U, testBit_of_PTE_FLAGS _ 4 (by omega), hc2, PTE_FLAGS_leaf _ _ (uvmuncow_flags_lt _),
      Nat.testBit_or, testBit_uvmuncow_flags]
    simp
  have hcpa2 : PTE2PA (m2.ptes c) = mem := by
    rw [hc2]; exact PTE2PA_leaf mem _ mal m64 (uvmuncow_flags_lt _)
  have hwc2 : walkaddr m2 new va = .ok mem := by
    rw [walkaddr_mapped m2 new va c hva hcm2 d2 hcv2 hcu2, hcpa2]
  -- the child stores its byte
  have hout := copyout_byte m2 new va mem (fun _ => 0xBB) hva hal hwc2 mne
  have hwc3 : walkaddr (m2.write mem (fun _ => 0xBB) 1) new va = .ok mem :=
    (walkaddr_congr m2 (m2.write mem (fun _ => 0xBB) 1) new va rfl).trans hwc2
  -- the parent still finds its entry
  have hac : a ≠ c := fun e => d5 (e ▸ ⟨va / PGSIZE, by rw [eva]; exact hlt,
    Or.inr (Or.inr (by rw [eva]; exact hm.2.2))⟩)
  have h2c : l2slot old va ≠ c := fun e => d5 (e ▸ ⟨va / PGSIZE, by rw [eva]; exact hlt,
    Or.inl (by rw [eva])⟩)
  have h1c : l1slot m1 old va ≠ c := fun e => d5 (e ▸ ⟨va / PGSIZE, by rw [eva]; exact hlt,
    Or.inr (Or.inl (by rw [eva, pl1]))⟩)
  have e2 : m2.ptes (l2slot old va) = m1.ptes (l2slot old va) := by
    rw [p2]; simp only [if_neg h2c]
  have e1 : m2.ptes (l1slot m1 old va) = m1.ptes (l1slot m1 old va) := by
    rw [p2]; simp only [if_neg h1c]
  have ea : m2.ptes a = m1.ptes a := by
    rw [p2]; simp only [if_neg hac]
  have hpm2 := (mapped_of_same m1 m2 old va a pm ⟨by rw [e2], by rw [e2]⟩ ⟨by rw [e1], by rw [e1]⟩).1
  have hwa2 : walkaddr m2 old va = .ok (PTE2PA (m.ptes a)) := by
    rw [walkaddr_mapped m2 old va a hva hpm2 ha (by rw [ea]; exact hav1) (by rw [ea]; exact hau1),
      ea, haF]
  have hwa3 : walkaddr (m2.write mem (fun _ => 0xBB) 1) old va = .ok (PTE2PA (m.ptes a)) :=
    (walkaddr_congr m2 (m2.write mem (fun _ => 0xBB) 1) old va rfl).trans hwa2
  -- what the two address spaces read
  have hFal := PTE2PA_aligned (m.ptes a)
  have byteF : (m2.write mem (fun _ => 0xBB) 1).bytes (PTE2PA (m.ptes a)) = 0xAA := by
    simp only [Machine.write]
    rw [if_neg (by omega), b2, if_neg (by unfold PGSIZE at *; omega), hi.bytes, hbyte]
  have byteM : (m2.write mem (fun _ => 0xBB) 1).bytes mem = 0xBB := by
    simp only [Machine.write]
    rw [if_pos (by omega)]
  obtain ⟨dp, hdp, hdp0⟩ := copyin_byte (m2.write mem (fun _ => 0xBB) 1) old va _ dst hva hal hwa3 hF
  obtain ⟨dc, hdc, hdc0⟩ := copyin_byte (m2.write mem (fun _ => 0xBB) 1) new va _ dst hva hal hwc3 mne
  refine ⟨m2, m2.write mem (fun _ => 0xBB) 1, heq, hout, hwa3, hwc3, ⟨dp, hdp, hdp0.trans byteF⟩,
    ⟨dc, hdc, hdc0.trans byteM⟩, ?_, ?_⟩
  · show m2.cow_ref _ = 1
    rw [r2, if_pos rfl]
  · show m2.cow_ref _ = 0
    rw [r2, if_neg (Ne.symm (hmemidx va a hal hlt hw)), hrefM]

theorem demoMachine_entries (va1 a1 : Nat) (h1 : va1 % PGSIZE = 0) (h2 : va1 < 0x2000)
    (hw : walk demoMachine 0x80010000 va1 false = .ok (a1, demoMachine)) :
    (va1 = 0 ∧ a1 = 0x80012000) ∨ (va1 = 0x1000 ∧ a1 = 0x80012008) := by
  have : va1 = 0 ∨ va1 = 4096 := by
    unfold PGSIZE at h1
    omega
  rcases this with e | e
  · subst e
    have e0 : walk demoMachine 0x80010000 0 false = .ok (0x80012000, demoMachine) := rfl
    rw [e0] at hw
    simp only [Except.ok.injEq, Prod.mk.injEq, and_true] at hw
    exact Or.inl ⟨rfl, hw.symm⟩
  · subst e
    have e0 : walk demoMachine 0x80010000 4096 false = .ok (0x80012008, demoMachine) := rfl
    rw [e0] at hw
    simp only [Except.ok.injEq, Prod.mk.injEq, and_true] at hw
    exact Or.inr ⟨rfl, hw.symm⟩

theorem cow_fork_scenario_witness :
    (AllocOK demoMachine ∧
      walk demoMachine 0x80010000 0x1000 false = .ok (0x80012008, demoMachine) ∧
      PTE_FLAGS (demoMachine.ptes 0x80012008) = PTE_R ||| PTE_W ||| PTE_X ||| PTE_U ||| PTE_V ∧
      demoMachine.bytes (PTE2PA (demoMachine.ptes 0x80012008)) = 0xAA ∧
      demoMachine.cow_ref (demoIndex (PTE2PA (demoMachine.ptes 0x80012008))) = 0 ∧
      uvmcopy demoIndex demoMachine 0x80010000 0x80030000 0x2000 = .ok (0, demoForked) ∧
      demoForked.freelist = [0x80033000]) ∧
    ∃ m2 m3, uvmuncow demoIndex demoForked 0x80030000 0x1000 0x2000 = .ok (0, m2) ∧
      copyout m2 0x80030000 0x1000 (fun _ => 0xBB) 1 = .ok (0, m3) ∧
      walkaddr m3 0x80010000 0x1000 = .ok (PTE2PA (demoMachine.ptes 0x80012008)) ∧
      walkaddr m3 0x80030000 0x1000 = .ok 0x80033000 ∧
      (∃ d, copyin m3 0x80010000 (fun _ => 0) 0x1000 1 = .ok (0, d) ∧ d 0 = 0xAA) ∧
      (∃ d, copyin m3 0x80030000 (fun _ => 0) 0x1000 1 = .ok (0, d) ∧ d 0 = 0xBB) ∧
      m3.cow_ref (demoIndex (PTE2PA (demoMachine.ptes 0x80012008))) = 1 ∧
      m3.cow_ref (demoIndex 0x80033000) = 0 :=
  ⟨⟨demoMachine_allocOK, rfl, by decide, by decide, by decide, demoForked_eq, rfl⟩,
    cow_fork_scenario demoIndex demoMachine demoForked 0x80010000 0x80030000 0x2000 0x1000 0x2000
      0x80012008 0x80033000 [] (fun _ => 0) demoMachine_allocOK (by decide) (by decide)
      demoMachine_valid (by decide) (by decide) (by decide) rfl (by decide) (by decide) (by decide)
      (by decide) (by decide)
      (fun va1 a1 h1 h2 h3 hw => by
        rcases demoMachine_entries va1 a1 h1 h2 hw with ⟨e1, e2⟩ | ⟨e1, _⟩
        · subst e2; decide
        · exact absurd e1 h3)
      demoForked_eq rfl (by decide)
      (fun va1 a1 h1 h2 hw => by
        rcases demoMachine_entries va1 a1 h1 h2 hw with ⟨_, e2⟩ | ⟨_, e2⟩
        · subst e2; decide
        · subst e2; decide)⟩

/-! ## The scans of `bget` -/

theorem find_last_free (s : Bio) (l1 l2 : List BufId) (z : BufId)
    (hz : (s.buf z).refcnt = 0) (h2 : ∀ y ∈ l2, (s.buf y).refcnt ≠ 0) :
    (l1 ++ z :: l2).reverse.find? (fun b => decide ((s.buf b).refcnt = 0)) = some z := by
  rw [List.reverse_append, List.reverse_cons, List.append_assoc, List.find?_append]
  have hn : l2.reverse.find? (fun b => decide ((s.buf b).refcnt = 0)) = none := by
    rw [List.find?_eq_none]
    intro y hy
    simpa using h2 y (List.mem_reverse.mp hy)
  rw [hn]
  simp [hz]

theorem bget_find_miss (s : Bio) (dev blockno : Nat)
    (hmiss : ∀ b ∈ s.lru (blockno % BCACHE_BUCKET),
      ¬ ((s.buf b).dev = dev ∧ (s.buf b).blockno = blockno)) :
    bget_find s dev blockno =
      match (s.lru (blockno % BCACHE_BUCKET)).reverse.find? (fun b => (s.buf b).refcnt = 0) with
      | some b => .ok (b, s.setBuf b
          { s.buf b with dev := dev, blockno := blockno, valid := 0, refcnt := 1 })
      | none => .error "bget: no buffers" := by
  unfold bget_find
  have hn : (s.lru (blockno % BCACHE_BUCKET)).find?
      (fun b => decide ((s.buf b).dev = dev ∧ (s.buf b).blockno = blockno)) = none := by
    rw [List.find?_eq_none]
    intro b hb
    simpa using hmiss b hb
  simp only [hn]

theorem bget_find_hit (s : Bio) (dev blockno : Nat) (x : BufId)
    (h : (s.lru (blockno % BCACHE_BUCKET)).find? (holdsBlock s dev blockno) = some x) :
    bget_find s dev blockno =
      .ok (x, s.setBuf x { s.buf x with refcnt := ((s.buf x).refcnt + 1) % 2 ^ 32 }) := by
  unfold bget_find
  unfold holdsBlock at h
  simp only [h]

theorem acquiresleep_error (s : Bio) (b : BufId) (e : String)
    (h : acquiresleep s b = .error e) : e = "acquiresleep: sleeps" := by
  unfold acquiresleep at h
  split at h
  · simp only [Except.error.injEq] at h
    exact h.symm
  · cases h

/-- C7: on a miss in bucket `blockno mod 17`, `bget` returns the buffer with
reference count 0 that is closest to the tail of the bucket's list, with dev
and blockno set to the request, valid 0 and refcount 1, every other buffer and
the lists unchanged (the buffer's sleep-lock, free before, is now held; if the
lock is held, `bget` sleeps on it); and, for every state, hit or miss, `bget`
panics with "bget: no buffers" exactly when no buffer of that bucket holds the
block and every buffer of that bucket has a reference count above 0, whatever
the other buckets hold. -/
theorem bget_miss_recycles_lru (s : Bio) (dev blockno : Nat) :
    ((∀ b ∈ s.lru (blockno % BCACHE_BUCKET),
        ¬ ((s.buf b).dev = dev ∧ (s.buf b).blockno = blockno)) →
      ∀ l1 z l2, s.lru (blockno % BCACHE_BUCKET) = l1 ++ z :: l2 → (s.buf z).refcnt = 0 →
      (∀ y ∈ l2, (s.buf y).refcnt ≠ 0) → (s.buf z).locked = false →
      ∃ s1, bget s dev blockno = .ok (z, s1) ∧ s1.lru = s.lru ∧
        (∀ y, y ≠ z → s1.buf y = s.buf y) ∧
        (s1.buf z).dev = dev ∧ (s1.buf z).blockno = blockno ∧ (s1.buf z).valid = 0 ∧
        (s1.buf z).refcnt = 1 ∧ (s1.buf z).data = (s.buf z).data ∧
        (s1.buf z).locked = true ∧ s1.disk = s.disk ∧ s1.diskops = s.diskops) ∧
    ((∀ b ∈ s.lru (blockno % BCACHE_BUCKET),
        ¬ ((s.buf b).dev = dev ∧ (s.buf b).blockno = blockno)) →
      ∀ l1 z l2, s.lru (blockno % BCACHE_BUCKET) = l1 ++ z :: l2 → (s.buf z).refcnt = 0 →
      (∀ y ∈ l2, (s.buf y).refcnt ≠ 0) → (s.buf z).locked = true →
      bget s dev blockno = .error "acquiresleep: sleeps") ∧
    (bget s dev blockno = .error "bget: no buffers" ↔
      (∀ b ∈ s.lru (blockno % BCACHE_BUCKET),
        ¬ ((s.buf b).dev = dev ∧ (s.buf b).blockno = blockno)) ∧
      ∀ y ∈ s.lru (blockno % BCACHE_BUCKET), (s.buf y).refcnt ≠ 0) := by
  constructor
  · intro hmiss l1 z l2 hl hz h2 hlock
    have hf := find_last_free s l1 l2 z hz h2
    rw [← hl] at hf
    refine ⟨(s.setBuf z { s.buf z with dev := dev, blockno := blockno, valid := 0, refcnt := 1 }).setBuf
      z { valid := 0, dev := dev, blockno := blockno, refcnt := 1, locked := true,
          data := (s.buf z).data }, ?_, ?_⟩
    · unfold bget
      rw [bget_find_miss s dev blockno hmiss]
      simp only [hf, acquiresleep, Bio.setBuf, if_true, hlock, Bool.false_eq_true, if_false]
    · simp only [Bio.setBuf, if_true, true_and]
      refine ⟨fun y hy => ?_, trivial⟩
      simp only [if_neg hy]
  constructor
  · intro hmiss l1 z l2 hl hz h2 hlock
    have hf := find_last_free s l1 l2 z hz h2
    rw [← hl] at hf
    unfold bget
    rw [bget_find_miss s dev blockno hmiss]
    simp only [hf, acquiresleep, Bio.setBuf, if_true, hlock]
  · by_cases hmiss : ∀ b ∈ s.lru (blockno % BCACHE_BUCKET),
        ¬ ((s.buf b).dev = dev ∧ (s.buf b).blockno = blockno)
    · rw [and_iff_right hmiss]
      unfold bget
      rw [bget_find_miss s dev blockno hmiss]
      constructor
      · intro h y hy hy0
        have : (s.lru (blockno % BCACHE_BUCKET)).reverse.find?
            (fun b => decide ((s.buf b).refcnt = 0)) ≠ none := by
          rw [Ne, List.find?_eq_none]
          intro hc
          exact hc y (List.mem_reverse.mpr hy) (by simpa using hy0)
        cases hfind : (s.lru (blockno % BCACHE_BUCKET)).reverse.find?
            (fun b => decide ((s.buf b).refcnt = 0)) with
        | none => exact this hfind
        | some b =>
          rw [hfind] at h
          simp only at h
          cases ha : acquiresleep (s.setBuf b
              { s.buf b with dev := dev, blockno := blockno, valid := 0, refcnt := 1 }) b with
          | error e =>
            have he := acquiresleep_error _ _ _ ha
            rw [ha, he] at h
            simp only [Except.error.injEq] at h
            exact absurd h (by decide)
          | ok s2 =>
            rw [ha] at h
            cases h
      · intro h
        have : (s.lru (blockno % BCACHE_BUCKET)).reverse.find?
            (fun b => decide ((s.buf b).refcnt = 0)) = none := by
          rw [List.find?_eq_none]
          intro y hy
          simpa using h y (List.mem_reverse.mp hy)
        rw [this]
    · constructor
      · intro h
        exfalso
        cases hfind : (s.lru (blockno % BCACHE_BUCKET)).find? (holdsBlock s dev blockno) with
        | none =>
          apply hmiss
          intro b hb
          rw [List.find?_eq_none] at hfind
          have := hfind b hb
          unfold holdsBlock at this
          simpa using this
        | some x =>
          unfold bget at h
          rw [bget_find_hit s dev blockno x hfind] at h
          simp only at h
          cases ha : acquiresleep (s.setBuf x
              { s.buf x with refcnt := ((s.buf x).refcnt + 1) % 2 ^ 32 }) x with
          | error e =>
            have he := acquiresleep_error _ _ _ ha
            rw [ha, he] at h
            simp only [Except.error.injEq] at h
            exact absurd h (by decide)
          | ok s2 =>
            rw [ha] at h
            cases h
      · intro h
        exact absurd h.1 hmiss

/-! ## The invariant of the buffer cache -/

theorem find_erase_of_neg (p : BufId → Bool) (z : BufId) (hz : p z = false) :
    ∀ l : List BufId, (l.erase z).find? p = l.find? p := by
  intro l
  induction l with
  | nil => rfl
  | cons a l ih =>
    by_cases e : a = z
    · subst e
      rw [List.erase_cons_head, List.find?_cons_of_neg _ (by rw [hz]; simp)]
    · rw [List.erase_cons_tail (by simpa using e)]
      by_cases hp : p a = true
      · rw [List.find?_cons_of_pos _ hp, List.find?_cons_of_pos _ hp]
      · rw [List.find?_cons_of_neg _ hp, List.find?_cons_of_neg _ hp, ih]

theorem find_congr (p q : BufId → Bool) (l : List BufId) (h : ∀ a ∈ l, p a = q a) :
    l.find? p = l.find? q := by
  induction l with
  | nil => rfl
  | cons a l ih =>
    have ha := h a (List.mem_cons_self _ _)
    have ih1 := ih (fun b hb => h b (List.mem_cons_of_mem _ hb))
    by_cases hp : p a = true
    · rw [List.find?_cons_of_pos _ hp, List.find?_cons_of_pos _ (ha ▸ hp)]
    · rw [List.find?_cons_of_neg _ hp, List.find?_cons_of_neg _ (ha ▸ hp), ih1]

/-- A change of fields other than dev and blockno, with the lists as they
were, does not change which buffer `bget` finds. -/
theorem cachedAt_of_same (s s1 : Bio) (b : BufId) (hl : s1.lru = s.lru)
    (hd : ∀ c, (s1.buf c).dev = (s.buf c).dev ∧ (s1.buf c).blockno = (s.buf c).blockno) :
    cachedAt s1 b ↔ cachedAt s b := by
  unfold cachedAt
  rw [hl, (hd b).1, (hd b).2]
  have : holdsBlock s1 (s.buf b).dev (s.buf b).blockno = holdsBlock s (s.buf b).dev (s.buf b).blockno := by
    funext c
    unfold holdsBlock
    rw [(hd c).1, (hd c).2]
  rw [this]

/-- Recycling `z` for a block that misses in its bucket. -/
theorem cachedAt_recycle (s : Bio) (z : BufId) (v : Buf)
    (hnd : (s.lru (v.blockno % BCACHE_BUCKET)).Nodup)
    (hz : z ∈ s.lru (v.blockno % BCACHE_BUCKET))
    (hmiss : ∀ b ∈ s.lru (v.blockno % BCACHE_BUCKET),
      ¬ ((s.buf b).dev = v.dev ∧ (s.buf b).blockno = v.blockno)) :
    cachedAt (s.setBuf z v) z ∧ ∀ x, x ≠ z → cachedAt s x → cachedAt (s.setBuf z v) x := by
  have hbz : (s.setBuf z v).buf z = v := by simp only [Bio.setBuf, if_true]
  have hbo : ∀ c, c ≠ z → (s.setBuf z v).buf c = s.buf c := by
    intro c hc
    simp only [Bio.setBuf, if_neg hc]
  constructor
  · unfold cachedAt
    rw [hbz]
    show (s.lru (v.blockno % BCACHE_BUCKET)).find? _ = some z
    rw [List.find?_eq_some]
    obtain ⟨as, bs, hl⟩ := List.append_of_mem hz
    refine ⟨by simp [holdsBlock, hbz], as, bs, hl, ?_⟩
    intro a ha
    have haz : a ≠ z := by
      intro e
      rw [hl] at hnd
      have := (List.nodup_append.mp hnd).2.2
      exact this (e ▸ ha) (List.mem_cons_self _ _)
    have hmem : a ∈ s.lru (v.blockno % BCACHE_BUCKET) := by
      rw [hl]; exact List.mem_append_left _ ha
    have := hmiss a hmem
    simp only [holdsBlock, hbo a haz, decide_eq_false this]
    rfl
  · intro x hx hc
    unfold cachedAt at hc ⊢
    rw [hbo x hx]
    show (s.lru ((s.buf x).blockno % BCACHE_BUCKET)).find? _ = some x
    have hxm := List.mem_of_find?_eq_some hc
    have hpz : ¬ (v.dev = (s.buf x).dev ∧ v.blockno = (s.buf x).blockno) := by
      intro ⟨e1, e2⟩
      rw [← e2] at hxm
      exact hmiss x hxm ⟨e1.symm, e2.symm⟩
    rw [List.find?_eq_some] at hc ⊢
    obtain ⟨hpx, as, bs, hl, hbefore⟩ := hc
    refine ⟨?_, as, bs, hl, ?_⟩
    · simp only [holdsBlock, hbo x hx]
      simp
    · intro a ha
      by_cases haz : a = z
      · subst haz
        simp only [holdsBlock, hbz, decide_eq_false hpz]
        rfl
      · have := hbefore a ha
        simp only [holdsBlock, hbo a haz]
        exact this

/-- Moving `z`, found by `bget` for its own block, to the front of its
bucket. -/
theorem cachedAt_move (s : Bio) (z x : BufId) (hz : cachedAt s z) (hx : cachedAt s x) :
    cachedAt { s with lru := fun k => if k = (s.buf z).blockno % BCACHE_BUCKET
      then z :: (s.lru k).erase z else (s.lru k).erase z } x := by
  unfold cachedAt at hz hx ⊢
  show List.find? (holdsBlock s (s.buf x).dev (s.buf x).blockno)
    (if (s.buf x).blockno % BCACHE_BUCKET = (s.buf z).blockno % BCACHE_BUCKET
      then z :: (s.lru ((s.buf x).blockno % BCACHE_BUCKET)).erase z
      else (s.lru ((s.buf x).blockno % BCACHE_BUCKET)).erase z) = some x
  by_cases hxz : x = z
  · subst hxz
    rw [if_pos rfl]
    exact List.find?_cons_of_pos _ (by simp [holdsBlock])
  · have hpz : holdsBlock s (s.buf x).dev (s.buf x).blockno z = false := by
      by_contra hc
      have hc1 : (s.buf z).dev = (s.buf x).dev ∧ (s.buf z).blockno = (s.buf x).blockno := by
        simpa [holdsBlock] using hc
      rw [hc1.1, hc1.2, hx] at hz
      exact hxz (Option.some.inj hz)
    split
    · rw [List.find?_cons_of_neg _ (by rw [hpz]; simp), find_erase_of_neg _ z hpz, hx]
    · rw [find_erase_of_neg _ z hpz, hx]

theorem mem_of_cachedAt (s : Bio) (b : BufId) (h : cachedAt s b) :
    b ∈ s.lru ((s.buf b).blockno % BCACHE_BUCKET) :=
  List.mem_of_find?_eq_some h

/-- Field changes that leave dev, blockno and the lists alone, and make no
buffer sleep-locked or valid that was not, keep the invariant. -/
theorem bioInv_of_same (s s1 : Bio) (hi : BioInv s) (hl : s1.lru = s.lru)
    (hd : ∀ c, (s1.buf c).dev = (s.buf c).dev ∧ (s1.buf c).blockno = (s.buf c).blockno)
    (hf : ∀ c, ((s1.buf c).locked = true ∨ (s1.buf c).valid ≠ 0) → cachedAt s c)
    (hv : ∀ c, (s1.buf c).valid ≤ 1) : BioInv s1 := by
  refine ⟨?_, ?_, ?_, hv⟩
  · intro k; rw [hl]; exact hi.nodup k
  · intro k1 k2 b; rw [hl]; exact hi.disjoint k1 k2 b
  · intro b hb
    exact (cachedAt_of_same s s1 b hl hd).mpr (hf b hb)

theorem bioInv_bpin (s : Bio) (b : BufId) (hi : BioInv s) : BioInv (bpin s b) := by
  refine bioInv_of_same s (bpin s b) hi rfl ?_ ?_ ?_
  · intro c
    unfold bpin Bio.setBuf
    by_cases e : c = b
    · simp [e]
    · simp [e]
  · intro c hc
    apply hi.first
    unfold bpin Bio.setBuf at hc
    by_cases e : c = b
    · simpa [e] using hc
    · simpa [e] using hc
  · intro c
    unfold bpin Bio.setBuf
    by_cases e : c = b
    · simpa [e] using hi.valid01 b
    · simpa [e] using hi.valid01 c

theorem bioInv_bunpin (s : Bio) (b : BufId) (hi : BioInv s) : BioInv (bunpin s b) := by
  refine bioInv_of_same s (bunpin s b) hi rfl ?_ ?_ ?_
  · intro c
    unfold bunpin Bio.setBuf
    by_cases e : c = b
    · simp [e]
    · simp [e]
  · intro c hc
    apply hi.first
    unfold bunpin Bio.setBuf at hc
    by_cases e : c = b
    · simpa [e] using hc
    · simpa [e] using hc
  · intro c
    unfold bunpin Bio.setBuf
    by_cases e : c = b
    · simpa [e] using hi.valid01 b
    · simpa [e] using hi.valid01 c

theorem bioInv_bwrite (s s1 : Bio) (b : BufId) (hi : BioInv s) (h : bwrite s b = .ok s1) :
    BioInv s1 := by
  unfold bwrite at h
  split at h
  · cases h
  · simp only [Except.ok.injEq] at h
    subst h
    unfold virtio_disk_rw
    simp only [if_true]
    exact ⟨hi.nodup, hi.disjoint, hi.first, hi.valid01⟩

theorem setBuf_same (s : Bio) (b : BufId) (v : Buf) : (s.setBuf b v).buf b = v := by
  simp only [Bio.setBuf, if_true]

theorem setBuf_other (s : Bio) (b c : BufId) (v : Buf) (h : c ≠ b) :
    (s.setBuf b v).buf c = s.buf c := by
  simp only [Bio.setBuf, if_neg h]

theorem cachedAt_of_find (s : Bio) (dev blockno : Nat) (x : BufId)
    (h : (s.lru (blockno % BCACHE_BUCKET)).find? (holdsBlock s dev blockno) = some x) :
    (s.buf x).dev = dev ∧ (s.buf x).blockno = blockno ∧ cachedAt s x := by
  have hp := List.find?_some h
  have hp1 : (s.buf x).dev = dev ∧ (s.buf x).blockno = blockno := by
    simpa [holdsBlock] using hp
  refine ⟨hp1.1, hp1.2, ?_⟩
  unfold cachedAt
  rw [hp1.1, hp1.2]
  exact h

theorem bioInv_acquiresleep (s s1 : Bio) (b : BufId) (hi : BioInv s) (hb : cachedAt s b)
    (h : acquiresleep s b = .ok s1) : BioInv s1 := by
  unfold acquiresleep at h
  split at h
  · cases h
  · simp only [Except.ok.injEq] at h
    subst h
    refine bioInv_of_same s _ hi rfl ?_ ?_ ?_
    · intro c
      by_cases e : c = b
      · subst e; rw [setBuf_same]; exact ⟨rfl, rfl⟩
      · rw [setBuf_other _ _ _ _ e]; exact ⟨rfl, rfl⟩
    · intro c hc
      by_cases e : c = b
      · subst e; exact hb
      · rw [setBuf_other _ _ _ _ e] at hc; exact hi.first c hc
    · intro c
      by_cases e : c = b
      · subst e; rw [setBuf_same]; exact hi.valid01 c
      · rw [setBuf_other _ _ _ _ e]; exact hi.valid01 c

/-- The scans of `bget` keep the invariant, and the buffer they yield is the
one `bget` finds for the requested block from then on. -/
theorem bioInv_bget_find (s s1 : Bio) (dev blockno : Nat) (b : BufId) (hi : BioInv s)
    (h : bget_find s dev blockno = .ok (b, s1)) :
    BioInv s1 ∧ cachedAt s1 b ∧ (s1.buf b).dev = dev ∧ (s1.buf b).blockno = blockno ∧
      s1.lru = s.lru ∧ s1.disk = s.disk ∧ s1.diskops = s.diskops := by
  cases hf : (s.lru (blockno % BCACHE_BUCKET)).find? (holdsBlock s dev blockno) with
  | some x =>
    rw [bget_find_hit s dev blockno x hf] at h
    simp only [Except.ok.injEq, Prod.mk.injEq] at h
    obtain ⟨hx, hs⟩ := h
    subst hx
    obtain ⟨e1, e2, hc⟩ := cachedAt_of_find s dev blockno x hf
    have hd : ∀ c, (s1.buf c).dev = (s.buf c).dev ∧ (s1.buf c).blockno = (s.buf c).blockno := by
      intro c
      rw [← hs]
      by_cases e : c = x
      · subst e; rw [setBuf_same]; exact ⟨rfl, rfl⟩
      · rw [setBuf_other _ _ _ _ e]; exact ⟨rfl, rfl⟩
    have hl : s1.lru = s.lru := by rw [← hs]; rfl
    refine ⟨bioInv_of_same s s1 hi hl hd ?_ ?_, (cachedAt_of_same s s1 x hl hd).mpr hc,
      (hd x).1.trans e1, (hd x).2.trans e2, hl, by rw [← hs]; rfl, by rw [← hs]; rfl⟩
    · intro c hcn
      apply hi.first
      rw [← hs] at hcn
      by_cases e : c = x
      · subst e; rw [setBuf_same] at hcn; exact hcn
      · rw [setBuf_other _ _ _ _ e] at hcn; exact hcn
    · intro c
      rw [← hs]
      by_cases e : c = x
      · subst e; rw [setBuf_same]; exact hi.valid01 c
      · rw [setBuf_other _ _ _ _ e]; exact hi.valid01 c
  | none =>
    have hmiss : ∀ c ∈ s.lru (blockno % BCACHE_BUCKET),
        ¬ ((s.buf c).dev = dev ∧ (s.buf c).blockno = blockno) := by
      intro c hc
      have := List.find?_eq_none.mp hf c hc
      simpa [holdsBlock] using this
    rw [bget_find_miss s dev blockno hmiss] at h
    cases hr : (s.lru (blockno % BCACHE_BUCKET)).reverse.find? (fun b => decide ((s.buf b).refcnt = 0))
      with
    | none => rw [hr] at h; cases h
    | some z =>
      rw [hr] at h
      simp only [Except.ok.injEq, Prod.mk.injEq] at h
      obtain ⟨hz, hs⟩ := h
      subst hz
      have hzm : z ∈ s.lru (blockno % BCACHE_BUCKET) :=
        List.mem_reverse.mp (List.mem_of_find?_eq_some hr)
      obtain ⟨r1, r2⟩ := cachedAt_recycle s z
        { s.buf z with dev := dev, blockno := blockno, valid := 0, refcnt := 1 }
        (hi.nodup _) hzm hmiss
      rw [hs] at r1 r2
      have hbz : s1.buf z = { s.buf z with dev := dev, blockno := blockno, valid := 0, refcnt := 1 } := by
        rw [← hs, setBuf_same]
      have hl : s1.lru = s.lru := by rw [← hs]; rfl
      refine ⟨⟨?_, ?_, ?_, ?_⟩, r1, by rw [hbz], by rw [hbz], hl, by rw [← hs]; rfl,
        by rw [← hs]; rfl⟩
      · intro k; rw [hl]; exact hi.nodup k
      · intro k1 k2 c; rw [hl]; exact hi.disjoint k1 k2 c
      · intro c hcn
        by_cases e : c = z
        · subst e; exact r1
        · apply r2 c e
          apply hi.first
          rw [← hs, setBuf_other _ _ _ _ e] at hcn
          exact hcn
      · intro c
        by_cases e : c = z
        · subst e; rw [hbz]; exact Nat.zero_le _
        · rw [← hs, setBuf_other _ _ _ _ e]; exact hi.valid01 c

theorem bget_split (s s2 : Bio) (dev blockno : Nat) (b : BufId)
    (h : bget s dev blockno = .ok (b, s2)) :
    ∃ s1, bget_find s dev blockno = .ok (b, s1) ∧ acquiresleep s1 b = .ok s2 := by
  unfold bget at h
  cases hf : bget_find s dev blockno with
  | error e => rw [hf] at h; cases h
  | ok p =>
    obtain ⟨b1, s1⟩ := p
    rw [hf] at h
    simp only at h
    cases ha : acquiresleep s1 b1 with
    | error e => rw [ha] at h; cases h
    | ok s3 =>
      rw [ha] at h
      simp only [Except.ok.injEq, Prod.mk.injEq] at h
      obtain ⟨e1, e2⟩ := h
      subst e1 e2
      exact ⟨s1, rfl, ha⟩

theorem acquiresleep_fields (s s1 : Bio) (b : BufId) (h : acquiresleep s b = .ok s1) :
    (s.buf b).locked = false ∧ s1 = s.setBuf b { s.buf b with locked := true } := by
  unfold acquiresleep at h
  split at h
  · cases h
  · rename_i hl
    simp only [Except.ok.injEq] at h
    exact ⟨by simpa using hl, h.symm⟩

theorem bioInv_bget (s s2 : Bio) (dev blockno : Nat) (b : BufId) (hi : BioInv s)
    (h : bget s dev blockno = .ok (b, s2)) :
    BioInv s2 ∧ cachedAt s2 b ∧ (s2.buf b).dev = dev ∧ (s2.buf b).blockno = blockno ∧
      (s2.buf b).locked = true := by
  obtain ⟨s1, hf, ha⟩ := bget_split s s2 dev blockno b h
  obtain ⟨i1, c1, d1, b1, _, _, _⟩ := bioInv_bget_find s s1 dev blockno b hi hf
  have i2 := bioInv_acquiresleep s1 s2 b i1 c1 ha
  obtain ⟨_, e⟩ := acquiresleep_fields s1 s2 b ha
  have hb : s2.buf b = { s1.buf b with locked := true } := by rw [e, setBuf_same]
  refine ⟨i2, i2.first b (Or.inl (by rw [hb])), by rw [hb]; exact d1, by rw [hb]; exact b1,
    by rw [hb]⟩

theorem bread_split (s s3 : Bio) (dev blockno : Nat) (b : BufId)
    (h : bread s dev blockno = .ok (b, s3)) :
    ∃ s2, bget s dev blockno = .ok (b, s2) ∧
      (((s2.buf b).valid = 0 ∧ s3 = (virtio_disk_rw s2 b false).setBuf b
          { (virtio_disk_rw s2 b false).buf b with valid := 1 }) ∨
        ((s2.buf b).valid ≠ 0 ∧ s3 = s2)) := by
  unfold bread at h
  cases hg : bget s dev blockno with
  | error e => rw [hg] at h; cases h
  | ok p =>
    obtain ⟨b1, s2⟩ := p
    rw [hg] at h
    simp only at h
    by_cases hv : (s2.buf b1).valid = 0
    · rw [if_pos hv] at h
      simp only [Except.ok.injEq, Prod.mk.injEq] at h
      obtain ⟨e1, e2⟩ := h
      subst e1
      exact ⟨s2, rfl, Or.inl ⟨hv, e2.symm⟩⟩
    · rw [if_neg hv] at h
      simp only [Except.ok.injEq, Prod.mk.injEq] at h
      obtain ⟨e1, e2⟩ := h
      subst e1
      exact ⟨s2, rfl, Or.inr ⟨hv, e2.symm⟩⟩

theorem read_buf (s : Bio) (b c : BufId) :
    ((virtio_disk_rw s b false).setBuf b { (virtio_disk_rw s b false).buf b with valid := 1 }).buf c =
      if c = b then { s.buf b with valid := 1, data := s.disk (s.buf b).dev (s.buf b).blockno }
      else s.buf c := by
  by_cases e : c = b
  · subst e
    rw [setBuf_same, if_pos rfl]
    simp only [virtio_disk_rw, Bool.false_eq_true, if_false, Bio.setBuf, if_true]
  · rw [setBuf_other _ _ _ _ e, if_neg e]
    simp only [virtio_disk_rw, Bool.false_eq_true, if_false, Bio.setBuf, if_neg e]

theorem bioInv_bread (s s3 : Bio) (dev blockno : Nat) (b : BufId) (hi : BioInv s)
    (h : bread s dev blockno = .ok (b, s3)) :
    BioInv s3 ∧ cachedAt s3 b ∧ (s3.buf b).dev = dev ∧ (s3.buf b).blockno = blockno ∧
      (s3.buf b).locked = true ∧ (s3.buf b).valid = 1 := by
  obtain ⟨s2, hg, hcase⟩ := bread_split s s3 dev blockno b h
  obtain ⟨i2, c2, d2, n2, l2⟩ := bioInv_bget s s2 dev blockno b hi hg
  rcases hcase with ⟨hv, e⟩ | ⟨hv, e⟩
  · have hb : ∀ c, s3.buf c = if c = b then
        { s2.buf b with valid := 1, data := s2.disk (s2.buf b).dev (s2.buf b).blockno }
        else s2.buf c := by
      intro c; rw [e]; exact read_buf s2 b c
    have hl : s3.lru = s2.lru := by
      rw [e]
      simp only [virtio_disk_rw, Bool.false_eq_true, if_false, Bio.setBuf]
    have hd : ∀ c, (s3.buf c).dev = (s2.buf c).dev ∧ (s3.buf c).blockno = (s2.buf c).blockno := by
      intro c
      rw [hb c]
      by_cases e1 : c = b
      · subst e1; rw [if_pos rfl]; exact ⟨rfl, rfl⟩
      · rw [if_neg e1]; exact ⟨rfl, rfl⟩
    have i3 : BioInv s3 := by
      refine bioInv_of_same s2 s3 i2 hl hd ?_ ?_
      · intro c hc
        by_cases e1 : c = b
        · subst e1; exact c2
        · rw [hb c, if_neg e1] at hc; exact i2.first c hc
      · intro c
        rw [hb c]
        by_cases e1 : c = b
        · subst e1; rw [if_pos rfl]
        · rw [if_neg e1]; exact i2.valid01 c
    have hbb := hb b
    rw [if_pos rfl] at hbb
    exact ⟨i3, (cachedAt_of_same s2 s3 b hl hd).mpr c2, by rw [hbb]; exact d2,
      by rw [hbb]; exact n2, by rw [hbb]; exact l2, by rw [hbb]⟩
  · subst e
    have := i2.valid01 b
    exact ⟨i2, c2, d2, n2, l2, by omega⟩

theorem cachedAt_moved (s s3 : Bio) (z x : BufId) (hbuf : s3.buf = s.buf)
    (hlru : s3.lru = fun k => if k = (s.buf z).blockno % BCACHE_BUCKET
      then z :: (s.lru k).erase z else (s.lru k).erase z)
    (hz : cachedAt s z) (hx : cachedAt s x) : cachedAt s3 x := by
  have := cachedAt_move s z x hz hx
  unfold cachedAt at this ⊢
  have hh : holdsBlock s3 (s3.buf x).dev (s3.buf x).blockno =
      holdsBlock s (s.buf x).dev (s.buf x).blockno := by
    funext c
    unfold holdsBlock
    rw [hbuf]
  rw [hh, hlru, hbuf]
  exact this

/-- What a call of `brelse` that returns does. -/
theorem brelse_ok (s s3 : Bio) (b : BufId) (h : brelse s b = .ok s3) :
    (s.buf b).locked = true ∧
    (∀ c, s3.buf c = if c = b then
      { s.buf b with locked := false, refcnt := ((s.buf b).refcnt + (2 ^ 32 - 1)) % 2 ^ 32 }
      else s.buf c) ∧
    ((((s.buf b).refcnt + (2 ^ 32 - 1)) % 2 ^ 32 = 0 ∧
        s3.lru = fun k => if k = (s.buf b).blockno % BCACHE_BUCKET
          then b :: (s.lru k).erase b else (s.lru k).erase b) ∨
      (((s.buf b).refcnt + (2 ^ 32 - 1)) % 2 ^ 32 ≠ 0 ∧ s3.lru = s.lru)) ∧
    s3.disk = s.disk ∧ s3.diskops = s.diskops := by
  unfold brelse at h
  by_cases hl : holdingsleep s b = false
  · rw [if_pos hl] at h; cases h
  · rw [if_neg hl] at h
    have hlk : (s.buf b).locked = true := by simpa [holdingsleep] using hl
    simp only [releasesleep, setBuf_same] at h
    have hbufs : ∀ c, ((s.setBuf b { s.buf b with locked := false }).setBuf b
        { valid := (s.buf b).valid, dev := (s.buf b).dev, blockno := (s.buf b).blockno,
          refcnt := ((s.buf b).refcnt + (2 ^ 32 - 1)) % 2 ^ 32, locked := false,
          data := (s.buf b).data }).buf c = if c = b then
        { s.buf b with locked := false, refcnt := ((s.buf b).refcnt + (2 ^ 32 - 1)) % 2 ^ 32 }
        else s.buf c := by
      intro c
      by_cases e : c = b
      · subst e; rw [setBuf_same, if_pos rfl]
      · rw [setBuf_other _ _ _ _ e, setBuf_other _ _ _ _ e, if_neg e]
    by_cases hr : ((s.buf b).refcnt + (2 ^ 32 - 1)) % 2 ^ 32 = 0
    · rw [if_pos hr] at h
      simp only [Except.ok.injEq] at h
      subst h
      exact ⟨hlk, hbufs, Or.inl ⟨hr, rfl⟩, rfl, rfl⟩
    · rw [if_neg hr] at h
      simp only [Except.ok.injEq] at h
      subst h
      exact ⟨hlk, hbufs, Or.inr ⟨hr, rfl⟩, rfl, rfl⟩

theorem bioInv_brelse (s s3 : Bio) (b : BufId) (hi : BioInv s) (h : brelse s b = .ok s3) :
    BioInv s3 := by
  obtain ⟨hlk, hb, hcase, _, _⟩ := brelse_ok s s3 b h
  have hd : ∀ c, (s3.buf c).dev = (s.buf c).dev ∧ (s3.buf c).blockno = (s.buf c).blockno := by
    intro c
    rw [hb c]
    by_cases e : c = b
    · subst e; rw [if_pos rfl]; exact ⟨rfl, rfl⟩
    · rw [if_neg e]; exact ⟨rfl, rfl⟩
  have hne : ∀ c, ((s3.buf c).locked = true ∨ (s3.buf c).valid ≠ 0) →
      ((s.buf c).locked = true ∨ (s.buf c).valid ≠ 0) := by
    intro c hc
    rw [hb c] at hc
    by_cases e : c = b
    · subst e; exact Or.inl hlk
    · rw [if_neg e] at hc; exact hc
  have hv : ∀ c, (s3.buf c).valid ≤ 1 := by
    intro c
    rw [hb c]
    by_cases e : c = b
    · subst e; rw [if_pos rfl]; exact hi.valid01 c
    · rw [if_neg e]; exact hi.valid01 c
  rcases hcase with ⟨_, hl⟩ | ⟨_, hl⟩
  · -- the buffer moves to the front of its bucket
    have hbb : ((({ s with buf := s3.buf } : Bio)).buf b).blockno = (s.buf b).blockno := (hd b).2
    have hmem : ∀ k c, c ∈ s3.lru k ↔
        (c = b ∧ k = (s.buf b).blockno % BCACHE_BUCKET) ∨ (c ≠ b ∧ c ∈ s.lru k) := by
      intro k c
      rw [hl]
      by_cases hk : k = (s.buf b).blockno % BCACHE_BUCKET
      · simp only [if_pos hk, List.mem_cons, (hi.nodup k).mem_erase_iff]
        constructor
        · rintro (e | ⟨e1, e2⟩)
          · exact Or.inl ⟨e, hk⟩
          · exact Or.inr ⟨e1, e2⟩
        · rintro (⟨e, _⟩ | ⟨e1, e2⟩)
          · exact Or.inl e
          · exact Or.inr ⟨e1, e2⟩
      · simp only [if_neg hk, (hi.nodup k).mem_erase_iff]
        constructor
        · rintro ⟨e1, e2⟩
          exact Or.inr ⟨e1, e2⟩
        · rintro (⟨_, e⟩ | ⟨e1, e2⟩)
          · exact absurd e hk
          · exact ⟨e1, e2⟩
    refine ⟨?_, ?_, ?_, hv⟩
    · intro k
      rw [hl]
      by_cases hk : k = (s.buf b).blockno % BCACHE_BUCKET
      · simp only [if_pos hk]
        rw [List.nodup_cons]
        exact ⟨fun hc => ((hi.nodup k).mem_erase_iff.mp hc).1 rfl, (hi.nodup k).erase b⟩
      · simp only [if_neg hk]
        exact (hi.nodup k).erase b
    · intro k1 k2 c h1 h2
      rcases (hmem k1 c).mp h1 with ⟨e1, f1⟩ | ⟨e1, f1⟩
      · rcases (hmem k2 c).mp h2 with ⟨_, f2⟩ | ⟨e2, _⟩
        · rw [f1, f2]
        · exact absurd e1 e2
      · rcases (hmem k2 c).mp h2 with ⟨e2, _⟩ | ⟨_, f2⟩
        · exact absurd e2 e1
        · exact hi.disjoint k1 k2 c f1 f2
    · intro c hc
      have hcb : cachedAt { s with buf := s3.buf } b :=
        (cachedAt_of_same s { s with buf := s3.buf } b rfl hd).mpr (hi.first b (Or.inl hlk))
      have hcc : cachedAt { s with buf := s3.buf } c :=
        (cachedAt_of_same s { s with buf := s3.buf } c rfl hd).mpr (hi.first c (hne c hc))
      refine cachedAt_moved { s with buf := s3.buf } s3 b c rfl ?_ hcb hcc
      rw [hl, hbb]
  · exact bioInv_of_same s s3 hi hl hd (fun c hc => hi.first c (hne c hc)) hv

/-- Every call that returns keeps the invariant. -/
theorem bioInv_run (c : BioCall) (s s1 : Bio) (hi : BioInv s) (h : c.run s = .ok s1) :
    BioInv s1 := by
  cases c with
  | bget dev blockno =>
    simp only [BioCall.run] at h
    cases hg : bget s dev blockno with
    | error e => rw [hg] at h; cases h
    | ok p =>
      obtain ⟨b, s2⟩ := p
      rw [hg] at h
      simp only [Except.map, Except.ok.injEq] at h
      subst h
      exact (bioInv_bget s s2 dev blockno b hi hg).1
  | bread dev blockno =>
    simp only [BioCall.run] at h
    cases hg : bread s dev blockno with
    | error e => rw [hg] at h; cases h
    | ok p =>
      obtain ⟨b, s2⟩ := p
      rw [hg] at h
      simp only [Except.map, Except.ok.injEq] at h
      subst h
      exact (bioInv_bread s s2 dev blockno b hi hg).1
  | bwrite b => exact bioInv_bwrite s s1 b hi h
  | brelse b => exact bioInv_brelse s s1 b hi h
  | bpin b =>
    simp only [BioCall.run, Except.ok.injEq] at h
    subst h
    exact bioInv_bpin s b hi
  | bunpin b =>
    simp only [BioCall.run, Except.ok.injEq] at h
    subst h
    exact bioInv_bunpin s b hi

theorem bioInv_runCalls (cs : List BioCall) : ∀ (s s1 : Bio), BioInv s →
    runCalls s cs = .ok s1 → BioInv s1 := by
  induction cs with
  | nil =>
    intro s s1 hi h
    simp only [runCalls, Except.ok.injEq] at h
    exact h ▸ hi
  | cons c cs ih =>
    intro s s1 hi h
    simp only [runCalls] at h
    cases hc : c.run s with
    | error e => rw [hc] at h; cases h
    | ok s2 =>
      rw [hc] at h
      exact ih s2 s1 (bioInv_run c s s2 hi hc) h

/-! ## `binit` -/

/-- The buffer of the static storage before `binit`. -/
theorem bcacheZero_buf (disk : Nat → Nat → Nat → Nat) (b : BufId) :
    (bcacheZero disk).buf b = ⟨0, 0, 0, 0, false, fun _ => 0⟩ := rfl

theorem binit_bucket_spec (buci : Nat) : ∀ (n i : Nat) (s : Bio),
    (∀ b, s.buf b = ⟨0, 0, 0, 0, false, fun _ => 0⟩) →
    (∀ b, (binit_bucket buci n i s).buf b = ⟨0, 0, 0, 0, false, fun _ => 0⟩) ∧
    (binit_bucket buci n i s).lru buci =
      ((List.range' i n).map (BufId.mk buci)).reverse ++ s.lru buci ∧
    (∀ k, k ≠ buci → (binit_bucket buci n i s).lru k = s.lru k) ∧
    (binit_bucket buci n i s).disk = s.disk ∧ (binit_bucket buci n i s).diskops = s.diskops := by
  intro n
  induction n with
  | zero =>
    intro i s hz
    simp only [binit_bucket, List.range'_zero, List.map_nil, List.reverse_nil, List.nil_append]
    exact ⟨hz, trivial, fun _ _ => trivial, trivial, trivial⟩
  | succ n ih =>
    intro i s hz
    rw [binit_bucket]
    have hz1 : ∀ b, ({ (s.setBuf ⟨buci, i⟩ { s.buf ⟨buci, i⟩ with locked := false }) with
        lru := fun k => if k = buci then ⟨buci, i⟩ :: s.lru k else s.lru k } : Bio).buf b =
        ⟨0, 0, 0, 0, false, fun _ => 0⟩ := by
      intro b
      show (s.setBuf ⟨buci, i⟩ { s.buf ⟨buci, i⟩ with locked := false }).buf b = _
      by_cases e : b = ⟨buci, i⟩
      · rw [e, setBuf_same, hz]
      · rw [setBuf_other _ _ _ _ e, hz]
    obtain ⟨j1, j2, j3, j4, j5⟩ := ih (i + 1) _ hz1
    refine ⟨j1, ?_, ?_, j4, j5⟩
    · rw [j2]
      simp only [if_true, List.range'_succ, List.map_cons, List.reverse_cons, List.append_assoc,
        List.singleton_append]
    · intro k hk
      rw [j3 k hk]
      simp only [if_neg hk]

theorem binit_loop_spec (NBUF : Nat) : ∀ (n buci : Nat) (s : Bio),
    (∀ b, s.buf b = ⟨0, 0, 0, 0, false, fun _ => 0⟩) →
    (∀ b, (binit_loop NBUF n buci s).buf b = ⟨0, 0, 0, 0, false, fun _ => 0⟩) ∧
    (∀ k, (binit_loop NBUF n buci s).lru k =
      if buci ≤ k ∧ k < buci + n then ((List.range' 0 NBUF).map (BufId.mk k)).reverse
      else s.lru k) ∧
    (binit_loop NBUF n buci s).disk = s.disk ∧ (binit_loop NBUF n buci s).diskops = s.diskops := by
  intro n
  induction n with
  | zero =>
    intro buci s hz
    simp only [binit_loop]
    refine ⟨hz, ?_, trivial, trivial⟩
    intro k
    rw [if_neg (by omega)]
  | succ n ih =>
    intro buci s hz
    rw [binit_loop]
    obtain ⟨b1, b2, b3, b4, b5⟩ := binit_bucket_spec buci NBUF 0
      { s with lru := fun k => if k = buci then [] else s.lru k } hz
    obtain ⟨j1, j2, j3, j4⟩ := ih (buci + 1) _ b1
    refine ⟨j1, ?_, j3.trans b4, j4.trans b5⟩
    intro k
    rw [j2 k]
    by_cases h1 : buci + 1 ≤ k ∧ k < buci + 1 + n
    · rw [if_pos h1, if_pos (by omega)]
    · rw [if_neg h1]
      by_cases h2 : k = buci
      · subst h2
        rw [if_pos (by omega), b2]
        simp only [if_true, List.append_nil]
      · rw [if_neg (by omega), b3 k h2]
        simp only [if_neg h2]

/-- The state after `binit`: every buffer is zero and bucket `k` lists its
`NBUF` buffers, the last one first. -/
theorem binit_spec (NBUF : Nat) (disk : Nat → Nat → Nat → Nat) :
    (∀ b, (binit NBUF (bcacheZero disk)).buf b = ⟨0, 0, 0, 0, false, fun _ => 0⟩) ∧
    (∀ k, (binit NBUF (bcacheZero disk)).lru k =
      if k < BCACHE_BUCKET then ((List.range' 0 NBUF).map (BufId.mk k)).reverse else []) ∧
    (binit NBUF (bcacheZero disk)).disk = disk ∧ (binit NBUF (bcacheZero disk)).diskops = [] := by
  obtain ⟨j1, j2, j3, j4⟩ := binit_loop_spec NBUF BCACHE_BUCKET 0 (bcacheZero disk)
    (bcacheZero_buf disk)
  refine ⟨j1, ?_, j3, j4⟩
  intro k
  rw [show binit NBUF (bcacheZero disk) = binit_loop NBUF BCACHE_BUCKET 0 (bcacheZero disk) from rfl,
    j2 k]
  by_cases h : k < BCACHE_BUCKET
  · rw [if_pos (by omega), if_pos h]
  · rw [if_neg (by omega), if_neg h]
    rfl

theorem bioInv_binit (NBUF : Nat) (disk : Nat → Nat → Nat → Nat) :
    BioInv (binit NBUF (bcacheZero disk)) := by
  obtain ⟨j1, j2, _, _⟩ := binit_spec NBUF disk
  have hmem : ∀ k b, b ∈ (binit NBUF (bcacheZero disk)).lru k → b.bucket = k := by
    intro k b hb
    rw [j2 k] at hb
    split at hb
    · simp only [List.mem_reverse, List.mem_map] at hb
      obtain ⟨i, _, e⟩ := hb
      rw [← e]
    · cases hb
  refine ⟨?_, ?_, ?_, ?_⟩
  · intro k
    rw [j2 k]
    split
    · rw [List.nodup_reverse]
      apply List.Nodup.map
      · intro a b e
        exact (BufId.mk.injEq _ _ _ _ ▸ e).2
      · exact List.nodup_range' 0 NBUF
    · exact List.nodup_nil
  · intro k1 k2 b h1 h2
    rw [← hmem k1 b h1, ← hmem k2 b h2]
  · intro b hb
    rw [j1 b] at hb
    simp at hb
  · intro b
    rw [j1 b]
    exact Nat.zero_le _

/-! ## A held buffer keeps its block -/

/-- The two ways in which the scans of `bget` end with a buffer. -/
theorem bget_find_cases (s s1 : Bio) (dev blockno : Nat) (b : BufId)
    (h : bget_find s dev blockno = .ok (b, s1)) :
    ((s.lru (blockno % BCACHE_BUCKET)).find? (holdsBlock s dev blockno) = some b ∧
      s1 = s.setBuf b { s.buf b with refcnt := ((s.buf b).refcnt + 1) % 2 ^ 32 }) ∨
    ((∀ c ∈ s.lru (blockno % BCACHE_BUCKET),
        ¬ ((s.buf c).dev = dev ∧ (s.buf c).blockno = blockno)) ∧
      b ∈ s.lru (blockno % BCACHE_BUCKET) ∧ (s.buf b).refcnt = 0 ∧
      s1 = s.setBuf b { s.buf b with dev := dev, blockno := blockno, valid := 0, refcnt := 1 }) := by
  cases hf : (s.lru (blockno % BCACHE_BUCKET)).find? (holdsBlock s dev blockno) with
  | some x =>
    rw [bget_find_hit s dev blockno x hf] at h
    simp only [Except.ok.injEq, Prod.mk.injEq] at h
    obtain ⟨hx, hs⟩ := h
    subst hx
    exact Or.inl ⟨rfl, hs.symm⟩
  | none =>
    have hmiss : ∀ c ∈ s.lru (blockno % BCACHE_BUCKET),
        ¬ ((s.buf c).dev = dev ∧ (s.buf c).blockno = blockno) := by
      intro c hc
      have := List.find?_eq_none.mp hf c hc
      simpa [holdsBlock] using this
    rw [bget_find_miss s dev blockno hmiss] at h
    cases hr : (s.lru (blockno % BCACHE_BUCKET)).reverse.find? (fun b => decide ((s.buf b).refcnt = 0))
      with
    | none => rw [hr] at h; cases h
    | some z =>
      rw [hr] at h
      simp only [Except.ok.injEq, Prod.mk.injEq] at h
      obtain ⟨hz, hs⟩ := h
      subst hz
      have hz0 : (s.buf z).refcnt = 0 := by simpa using List.find?_some hr
      exact Or.inr ⟨hmiss, List.mem_reverse.mp (List.mem_of_find?_eq_some hr), hz0, hs.symm⟩

/-- The scans of `bget` leave a buffer with a reference count above 0 with its
block and as the buffer found for that block. -/
theorem held_bget_find (s s1 : Bio) (dev blockno : Nat) (b x : BufId) (hi : BioInv s)
    (hx : cachedAt s x) (hr : (s.buf x).refcnt ≠ 0)
    (h : bget_find s dev blockno = .ok (b, s1)) :
    cachedAt s1 x ∧ (s1.buf x).dev = (s.buf x).dev ∧ (s1.buf x).blockno = (s.buf x).blockno := by
  rcases bget_find_cases s s1 dev blockno b h with ⟨_, hs⟩ | ⟨hmiss, hb, hb0, hs⟩
  · have hd : ∀ c, (s1.buf c).dev = (s.buf c).dev ∧ (s1.buf c).blockno = (s.buf c).blockno := by
      intro c
      rw [hs]
      by_cases e : c = b
      · subst e; rw [setBuf_same]; exact ⟨rfl, rfl⟩
      · rw [setBuf_other _ _ _ _ e]; exact ⟨rfl, rfl⟩
    exact ⟨(cachedAt_of_same s s1 x (by rw [hs]; rfl) hd).mpr hx, (hd x).1, (hd x).2⟩
  · have hxb : x ≠ b := fun e => hr (e ▸ hb0)
    have := (cachedAt_recycle s b
      { s.buf b with dev := dev, blockno := blockno, valid := 0, refcnt := 1 }
      (hi.nodup _) hb hmiss).2 x hxb hx
    rw [← hs] at this
    refine ⟨this, ?_, ?_⟩
    · rw [hs, setBuf_other _ _ _ _ hxb]
    · rw [hs, setBuf_other _ _ _ _ hxb]

theorem held_of_same (s s1 : Bio) (x : BufId) (hx : cachedAt s x) (hl : s1.lru = s.lru)
    (hd : ∀ c, (s1.buf c).dev = (s.buf c).dev ∧ (s1.buf c).blockno = (s.buf c).blockno) :
    cachedAt s1 x ∧ (s1.buf x).dev = (s.buf x).dev ∧ (s1.buf x).blockno = (s.buf x).blockno :=
  ⟨(cachedAt_of_same s s1 x hl hd).mpr hx, (hd x).1, (hd x).2⟩

theorem acquiresleep_same (s s1 : Bio) (b : BufId) (h : acquiresleep s b = .ok s1) :
    s1.lru = s.lru ∧
    ∀ c, (s1.buf c).dev = (s.buf c).dev ∧ (s1.buf c).blockno = (s.buf c).blockno ∧
      (s1.buf c).valid = (s.buf c).valid ∧ (s1.buf c).refcnt = (s.buf c).refcnt ∧
      (s1.buf c).data = (s.buf c).data := by
  obtain ⟨_, e⟩ := acquiresleep_fields s s1 b h
  subst e
  refine ⟨rfl, ?_⟩
  intro c
  by_cases e : c = b
  · subst e; rw [setBuf_same]; exact ⟨rfl, rfl, rfl, rfl, rfl⟩
  · rw [setBuf_other _ _ _ _ e]; exact ⟨rfl, rfl, rfl, rfl, rfl⟩

theorem held_bget (s s2 : Bio) (dev blockno : Nat) (b x : BufId) (hi : BioInv s)
    (hx : cachedAt s x) (hr : (s.buf x).refcnt ≠ 0) (h : bget s dev blockno = .ok (b, s2)) :
    cachedAt s2 x ∧ (s2.buf x).dev = (s.buf x).dev ∧ (s2.buf x).blockno = (s.buf x).blockno := by
  obtain ⟨s1, hf, ha⟩ := bget_split s s2 dev blockno b h
  obtain ⟨c1, d1, n1⟩ := held_bget_find s s1 dev blockno b x hi hx hr hf
  obtain ⟨hl, hd⟩ := acquiresleep_same s1 s2 b ha
  obtain ⟨c2, d2, n2⟩ := held_of_same s1 s2 x c1 hl (fun c => ⟨(hd c).1, (hd c).2.1⟩)
  exact ⟨c2, d2.trans d1, n2.trans n1⟩

theorem held_bread (s s3 : Bio) (dev blockno : Nat) (b x : BufId) (hi : BioInv s)
    (hx : cachedAt s x) (hr : (s.buf x).refcnt ≠ 0) (h : bread s dev blockno = .ok (b, s3)) :
    cachedAt s3 x ∧ (s3.buf x).dev = (s.buf x).dev ∧ (s3.buf x).blockno = (s.buf x).blockno := by
  obtain ⟨s2, hg, hcase⟩ := bread_split s s3 dev blockno b h
  obtain ⟨c2, d2, n2⟩ := held_bget s s2 dev blockno b x hi hx hr hg
  rcases hcase with ⟨_, e⟩ | ⟨_, e⟩
  · have hb : ∀ c, s3.buf c = if c = b then
        { s2.buf b with valid := 1, data := s2.disk (s2.buf b).dev (s2.buf b).blockno }
        else s2.buf c := by
      intro c; rw [e]; exact read_buf s2 b c
    have hl : s3.lru = s2.lru := by
      rw [e]
      simp only [virtio_disk_rw, Bool.false_eq_true, if_false, Bio.setBuf]
    have hd : ∀ c, (s3.buf c).dev = (s2.buf c).dev ∧ (s3.buf c).blockno = (s2.buf c).blockno := by
      intro c
      rw [hb c]
      by_cases e1 : c = b
      · subst e1; rw [if_pos rfl]; exact ⟨rfl, rfl⟩
      · rw [if_neg e1]; exact ⟨rfl, rfl⟩
    obtain ⟨c3, d3, n3⟩ := held_of_same s2 s3 x c2 hl hd
    exact ⟨c3, d3.trans d2, n3.trans n2⟩
  · subst e
    exact ⟨c2, d2, n2⟩

theorem held_brelse (s s3 : Bio) (b x : BufId) (hi : BioInv s) (hx : cachedAt s x)
    (h : brelse s b = .ok s3) :
    cachedAt s3 x ∧ (s3.buf x).dev = (s.buf x).dev ∧ (s3.buf x).blockno = (s.buf x).blockno := by
  obtain ⟨hlk, hb, hcase, _, _⟩ := brelse_ok s s3 b h
  have hd : ∀ c, (s3.buf c).dev = (s.buf c).dev ∧ (s3.buf c).blockno = (s.buf c).blockno := by
    intro c
    rw [hb c]
    by_cases e : c = b
    · subst e; rw [if_pos rfl]; exact ⟨rfl, rfl⟩
    · rw [if_neg e]; exact ⟨rfl, rfl⟩
  rcases hcase with ⟨_, hl⟩ | ⟨_, hl⟩
  · have hcb : cachedAt { s with buf := s3.buf } b :=
      (cachedAt_of_same s { s with buf := s3.buf } b rfl hd).mpr (hi.first b (Or.inl hlk))
    have hcc : cachedAt { s with buf := s3.buf } x :=
      (cachedAt_of_same s { s with buf := s3.buf } x rfl hd).mpr hx
    have hbb : ((({ s with buf := s3.buf } : Bio)).buf b).blockno = (s.buf b).blockno := (hd b).2
    refine ⟨cachedAt_moved { s with buf := s3.buf } s3 b x rfl ?_ hcb hcc, (hd x).1, (hd x).2⟩
    rw [hl, hbb]
  · exact held_of_same s s3 x hx hl hd

/-- A call that returns leaves a buffer with a reference count above 0 with its
block and as the buffer found for that block. -/
theorem held_run (c : BioCall) (s s1 : Bio) (x : BufId) (hi : BioInv s) (hx : cachedAt s x)
    (hr : (s.buf x).refcnt ≠ 0) (h : c.run s = .ok s1) :
    cachedAt s1 x ∧ (s1.buf x).dev = (s.buf x).dev ∧ (s1.buf x).blockno = (s.buf x).blockno := by
  cases c with
  | bget dev blockno =>
    simp only [BioCall.run] at h
    cases hg : bget s dev blockno with
    | error e => rw [hg] at h; cases h
    | ok p =>
      obtain ⟨b, s2⟩ := p
      rw [hg] at h
      simp only [Except.map, Except.ok.injEq] at h
      subst h
      exact held_bget s s2 dev blockno b x hi hx hr hg
  | bread dev blockno =>
    simp only [BioCall.run] at h
    cases hg : bread s dev blockno with
    | error e => rw [hg] at h; cases h
    | ok p =>
      obtain ⟨b, s2⟩ := p
      rw [hg] at h
      simp only [Except.map, Except.ok.injEq] at h
      subst h
      exact held_bread s s2 dev blockno b x hi hx hr hg
  | bwrite b =>
    simp only [BioCall.run, bwrite] at h
    split at h
    · cases h
    · simp only [Except.ok.injEq] at h
      subst h
      exact held_of_same s (virtio_disk_rw s b true) x hx rfl (fun c => ⟨rfl, rfl⟩)
  | brelse b => exact held_brelse s s1 b x hi hx h
  | bpin b =>
    simp only [BioCall.run, Except.ok.injEq] at h
    subst h
    refine held_of_same s (bpin s b) x hx rfl ?_
    intro c
    unfold bpin
    by_cases e : c = b
    · subst e; rw [setBuf_same]; exact ⟨rfl, rfl⟩
    · rw [setBuf_other _ _ _ _ e]; exact ⟨rfl, rfl⟩
  | bunpin b =>
    simp only [BioCall.run, Except.ok.injEq] at h
    subst h
    refine held_of_same s (bunpin s b) x hx rfl ?_
    intro c
    unfold bunpin
    by_cases e : c = b
    · subst e; rw [setBuf_same]; exact ⟨rfl, rfl⟩
    · rw [setBuf_other _ _ _ _ e]; exact ⟨rfl, rfl⟩

theorem held_runHolding (x : BufId) (cs : List BioCall) : ∀ (s s1 : Bio), BioInv s →
    cachedAt s x → (s.buf x).refcnt ≠ 0 → runHolding x s cs = .ok s1 →
    BioInv s1 ∧ cachedAt s1 x ∧ (s1.buf x).dev = (s.buf x).dev ∧
      (s1.buf x).blockno = (s.buf x).blockno ∧ (s1.buf x).refcnt ≠ 0 := by
  induction cs with
  | nil =>
    intro s s1 hi hx hr h
    simp only [runHolding, Except.ok.injEq] at h
    subst h
    exact ⟨hi, hx, rfl, rfl, hr⟩
  | cons c cs ih =>
    intro s s1 hi hx hr h
    simp only [runHolding] at h
    cases hc : c.run s with
    | error e => rw [hc] at h; cases h
    | ok s2 =>
      rw [hc] at h
      simp only at h
      by_cases h0 : (s2.buf x).refcnt = 0
      · rw [if_pos h0] at h; cases h
      · rw [if_neg h0] at h
        obtain ⟨c2, d2, n2⟩ := held_run c s s2 x hi hx hr hc
        obtain ⟨i3, c3, d3, n3, r3⟩ := ih s2 s1 (bioInv_run c s s2 hi hc) c2 h0 h
        exact ⟨i3, c3, d3.trans d2, n3.trans n2, r3⟩

theorem eq_ok_pair {α σ : Type} (x : Except String (α × σ)) (a : α) (d : σ)
    (h : x.toOption.map Prod.fst = some a) :
    x = .ok (a, match x with
      | .ok (_, m) => m
      | .error _ => d) := by
  cases x with
  | error e => cases h
  | ok p =>
    obtain ⟨r, m⟩ := p
    simp only [Except.toOption, Option.map_some', Option.some.injEq] at h
    subst h
    rfl

theorem eq_ok_state {σ : Type} (x : Except String σ) (d : σ) (h : x.toOption.isSome = true) :
    x = .ok (match x with
      | .ok m => m
      | .error _ => d) := by
  cases x with
  | error e => cases h
  | ok m => rfl

theorem acquiresleep_free (s : Bio) (b : BufId) (h : (s.buf b).locked = false) :
    acquiresleep s b = .ok (s.setBuf b { s.buf b with locked := true }) := by
  unfold acquiresleep
  rw [if_neg (by rw [h]; exact Bool.false_ne_true)]

theorem acquiresleep_held (s : Bio) (b : BufId) (h : (s.buf b).locked = true) :
    acquiresleep s b = .error "acquiresleep: sleeps" := by
  unfold acquiresleep
  rw [if_pos h]


/-- C6: in a cache state reached from `binit`, if `bget(d, b)` returned buffer
`x` and the reference count of `x` has stayed above 0 through any sequence of
further calls, then the scans of a further `bget(d, b)` end with the same
buffer `x`, its reference count one higher, and change no other buffer and no
list, so no other buffer is recycled for `(d, b)`; `bget` returns `x` as soon
as its sleep-lock is free. -/
theorem bget_returns_held_buffer (NBUF : Nat) (disk : Nat → Nat → Nat → Nat)
    (calls1 calls2 : List BioCall) (s1 s2 s3 : Bio) (dev blockno : Nat) (x : BufId)
    (h1 : runCalls (binit NBUF (bcacheZero disk)) calls1 = .ok s1)
    (h2 : bget s1 dev blockno = .ok (x, s2)) (h0 : (s2.buf x).refcnt ≠ 0)
    (h3 : runHolding x s2 calls2 = .ok s3) :
    ∃ s4, bget_find s3 dev blockno = .ok (x, s4) ∧
      (s4.buf x).refcnt = ((s3.buf x).refcnt + 1) % 2 ^ 32 ∧
      ((s3.buf x).refcnt + 1 < 2 ^ 32 → (s4.buf x).refcnt = (s3.buf x).refcnt + 1) ∧
      (s4.buf x).dev = dev ∧ (s4.buf x).blockno = blockno ∧
      (s4.buf x).valid = (s3.buf x).valid ∧ (s4.buf x).data = (s3.buf x).data ∧
      (∀ y, y ≠ x → s4.buf y = s3.buf y) ∧ s4.lru = s3.lru ∧
      ((s3.buf x).locked = false →
        bget s3 dev blockno = .ok (x, s4.setBuf x { s4.buf x with locked := true })) ∧
      ((s3.buf x).locked = true → bget s3 dev blockno = .error "acquiresleep: sleeps") := by
  have i1 := bioInv_runCalls calls1 _ s1 (bioInv_binit NBUF disk) h1
  obtain ⟨i2, c2, d2, n2, _⟩ := bioInv_bget s1 s2 dev blockno x i1 h2
  obtain ⟨_, c3, d3, n3, _⟩ := held_runHolding x calls2 s2 s3 i2 c2 h0 h3
  have hd : (s3.buf x).dev = dev := d3.trans d2
  have hn : (s3.buf x).blockno = blockno := n3.trans n2
  have hfind : (s3.lru (blockno % BCACHE_BUCKET)).find? (holdsBlock s3 dev blockno) = some x := by
    unfold cachedAt at c3
    rw [hd, hn] at c3
    exact c3
  have hf := bget_find_hit s3 dev blockno x hfind
  have hbx : (s3.setBuf x { s3.buf x with refcnt := ((s3.buf x).refcnt + 1) % 2 ^ 32 }).buf x =
      { s3.buf x with refcnt := ((s3.buf x).refcnt + 1) % 2 ^ 32 } := setBuf_same _ _ _
  have hl4 : ((s3.setBuf x { s3.buf x with refcnt := ((s3.buf x).refcnt + 1) % 2 ^ 32 }).buf x).locked =
      (s3.buf x).locked := by rw [hbx]
  refine ⟨_, hf, by rw [hbx], ?_, by rw [hbx]; exact hd, by rw [hbx]; exact hn, by rw [hbx],
    by rw [hbx], fun y hy => setBuf_other _ _ _ _ hy, rfl, ?_, ?_⟩
  · intro hlt
    rw [hbx]
    exact Nat.mod_eq_of_lt hlt
  · intro hl
    rw [← hl4] at hl
    unfold bget
    rw [hf]
    have ha := acquiresleep_free _ x hl
    simp only [ha]
  · intro hl
    rw [← hl4] at hl
    unfold bget
    rw [hf]
    have ha := acquiresleep_held _ x hl
    simp only [ha]

theorem bget_returns_held_buffer_witness :
    (runCalls (binit 3 (bcacheZero (fun _ _ _ => 0))) [] = .ok (bootCache 3) ∧
      bget (bootCache 3) 1 17 = .ok (⟨0, 0⟩, demoHeld) ∧ (demoHeld.buf ⟨0, 0⟩).refcnt ≠ 0 ∧
      runHolding ⟨0, 0⟩ demoHeld [.bpin ⟨0, 0⟩, .brelse ⟨0, 0⟩] = .ok demoPinned) ∧
    ∃ s4, bget_find demoPinned 1 17 = .ok (⟨0, 0⟩, s4) ∧
      (s4.buf ⟨0, 0⟩).refcnt = ((demoPinned.buf ⟨0, 0⟩).refcnt + 1) % 2 ^ 32 ∧
      ((demoPinned.buf ⟨0, 0⟩).refcnt + 1 < 2 ^ 32 →
        (s4.buf ⟨0, 0⟩).refcnt = (demoPinned.buf ⟨0, 0⟩).refcnt + 1) ∧
      (s4.buf ⟨0, 0⟩).dev = 1 ∧ (s4.buf ⟨0, 0⟩).blockno = 17 ∧
      (s4.buf ⟨0, 0⟩).valid = (demoPinned.buf ⟨0, 0⟩).valid ∧
      (s4.buf ⟨0, 0⟩).data = (demoPinned.buf ⟨0, 0⟩).data ∧
      (∀ y, y ≠ ⟨0, 0⟩ → s4.buf y = demoPinned.buf y) ∧ s4.lru = demoPinned.lru ∧
      ((demoPinned.buf ⟨0, 0⟩).locked = false →
        bget demoPinned 1 17 = .ok (⟨0, 0⟩, s4.setBuf ⟨0, 0⟩ { s4.buf ⟨0, 0⟩ with locked := true })) ∧
      ((demoPinned.buf ⟨0, 0⟩).locked = true →
        bget demoPinned 1 17 = .error "acquiresleep: sleeps") :=
  ⟨⟨rfl, eq_ok_pair _ _ (bootCache 3) (by decide), by decide, eq_ok_state _ demoHeld (by decide)⟩,
    bget_returns_held_buffer 3 (fun _ _ _ => 0) [] [.bpin ⟨0, 0⟩, .brelse ⟨0, 0⟩] (bootCache 3)
      demoHeld demoPinned 1 17 ⟨0, 0⟩ rfl (eq_ok_pair _ _ (bootCache 3) (by decide)) (by decide)
      (eq_ok_state _ demoHeld (by decide))⟩
theorem bget_miss_recycles_lru_witness :
    (∀ b ∈ (bootCache 3).lru (17 % BCACHE_BUCKET),
      ¬ (((bootCache 3).buf b).dev = 1 ∧ ((bootCache 3).buf b).blockno = 17)) ∧
    (∃ s1, bget (bootCache 3) 1 17 = .ok (⟨0, 0⟩, s1) ∧ s1.lru = (bootCache 3).lru ∧
        (∀ y, y ≠ ⟨0, 0⟩ → s1.buf y = (bootCache 3).buf y) ∧
        (s1.buf ⟨0, 0⟩).dev = 1 ∧ (s1.buf ⟨0, 0⟩).blockno = 17 ∧ (s1.buf ⟨0, 0⟩).valid = 0 ∧
        (s1.buf ⟨0, 0⟩).refcnt = 1 ∧ (s1.buf ⟨0, 0⟩).data = ((bootCache 3).buf ⟨0, 0⟩).data ∧
        (s1.buf ⟨0, 0⟩).locked = true ∧
        s1.disk = (bootCache 3).disk ∧ s1.diskops = (bootCache 3).diskops) ∧
    ¬ bget demoHeld 1 17 = .error "bget: no buffers" ∧
    (demoFull.buf ⟨1, 0⟩).refcnt = 0 ∧ bget demoFull 1 34 = .error "bget: no buffers" :=
  ⟨by decide,
   (bget_miss_recycles_lru (bootCache 3) 1 17).1 (by decide) [⟨0, 2⟩, ⟨0, 1⟩] ⟨0, 0⟩ [] (by decide)
     (by decide) (by decide) (by decide),
   fun h => ((bget_miss_recycles_lru demoHeld 1 17).2.2.mp h).1 ⟨0, 0⟩ (by decide) (by decide),
   by decide, (bget_miss_recycles_lru demoFull 1 34).2.2.mpr ⟨by decide, by decide⟩⟩

/-- What `bget` does on a miss. -/
theorem bget_miss (s : Bio) (dev blockno : Nat) (l1 l2 : List BufId) (z : BufId)
    (hmiss : ∀ b ∈ s.lru (blockno % BCACHE_BUCKET),
      ¬ ((s.buf b).dev = dev ∧ (s.buf b).blockno = blockno))
    (hl : s.lru (blockno % BCACHE_BUCKET) = l1 ++ z :: l2) (hz : (s.buf z).refcnt = 0)
    (h2 : ∀ y ∈ l2, (s.buf y).refcnt ≠ 0) (hlock : (s.buf z).locked = false) :
    ∃ s1, bget s dev blockno = .ok (z, s1) ∧ s1.lru = s.lru ∧
      (∀ y, y ≠ z → s1.buf y = s.buf y) ∧
      s1.buf z = ⟨0, dev, blockno, 1, true, (s.buf z).data⟩ ∧ s1.disk = s.disk ∧
      s1.diskops = s.diskops := by
  have hf := find_last_free s l1 l2 z hz h2
  rw [← hl] at hf
  have hS : ((s.setBuf z
      { s.buf z with dev := dev, blockno := blockno, valid := 0, refcnt := 1 }).buf z).locked =
      false := by rw [setBuf_same]; exact hlock
  have hg := acquiresleep_free _ z hS
  have hb : bget s dev blockno = .ok (z,
      (s.setBuf z { s.buf z with dev := dev, blockno := blockno, valid := 0, refcnt := 1 }).setBuf z
        { (s.setBuf z
            { s.buf z with dev := dev, blockno := blockno, valid := 0, refcnt := 1 }).buf z with
          locked := true }) := by
    unfold bget
    rw [bget_find_miss s dev blockno hmiss]
    simp only [hf]
    rw [hg]
  refine ⟨_, hb, rfl, ?_, ?_, rfl, rfl⟩
  · intro y hy
    rw [setBuf_other _ _ _ _ hy, setBuf_other _ _ _ _ hy]
  · rw [setBuf_same, setBuf_same]

/-- What `bget` does on a hit of an unlocked buffer. -/
theorem bget_hit (s : Bio) (dev blockno : Nat) (x : BufId)
    (h : (s.lru (blockno % BCACHE_BUCKET)).find? (holdsBlock s dev blockno) = some x)
    (hlock : (s.buf x).locked = false) :
    ∃ s1, bget s dev blockno = .ok (x, s1) ∧ s1.lru = s.lru ∧
      (∀ y, y ≠ x → s1.buf y = s.buf y) ∧
      s1.buf x = { s.buf x with refcnt := ((s.buf x).refcnt + 1) % 2 ^ 32, locked := true } ∧
      s1.disk = s.disk ∧ s1.diskops = s.diskops := by
  have hS : ((s.setBuf x { s.buf x with refcnt := ((s.buf x).refcnt + 1) % 2 ^ 32 }).buf x).locked =
      false := by rw [setBuf_same]; exact hlock
  have hg := acquiresleep_free _ x hS
  have hb : bget s dev blockno = .ok (x,
      (s.setBuf x { s.buf x with refcnt := ((s.buf x).refcnt + 1) % 2 ^ 32 }).setBuf x
        { (s.setBuf x { s.buf x with refcnt := ((s.buf x).refcnt + 1) % 2 ^ 32 }).buf x with
          locked := true }) := by
    unfold bget
    rw [bget_find_hit s dev blockno x h]
    simp only []
    rw [hg]
  refine ⟨_, hb, rfl, ?_, ?_, rfl, rfl⟩
  · intro y hy
    rw [setBuf_other _ _ _ _ hy, setBuf_other _ _ _ _ hy]
  · rw [setBuf_same, setBuf_same]

/-- What `bread` does with the buffer that `bget` returns. -/
theorem bread_of_bget (s s1 : Bio) (dev blockno : Nat) (z : BufId)
    (hb : bget s dev blockno = .ok (z, s1)) (hd : (s1.buf z).dev = dev)
    (hn : (s1.buf z).blockno = blockno) (hv01 : (s1.buf z).valid ≤ 1) :
    ∃ s2, bread s dev blockno = .ok (z, s2) ∧ s2.lru = s1.lru ∧
      (∀ y, y ≠ z → s2.buf y = s1.buf y) ∧
      s2.buf z = ⟨1, dev, blockno, (s1.buf z).refcnt, (s1.buf z).locked,
        if (s1.buf z).valid = 0 then s1.disk dev blockno else (s1.buf z).data⟩ ∧
      s2.disk = s1.disk ∧
      s2.diskops = if (s1.buf z).valid = 0 then s1.diskops ++ [⟨false, dev, blockno⟩]
        else s1.diskops := by
  by_cases hv : (s1.buf z).valid = 0
  · have hr : bread s dev blockno = .ok (z, (virtio_disk_rw s1 z false).setBuf z
        { (virtio_disk_rw s1 z false).buf z with valid := 1 }) := by
      unfold bread
      rw [hb]
      simp only [hv, if_true]
    refine ⟨_, hr, rfl, ?_, ?_, rfl, ?_⟩
    · intro y hy
      rw [read_buf, if_neg hy]
    · rw [read_buf, if_pos rfl, if_pos hv]
      simp only [hd, hn]
    · rw [if_pos hv]
      simp only [virtio_disk_rw, Bio.setBuf, Bool.false_eq_true, if_false, hd, hn]
  · have hr : bread s dev blockno = .ok (z, s1) := by
      unfold bread
      rw [hb]
      simp only [hv, if_false]
    refine ⟨_, hr, rfl, fun _ _ => rfl, ?_, rfl, ?_⟩
    · rw [if_neg hv]
      have hv1 : (s1.buf z).valid = 1 := by omega
      rw [← hd, ← hn, ← hv1]
    · rw [if_neg hv]

/-- What `bread` does on a miss: it recycles the refcount-0 buffer closest to
the tail, reads the block into it from the disk and returns it locked. -/
theorem bread_miss (s : Bio) (dev blockno : Nat) (l1 l2 : List BufId) (z : BufId)
    (hmiss : ∀ b ∈ s.lru (blockno % BCACHE_BUCKET),
      ¬ ((s.buf b).dev = dev ∧ (s.buf b).blockno = blockno))
    (hl : s.lru (blockno % BCACHE_BUCKET) = l1 ++ z :: l2) (hz : (s.buf z).refcnt = 0)
    (h2 : ∀ y ∈ l2, (s.buf y).refcnt ≠ 0) (hlock : (s.buf z).locked = false) :
    ∃ s2, bread s dev blockno = .ok (z, s2) ∧ s2.lru = s.lru ∧
      (∀ y, y ≠ z → s2.buf y = s.buf y) ∧
      s2.buf z = ⟨1, dev, blockno, 1, true, s.disk dev blockno⟩ ∧ s2.disk = s.disk := by
  obtain ⟨s1, hb, hlru, ho, hz1, hd, _⟩ := bget_miss s dev blockno l1 l2 z hmiss hl hz h2 hlock
  obtain ⟨s2, hr, hlru2, ho2, hz2, hd2, _⟩ := bread_of_bget s s1 dev blockno z hb
    (by rw [hz1]) (by rw [hz1]) (by rw [hz1]; exact Nat.zero_le 1)
  refine ⟨s2, hr, hlru2.trans hlru, fun y hy => (ho2 y hy).trans (ho y hy), ?_, hd2.trans hd⟩
  rw [hz2, hz1, hd]
  rfl

/-- What `brelse` does when the last reference is dropped. -/
theorem brelse_last (s : Bio) (b : BufId) (hl : (s.buf b).locked = true)
    (hr : (s.buf b).refcnt = 1) :
    ∃ s3, brelse s b = .ok s3 ∧
      s3.buf b = { s.buf b with locked := false, refcnt := 0 } ∧
      (∀ y, y ≠ b → s3.buf y = s.buf y) ∧
      (s3.lru = fun k => if k = (s.buf b).blockno % BCACHE_BUCKET
        then b :: (s.lru k).erase b else (s.lru k).erase b) ∧ s3.disk = s.disk := by
  have hex : ∃ s3, brelse s b = .ok s3 := by
    unfold brelse
    rw [if_neg (by simp only [holdingsleep, hl]; exact Bool.true_eq_false_eq_False)]
    simp only []
    split
    · exact ⟨_, rfl⟩
    · exact ⟨_, rfl⟩
  obtain ⟨s3, h3⟩ := hex
  obtain ⟨_, hb, hcase, hd, _⟩ := brelse_ok s s3 b h3
  have h0 : ((s.buf b).refcnt + (2 ^ 32 - 1)) % 2 ^ 32 = 0 := by rw [hr]; rfl
  refine ⟨s3, h3, ?_, ?_, ?_, hd⟩
  · rw [hb b, if_pos rfl, h0]
  · intro y hy
    rw [hb y, if_neg hy]
  · rcases hcase with ⟨_, e⟩ | ⟨hne, _⟩
    · exact e
    · exact absurd h0 hne

set_option maxRecDepth 100000 in
/-- C8, counterexample: with 30 buffers per bucket, after `binit`, `bread` of
blocks 0, 17 and 34 of device 1 and `brelse` of the buffer of block 0, the
`bread` of block 51 returns `bcache.buf[0][3]`, not the buffer
`bcache.buf[0][0]` that held block 0. -/
theorem collision_slot_counterexample :
    ∃ b0 b17 b34 b51, ((collision (bootCache 30) 1).toOption.map Collision.slots =
      some (b0, b17, b34, b51)) ∧ b0 = ⟨0, 0⟩ ∧ b51 = ⟨0, 3⟩ ∧ b51 ≠ b0 :=
  ⟨⟨0, 0⟩, ⟨0, 1⟩, ⟨0, 2⟩, ⟨0, 3⟩, by decide, rfl, rfl, by decide⟩

/-- The scenario after the read of block 0: `b0` is the only buffer in use in
bucket 0, `e0` and `e1` are the two free buffers closest to the tail. -/
theorem collision_steps (s1 : Bio) (dev : Nat) (b0 e0 e1 : BufId) (pre post R : List BufId)
    (hL : s1.lru 0 = pre ++ e1 :: e0 :: post) (hpost : ∀ y ∈ post, y = b0)
    (hE : (s1.lru 0).erase b0 = R ++ [e1, e0]) (hnd : (s1.lru 0).Nodup)
    (hb0 : (s1.buf b0).locked = true ∧ (s1.buf b0).refcnt = 1 ∧ (s1.buf b0).blockno = 0)
    (hfree : ∀ y ∈ s1.lru 0, y ≠ b0 →
      (s1.buf y).refcnt = 0 ∧ (s1.buf y).locked = false ∧ (s1.buf y).blockno = 0) :
    ∃ s2 s3 s4 s5 b51, bread s1 dev 17 = .ok (e0, s2) ∧ bread s2 dev 34 = .ok (e1, s3) ∧
      brelse s3 b0 = .ok s4 ∧ bread s4 dev 51 = .ok (b51, s5) ∧
      s4.buf e0 = ⟨1, dev, 17, 1, true, s1.disk dev 17⟩ ∧
      s4.buf e1 = ⟨1, dev, 34, 1, true, s1.disk dev 34⟩ ∧
      s5.buf e0 = s4.buf e0 ∧ s5.buf e1 = s4.buf e1 ∧
      s4.lru 0 = b0 :: R ++ [e1, e0] ∧ (s4.buf b51).refcnt = 0 ∧
      (∃ l1 l2, s4.lru 0 = l1 ++ b51 :: l2 ∧ ∀ y ∈ l2, (s4.buf y).refcnt ≠ 0) ∧
      (b51 = b0 ↔ R = []) ∧ b51 ≠ e0 ∧ b51 ≠ e1 := by
  obtain ⟨hb0l, hb0r, hb0n⟩ := hb0
  have h17 : 17 % BCACHE_BUCKET = 0 := rfl
  have h34 : 34 % BCACHE_BUCKET = 0 := rfl
  have h51 : 51 % BCACHE_BUCKET = 0 := rfl
  have h00 : 0 % BCACHE_BUCKET = 0 := rfl
  have hndE : (R ++ [e1, e0]).Nodup := hE ▸ hnd.erase b0
  have hmemE : ∀ y, y ∈ R ++ [e1, e0] → y ≠ b0 ∧ y ∈ s1.lru 0 := by
    intro y hy
    rw [← hE] at hy
    exact (hnd.mem_erase_iff).1 hy
  have he10 : e1 ≠ e0 := by
    intro h
    subst h
    simp [List.nodup_append] at hndE
  have hR : ∀ r ∈ R, r ≠ e1 ∧ r ≠ e0 := by
    intro r hr
    constructor <;>
    · rintro rfl
      simp [List.nodup_append, hr] at hndE
  obtain ⟨he0b, he0L⟩ := hmemE e0 (by simp)
  obtain ⟨he1b, he1L⟩ := hmemE e1 (by simp)
  have hblk : ∀ y ∈ s1.lru 0, (s1.buf y).blockno = 0 := by
    intro y hy
    by_cases e : y = b0
    · rw [e]; exact hb0n
    · exact (hfree y hy e).2.2
  -- the read of block 17
  obtain ⟨s2, r2, lru2, o2, z2, d2⟩ := bread_miss s1 dev 17 (pre ++ [e1]) post e0
    (by rw [h17]; intro b hb hc; rw [hblk b hb] at hc; exact absurd hc.2 (by decide))
    (by rw [h17, hL]; simp)
    (hfree e0 he0L he0b).1
    (by intro y hy; rw [hpost y hy, hb0r]; decide)
    (hfree e0 he0L he0b).2.1
  -- the read of block 34
  obtain ⟨s3, r3, lru3, o3, z3, d3⟩ := bread_miss s2 dev 34 pre (e0 :: post) e1
    (by
      rw [h34, lru2]
      intro b hb hc
      by_cases e : b = e0
      · rw [e, z2] at hc; exact absurd hc.2 (by simp)
      · rw [o2 b e, hblk b hb] at hc; exact absurd hc.2 (by decide))
    (by rw [h34, lru2, hL])
    (by rw [o2 e1 he10]; exact (hfree e1 he1L he1b).1)
    (by
      intro y hy
      rcases List.mem_cons.1 hy with e | hy
      · rw [e, z2]; simp
      · rw [hpost y hy, o2 b0 (Ne.symm he0b), hb0r]; decide)
    (by rw [o2 e1 he10]; exact (hfree e1 he1L he1b).2.1)
  -- the release of the buffer of block 0
  have hb3 : s3.buf b0 = s1.buf b0 := by rw [o3 b0 (Ne.symm he1b), o2 b0 (Ne.symm he0b)]
  obtain ⟨s4, r4, z4, o4, lru4, d4⟩ := brelse_last s3 b0 (by rw [hb3]; exact hb0l)
    (by rw [hb3]; exact hb0r)
  have hl4 : s4.lru 0 = b0 :: R ++ [e1, e0] := by
    rw [lru4, hb3, hb0n]
    simp only [h00, if_true]
    rw [lru3, lru2, hE]
    rfl
  have hs4e0 : s4.buf e0 = ⟨1, dev, 17, 1, true, s1.disk dev 17⟩ := by
    rw [o4 e0 he0b, o3 e0 (Ne.symm he10), z2]
  have hs4e1 : s4.buf e1 = ⟨1, dev, 34, 1, true, s1.disk dev 34⟩ := by
    rw [o4 e1 he1b, z3, d2]
  have hs4b0 : (s4.buf b0).refcnt = 0 ∧ (s4.buf b0).locked = false ∧ (s4.buf b0).blockno = 0 := by
    rw [z4, hb3]
    exact ⟨rfl, rfl, hb0n⟩
  have hs4R : ∀ r ∈ R, s4.buf r = s1.buf r := by
    intro r hr
    obtain ⟨hrb, _⟩ := hmemE r (by simp [hr])
    rw [o4 r hrb, o3 r (hR r hr).1, o2 r (hR r hr).2]
  have hRfree : ∀ r ∈ R, (s4.buf r).refcnt = 0 ∧ (s4.buf r).locked = false ∧
      (s4.buf r).blockno = 0 := by
    intro r hr
    obtain ⟨hrb, hrL⟩ := hmemE r (by simp [hr])
    rw [hs4R r hr]
    exact hfree r hrL hrb
  have hmiss5 : ∀ b ∈ s4.lru (51 % BCACHE_BUCKET),
      ¬ ((s4.buf b).dev = dev ∧ (s4.buf b).blockno = 51) := by
    rw [h51, hl4]
    intro b hb hc
    simp only [List.cons_append, List.mem_cons, List.mem_append, List.mem_singleton,
      List.not_mem_nil, or_false] at hb
    rcases hb with e | hb | e | e
    · rw [e, hs4b0.2.2] at hc; exact absurd hc.2 (by decide)
    · rw [(hRfree b hb).2.2] at hc; exact absurd hc.2 (by decide)
    · rw [e, hs4e1] at hc; exact absurd hc.2 (by simp)
    · rw [e, hs4e0] at hc; exact absurd hc.2 (by simp)
  have hbusy : ∀ y ∈ [e1, e0], (s4.buf y).refcnt ≠ 0 := by
    intro y hy
    simp only [List.mem_cons, List.mem_singleton, List.not_mem_nil, or_false] at hy
    rcases hy with e | e
    · rw [e, hs4e1]; simp
    · rw [e, hs4e0]; simp
  rcases List.eq_nil_or_concat R with hRn | ⟨R1, r, hRc⟩
  · -- three buffers in the bucket: the released buffer is the only free one
    subst hRn
    obtain ⟨s5, r5, lru5, o5, z5, d5⟩ := bread_miss s4 dev 51 [] [e1, e0] b0 hmiss5
      (by rw [h51, hl4]; rfl) hs4b0.1 hbusy hs4b0.2.1
    exact ⟨s2, s3, s4, s5, b0, r2, r3, r4, r5, hs4e0, hs4e1, o5 e0 he0b, o5 e1 he1b, hl4,
      hs4b0.1, ⟨[], [e1, e0], by rw [hl4]; rfl, hbusy⟩, ⟨fun _ => rfl, fun _ => rfl⟩,
      Ne.symm he0b, Ne.symm he1b⟩
  · -- more buffers: a buffer that was never used is closer to the tail
    rw [List.concat_eq_append] at hRc
    subst hRc
    have hrR : r ∈ R1 ++ [r] := by simp
    obtain ⟨hrb, _⟩ := hmemE r (by simp)
    obtain ⟨s5, r5, lru5, o5, z5, d5⟩ := bread_miss s4 dev 51 (b0 :: R1) [e1, e0] r hmiss5
      (by rw [h51, hl4]; simp) (hRfree r hrR).1 hbusy (hRfree r hrR).2.1
    refine ⟨s2, s3, s4, s5, r, r2, r3, r4, r5, hs4e0, hs4e1, o5 e0 (Ne.symm (hR r hrR).2),
      o5 e1 (Ne.symm (hR r hrR).1), hl4, (hRfree r hrR).1,
      ⟨b0 :: R1, [e1, e0], by rw [hl4]; simp, hbusy⟩, ⟨fun h => absurd h hrb, fun h => ?_⟩,
      (hR r hrR).2, (hR r hrR).1⟩
    simp at h

/-- The whole scenario, given what the read of block 0 returned. -/
theorem collision_from (s0 s1 : Bio) (dev : Nat) (b0 e0 e1 : BufId) (pre post R : List BufId)
    (hi : BioInv s0) (hr : bread s0 dev 0 = .ok (b0, s1))
    (hL : s1.lru 0 = pre ++ e1 :: e0 :: post) (hpost : ∀ y ∈ post, y = b0)
    (hE : (s1.lru 0).erase b0 = R ++ [e1, e0])
    (hb0 : (s1.buf b0).locked = true ∧ (s1.buf b0).refcnt = 1 ∧ (s1.buf b0).blockno = 0)
    (hfree : ∀ y ∈ s1.lru 0, y ≠ b0 →
      (s1.buf y).refcnt = 0 ∧ (s1.buf y).locked = false ∧ (s1.buf y).blockno = 0) :
    ∃ r, collision s0 dev = .ok r ∧
      r.s4.buf r.b17 = ⟨1, dev, 17, 1, true, s1.disk dev 17⟩ ∧ cachedAt r.s4 r.b17 ∧
      r.s4.buf r.b34 = ⟨1, dev, 34, 1, true, s1.disk dev 34⟩ ∧ cachedAt r.s4 r.b34 ∧
      r.s5.buf r.b17 = r.s4.buf r.b17 ∧ cachedAt r.s5 r.b17 ∧
      r.s5.buf r.b34 = r.s4.buf r.b34 ∧ cachedAt r.s5 r.b34 ∧
      (r.s4.lru 0).head? = some r.b0 ∧ (r.s4.buf r.b51).refcnt = 0 ∧
      (∃ l1 l2, r.s4.lru 0 = l1 ++ r.b51 :: l2 ∧ ∀ y ∈ l2, (r.s4.buf y).refcnt ≠ 0) ∧
      (r.b51 = r.b0 ↔ R = []) := by
  obtain ⟨i1, _⟩ := bioInv_bread s0 s1 dev 0 b0 hi hr
  obtain ⟨s2, s3, s4, s5, b51, r2, r3, r4, r5, c0, c1, k0, k1, hl4, hf, hdec, hiff, _, _⟩ :=
    collision_steps s1 dev b0 e0 e1 pre post R hL hpost hE (i1.nodup 0) hb0 hfree
  obtain ⟨i2, _⟩ := bioInv_bread s1 s2 dev 17 e0 i1 r2
  obtain ⟨i3, _⟩ := bioInv_bread s2 s3 dev 34 e1 i2 r3
  have i4 := bioInv_brelse s3 s4 b0 i3 r4
  obtain ⟨i5, _⟩ := bioInv_bread s4 s5 dev 51 b51 i4 r5
  have hc : collision s0 dev = .ok ⟨b0, e0, e1, b51, s4, s5⟩ := by
    unfold collision
    rw [hr]
    simp only []
    rw [r2]
    simp only []
    rw [r3]
    simp only []
    rw [r4]
    simp only []
    rw [r5]
  refine ⟨_, hc, c0, i4.first e0 (Or.inl (by rw [c0])), c1, i4.first e1 (Or.inl (by rw [c1])),
    k0, i5.first e0 (Or.inl (by rw [k0, c0])), k1, i5.first e1 (Or.inl (by rw [k1, c1])),
    by rw [hl4]; rfl, hf, hdec, hiff⟩

theorem erase_last (l : List BufId) (x : BufId) (h : (l ++ [x]).Nodup) :
    (l ++ [x]).erase x = l := by
  have hx : x ∉ l := fun hm => (List.nodup_append.1 h).2.2 hm (List.mem_singleton_self x)
  rw [List.erase_append_right _ hx]
  simp

theorem binit_bucket_list (m k : Nat) :
    ((List.range' 0 (m + 3)).map (BufId.mk k)).reverse =
      ((List.range' 3 m).map (BufId.mk k)).reverse ++ [⟨k, 2⟩, ⟨k, 1⟩, ⟨k, 0⟩] := by
  rw [List.range'_succ, List.range'_succ, List.range'_succ]
  simp

/-- C8, amended: after `binit` with at least 3 buffers per bucket, `bread` of
blocks 0, 17 and 34 of one device and `brelse` of the buffer of block 0 all
return and leave blocks 17 and 34 cached in their buffers, valid and with the
contents of the disk, before and after the `bread` of block 51; the released
buffer is at the head of the list of bucket 0; the `bread` of block 51 returns
the refcount-0 buffer closest to the tail of that list, and this is the buffer
that held block 0 exactly when a bucket has 3 buffers. -/
theorem collision_reuses_slot_iff (NBUF dev : Nat) (disk : Nat → Nat → Nat → Nat)
    (h3 : 3 ≤ NBUF) :
    ∃ r, collision (binit NBUF (bcacheZero disk)) dev = .ok r ∧
      r.s4.buf r.b17 = ⟨1, dev, 17, 1, true, disk dev 17⟩ ∧ cachedAt r.s4 r.b17 ∧
      r.s4.buf r.b34 = ⟨1, dev, 34, 1, true, disk dev 34⟩ ∧ cachedAt r.s4 r.b34 ∧
      r.s5.buf r.b17 = r.s4.buf r.b17 ∧ cachedAt r.s5 r.b17 ∧
      r.s5.buf r.b34 = r.s4.buf r.b34 ∧ cachedAt r.s5 r.b34 ∧
      (r.s4.lru 0).head? = some r.b0 ∧ (r.s4.buf r.b51).refcnt = 0 ∧
      (∃ l1 l2, r.s4.lru 0 = l1 ++ r.b51 :: l2 ∧ ∀ y ∈ l2, (r.s4.buf y).refcnt ≠ 0) ∧
      (r.b51 = r.b0 ↔ NBUF = 3) := by
  obtain ⟨m, rfl⟩ : ∃ m, NBUF = m + 3 := ⟨NBUF - 3, by omega⟩
  obtain ⟨hbuf, hlru, hdisk, _⟩ := binit_spec (m + 3) disk
  have hi := bioInv_binit (m + 3) disk
  have hl0 : (binit (m + 3) (bcacheZero disk)).lru 0 =
      ((List.range' 3 m).map (BufId.mk 0)).reverse ++ [⟨0, 2⟩, ⟨0, 1⟩, ⟨0, 0⟩] := by
    rw [hlru 0, if_pos (by decide), binit_bucket_list]
  have hnd := hi.nodup 0
  rw [hl0] at hnd
  have hR0 : ((List.range' 3 m).map (BufId.mk 0)).reverse = [] ↔ m + 3 = 3 := by
    cases m with
    | zero => simp
    | succ k => simp [List.range'_succ]
  have h00 : 0 % BCACHE_BUCKET = 0 := rfl
  generalize ((List.range' 3 m).map (BufId.mk 0)).reverse = R0 at hl0 hnd hR0
  by_cases hdev : dev = 0
  · -- every buffer is zero, so the first scan hits the head of the list
    subst hdev
    obtain ⟨b0, R, hsh, hRiff⟩ : ∃ b0 R, R0 ++ [⟨0, 2⟩, ⟨0, 1⟩, (⟨0, 0⟩ : BufId)] =
        b0 :: (R ++ [⟨0, 1⟩, ⟨0, 0⟩]) ∧ (R = [] ↔ R0 = []) := by
      cases R0 with
      | nil => exact ⟨⟨0, 2⟩, [], rfl, Iff.rfl⟩
      | cons h M => exact ⟨h, M ++ [⟨0, 2⟩], by simp, by simp⟩
    rw [hsh] at hl0
    have hfind : ((binit (m + 3) (bcacheZero disk)).lru (0 % BCACHE_BUCKET)).find?
        (holdsBlock (binit (m + 3) (bcacheZero disk)) 0 0) = some b0 := by
      rw [h00, hl0]
      apply List.find?_cons_of_pos
      simp only [holdsBlock, hbuf, and_self, decide_True]
    obtain ⟨s, g1, lrus, os, zs, ds, _⟩ := bget_hit _ 0 0 b0 hfind (by rw [hbuf])
    rw [hbuf] at zs
    obtain ⟨s1, r1, lru1, o1, z1, d1, _⟩ := bread_of_bget _ s 0 0 b0 g1 (by rw [zs]) (by rw [zs])
      (by rw [zs]; exact Nat.zero_le 1)
    have hl1 : s1.lru 0 = (b0 :: R) ++ ⟨0, 1⟩ :: ⟨0, 0⟩ :: [] := by
      rw [lru1, lrus, hl0]
      rfl
    obtain ⟨r, hc, q⟩ := collision_from _ s1 0 b0 ⟨0, 0⟩ ⟨0, 1⟩ (b0 :: R) [] R hi r1 hl1
      (by intro y hy; cases hy)
      (by rw [hl1]; simp)
      (by rw [z1, zs]; exact ⟨rfl, rfl, rfl⟩)
      (by
        intro y _ hy
        rw [o1 y hy, os y hy, hbuf]
        exact ⟨rfl, rfl, rfl⟩)
    rw [d1, ds, hdisk] at q
    obtain ⟨q1, q2, q3, q4, q5, q6, q7, q8, q9, q10, q11, q12⟩ := q
    exact ⟨r, hc, q1, q2, q3, q4, q5, q6, q7, q8, q9, q10, q11, (q12.trans hRiff).trans hR0⟩
  · -- a miss: the buffer at the tail is recycled for block 0
    obtain ⟨s1, r1, lru1, o1, z1, d1⟩ := bread_miss (binit (m + 3) (bcacheZero disk)) dev 0
      (R0 ++ [⟨0, 2⟩, ⟨0, 1⟩]) [] ⟨0, 0⟩
      (by intro b _ hc; rw [hbuf b] at hc; exact hdev hc.1.symm)
      (by rw [h00, hl0]; simp)
      (by rw [hbuf]) (by intro y hy; cases hy) (by rw [hbuf])
    have hl1 : s1.lru 0 = R0 ++ ⟨0, 2⟩ :: ⟨0, 1⟩ :: [⟨0, 0⟩] := by rw [lru1, hl0]
    obtain ⟨r, hc, q⟩ := collision_from _ s1 dev ⟨0, 0⟩ ⟨0, 1⟩ ⟨0, 2⟩ R0 [⟨0, 0⟩] R0 hi r1 hl1
      (by intro y hy; simpa using hy)
      (by
        rw [hl1]
        have hre : R0 ++ [⟨0, 2⟩, ⟨0, 1⟩, (⟨0, 0⟩ : BufId)] =
            (R0 ++ [⟨0, 2⟩, ⟨0, 1⟩]) ++ [⟨0, 0⟩] := by simp
        rw [hre] at hnd ⊢
        exact erase_last _ _ hnd)
      (by rw [z1]; exact ⟨rfl, rfl, rfl⟩)
      (by
        intro y _ hy
        rw [o1 y hy, hbuf]
        exact ⟨rfl, rfl, rfl⟩)
    rw [d1, hdisk] at q
    obtain ⟨q1, q2, q3, q4, q5, q6, q7, q8, q9, q10, q11, q12⟩ := q
    exact ⟨r, hc, q1, q2, q3, q4, q5, q6, q7, q8, q9, q10, q11, q12.trans hR0⟩

theorem collision_reuses_slot_iff_witness :
    3 ≤ 4 ∧ ∃ r, collision (binit 4 (bcacheZero (fun _ _ n => n))) 1 = .ok r ∧
      r.s4.buf r.b17 = ⟨1, 1, 17, 1, true, (fun _ _ n => n) 1 17⟩ ∧ cachedAt r.s4 r.b17 ∧
      r.s4.buf r.b34 = ⟨1, 1, 34, 1, true, (fun _ _ n => n) 1 34⟩ ∧ cachedAt r.s4 r.b34 ∧
      r.s5.buf r.b17 = r.s4.buf r.b17 ∧ cachedAt r.s5 r.b17 ∧
      r.s5.buf r.b34 = r.s4.buf r.b34 ∧ cachedAt r.s5 r.b34 ∧
      (r.s4.lru 0).head? = some r.b0 ∧ (r.s4.buf r.b51).refcnt = 0 ∧
      (∃ l1 l2, r.s4.lru 0 = l1 ++ r.b51 :: l2 ∧ ∀ y ∈ l2, (r.s4.buf y).refcnt ≠ 0) ∧
      (r.b51 = r.b0 ↔ 4 = 3) :=
  ⟨by decide, collision_reuses_slot_iff 4 1 (fun _ _ n => n) (by decide)⟩

/-- What a call of `bget` that returns does to the cache. -/
theorem bget_effect (s s2 : Bio) (dev blockno : Nat) (z : BufId)
    (h : bget s dev blockno = .ok (z, s2)) :
    (∀ c, c ≠ z → s2.buf c = s.buf c) ∧ s2.disk = s.disk ∧ s2.diskops = s.diskops ∧
    (s.buf z).locked = false ∧ (s2.buf z).data = (s.buf z).data ∧
    (((s.lru (blockno % BCACHE_BUCKET)).find? (holdsBlock s dev blockno) = some z ∧
        (s2.buf z).valid = (s.buf z).valid) ∨
      ((∀ c ∈ s.lru (blockno % BCACHE_BUCKET),
          ¬ ((s.buf c).dev = dev ∧ (s.buf c).blockno = blockno)) ∧
        (s.buf z).refcnt = 0 ∧ (s2.buf z).valid = 0)) := by
  obtain ⟨sa, hf, ha⟩ := bget_split s s2 dev blockno z h
  obtain ⟨hla, e2⟩ := acquiresleep_fields sa s2 z ha
  subst e2
  rcases bget_find_cases s sa dev blockno z hf with ⟨hfind, ea⟩ | ⟨hmiss, _, hz0, ea⟩
  · subst ea
    rw [setBuf_same] at hla
    refine ⟨fun c hc => ?_, rfl, rfl, hla, ?_, Or.inl ⟨hfind, ?_⟩⟩
    · rw [setBuf_other _ _ _ _ hc, setBuf_other _ _ _ _ hc]
    · rw [setBuf_same, setBuf_same]
    · rw [setBuf_same, setBuf_same]
  · subst ea
    rw [setBuf_same] at hla
    refine ⟨fun c hc => ?_, rfl, rfl, hla, ?_, Or.inr ⟨hmiss, hz0, ?_⟩⟩
    · rw [setBuf_other _ _ _ _ hc, setBuf_other _ _ _ _ hc]
    · rw [setBuf_same, setBuf_same]
    · rw [setBuf_same, setBuf_same]

/-- What a call of `bread` that returns does to the cache, in a state that
satisfies the invariant. -/
theorem bread_effect (s s3 : Bio) (dev blockno : Nat) (z : BufId) (hi : BioInv s)
    (h : bread s dev blockno = .ok (z, s3)) :
    ∃ s2, bget s dev blockno = .ok (z, s2) ∧
      (∀ c, c ≠ z → s3.buf c = s.buf c) ∧ s3.disk = s.disk ∧ (s.buf z).locked = false ∧
      s3.buf z = ⟨1, dev, blockno, (s2.buf z).refcnt, true,
        if (s2.buf z).valid = 0 then s.disk dev blockno else (s.buf z).data⟩ ∧
      (s3.diskops = if (s2.buf z).valid = 0 then s.diskops ++ [⟨false, dev, blockno⟩]
        else s.diskops) ∧
      (((s.lru (blockno % BCACHE_BUCKET)).find? (holdsBlock s dev blockno) = some z ∧
          (s2.buf z).valid = (s.buf z).valid) ∨
        ((∀ c ∈ s.lru (blockno % BCACHE_BUCKET),
            ¬ ((s.buf c).dev = dev ∧ (s.buf c).blockno = blockno)) ∧
          (s.buf z).refcnt = 0 ∧ (s2.buf z).valid = 0)) := by
  obtain ⟨s2, hg, _⟩ := bread_split s s3 dev blockno z h
  obtain ⟨i2, _, d2, n2, l2⟩ := bioInv_bget s s2 dev blockno z hi hg
  obtain ⟨s3a, hr, _, o3, z3, k3, p3⟩ := bread_of_bget s s2 dev blockno z hg d2 n2 (i2.valid01 z)
  rw [hr] at h
  simp only [Except.ok.injEq, Prod.mk.injEq, true_and] at h
  subst h
  obtain ⟨o2, k2, p2, hl, hdat, hcase⟩ := bget_effect s s2 dev blockno z hg
  refine ⟨s2, hg, fun c hc => (o3 c hc).trans (o2 c hc), k3.trans k2, hl, ?_, ?_, hcase⟩
  · rw [z3, l2, k2, hdat]
  · rw [p3, p2]

/-- A public call keeps sleep-locked buffers valid. -/
theorem lockValid_run (c : BioCall) (s s1 : Bio) (hp : c.isPublic = true) (hi : BioInv s)
    (hv : LockValid s) (h : c.run s = .ok s1) : LockValid s1 := by
  cases c with
  | bget dev blockno => cases hp
  | bread dev blockno =>
    simp only [BioCall.run] at h
    cases hg : bread s dev blockno with
    | error e => rw [hg] at h; cases h
    | ok p =>
      obtain ⟨z, s3⟩ := p
      rw [hg] at h
      simp only [Except.map, Except.ok.injEq] at h
      subst h
      obtain ⟨s2, _, o3, _, _, z3, _⟩ := bread_effect s s3 dev blockno z hi hg
      intro b hb
      by_cases e : b = z
      · rw [e, z3]
      · rw [o3 b e] at hb ⊢
        exact hv b hb
  | bwrite b =>
    simp only [BioCall.run, bwrite] at h
    split at h
    · cases h
    · simp only [Except.ok.injEq] at h
      subst h
      exact hv
  | brelse b =>
    obtain ⟨_, hb, _⟩ := brelse_ok s s1 b h
    intro c hc
    rw [hb c] at hc ⊢
    by_cases e : c = b
    · rw [if_pos e] at hc
      cases hc
    · rw [if_neg e] at hc ⊢
      exact hv c hc
  | bpin b =>
    simp only [BioCall.run, Except.ok.injEq] at h
    subst h
    intro c hc
    unfold bpin at hc ⊢
    by_cases e : c = b
    · subst e
      rw [setBuf_same] at hc ⊢
      exact hv c hc
    · rw [setBuf_other _ _ _ _ e] at hc ⊢
      exact hv c hc
  | bunpin b =>
    simp only [BioCall.run, Except.ok.injEq] at h
    subst h
    intro c hc
    unfold bunpin at hc ⊢
    by_cases e : c = b
    · subst e
      rw [setBuf_same] at hc ⊢
      exact hv c hc
    · rw [setBuf_other _ _ _ _ e] at hc ⊢
      exact hv c hc

/-- A public call after which `x` still holds its block leaves a valid `x`
valid and its bytes alone. -/
theorem cached_run (c : BioCall) (s s1 : Bio) (x : BufId) (hi : BioInv s)
    (hv1 : (s.buf x).valid = 1) (h : c.run s = .ok s1)
    (hd1 : (s1.buf x).dev = (s.buf x).dev) (hn1 : (s1.buf x).blockno = (s.buf x).blockno) :
    (s1.buf x).valid = 1 ∧ (s1.buf x).data = (s.buf x).data := by
  cases c with
  | bget dev blockno =>
    simp only [BioCall.run] at h
    cases hg : bget s dev blockno with
    | error e => rw [hg] at h; cases h
    | ok p =>
      obtain ⟨z, s2⟩ := p
      rw [hg] at h
      simp only [Except.map, Except.ok.injEq] at h
      subst h
      obtain ⟨_, _, d2, n2, _⟩ := bioInv_bget s s2 dev blockno z hi hg
      obtain ⟨o2, _, _, _, hdat, hcase⟩ := bget_effect s s2 dev blockno z hg
      by_cases e : x = z
      · subst e
        rcases hcase with ⟨_, hv⟩ | ⟨hmiss, _, _⟩
        · exact ⟨hv.trans hv1, hdat⟩
        · have hx := mem_of_cachedAt s x (hi.first x (Or.inr (by rw [hv1]; decide)))
          rw [← hn1, n2] at hx
          exact absurd ⟨hd1.symm.trans d2, hn1.symm.trans n2⟩ (hmiss x hx)
      · rw [o2 x e]
        exact ⟨hv1, rfl⟩
  | bread dev blockno =>
    simp only [BioCall.run] at h
    cases hg : bread s dev blockno with
    | error e => rw [hg] at h; cases h
    | ok p =>
      obtain ⟨z, s3⟩ := p
      rw [hg] at h
      simp only [Except.map, Except.ok.injEq] at h
      subst h
      obtain ⟨s2, _, o3, _, _, z3, _, hcase⟩ := bread_effect s s3 dev blockno z hi hg
      by_cases e : x = z
      · subst e
        rw [z3] at hd1 hn1 ⊢
        rcases hcase with ⟨_, hv⟩ | ⟨hmiss, _, _⟩
        · refine ⟨rfl, ?_⟩
          show (if (s2.buf x).valid = 0 then s.disk dev blockno else (s.buf x).data) = _
          rw [if_neg (by rw [hv, hv1]; decide)]
        · have hx := mem_of_cachedAt s x (hi.first x (Or.inr (by rw [hv1]; decide)))
          have hd1a : dev = (s.buf x).dev := hd1
          have hn1a : blockno = (s.buf x).blockno := hn1
          rw [← hn1a] at hx
          exact absurd ⟨hd1a.symm, hn1a.symm⟩ (hmiss x hx)
      · rw [o3 x e]
        exact ⟨hv1, rfl⟩
  | bwrite b =>
    simp only [BioCall.run, bwrite] at h
    split at h
    · cases h
    · simp only [Except.ok.injEq] at h
      subst h
      exact ⟨hv1, rfl⟩
  | brelse b =>
    obtain ⟨_, hb, _⟩ := brelse_ok s s1 b h
    rw [hb x]
    by_cases e : x = b
    · rw [if_pos e, ← e]
      exact ⟨hv1, rfl⟩
    · rw [if_neg e]
      exact ⟨hv1, rfl⟩
  | bpin b =>
    simp only [BioCall.run, Except.ok.injEq] at h
    subst h
    unfold bpin
    by_cases e : x = b
    · subst e
      rw [setBuf_same]
      exact ⟨hv1, rfl⟩
    · rw [setBuf_other _ _ _ _ e]
      exact ⟨hv1, rfl⟩
  | bunpin b =>
    simp only [BioCall.run, Except.ok.injEq] at h
    subst h
    unfold bunpin
    by_cases e : x = b
    · subst e
      rw [setBuf_same]
      exact ⟨hv1, rfl⟩
    · rw [setBuf_other _ _ _ _ e]
      exact ⟨hv1, rfl⟩

theorem bread_of_bget_returns (s s2 : Bio) (dev blockno : Nat) (b : BufId)
    (h : bget s dev blockno = .ok (b, s2)) : ∃ s3, bread s dev blockno = .ok (b, s3) := by
  unfold bread
  rw [h]
  simp only []
  split
  · exact ⟨_, rfl⟩
  · exact ⟨_, rfl⟩

theorem lockValid_binit (NBUF : Nat) (disk : Nat → Nat → Nat → Nat) :
    LockValid (binit NBUF (bcacheZero disk)) := by
  intro b hb
  rw [(binit_spec NBUF disk).1 b] at hb
  cases hb

theorem bstore_ok (s s1 : Bio) (b : BufId) (d : Nat → Nat) (h : bstore s b d = .ok s1) :
    (s.buf b).locked = true ∧ s1 = s.setBuf b { s.buf b with data := d } := by
  unfold bstore at h
  split at h
  · cases h
  · rename_i hh
    simp only [Except.ok.injEq] at h
    exact ⟨by simpa [holdingsleep] using hh, h.symm⟩

theorem bioInv_bstore (s s1 : Bio) (b : BufId) (d : Nat → Nat) (hi : BioInv s)
    (h : bstore s b d = .ok s1) : BioInv s1 := by
  obtain ⟨_, e⟩ := bstore_ok s s1 b d h
  subst e
  refine bioInv_of_same s _ hi rfl ?_ ?_ ?_
  · intro c
    unfold Bio.setBuf
    by_cases e : c = b
    · simp [e]
    · simp [e]
  · intro c hc
    apply hi.first
    unfold Bio.setBuf at hc
    by_cases e : c = b
    · simpa [e] using hc
    · simpa [e] using hc
  · intro c
    unfold Bio.setBuf
    by_cases e : c = b
    · simpa [e] using hi.valid01 b
    · simpa [e] using hi.valid01 c

theorem bioInv_step (t : BioStep) (s s1 : Bio) (hi : BioInv s) (h : t.run s = .ok s1) :
    BioInv s1 := by
  cases t with
  | call c => exact bioInv_run c s s1 hi h
  | store b d => exact bioInv_bstore s s1 b d hi h

theorem lockValid_step (t : BioStep) (s s1 : Bio) (hp : t.isPublic = true) (hi : BioInv s)
    (hv : LockValid s) (h : t.run s = .ok s1) : LockValid s1 := by
  cases t with
  | call c => exact lockValid_run c s s1 hp hi hv h
  | store b d =>
    obtain ⟨_, e⟩ := bstore_ok s s1 b d h
    subst e
    intro c hc
    by_cases e : c = b
    · subst e
      rw [setBuf_same] at hc ⊢
      exact hv c hc
    · rw [setBuf_other _ _ _ _ e] at hc ⊢
      exact hv c hc

theorem inv_runSteps (ts : List BioStep) : ∀ (s s1 : Bio), BioInv s → runSteps s ts = .ok s1 →
    BioInv s1 ∧ ((∀ t ∈ ts, t.isPublic = true) → LockValid s → LockValid s1) := by
  induction ts with
  | nil =>
    intro s s1 hi h
    simp only [runSteps, Except.ok.injEq] at h
    subst h
    exact ⟨hi, fun _ hv => hv⟩
  | cons t ts ih =>
    intro s s1 hi h
    simp only [runSteps] at h
    cases hc : t.run s with
    | error e => rw [hc] at h; cases h
    | ok s2 =>
      rw [hc] at h
      obtain ⟨i1, v1⟩ := ih s2 s1 (bioInv_step t s s2 hi hc) h
      exact ⟨i1, fun hp hv => v1 (fun t1 h1 => hp t1 (List.mem_cons_of_mem _ h1))
        (lockValid_step t s s2 (hp t (List.mem_cons_self _ _)) hi hv hc)⟩

theorem lastStored_of_none (x : BufId) (ts : List BioStep) : ∀ (d : Nat → Nat),
    (∀ t ∈ ts, t.overwrites x = false) → lastStored x d ts = d := by
  induction ts with
  | nil => intro d _; rfl
  | cons t ts ih =>
    intro d h
    have ht := h t (List.mem_cons_self _ _)
    have hr := fun t1 h1 => h t1 (List.mem_cons_of_mem _ h1)
    cases t with
    | call c => exact ih d hr
    | store b data =>
      have hb : ¬ b = x := by simpa [BioStep.overwrites] using ht
      show lastStored x (if b = x then data else d) ts = d
      rw [if_neg hb]
      exact ih d hr

theorem cached_runKeeping (x : BufId) (dev blockno : Nat) (ts : List BioStep) :
    ∀ (s s1 : Bio), BioInv s → (s.buf x).valid = 1 → (s.buf x).dev = dev →
    (s.buf x).blockno = blockno → runKeeping x dev blockno s ts = .ok s1 →
    BioInv s1 ∧ (s1.buf x).valid = 1 ∧ (s1.buf x).dev = dev ∧ (s1.buf x).blockno = blockno ∧
      (s1.buf x).data = lastStored x (s.buf x).data ts := by
  induction ts with
  | nil =>
    intro s s1 hi hv hd hn h
    simp only [runKeeping, Except.ok.injEq] at h
    subst h
    exact ⟨hi, hv, hd, hn, rfl⟩
  | cons t ts ih =>
    intro s s1 hi hv hd hn h
    simp only [runKeeping] at h
    cases hc : t.run s with
    | error e => rw [hc] at h; cases h
    | ok s2 =>
      rw [hc] at h
      simp only at h
      split at h
      · rename_i hk
        have i2 := bioInv_step t s s2 hi hc
        cases t with
        | call c =>
          obtain ⟨v2, t2⟩ := cached_run c s s2 x hi hv hc (hk.1.trans hd.symm)
            (hk.2.trans hn.symm)
          obtain ⟨i3, v3, d3, n3, t3⟩ := ih s2 s1 i2 v2 hk.1 hk.2 h
          refine ⟨i3, v3, d3, n3, ?_⟩
          rw [t3, t2]
          rfl
        | store b d =>
          obtain ⟨_, e⟩ := bstore_ok s s2 b d hc
          have hv2 : (s2.buf x).valid = 1 ∧ (s2.buf x).data = if b = x then d else (s.buf x).data := by
            rw [e]
            by_cases hbx : b = x
            · subst hbx
              rw [setBuf_same, if_pos rfl]
              exact ⟨hv, rfl⟩
            · rw [setBuf_other _ _ _ _ (fun h2 => hbx h2.symm), if_neg hbx]
              exact ⟨hv, rfl⟩
          obtain ⟨i3, v3, d3, n3, t3⟩ := ih s2 s1 i2 hv2.1 hk.1 hk.2 h
          refine ⟨i3, v3, d3, n3, ?_⟩
          rw [t3, hv2.2]
          rfl
      · cases h

/-- C9: in a cache state reached from `binit` by calls into bio.c and stores
of clients into buffers whose sleep-lock they hold, a `bread` that returns
gives a buffer with valid = 1 that holds the requested device and block, and
it has appended a disk read of that block exactly when the buffer that `bget`
returned had valid = 0; `bread` returns exactly when the scans of `bget`
select a buffer whose sleep-lock is free; and when the state was reached by
stores and calls of the public functions, a buffer `x` that was written with
`bwrite`, whatever bytes its holder had stored into it before, and that still
holds its block after every later step, is returned by a later `bread` of
that block as soon as its sleep-lock is free, with no disk operation and with
the bytes that were written, which `bwrite` has put on the disk; if a holder
has stored into `x` after the `bwrite`, the bytes are those of the latest
such store. -/
theorem bread_valid_and_cached (NBUF : Nat) (disk : Nat → Nat → Nat → Nat)
    (steps1 : List BioStep) (s1 : Bio)
    (h1 : runSteps (binit NBUF (bcacheZero disk)) steps1 = .ok s1) :
    (∀ dev blockno b s3, bread s1 dev blockno = .ok (b, s3) →
      (s3.buf b).valid = 1 ∧ (s3.buf b).dev = dev ∧ (s3.buf b).blockno = blockno ∧
      ∃ s2, bget s1 dev blockno = .ok (b, s2) ∧
        (s3.diskops = if (s2.buf b).valid = 0 then s1.diskops ++ [⟨false, dev, blockno⟩]
          else s1.diskops)) ∧
    (∀ dev blockno, (∃ b s3, bread s1 dev blockno = .ok (b, s3)) ↔
      ∃ b sa, bget_find s1 dev blockno = .ok (b, sa) ∧ (s1.buf b).locked = false) ∧
    ((∀ t ∈ steps1, t.isPublic = true) → ∀ x s2 steps2 s3, bwrite s1 x = .ok s2 →
      runKeeping x (s1.buf x).dev (s1.buf x).blockno s2 steps2 = .ok s3 →
      (s3.buf x).locked = false →
      ∃ s4, bread s3 (s1.buf x).dev (s1.buf x).blockno = .ok (x, s4) ∧
        ((∀ t ∈ steps2, t.overwrites x = false) → (s4.buf x).data = (s1.buf x).data) ∧
        (s4.buf x).data = lastStored x (s1.buf x).data steps2 ∧ (s4.buf x).valid = 1 ∧
        s4.diskops = s3.diskops ∧ s4.disk = s3.disk ∧
        s2.disk (s1.buf x).dev (s1.buf x).blockno = (s1.buf x).data ∧
        (∀ d n, ¬ (d = (s1.buf x).dev ∧ n = (s1.buf x).blockno) → s2.disk d n = s1.disk d n) ∧
        s2.diskops = s1.diskops ++ [⟨true, (s1.buf x).dev, (s1.buf x).blockno⟩] ∧
        s2.buf = s1.buf ∧ s2.lru = s1.lru) := by
  obtain ⟨i1, hlv⟩ := inv_runSteps steps1 _ s1 (bioInv_binit NBUF disk) h1
  refine ⟨?_, ?_, ?_⟩
  · intro dev blockno b s3 h
    obtain ⟨s2, hg, _, _, _, z3, p3, _⟩ := bread_effect s1 s3 dev blockno b i1 h
    exact ⟨by rw [z3], by rw [z3], by rw [z3], s2, hg, p3⟩
  · intro dev blockno
    constructor
    · rintro ⟨b, s3, h⟩
      obtain ⟨s2, hg, _⟩ := bread_split s1 s3 dev blockno b h
      obtain ⟨sa, hf, _⟩ := bget_split s1 s2 dev blockno b hg
      obtain ⟨_, _, _, hl, _⟩ := bget_effect s1 s2 dev blockno b hg
      exact ⟨b, sa, hf, hl⟩
    · rintro ⟨b, sa, hf, hl⟩
      have hla : (sa.buf b).locked = false := by
        rcases bget_find_cases s1 sa dev blockno b hf with ⟨_, e⟩ | ⟨_, _, _, e⟩
        · rw [e, setBuf_same]; exact hl
        · rw [e, setBuf_same]; exact hl
      have hg : bget s1 dev blockno = .ok (b, sa.setBuf b { sa.buf b with locked := true }) := by
        unfold bget
        rw [hf]
        simp only []
        rw [acquiresleep_free sa b hla]
      obtain ⟨s3, h3⟩ := bread_of_bget_returns s1 _ dev blockno b hg
      exact ⟨b, s3, h3⟩
  · intro hp x s2 steps2 s3 hw hrun hfree
    have v1 := hlv hp (lockValid_binit NBUF disk)
    have hlk : (s1.buf x).locked = true := by
      unfold bwrite at hw
      split at hw
      · cases hw
      · rename_i hh
        simpa [holdingsleep] using hh
    have e2 : s2 = virtio_disk_rw s1 x true := by
      unfold bwrite at hw
      split at hw
      · cases hw
      · simp only [Except.ok.injEq] at hw
        exact hw.symm
    have i2 : BioInv s2 := bioInv_run (.bwrite x) s1 s2 i1 hw
    have hb2 : s2.buf = s1.buf := by rw [e2]; rfl
    obtain ⟨i3, v3, d3, n3, t3⟩ := cached_runKeeping x (s1.buf x).dev (s1.buf x).blockno steps2
      s2 s3 i2 (by rw [hb2]; exact v1 x hlk) (by rw [hb2]) (by rw [hb2]) hrun
    have hc3 := i3.first x (Or.inr (by rw [v3]; decide))
    unfold cachedAt at hc3
    rw [d3, n3] at hc3
    obtain ⟨sb, hg, _, _, zb, kb, pb⟩ := bget_hit s3 _ _ x hc3 hfree
    obtain ⟨s4, h4, _, _, z4, k4, p4⟩ := bread_of_bget s3 sb _ _ x hg (by rw [zb]; exact d3)
      (by rw [zb]; exact n3) (by rw [zb]; exact i3.valid01 x)
    have hvb : (sb.buf x).valid ≠ 0 := by rw [zb]; show (s3.buf x).valid ≠ 0; rw [v3]; decide
    have hdat : (s4.buf x).data = lastStored x (s1.buf x).data steps2 := by
      rw [z4]
      show (if (sb.buf x).valid = 0 then _ else (sb.buf x).data) = _
      rw [if_neg hvb, zb]
      show (s3.buf x).data = _
      rw [t3, hb2]
    refine ⟨s4, h4, fun hno => ?_, hdat, by rw [z4], ?_, k4.trans kb, ?_, ?_, ?_, hb2, ?_⟩
    · rw [hdat, lastStored_of_none x steps2 _ hno]
    · rw [p4, if_neg hvb, pb]
    · rw [e2]
      simp only [virtio_disk_rw, if_true, and_self]
    · intro d n hdn
      rw [e2]
      simp only [virtio_disk_rw, if_true, if_neg hdn]
    · rw [e2]
      simp only [virtio_disk_rw, if_true]
    · rw [e2]
      simp only [virtio_disk_rw, if_true]

theorem bread_valid_and_cached_witness :
    runSteps (binit 3 (bcacheZero demoDisk))
      [.call (.bread 1 17), .store ⟨0, 0⟩ (fun _ => 0x5A)] = .ok demoStored ∧
    (demoStored.buf ⟨0, 0⟩).dev = 1 ∧ (demoStored.buf ⟨0, 0⟩).blockno = 17 ∧
    (demoStored.buf ⟨0, 0⟩).data 0 = 0x5A ∧ demoStored.disk 1 17 0 = 18 ∧
    bwrite demoStored ⟨0, 0⟩ = .ok demoFlushed ∧
    runKeeping ⟨0, 0⟩ 1 17 demoFlushed
      [.call (.brelse ⟨0, 0⟩), .call (.bread 1 34), .store ⟨0, 1⟩ (fun _ => 0x77),
        .call (.bwrite ⟨0, 1⟩), .call (.brelse ⟨0, 1⟩)] = .ok demoLater ∧
    ∃ s4, bread demoLater 1 17 = .ok (⟨0, 0⟩, s4) ∧
      (s4.buf ⟨0, 0⟩).data = (demoStored.buf ⟨0, 0⟩).data ∧ (s4.buf ⟨0, 0⟩).valid = 1 ∧
      s4.diskops = demoLater.diskops ∧ s4.disk = demoLater.disk ∧
      demoFlushed.disk 1 17 = (demoStored.buf ⟨0, 0⟩).data ∧
      (∀ d n, ¬ (d = 1 ∧ n = 17) → demoFlushed.disk d n = demoStored.disk d n) ∧
      demoFlushed.diskops = demoStored.diskops ++ [⟨true, 1, 17⟩] ∧
      demoFlushed.buf = demoStored.buf ∧ demoFlushed.lru = demoStored.lru := by
  obtain ⟨s4, h4, hno, _, hrest⟩ := (bread_valid_and_cached 3 demoDisk
    [.call (.bread 1 17), .store ⟨0, 0⟩ (fun _ => 0x5A)] demoStored
    (eq_ok_state _ (bcacheZero demoDisk) (by decide))).2.2 (by decide) ⟨0, 0⟩ demoFlushed
    [.call (.brelse ⟨0, 0⟩), .call (.bread 1 34), .store ⟨0, 1⟩ (fun _ => 0x77),
      .call (.bwrite ⟨0, 1⟩), .call (.brelse ⟨0, 1⟩)] demoLater
    (eq_ok_state _ demoStored (by decide)) (eq_ok_state _ demoFlushed (by decide)) (by decide)
  exact ⟨eq_ok_state _ (bcacheZero demoDisk) (by decide), by decide, by decide, by decide,
    by decide, eq_ok_state _ demoStored (by decide), eq_ok_state _ demoFlushed (by decide),
    s4, h4, hno (by decide), hrest⟩

/-- C10 (failing input): in `demoSys`, `mmap(0, 4096, PROT_NONE, MAP_PRIVATE,
3, 0)` succeeds and returns `0x2000`, with the page mapped by an entry whose
flags are V alone; the following `munmap(0x2000, 4096)` does not return 0 but
panics in `uvmunmap` with "uvmunmap: not a leaf".  With `PROT_READ` in place
of `PROT_NONE` the same two calls return `0x2000` and 0. -/
theorem mmap_prot_none_munmap_panics :
    sys_mmap demoSys 0 4096 0 MAP_PRIVATE 3 0 = .ok (0x2000, demoMapped) ∧
    (0x2000 : Nat) ≠ minusOne ∧
    walk demoMapped.mem demoMapped.p.pagetable 0x2000 false = .ok (0x80012010, demoMapped.mem) ∧
    PTE_FLAGS (demoMapped.mem.ptes 0x80012010) = PTE_V ∧
    demoMapped.p.vmaep 0 = some 0 ∧ (demoMapped.vmae 0).start = 0x2000 ∧
    (demoMapped.vmae 0).length = 4096 ∧
    sys_munmap demoMapped 0x2000 4096 = .error "uvmunmap: not a leaf" ∧
    sys_mmap demoSys 0 4096 PROT_READ MAP_PRIVATE 3 0 = .ok (0x2000, demoMappedRead) ∧
    (sys_munmap demoMappedRead 0x2000 4096).toOption.map Prod.fst = some 0 :=
  ⟨eq_ok_pair _ _ demoSys (by decide), by decide, rfl, by decide, by decide, by decide, by decide,
    rfl, eq_ok_pair _ _ demoSys (by decide), by decide⟩

/-- C11 (failing input): in `demoDirty` the shared mapping starts at `0x2000`
with file offset 0 and two pages, and the page `0x3000` is dirty.  The tail
trim `munmap(0x3000, 4096)` is accepted and returns 0, and it writes the dirty
page back at file offset 0, not at `0 + (0x3000 - 0x2000) = 4096`; `munmap` of
the whole region `(0x2000, 8192)` writes the same page at offset 4096, and
the clean page `0x2000` is not written. -/
theorem munmap_tail_writeback_offset :
    demoDirty.p.vmaep 0 = some 0 ∧ (demoDirty.vmae 0).start = 0x2000 ∧
    (demoDirty.vmae 0).length = 8192 ∧ (demoDirty.vmae 0).offset = 0 ∧
    (demoDirty.vmae 0).flags &&& MAP_SHARED ≠ 0 ∧
    demoDirty.mem.ptes 0x80012010 &&& PTE_D = 0 ∧ demoDirty.mem.ptes 0x80012018 &&& PTE_D ≠ 0 ∧
    walk demoDirty.mem demoDirty.p.pagetable 0x3000 false = .ok (0x80012018, demoDirty.mem) ∧
    (sys_munmap demoDirty 0x3000 4096).toOption.map (fun r => (r.1, r.2.written)) =
      some (0, [⟨1, 0x3000, 4096, 0⟩]) ∧
    (sys_munmap demoDirty 0x2000 8192).toOption.map (fun r => (r.1, r.2.written)) =
      some (0, [⟨1, 0x3000, 4096, 4096⟩]) :=
  ⟨by decide, by decide, by decide, by decide, by decide, by decide, by decide, rfl, by decide,
    by decide⟩

/-- C12 (failing input): in `demoSysRO`, where the file of descriptor 3 is not
writable, `mmap(0, 4096, PROT_READ | PROT_WRITE, MAP_SHARED, 3, 0)` returns -1
and leaves the reference count of the file, the global pool entry and the
process slot as they were, but it has already raised the process size from
`0x2000` to `0x3000`, taken a frame from the allocator and mapped it at the
page `0x2000`, whose entry was 0 before. -/
theorem mmap_rejected_leaves_pages :
    sys_mmap demoSysRO 0 4096 (PROT_READ ||| PROT_WRITE) MAP_SHARED 3 0 =
      .ok (minusOne, demoRejected) ∧
    (demoRejected.file 1).ref = (demoSysRO.file 1).ref ∧
    (demoRejected.vmae 0).length = 0 ∧ demoRejected.p.vmaep 0 = none ∧
    demoSysRO.p.sz = 0x2000 ∧ demoRejected.p.sz = 0x3000 ∧
    walk demoSysRO.mem demoSysRO.p.pagetable 0x2000 false = .ok (0x80012010, demoSysRO.mem) ∧
    demoSysRO.mem.ptes 0x80012010 = 0 ∧
    walk demoRejected.mem demoRejected.p.pagetable 0x2000 false =
      .ok (0x80012010, demoRejected.mem) ∧
    demoRejected.mem.ptes 0x80012010 = PA2PTE 0x80031000 ||| (PTE_W ||| PTE_R) ||| PTE_V ∧
    demoSysRO.mem.freelist = [0x80031000, 0x80032000, 0x80033000] ∧
    demoRejected.mem.freelist = [0x80032000, 0x80033000] :=
  ⟨eq_ok_pair _ _ demoSysRO (by decide), by decide, by decide, by decide, by decide, by decide,
    rfl, by decide, rfl, by decide, by decide, by decide⟩


theorem slot_eq (T T1 i j : Nat) (hT : T % PGSIZE = 0) (hT1 : T1 % PGSIZE = 0) (hi : i < 512)
    (hj : j < 512) (h : T + 8 * i = T1 + 8 * j) : T = T1 ∧ i = j := by
  unfold PGSIZE at hT hT1
  omega

theorem hasPath_iff (m : Machine) (pt va : Nat) :
    HasPath m pt va ↔
      (m.ptes (l2slot pt va) &&& PTE_V ≠ 0 ∧ m.ptes (l1slot m pt va) &&& PTE_V ≠ 0) := Iff.rfl

theorem leafPte_of_path (m : Machine) (pt va : Nat) (h : HasPath m pt va) :
    leafPte m pt va = m.ptes (l0slot m pt va) := by
  unfold leafPte
  unfold HasPath at h
  rw [if_pos h]

theorem leafPte_of_nopath (m : Machine) (pt va : Nat) (h : ¬ HasPath m pt va) :
    leafPte m pt va = 0 := by
  unfold leafPte
  unfold HasPath at h
  rw [if_neg h]

theorem hasPath_of_leaf (m : Machine) (pt va : Nat) (h : leafPte m pt va ≠ 0) :
    HasPath m pt va := by
  by_contra hc
  exact h (leafPte_of_nopath m pt va hc)

theorem hasPath_of_valid (m : Machine) (pt va : Nat) (h : leafPte m pt va &&& PTE_V ≠ 0) :
    HasPath m pt va := by
  apply hasPath_of_leaf
  intro h0
  rw [h0] at h
  exact h (Nat.zero_and _)

theorem l1slot_eq (m : Machine) (pt va : Nat) : l1slot m pt va = l1table m pt va + 8 * PX 1 va := rfl

theorem l0slot_eq (m : Machine) (pt va : Nat) : l0slot m pt va = l0table m pt va + 8 * PX 0 va := rfl

theorem l0_ne_l2 (m : Machine) (pt va vb : Nat) (hp : PtOK m pt) (h : HasPath m pt va) :
    l0slot m pt va ≠ l2slot pt vb := by
  intro e
  rw [l0slot_eq] at e
  unfold l2slot at e
  exact (hp.l0ne va h).1 (slot_eq _ _ _ _ (PTE2PA_aligned _) hp.root (PX_lt _ _) (PX_lt _ _) e).1

theorem l0_ne_l1 (m : Machine) (pt va vb : Nat) (hp : PtOK m pt) (h : HasPath m pt va)
    (hb : m.ptes (l2slot pt vb) &&& PTE_V ≠ 0) : l0slot m pt va ≠ l1slot m pt vb := by
  intro e
  rw [l0slot_eq, l1slot_eq] at e
  exact hp.l01 va vb h hb
    (slot_eq _ _ _ _ (PTE2PA_aligned _) (PTE2PA_aligned _) (PX_lt _ _) (PX_lt _ _) e).1

theorem l1_ne_l2 (m : Machine) (pt va vb : Nat) (hp : PtOK m pt)
    (h : m.ptes (l2slot pt va) &&& PTE_V ≠ 0) : l1slot m pt va ≠ l2slot pt vb := by
  intro e
  rw [l1slot_eq] at e
  unfold l2slot at e
  exact hp.l1ne va h (slot_eq _ _ _ _ (PTE2PA_aligned _) hp.root (PX_lt _ _) (PX_lt _ _) e).1

theorem l2_inj (pt va vb : Nat) (h : l2slot pt va = l2slot pt vb) : PX 2 va = PX 2 vb := by
  unfold l2slot at h
  omega

theorem l1_inj (m : Machine) (pt va vb : Nat) (hp : PtOK m pt)
    (ha : m.ptes (l2slot pt va) &&& PTE_V ≠ 0) (hb : m.ptes (l2slot pt vb) &&& PTE_V ≠ 0)
    (h : l1slot m pt va = l1slot m pt vb) : PX 2 va = PX 2 vb ∧ PX 1 va = PX 1 vb := by
  rw [l1slot_eq, l1slot_eq] at h
  obtain ⟨e1, e2⟩ := slot_eq _ _ _ _ (PTE2PA_aligned _) (PTE2PA_aligned _) (PX_lt _ _) (PX_lt _ _) h
  exact ⟨hp.inj1 va vb ha hb e1, e2⟩

theorem l0_inj (m : Machine) (pt va vb : Nat) (hp : PtOK m pt) (ha : HasPath m pt va)
    (hb : HasPath m pt vb) (h : l0slot m pt va = l0slot m pt vb) :
    PX 2 va = PX 2 vb ∧ PX 1 va = PX 1 vb ∧ PX 0 va = PX 0 vb := by
  rw [l0slot_eq, l0slot_eq] at h
  obtain ⟨e1, e2⟩ := slot_eq _ _ _ _ (PTE2PA_aligned _) (PTE2PA_aligned _) (PX_lt _ _) (PX_lt _ _) h
  obtain ⟨e3, e4⟩ := hp.inj0 va vb ha hb e1
  exact ⟨e3, e4, e2⟩

theorem l0_ne_zero (m : Machine) (pt va : Nat) (hp : PtOK m pt) (h : HasPath m pt va) :
    l0slot m pt va ≠ 0 := by
  rw [l0slot_eq]
  have := (hp.l0ne va h).2
  omega

theorem l2slot_congr (pt va vb : Nat) (h : PX 2 va = PX 2 vb) : l2slot pt va = l2slot pt vb := by
  unfold l2slot
  rw [h]

theorem l1slot_congr (m : Machine) (pt va vb : Nat) (h2 : PX 2 va = PX 2 vb)
    (h1 : PX 1 va = PX 1 vb) : l1slot m pt va = l1slot m pt vb := by
  unfold l1slot
  rw [l2slot_congr pt va vb h2, h1]

theorem l0slot_congr (m : Machine) (pt va vb : Nat) (h2 : PX 2 va = PX 2 vb)
    (h1 : PX 1 va = PX 1 vb) (h0 : PX 0 va = PX 0 vb) : l0slot m pt va = l0slot m pt vb := by
  unfold l0slot
  rw [l1slot_congr m pt va vb h2 h1, h0]

theorem PX_of_page (l va vb : Nat) (h : va / PGSIZE = vb / PGSIZE) : PX l va = PX l vb := by
  unfold PX
  have e : ∀ x, x >>> (12 + 9 * l) = (x / PGSIZE) >>> (9 * l) := by
    intro x
    rw [Nat.shiftRight_add, show x >>> 12 = x / PGSIZE from Nat.shiftRight_eq_div_pow x 12]
  rw [e va, e vb, h]

theorem page_of_PX (va vb : Nat) (ha : va < MAXVA) (hb : vb < MAXVA) (h2 : PX 2 va = PX 2 vb)
    (h1 : PX 1 va = PX 1 vb) (h0 : PX 0 va = PX 0 vb) : va / PGSIZE = vb / PGSIZE := by
  unfold PX at h2 h1 h0
  unfold MAXVA at ha hb
  unfold PGSIZE
  simp only [Nat.shiftRight_eq_div_pow, show (0x1FF : Nat) = 2 ^ 9 - 1 from rfl,
    Nat.and_pow_two_sub_one_eq_mod] at h2 h1 h0
  norm_num at h2 h1 h0
  omega

theorem not_in_page (T f i : Nat) (hT : T % PGSIZE = 0) (hf : f % PGSIZE = 0) (hne : T ≠ f)
    (hi : i < 512) : ¬ (f ≤ T + 8 * i ∧ T + 8 * i < f + PGSIZE) := by
  unfold PGSIZE at *
  omega

theorem in_page (f i : Nat) (hi : i < 512) : f ≤ f + 8 * i ∧ f + 8 * i < f + PGSIZE := by
  unfold PGSIZE
  omega

theorem walk_path (m : Machine) (pt va : Nat) (hva : va < MAXVA) (h : HasPath m pt va) :
    walk m pt va false = .ok (l0slot m pt va, m) :=
  walk_of_mapped m pt va _ hva ⟨h.1, h.2, rfl⟩

theorem walk_nopath (m : Machine) (pt va : Nat) (hva : va < MAXVA) (h : ¬ HasPath m pt va) :
    walk m pt va false = .ok (0, m) := by
  rw [walk_noalloc m pt va hva]
  unfold HasPath at h
  by_cases h2 : m.ptes (l2slot pt va) &&& PTE_V ≠ 0
  · rw [if_pos h2, if_neg (fun h1 => h ⟨h2, h1⟩)]
  · rw [if_neg h2]

/-- A change of page-table words that leaves the interior entries alone keeps
the tree and its paths. -/
theorem ptOK_congr (m m1 : Machine) (pt : Nat)
    (h2 : ∀ vb, m1.ptes (l2slot pt vb) = m.ptes (l2slot pt vb))
    (h1 : ∀ vb, m.ptes (l2slot pt vb) &&& PTE_V ≠ 0 →
      m1.ptes (l1slot m pt vb) = m.ptes (l1slot m pt vb))
    (hp : PtOK m pt) :
    PtOK m1 pt ∧ (∀ vb, l1slot m1 pt vb = l1slot m pt vb) ∧
    (∀ vb, HasPath m1 pt vb ↔ HasPath m pt vb) ∧
    (∀ vb, m.ptes (l2slot pt vb) &&& PTE_V ≠ 0 → l0slot m1 pt vb = l0slot m pt vb) := by
  have e1 : ∀ vb, l1slot m1 pt vb = l1slot m pt vb := by
    intro vb
    unfold l1slot
    rw [h2 vb]
  have et1 : ∀ vb, l1table m1 pt vb = l1table m pt vb := by
    intro vb
    unfold l1table
    rw [h2 vb]
  have ev1 : ∀ vb, m.ptes (l2slot pt vb) &&& PTE_V ≠ 0 →
      m1.ptes (l1slot m1 pt vb) = m.ptes (l1slot m pt vb) := by
    intro vb hv
    rw [e1 vb, h1 vb hv]
  have eP : ∀ vb, HasPath m1 pt vb ↔ HasPath m pt vb := by
    intro vb
    unfold HasPath
    rw [h2 vb]
    constructor
    · rintro ⟨a, b⟩
      rw [ev1 vb a] at b
      exact ⟨a, b⟩
    · rintro ⟨a, b⟩
      rw [← ev1 vb a] at b
      exact ⟨a, b⟩
  have et0 : ∀ vb, m.ptes (l2slot pt vb) &&& PTE_V ≠ 0 → l0table m1 pt vb = l0table m pt vb := by
    intro vb hv
    unfold l0table
    rw [ev1 vb hv]
  have e0 : ∀ vb, m.ptes (l2slot pt vb) &&& PTE_V ≠ 0 → l0slot m1 pt vb = l0slot m pt vb := by
    intro vb hv
    rw [l0slot_eq, l0slot_eq, et0 vb hv]
  refine ⟨⟨hp.root, ?_, ?_, ?_, ?_, ?_⟩, e1, eP, e0⟩
  · intro va hv
    rw [h2 va] at hv
    rw [et1 va]
    exact hp.l1ne va hv
  · intro va hv
    have hv1 := (eP va).1 hv
    rw [et0 va hv1.1]
    exact hp.l0ne va hv1
  · intro va vb hv hb
    have hv1 := (eP va).1 hv
    rw [h2 vb] at hb
    rw [et0 va hv1.1, et1 vb]
    exact hp.l01 va vb hv1 hb
  · intro va vb ha hb
    rw [h2 va] at ha
    rw [h2 vb] at hb
    rw [et1 va, et1 vb]
    exact hp.inj1 va vb ha hb
  · intro va vb ha hb
    have ha1 := (eP va).1 ha
    have hb1 := (eP vb).1 hb
    rw [et0 va ha1.1, et0 vb hb1.1]
    exact hp.inj0 va vb ha1 hb1

/-- A store into the entry of a page keeps the tree and changes the entry of
that page only. -/
theorem ptOK_setLeaf (m : Machine) (pt va v : Nat) (hp : PtOK m pt) (h : HasPath m pt va) :
    PtOK (m.setPte (l0slot m pt va) v) pt ∧
    (∀ vb, HasPath (m.setPte (l0slot m pt va) v) pt vb ↔ HasPath m pt vb) ∧
    (∀ vb, leafPte (m.setPte (l0slot m pt va) v) pt vb =
      if PX 2 vb = PX 2 va ∧ PX 1 vb = PX 1 va ∧ PX 0 vb = PX 0 va then v
      else leafPte m pt vb) := by
  have h2 : ∀ vb, (m.setPte (l0slot m pt va) v).ptes (l2slot pt vb) = m.ptes (l2slot pt vb) := by
    intro vb
    simp only [Machine.setPte]
    rw [if_neg (Ne.symm (l0_ne_l2 m pt va vb hp h))]
  have h1 : ∀ vb, m.ptes (l2slot pt vb) &&& PTE_V ≠ 0 →
      (m.setPte (l0slot m pt va) v).ptes (l1slot m pt vb) = m.ptes (l1slot m pt vb) := by
    intro vb hv
    simp only [Machine.setPte]
    rw [if_neg (Ne.symm (l0_ne_l1 m pt va vb hp h hv))]
  obtain ⟨p1, _, eP, e0⟩ := ptOK_congr m _ pt h2 h1 hp
  refine ⟨p1, eP, ?_⟩
  intro vb
  by_cases hb : HasPath m pt vb
  · rw [leafPte_of_path _ _ _ ((eP vb).2 hb), leafPte_of_path _ _ _ hb, e0 vb hb.1]
    simp only [Machine.setPte]
    by_cases e : PX 2 vb = PX 2 va ∧ PX 1 vb = PX 1 va ∧ PX 0 vb = PX 0 va
    · rw [if_pos e, if_pos (l0slot_congr m pt vb va e.1 e.2.1 e.2.2)]
    · rw [if_neg e, if_neg]
      intro e2
      exact e (l0_inj m pt vb va hp hb h e2)
  · rw [leafPte_of_nopath _ _ _ (fun hc => hb ((eP vb).1 hc)), leafPte_of_nopath _ _ _ hb, if_neg]
    rintro ⟨a, b, _⟩
    apply hb
    unfold HasPath at h ⊢
    rw [l2slot_congr pt vb va a, l1slot_congr m pt vb va a b]
    exact h

/-- A frame that the allocator holds is no page-table page of the tree. -/
theorem fresh_of_allocOK (m : Machine) (pt f : Nat) (hok : AllocOK m) (hr : pt % PGSIZE = 0)
    (hpt : pt ∉ m.freelist) (hf : f ∈ m.freelist) :
    f % PGSIZE = 0 ∧ f < 2 ^ 64 ∧ f ≠ 0 ∧ f ≠ pt ∧
    (∀ vb, m.ptes (l2slot pt vb) &&& PTE_V ≠ 0 → l1table m pt vb ≠ f) ∧
    (∀ vb, HasPath m pt vb → l0table m pt vb ≠ f) := by
  obtain ⟨a1, a2, a3⟩ := hok.aligned f hf
  have h1 : ∀ vb, m.ptes (l2slot pt vb) &&& PTE_V ≠ 0 → l1table m pt vb ∉ m.freelist := by
    intro vb hv
    exact hok.nodangling _ hv (not_inFree_page m pt _ hok hr hpt (PX_lt 2 vb))
  refine ⟨a1, a2, a3, fun e => hpt (e ▸ hf), fun vb hv e => h1 vb hv (by rw [e]; exact hf), ?_⟩
  intro vb hv e
  have hn : ¬ InFree m (l1slot m pt vb) :=
    not_inFree_page m _ _ hok (PTE2PA_aligned _) (h1 vb hv.1) (PX_lt 1 vb)
  apply hok.nodangling _ hv.2 hn
  unfold l0table at e
  rw [e]
  exact hf

/-- Linking a fresh zeroed level-0 table at an invalid level-1 entry keeps the
tree and the entry of every page. -/
theorem ptOK_link1 (m m1 : Machine) (pt va f : Nat) (hp : PtOK m pt)
    (hfa : f % PGSIZE = 0) (hf64 : f < 2 ^ 64) (hf0 : f ≠ 0) (hfpt : f ≠ pt)
    (hf1 : ∀ vb, m.ptes (l2slot pt vb) &&& PTE_V ≠ 0 → l1table m pt vb ≠ f)
    (hf0t : ∀ vb, HasPath m pt vb → l0table m pt vb ≠ f)
    (hv2 : m.ptes (l2slot pt va) &&& PTE_V ≠ 0) (hv1 : ¬ m.ptes (l1slot m pt va) &&& PTE_V ≠ 0)
    (hp1 : ∀ b, m1.ptes b = if b = l1slot m pt va then PA2PTE f ||| PTE_V
      else if f ≤ b ∧ b < f + PGSIZE then 0 else m.ptes b) :
    PtOK m1 pt ∧ HasPath m1 pt va ∧ l0slot m1 pt va = f + 8 * PX 0 va ∧
    m1.ptes (l0slot m1 pt va) = 0 ∧ (∀ vb, leafPte m1 pt vb = leafPte m pt vb) := by
  have e2 : ∀ vb, m1.ptes (l2slot pt vb) = m.ptes (l2slot pt vb) := by
    intro vb
    have hn : ¬ (f ≤ l2slot pt vb ∧ l2slot pt vb < f + PGSIZE) :=
      not_in_page pt f _ hp.root hfa (Ne.symm hfpt) (PX_lt 2 vb)
    rw [hp1, if_neg (Ne.symm (l1_ne_l2 m pt va vb hp hv2)), if_neg hn]
  have es1 : ∀ vb, l1slot m1 pt vb = l1slot m pt vb := by
    intro vb
    unfold l1slot
    rw [e2 vb]
  have et1 : ∀ vb, l1table m1 pt vb = l1table m pt vb := by
    intro vb
    unfold l1table
    rw [e2 vb]
  have same : ∀ vb, m.ptes (l2slot pt vb) &&& PTE_V ≠ 0 →
      (l1slot m pt vb = l1slot m pt va ↔ (PX 2 vb = PX 2 va ∧ PX 1 vb = PX 1 va)) := by
    intro vb hv
    exact ⟨fun e => l1_inj m pt vb va hp hv hv2 e, fun e => l1slot_congr m pt vb va e.1 e.2⟩
  have ev1 : ∀ vb, m.ptes (l2slot pt vb) &&& PTE_V ≠ 0 →
      m1.ptes (l1slot m1 pt vb) = if PX 2 vb = PX 2 va ∧ PX 1 vb = PX 1 va then PA2PTE f ||| PTE_V
        else m.ptes (l1slot m pt vb) := by
    intro vb hv
    rw [es1 vb, hp1]
    by_cases e : PX 2 vb = PX 2 va ∧ PX 1 vb = PX 1 va
    · rw [if_pos ((same vb hv).2 e), if_pos e]
    · rw [if_neg (fun c => e ((same vb hv).1 c)), if_neg e, if_neg]
      rw [l1slot_eq]
      exact not_in_page _ f _ (PTE2PA_aligned _) hfa (hf1 vb hv) (PX_lt 1 vb)
  have nopath : ∀ vb, PX 2 vb = PX 2 va ∧ PX 1 vb = PX 1 va → ¬ HasPath m pt vb := by
    rintro vb ⟨a, b⟩ hc
    apply hv1
    rw [← l1slot_congr m pt vb va a b]
    exact hc.2
  have eP : ∀ vb, HasPath m1 pt vb ↔
      (HasPath m pt vb ∨ (m.ptes (l2slot pt vb) &&& PTE_V ≠ 0 ∧ PX 2 vb = PX 2 va ∧
        PX 1 vb = PX 1 va)) := by
    intro vb
    unfold HasPath
    rw [e2 vb]
    constructor
    · rintro ⟨a, b⟩
      rw [ev1 vb a] at b
      by_cases e : PX 2 vb = PX 2 va ∧ PX 1 vb = PX 1 va
      · exact Or.inr ⟨a, e⟩
      · rw [if_neg e] at b
        exact Or.inl ⟨a, b⟩
    · rintro (⟨a, b⟩ | ⟨a, e⟩)
      · refine ⟨a, ?_⟩
        rw [ev1 vb a, if_neg (fun e => nopath vb e ⟨a, b⟩)]
        exact b
      · refine ⟨a, ?_⟩
        rw [ev1 vb a, if_pos e]
        exact table_entry_valid f
  have et0 : ∀ vb, m.ptes (l2slot pt vb) &&& PTE_V ≠ 0 →
      l0table m1 pt vb = if PX 2 vb = PX 2 va ∧ PX 1 vb = PX 1 va then f else l0table m pt vb := by
    intro vb hv
    unfold l0table
    rw [ev1 vb hv]
    by_cases e : PX 2 vb = PX 2 va ∧ PX 1 vb = PX 1 va
    · rw [if_pos e, if_pos e, PTE2PA_table f hfa hf64]
    · rw [if_neg e, if_neg e]
  have et0new : ∀ vb, m.ptes (l2slot pt vb) &&& PTE_V ≠ 0 → PX 2 vb = PX 2 va ∧ PX 1 vb = PX 1 va →
      l0table m1 pt vb = f := by
    intro vb hv e
    rw [et0 vb hv, if_pos e]
  have et0old : ∀ vb, HasPath m pt vb → l0table m1 pt vb = l0table m pt vb := by
    intro vb hv
    rw [et0 vb hv.1, if_neg (fun e => nopath vb e hv)]
  have leaf : ∀ vb, leafPte m1 pt vb = leafPte m pt vb := by
    intro vb
    by_cases hb : HasPath m pt vb
    · rw [leafPte_of_path _ _ _ ((eP vb).2 (Or.inl hb)), leafPte_of_path _ _ _ hb, l0slot_eq,
        et0old vb hb, ← l0slot_eq, hp1, if_neg (l0_ne_l1 m pt vb va hp hb hv2), if_neg]
      rw [l0slot_eq]
      exact not_in_page _ f _ (PTE2PA_aligned _) hfa (hf0t vb hb) (PX_lt 0 vb)
    · rw [leafPte_of_nopath _ _ _ hb]
      by_cases hb1 : HasPath m1 pt vb
      · rcases (eP vb).1 hb1 with c | ⟨a, e⟩
        · exact absurd c hb
        · rw [leafPte_of_path _ _ _ hb1, l0slot_eq, et0new vb a e, hp1, if_neg, if_pos (in_page f _ (PX_lt 0 vb))]
          rw [l1slot_eq]
          intro c
          exact hf1 va hv2 (slot_eq _ _ _ _ hfa (PTE2PA_aligned _) (PX_lt _ _) (PX_lt _ _) c).1.symm
      · exact leafPte_of_nopath _ _ _ hb1
  have hpva : HasPath m1 pt va := (eP va).2 (Or.inr ⟨hv2, rfl, rfl⟩)
  have hsl : l0slot m1 pt va = f + 8 * PX 0 va := by
    rw [l0slot_eq, et0new va hv2 ⟨rfl, rfl⟩]
  refine ⟨⟨hp.root, ?_, ?_, ?_, ?_, ?_⟩, hpva, hsl, ?_, leaf⟩
  · intro vb hv
    rw [e2 vb] at hv
    rw [et1 vb]
    exact hp.l1ne vb hv
  · intro vb hv
    rcases (eP vb).1 hv with c | ⟨a, e⟩
    · rw [et0old vb c]
      exact hp.l0ne vb c
    · rw [et0new vb a e]
      exact ⟨hfpt, hf0⟩
  · intro vb vc hv hc
    rw [e2 vc] at hc
    rw [et1 vc]
    rcases (eP vb).1 hv with c | ⟨a, e⟩
    · rw [et0old vb c]
      exact hp.l01 vb vc c hc
    · rw [et0new vb a e]
      exact Ne.symm (hf1 vc hc)
  · intro vb vc hb hc
    rw [e2 vb] at hb
    rw [e2 vc] at hc
    rw [et1 vb, et1 vc]
    exact hp.inj1 vb vc hb hc
  · intro vb vc hb hc
    rcases (eP vb).1 hb with b1 | ⟨b1, b2⟩
    · rcases (eP vc).1 hc with c1 | ⟨c1, c2⟩
      · rw [et0old vb b1, et0old vc c1]
        exact hp.inj0 vb vc b1 c1
      · rw [et0old vb b1, et0new vc c1 c2]
        intro e
        exact absurd e (hf0t vb b1)
    · rcases (eP vc).1 hc with c1 | ⟨c1, c2⟩
      · rw [et0new vb b1 b2, et0old vc c1]
        intro e
        exact absurd e.symm (hf0t vc c1)
      · intro _
        exact ⟨b2.1.trans c2.1.symm, b2.2.trans c2.2.symm⟩
  · rw [hsl, hp1, if_neg, if_pos (in_page f _ (PX_lt 0 va))]
    rw [l1slot_eq]
    intro c
    exact hf1 va hv2 (slot_eq _ _ _ _ hfa (PTE2PA_aligned _) (PX_lt _ _) (PX_lt _ _) c).1.symm

/-- Linking a fresh zeroed level-1 table at an invalid level-2 entry keeps the
tree and the entry of every page. -/
theorem ptOK_link2 (m m1 : Machine) (pt va f : Nat) (hp : PtOK m pt)
    (hfa : f % PGSIZE = 0) (hf64 : f < 2 ^ 64) (hfpt : f ≠ pt)
    (hf1 : ∀ vb, m.ptes (l2slot pt vb) &&& PTE_V ≠ 0 → l1table m pt vb ≠ f)
    (hf0t : ∀ vb, HasPath m pt vb → l0table m pt vb ≠ f)
    (hv2 : ¬ m.ptes (l2slot pt va) &&& PTE_V ≠ 0)
    (hp1 : ∀ b, m1.ptes b = if b = l2slot pt va then PA2PTE f ||| PTE_V
      else if f ≤ b ∧ b < f + PGSIZE then 0 else m.ptes b) :
    PtOK m1 pt ∧ m1.ptes (l2slot pt va) &&& PTE_V ≠ 0 ∧ l1slot m1 pt va = f + 8 * PX 1 va ∧
    m1.ptes (l1slot m1 pt va) = 0 ∧ (∀ vb, leafPte m1 pt vb = leafPte m pt vb) := by
  have same : ∀ vb, (l2slot pt vb = l2slot pt va ↔ PX 2 vb = PX 2 va) :=
    fun vb => ⟨l2_inj pt vb va, l2slot_congr pt vb va⟩
  have e2 : ∀ vb, m1.ptes (l2slot pt vb) = if PX 2 vb = PX 2 va then PA2PTE f ||| PTE_V
      else m.ptes (l2slot pt vb) := by
    intro vb
    have hn : ¬ (f ≤ l2slot pt vb ∧ l2slot pt vb < f + PGSIZE) :=
      not_in_page pt f _ hp.root hfa (Ne.symm hfpt) (PX_lt 2 vb)
    rw [hp1]
    by_cases e : PX 2 vb = PX 2 va
    · rw [if_pos ((same vb).2 e), if_pos e]
    · rw [if_neg (fun c => e ((same vb).1 c)), if_neg e, if_neg hn]
  have e2new : ∀ vb, PX 2 vb = PX 2 va → m1.ptes (l2slot pt vb) = PA2PTE f ||| PTE_V := by
    intro vb e
    rw [e2 vb, if_pos e]
  have e2old : ∀ vb, PX 2 vb ≠ PX 2 va → m1.ptes (l2slot pt vb) = m.ptes (l2slot pt vb) := by
    intro vb e
    rw [e2 vb, if_neg e]
  have noV2 : ∀ vb, PX 2 vb = PX 2 va → ¬ m.ptes (l2slot pt vb) &&& PTE_V ≠ 0 := by
    intro vb e
    rw [l2slot_congr pt vb va e]
    exact hv2
  have old_ne : ∀ vb, m.ptes (l2slot pt vb) &&& PTE_V ≠ 0 → PX 2 vb ≠ PX 2 va :=
    fun vb hv e => noV2 vb e hv
  have es1new : ∀ vb, PX 2 vb = PX 2 va → l1slot m1 pt vb = f + 8 * PX 1 vb := by
    intro vb e
    unfold l1slot
    rw [e2new vb e, PTE2PA_table f hfa hf64]
  have es1old : ∀ vb, PX 2 vb ≠ PX 2 va → l1slot m1 pt vb = l1slot m pt vb := by
    intro vb e
    unfold l1slot
    rw [e2old vb e]
  have et1new : ∀ vb, PX 2 vb = PX 2 va → l1table m1 pt vb = f := by
    intro vb e
    unfold l1table
    rw [e2new vb e, PTE2PA_table f hfa hf64]
  have et1old : ∀ vb, PX 2 vb ≠ PX 2 va → l1table m1 pt vb = l1table m pt vb := by
    intro vb e
    unfold l1table
    rw [e2old vb e]
  have ev1new : ∀ vb, PX 2 vb = PX 2 va → m1.ptes (l1slot m1 pt vb) = 0 := by
    intro vb e
    rw [es1new vb e, hp1, if_neg, if_pos (in_page f _ (PX_lt 1 vb))]
    unfold l2slot
    intro c
    exact hfpt (slot_eq _ _ _ _ hfa hp.root (PX_lt _ _) (PX_lt _ _) c).1
  have ev1old : ∀ vb, m.ptes (l2slot pt vb) &&& PTE_V ≠ 0 →
      m1.ptes (l1slot m1 pt vb) = m.ptes (l1slot m pt vb) := by
    intro vb hv
    rw [es1old vb (old_ne vb hv), hp1, if_neg (l1_ne_l2 m pt vb va hp hv), if_neg]
    rw [l1slot_eq]
    exact not_in_page _ f _ (PTE2PA_aligned _) hfa (hf1 vb hv) (PX_lt 1 vb)
  have eP : ∀ vb, HasPath m1 pt vb ↔ HasPath m pt vb := by
    intro vb
    unfold HasPath
    by_cases e : PX 2 vb = PX 2 va
    · constructor
      · rintro ⟨_, b⟩
        rw [ev1new vb e] at b
        exact absurd (Nat.zero_and _) b
      · rintro ⟨a, _⟩
        exact absurd a (noV2 vb e)
    · rw [e2old vb e]
      constructor
      · rintro ⟨a, b⟩
        rw [ev1old vb a] at b
        exact ⟨a, b⟩
      · rintro ⟨a, b⟩
        rw [← ev1old vb a] at b
        exact ⟨a, b⟩
  have et0old : ∀ vb, HasPath m pt vb → l0table m1 pt vb = l0table m pt vb := by
    intro vb hv
    unfold l0table
    rw [ev1old vb hv.1]
  have leaf : ∀ vb, leafPte m1 pt vb = leafPte m pt vb := by
    intro vb
    by_cases hb : HasPath m pt vb
    · rw [leafPte_of_path _ _ _ ((eP vb).2 hb), leafPte_of_path _ _ _ hb, l0slot_eq,
        et0old vb hb, ← l0slot_eq, hp1, if_neg (l0_ne_l2 m pt vb va hp hb), if_neg]
      rw [l0slot_eq]
      exact not_in_page _ f _ (PTE2PA_aligned _) hfa (hf0t vb hb) (PX_lt 0 vb)
    · rw [leafPte_of_nopath _ _ _ hb, leafPte_of_nopath _ _ _ (fun c => hb ((eP vb).1 c))]
  have hV : ∀ vb, m1.ptes (l2slot pt vb) &&& PTE_V ≠ 0 →
      (PX 2 vb = PX 2 va ∨ m.ptes (l2slot pt vb) &&& PTE_V ≠ 0) := by
    intro vb hv
    by_cases e : PX 2 vb = PX 2 va
    · exact Or.inl e
    · rw [e2old vb e] at hv
      exact Or.inr hv
  refine ⟨⟨hp.root, ?_, ?_, ?_, ?_, ?_⟩, ?_, es1new va rfl, ev1new va rfl, leaf⟩
  · intro vb hv
    rcases hV vb hv with e | c
    · rw [et1new vb e]
      exact hfpt
    · rw [et1old vb (old_ne vb c)]
      exact hp.l1ne vb c
  · intro vb hv
    have c := (eP vb).1 hv
    rw [et0old vb c]
    exact hp.l0ne vb c
  · intro vb vc hv hc
    have c := (eP vb).1 hv
    rw [et0old vb c]
    rcases hV vc hc with e | d
    · rw [et1new vc e]
      exact hf0t vb c
    · rw [et1old vc (old_ne vc d)]
      exact hp.l01 vb vc c d
  · intro vb vc hb hc
    rcases hV vb hb with b1 | b1
    · rcases hV vc hc with c1 | c1
      · intro _
        exact b1.trans c1.symm
      · rw [et1new vb b1, et1old vc (old_ne vc c1)]
        intro e
        exact absurd e.symm (hf1 vc c1)
    · rcases hV vc hc with c1 | c1
      · rw [et1old vb (old_ne vb b1), et1new vc c1]
        intro e
        exact absurd e (hf1 vb b1)
      · rw [et1old vb (old_ne vb b1), et1old vc (old_ne vc c1)]
        exact hp.inj1 vb vc b1 c1
  · intro vb vc hb hc
    have b1 := (eP vb).1 hb
    have c1 := (eP vc).1 hc
    rw [et0old vb b1, et0old vc c1]
    exact hp.inj0 vb vc b1 c1
  · rw [e2new va rfl]
    exact table_entry_valid f

theorem linked_ptes (m : Machine) (f s : Nat) (rest : List Nat) (b : Nat) :
    ((({ m with freelist := rest } : Machine).zeroTable f).setPte s (PA2PTE f ||| PTE_V)).ptes b =
      if b = s then PA2PTE f ||| PTE_V else if f ≤ b ∧ b < f + PGSIZE then 0 else m.ptes b := rfl

theorem walk_level_alloc_nil (level : Nat) (m : Machine) (T va : Nat)
    (hv : ¬ m.ptes (T + 8 * PX (level + 1) va) &&& PTE_V ≠ 0) (hfl : m.freelist = []) :
    walk_level (level + 1) m T va true = (0, m) := by
  rw [walk_level_succ, if_neg hv, if_neg (by decide)]
  have hk : kalloc m = (0, m) := by unfold kalloc; rw [hfl]
  rw [hk]
  rfl

theorem walk_level_alloc_cons (level : Nat) (m : Machine) (T va f : Nat) (rest : List Nat)
    (hv : ¬ m.ptes (T + 8 * PX (level + 1) va) &&& PTE_V ≠ 0) (hfl : m.freelist = f :: rest)
    (hf : f ≠ 0) :
    walk_level (level + 1) m T va true =
      walk_level level ((({ m with freelist := rest } : Machine).zeroTable f).setPte
        (T + 8 * PX (level + 1) va) (PA2PTE f ||| PTE_V)) f va true := by
  rw [walk_level_succ, if_neg hv, if_neg (by decide)]
  have hk : kalloc m = (f, { m with freelist := rest }) := by unfold kalloc; rw [hfl]
  rw [hk]
  show (if f = 0 then _ else _) = _
  rw [if_neg hf]

theorem walk_level_valid (level : Nat) (m : Machine) (T va : Nat) (alloc : Bool)
    (hv : m.ptes (T + 8 * PX (level + 1) va) &&& PTE_V ≠ 0) :
    walk_level (level + 1) m T va alloc =
      walk_level level m (PTE2PA (m.ptes (T + 8 * PX (level + 1) va))) va alloc := by
  rw [walk_level_succ, if_pos hv]

/-- The level-1 step of `walk` with allocation keeps the tree and the entry of
every page, and fails only when the allocator is empty. -/
theorem walk_level1_pt (m : Machine) (pt va : Nat) (hok : AllocOK m) (hp : PtOK m pt)
    (hpt : pt ∉ m.freelist) (hv2 : m.ptes (l2slot pt va) &&& PTE_V ≠ 0) :
    PtOK (walk_level 1 m (l1table m pt va) va true).2 pt ∧
    (∀ vb, leafPte (walk_level 1 m (l1table m pt va) va true).2 pt vb = leafPte m pt vb) ∧
    ((walk_level 1 m (l1table m pt va) va true).1 ≠ 0 →
      HasPath (walk_level 1 m (l1table m pt va) va true).2 pt va ∧
      (walk_level 1 m (l1table m pt va) va true).1 =
        l0slot (walk_level 1 m (l1table m pt va) va true).2 pt va) ∧
    ((walk_level 1 m (l1table m pt va) va true).1 = 0 →
      (walk_level 1 m (l1table m pt va) va true).2.freelist = [] ∧ ¬ HasPath m pt va ∧
      ¬ HasPath (walk_level 1 m (l1table m pt va) va true).2 pt va) := by
  have hs : l1table m pt va + 8 * PX (0 + 1) va = l1slot m pt va := rfl
  by_cases hv1 : m.ptes (l1slot m pt va) &&& PTE_V ≠ 0
  · have hw : walk_level 1 m (l1table m pt va) va true = (l0slot m pt va, m) := by
      rw [walk_level_valid 0 m _ va true (by rw [hs]; exact hv1)]
      rfl
    rw [hw]
    have hpath : HasPath m pt va := ⟨hv2, hv1⟩
    refine ⟨hp, fun _ => rfl, fun _ => ⟨hpath, rfl⟩, fun h0 => ?_⟩
    exact absurd h0 (l0_ne_zero m pt va hp hpath)
  · cases hfl : m.freelist with
    | nil =>
      rw [walk_level_alloc_nil 0 m _ va (by rw [hs]; exact hv1) hfl]
      exact ⟨hp, fun _ => rfl, fun h => absurd rfl h,
        fun _ => ⟨hfl, fun c => hv1 c.2, fun c => hv1 c.2⟩⟩
    | cons f rest =>
      obtain ⟨f1, f2, f3, f4, f5, f6⟩ := fresh_of_allocOK m pt f hok hp.root hpt
        (by rw [hfl]; exact List.mem_cons_self _ _)
      rw [walk_level_alloc_cons 0 m _ va f rest (by rw [hs]; exact hv1) hfl f3, hs]
      obtain ⟨q1, q2, q3, q4, q5⟩ := ptOK_link1 m _ pt va f hp f1 f2 f3 f4 f5 f6 hv2 hv1
        (linked_ptes m f (l1slot m pt va) rest)
      have hr : walk_level 0 ((({ m with freelist := rest } : Machine).zeroTable f).setPte
          (l1slot m pt va) (PA2PTE f ||| PTE_V)) f va true =
          (f + 8 * PX 0 va, (({ m with freelist := rest } : Machine).zeroTable f).setPte
          (l1slot m pt va) (PA2PTE f ||| PTE_V)) := rfl
      rw [hr]
      refine ⟨q1, q5, fun _ => ⟨q2, q3.symm⟩, fun h0 => ?_⟩
      exfalso
      have : f + 8 * PX 0 va = 0 := h0
      omega

/-- The function `walk` with allocation keeps the allocator consistent, the
tree and the entry of every page; it returns the entry of the page, and null
only when the allocator is empty. -/
theorem walk_alloc_pt (m : Machine) (pt va : Nat) (hok : AllocOK m) (hp : PtOK m pt)
    (hpt : pt ∉ m.freelist) :
    AllocOK (walk_level 2 m pt va true).2 ∧ PtOK (walk_level 2 m pt va true).2 pt ∧
    pt ∉ (walk_level 2 m pt va true).2.freelist ∧
    (walk_level 2 m pt va true).2.freelist <:+ m.freelist ∧
    (walk_level 2 m pt va true).2.bytes = m.bytes ∧
    (walk_level 2 m pt va true).2.cow_ref = m.cow_ref ∧
    (∀ vb, leafPte (walk_level 2 m pt va true).2 pt vb = leafPte m pt vb) ∧
    ((walk_level 2 m pt va true).1 ≠ 0 → HasPath (walk_level 2 m pt va true).2 pt va ∧
      (walk_level 2 m pt va true).1 = l0slot (walk_level 2 m pt va true).2 pt va) ∧
    ((walk_level 2 m pt va true).1 = 0 →
      (walk_level 2 m pt va true).2.freelist = [] ∧ ¬ HasPath m pt va ∧
      ¬ HasPath (walk_level 2 m pt va true).2 pt va) := by
  obtain ⟨a1, a2, a3, a4, _, _⟩ := walk_alloc_spec 2 m pt va hok hp.root hpt
  suffices key : PtOK (walk_level 2 m pt va true).2 pt ∧
      (∀ vb, leafPte (walk_level 2 m pt va true).2 pt vb = leafPte m pt vb) ∧
      ((walk_level 2 m pt va true).1 ≠ 0 → HasPath (walk_level 2 m pt va true).2 pt va ∧
        (walk_level 2 m pt va true).1 = l0slot (walk_level 2 m pt va true).2 pt va) ∧
      ((walk_level 2 m pt va true).1 = 0 →
        (walk_level 2 m pt va true).2.freelist = [] ∧ ¬ HasPath m pt va ∧
        ¬ HasPath (walk_level 2 m pt va true).2 pt va) from
    ⟨a1, key.1, fun c => hpt (a2.subset c), a2, a3, a4, key.2⟩
  clear a1 a2 a3 a4
  have hs : pt + 8 * PX (1 + 1) va = l2slot pt va := rfl
  by_cases hv2 : m.ptes (l2slot pt va) &&& PTE_V ≠ 0
  · have hw : walk_level 2 m pt va true = walk_level 1 m (l1table m pt va) va true :=
      walk_level_valid 1 m pt va true hv2
    rw [hw]
    exact walk_level1_pt m pt va hok hp hpt hv2
  · cases hfl : m.freelist with
    | nil =>
      rw [walk_level_alloc_nil 1 m pt va hv2 hfl]
      exact ⟨hp, fun _ => rfl, fun h => absurd rfl h,
        fun _ => ⟨hfl, fun c => hv2 c.1, fun c => hv2 c.1⟩⟩
    | cons f rest =>
      obtain ⟨f1, f2, f3, f4, f5, f6⟩ := fresh_of_allocOK m pt f hok hp.root hpt
        (by rw [hfl]; exact List.mem_cons_self _ _)
      rw [walk_level_alloc_cons 1 m pt va f rest hv2 hfl f3, hs]
      obtain ⟨q1, q2, q3, q4, q5⟩ := ptOK_link2 m _ pt va f hp f1 f2 f4 f5 f6 hv2
        (linked_ptes m f (l2slot pt va) rest)
      have hok1 := allocOK_link m f (l2slot pt va) rest hok hfl
      have hpt1 : pt ∉ ((({ m with freelist := rest } : Machine).zeroTable f).setPte
          (l2slot pt va) (PA2PTE f ||| PTE_V)).freelist := by
        intro c
        apply hpt
        rw [hfl]
        exact List.mem_cons_of_mem _ c
      have ht : l1table ((({ m with freelist := rest } : Machine).zeroTable f).setPte
          (l2slot pt va) (PA2PTE f ||| PTE_V)) pt va = f := by
        have := q3
        rw [l1slot_eq] at this
        omega
      obtain ⟨r1, r2, r3, r4⟩ := walk_level1_pt _ pt va hok1 q1 hpt1 q2
      rw [ht] at r1 r2 r3 r4
      refine ⟨r1, fun vb => (r2 vb).trans (q5 vb), r3,
        fun h0 => ⟨(r4 h0).1, fun c => hv2 c.1, (r4 h0).2.2⟩⟩

theorem leaf_setLeaf_page (m : Machine) (pt va vb v : Nat) (hp : PtOK m pt) (h : HasPath m pt va)
    (ha : va < MAXVA) (hb : vb < MAXVA) :
    leafPte (m.setPte (l0slot m pt va) v) pt vb =
      if vb / PGSIZE = va / PGSIZE then v else leafPte m pt vb := by
  rw [(ptOK_setLeaf m pt va v hp h).2.2 vb]
  by_cases e : vb / PGSIZE = va / PGSIZE
  · rw [if_pos e, if_pos ⟨PX_of_page 2 vb va e, PX_of_page 1 vb va e, PX_of_page 0 vb va e⟩]
  · rw [if_neg e, if_neg]
    rintro ⟨a, b, c⟩
    exact e (page_of_PX vb va hb ha a b c)

/-- One iteration of the loop of `mappages` that finds the entry of the page
invalid: the state after the store. -/
theorem map_step (m : Machine) (pt a pa perm : Nat) (hok : AllocOK m) (hp : PtOK m pt)
    (hpt : pt ∉ m.freelist) (ha : a < MAXVA) (hpa : pa % PGSIZE = 0) (hpa2 : pa < 2 ^ 64)
    (hpaf : pa ∉ m.freelist) (hperm : perm < 1024)
    (hne : (walk_level 2 m pt a true).1 ≠ 0) :
    (walk_level 2 m pt a true).2.ptes (walk_level 2 m pt a true).1 = leafPte m pt a ∧
    AllocOK ((walk_level 2 m pt a true).2.setPte (walk_level 2 m pt a true).1
      (PA2PTE pa ||| perm ||| PTE_V)) ∧
    PtOK ((walk_level 2 m pt a true).2.setPte (walk_level 2 m pt a true).1
      (PA2PTE pa ||| perm ||| PTE_V)) pt ∧
    ((walk_level 2 m pt a true).2.setPte (walk_level 2 m pt a true).1
      (PA2PTE pa ||| perm ||| PTE_V)).freelist <:+ m.freelist ∧
    ((walk_level 2 m pt a true).2.setPte (walk_level 2 m pt a true).1
      (PA2PTE pa ||| perm ||| PTE_V)).bytes = m.bytes ∧
    ((walk_level 2 m pt a true).2.setPte (walk_level 2 m pt a true).1
      (PA2PTE pa ||| perm ||| PTE_V)).cow_ref = m.cow_ref ∧
    (∀ vb, vb < MAXVA → leafPte ((walk_level 2 m pt a true).2.setPte (walk_level 2 m pt a true).1
      (PA2PTE pa ||| perm ||| PTE_V)) pt vb =
      if vb / PGSIZE = a / PGSIZE then PA2PTE pa ||| perm ||| PTE_V else leafPte m pt vb) := by
  obtain ⟨b1, b2, b3, b4, b5, b6, b7, b8, _⟩ := walk_alloc_pt m pt a hok hp hpt
  obtain ⟨c1, c2⟩ := b8 hne
  generalize walk_level 2 m pt a true = r at *
  obtain ⟨s, m1⟩ := r
  simp only at *
  subst c2
  refine ⟨?_, ?_, (ptOK_setLeaf m1 pt a _ b2 c1).1, b4, b5, b6, ?_⟩
  · rw [← leafPte_of_path m1 pt a c1, b7]
  · apply allocOK_setPte m1 _ _ b1
    intro _
    rw [PTE2PA_leaf pa perm hpa hpa2 hperm]
    exact fun c => hpaf (b4.subset c)
  · intro vb hb
    rw [leaf_setLeaf_page m1 pt a vb _ b2 c1 ha hb, b7]

theorem mappages_loop_step (fuel : Nat) (m : Machine) (pt a last pa perm : Nat) (ha : a < MAXVA) :
    mappages_loop (fuel + 1) m pt a last pa perm =
      if (walk_level 2 m pt a true).1 = 0 then .ok (-1, (walk_level 2 m pt a true).2)
      else if (walk_level 2 m pt a true).2.ptes (walk_level 2 m pt a true).1 &&& PTE_V ≠ 0 then
        .error "remap"
      else if a = last then
        .ok (0, (walk_level 2 m pt a true).2.setPte (walk_level 2 m pt a true).1
          (PA2PTE pa ||| perm ||| PTE_V))
      else
        mappages_loop fuel ((walk_level 2 m pt a true).2.setPte (walk_level 2 m pt a true).1
          (PA2PTE pa ||| perm ||| PTE_V)) pt (u64 (a + PGSIZE)) last (u64 (pa + PGSIZE)) perm := by
  rw [mappages_loop]
  unfold walk
  rw [if_neg (Nat.not_le.mpr ha)]

theorem page_succ (a k : Nat) (ha : a % PGSIZE = 0) : (a + k * PGSIZE) / PGSIZE = a / PGSIZE + k := by
  unfold PGSIZE at *
  omega

/-- The loop of `mappages` over the pages `a`, ..., `a + n * PGSIZE`. -/
theorem mappages_loop_spec (pt perm : Nat) (hperm : perm < 1024) :
    ∀ (n : Nat) (m : Machine) (a pa fuel : Nat), n < fuel → a % PGSIZE = 0 →
    a + n * PGSIZE < MAXVA → AllocOK m → PtOK m pt → pt ∉ m.freelist → pa % PGSIZE = 0 →
    pa + n * PGSIZE < 2 ^ 64 → (∀ k, k ≤ n → pa + k * PGSIZE ∉ m.freelist) →
    (∃ r m1, mappages_loop fuel m pt a (a + n * PGSIZE) pa perm = .ok (r, m1) ∧
      (AllocOK m1 ∧ PtOK m1 pt ∧ pt ∉ m1.freelist ∧ m1.freelist <:+ m.freelist ∧
        m1.bytes = m.bytes ∧ m1.cow_ref = m.cow_ref ∧
        (∀ vb, vb < MAXVA → (vb / PGSIZE < a / PGSIZE ∨ a / PGSIZE + n < vb / PGSIZE) →
          leafPte m1 pt vb = leafPte m pt vb)) ∧
      ((r = 0 ∧ ∀ k, k ≤ n → leafPte m pt (a + k * PGSIZE) &&& PTE_V = 0 ∧
          leafPte m1 pt (a + k * PGSIZE) = PA2PTE (pa + k * PGSIZE) ||| perm ||| PTE_V) ∨
        (r = -1 ∧ m1.freelist = [] ∧ ∃ j, j ≤ n ∧ ¬ HasPath m1 pt (a + j * PGSIZE) ∧
          (∀ k, k < j → leafPte m pt (a + k * PGSIZE) &&& PTE_V = 0 ∧
            leafPte m1 pt (a + k * PGSIZE) = PA2PTE (pa + k * PGSIZE) ||| perm ||| PTE_V) ∧
          (∀ k, j ≤ k → k ≤ n → leafPte m1 pt (a + k * PGSIZE) = leafPte m pt (a + k * PGSIZE))))) ∨
    (mappages_loop fuel m pt a (a + n * PGSIZE) pa perm = .error "remap" ∧
      ∃ j, j ≤ n ∧ leafPte m pt (a + j * PGSIZE) &&& PTE_V ≠ 0 ∧
        ∀ k, k < j → leafPte m pt (a + k * PGSIZE) &&& PTE_V = 0) := by
  intro n
  induction n with
  | zero =>
    intro m a pa fuel hfu hal hlim hok hp hpt hpa hpa2 hpaf
    obtain ⟨fuel, rfl⟩ : ∃ f, fuel = f + 1 := ⟨fuel - 1, by omega⟩
    have ha : a < MAXVA := by omega
    simp only [Nat.zero_mul, Nat.add_zero] at *
    rw [mappages_loop_step fuel m pt a a pa perm ha]
    obtain ⟨b1, b2, b3, b4, b5, b6, b7, _, b9⟩ := walk_alloc_pt m pt a hok hp hpt
    by_cases h0 : (walk_level 2 m pt a true).1 = 0
    · rw [if_pos h0]
      refine Or.inl ⟨-1, _, rfl, ⟨b1, b2, b3, b4, b5, b6, fun vb _ _ => b7 vb⟩,
        Or.inr ⟨rfl, (b9 h0).1, 0, le_refl _, ?_, fun k hk => absurd hk (Nat.not_lt_zero k), ?_⟩⟩
      · simpa using (b9 h0).2.2
      · intro k _ hk
        have : k = 0 := by omega
        subst this
        simpa using b7 a
    · rw [if_neg h0]
      obtain ⟨c1, c2, c3, c4, c5, c6, c7⟩ := map_step m pt a pa perm hok hp hpt ha hpa hpa2
        (hpaf 0 (le_refl _)) hperm h0
      by_cases hv : (walk_level 2 m pt a true).2.ptes (walk_level 2 m pt a true).1 &&& PTE_V ≠ 0
      · rw [if_pos hv]
        rw [c1] at hv
        exact Or.inr ⟨rfl, 0, le_refl _, by simpa using hv, fun k hk => absurd hk (Nat.not_lt_zero k)⟩
      · rw [if_neg hv, if_pos rfl]
        rw [c1] at hv
        refine Or.inl ⟨0, _, rfl, ⟨c2, c3, fun c => hpt (c4.subset c), c4, c5, c6, ?_⟩, Or.inl ⟨rfl, ?_⟩⟩
        · intro vb hb hout
          rw [c7 vb hb, if_neg (by omega)]
        · intro k hk
          have : k = 0 := by omega
          subst this
          simp only [Nat.zero_mul, Nat.add_zero]
          exact ⟨not_not.mp hv, by rw [c7 a ha, if_pos rfl]⟩
  | succ n ih =>
    intro m a pa fuel hfu hal hlim hok hp hpt hpa hpa2 hpaf
    obtain ⟨fuel, rfl⟩ : ∃ f, fuel = f + 1 := ⟨fuel - 1, by omega⟩
    have hP : PGSIZE = 4096 := rfl
    have hM : MAXVA = 2 ^ 38 := rfl
    have hmul : ∀ k, (k + 1) * PGSIZE = k * PGSIZE + 4096 := fun k => by rw [Nat.succ_mul]; rfl
    have hlim1 := hlim
    have hpa21 := hpa2
    rw [hmul n] at hlim1 hpa21
    have ha : a < MAXVA := by omega
    have hne : ¬ a = a + (n + 1) * PGSIZE := by rw [hmul n]; omega
    have ea : u64 (a + PGSIZE) = a + PGSIZE := by unfold u64; rw [hP]; omega
    have epa : u64 (pa + PGSIZE) = pa + PGSIZE := by unfold u64; rw [hP]; omega
    have elast : a + (n + 1) * PGSIZE = a + PGSIZE + n * PGSIZE := by ring
    have hidx : ∀ k, a + PGSIZE + k * PGSIZE = a + (k + 1) * PGSIZE := fun k => by ring
    have hidxp : ∀ k, pa + PGSIZE + k * PGSIZE = pa + (k + 1) * PGSIZE := fun k => by ring
    have hpg1 : (a + PGSIZE) / PGSIZE = a / PGSIZE + 1 := by
      have := page_succ a 1 hal
      rwa [Nat.one_mul] at this
    have hkle : ∀ k, k ≤ n → a + (k + 1) * PGSIZE < MAXVA := by
      intro k hk
      have : (k + 1) * PGSIZE ≤ (n + 1) * PGSIZE := Nat.mul_le_mul_right _ (by omega)
      omega
    rw [mappages_loop_step fuel m pt a _ pa perm ha]
    obtain ⟨b1, b2, b3, b4, b5, b6, b7, _, b9⟩ := walk_alloc_pt m pt a hok hp hpt
    by_cases h0 : (walk_level 2 m pt a true).1 = 0
    · rw [if_pos h0]
      refine Or.inl ⟨-1, _, rfl, ⟨b1, b2, b3, b4, b5, b6, fun vb _ _ => b7 vb⟩,
        Or.inr ⟨rfl, (b9 h0).1, 0, Nat.zero_le _, ?_, fun k hk => absurd hk (Nat.not_lt_zero k), ?_⟩⟩
      · simpa using (b9 h0).2.2
      · intro k _ _
        exact b7 _
    · rw [if_neg h0]
      obtain ⟨c1, c2, c3, c4, c5, c6, c7⟩ := map_step m pt a pa perm hok hp hpt ha hpa (by omega)
        (by simpa using hpaf 0 (Nat.zero_le _)) hperm h0
      by_cases hv : (walk_level 2 m pt a true).2.ptes (walk_level 2 m pt a true).1 &&& PTE_V ≠ 0
      · rw [if_pos hv]
        rw [c1] at hv
        exact Or.inr ⟨rfl, 0, Nat.zero_le _, by simpa using hv,
          fun k hk => absurd hk (Nat.not_lt_zero k)⟩
      · rw [if_neg hv, if_neg hne]
        rw [c1] at hv
        have hv0 : leafPte m pt a &&& PTE_V = 0 := not_not.mp hv
        rw [ea, epa, elast]
        generalize (walk_level 2 m pt a true).2.setPte (walk_level 2 m pt a true).1
          (PA2PTE pa ||| perm ||| PTE_V) = m2 at c2 c3 c4 c5 c6 c7
        have hbef2 : ∀ k, k ≤ n → leafPte m2 pt (a + (k + 1) * PGSIZE) =
            leafPte m pt (a + (k + 1) * PGSIZE) := by
          intro k hk
          rw [c7 _ (hkle k hk), if_neg]
          rw [page_succ a (k + 1) hal]
          omega
        have hal1 : (a + PGSIZE) % PGSIZE = 0 := by rw [hP] at hal ⊢; omega
        have hpa1 : (pa + PGSIZE) % PGSIZE = 0 := by rw [hP] at hpa ⊢; omega
        have hlim2 : a + PGSIZE + n * PGSIZE < MAXVA := by rw [hP] at hlim1 ⊢; omega
        have hpa22 : pa + PGSIZE + n * PGSIZE < 2 ^ 64 := by rw [hP] at hpa21 ⊢; omega
        rcases ih m2 (a + PGSIZE) (pa + PGSIZE) fuel (by omega) hal1
            hlim2 c2 c3 (fun c => hpt (c4.subset c)) hpa1 hpa22
            (fun k hk c => hpaf (k + 1) (by omega) (by rw [← hidxp]; exact c4.subset c)) with
          ⟨r, m3, e3, ⟨d1, d2, d3, d4, d5, d6, d7⟩, hcase⟩ | ⟨e3, j, hj, hjv, hjb⟩
        · refine Or.inl ⟨r, m3, e3, ⟨d1, d2, d3, d4.trans c4, d5.trans c5, d6.trans c6, ?_⟩, ?_⟩
          · intro vb hb hout
            rw [d7 vb hb (by rw [hpg1]; omega), c7 vb hb, if_neg (by omega)]
          · have hfirst : leafPte m3 pt a = PA2PTE pa ||| perm ||| PTE_V := by
              rw [d7 a ha (Or.inl (by rw [hpg1]; omega)), c7 a ha, if_pos rfl]
            rcases hcase with ⟨hr, hall⟩ | ⟨hr, hfl, j, hj, hjp, hjb, hja⟩
            · refine Or.inl ⟨hr, ?_⟩
              intro k hk
              cases k with
              | zero =>
                simp only [Nat.zero_mul, Nat.add_zero]
                exact ⟨hv0, hfirst⟩
              | succ k =>
                obtain ⟨x1, x2⟩ := hall k (by omega)
                rw [hidx, hbef2 k (by omega)] at x1
                rw [hidx, hidxp] at x2
                exact ⟨x1, x2⟩
            · refine Or.inr ⟨hr, hfl, j + 1, by omega, ?_, ?_, ?_⟩
              · rw [hidx] at hjp
                exact hjp
              · intro k hk
                cases k with
                | zero =>
                  simp only [Nat.zero_mul, Nat.add_zero]
                  exact ⟨hv0, hfirst⟩
                | succ k =>
                  obtain ⟨x1, x2⟩ := hjb k (by omega)
                  rw [hidx, hbef2 k (by omega)] at x1
                  rw [hidx, hidxp] at x2
                  exact ⟨x1, x2⟩
              · intro k hk1 hk2
                obtain ⟨k, rfl⟩ : ∃ k1, k = k1 + 1 := ⟨k - 1, by omega⟩
                have := hja k (by omega) (by omega)
                rw [hidx, hbef2 k (by omega)] at this
                exact this
        · refine Or.inr ⟨e3, j + 1, by omega, ?_, ?_⟩
          · rw [hidx, hbef2 j hj] at hjv
            exact hjv
          · intro k hk
            cases k with
            | zero =>
              simp only [Nat.zero_mul, Nat.add_zero]
              exact hv0
            | succ k =>
              have := hjb k (by omega)
              rw [hidx, hbef2 k (by omega)] at this
              exact this

theorem leafPte_page (m : Machine) (pt va vb : Nat) (h : va / PGSIZE = vb / PGSIZE) :
    leafPte m pt va = leafPte m pt vb := by
  unfold leafPte
  rw [l2slot_congr pt va vb (PX_of_page 2 va vb h),
    l1slot_congr m pt va vb (PX_of_page 2 va vb h) (PX_of_page 1 va vb h),
    l0slot_congr m pt va vb (PX_of_page 2 va vb h) (PX_of_page 1 va vb h) (PX_of_page 0 va vb h)]

theorem hasPath_page (m : Machine) (pt va vb : Nat) (h : va / PGSIZE = vb / PGSIZE) :
    HasPath m pt va ↔ HasPath m pt vb := by
  unfold HasPath
  rw [l2slot_congr pt va vb (PX_of_page 2 va vb h),
    l1slot_congr m pt va vb (PX_of_page 2 va vb h) (PX_of_page 1 va vb h)]

theorem mappages_eq_loop (m : Machine) (pt va size pa perm : Nat) (hsize : 0 < size)
    (hlim : va + size ≤ MAXVA) :
    mappages m pt va size pa perm =
      mappages_loop (MAXVA / PGSIZE + 1) m pt (PGROUNDDOWN va)
        (PGROUNDDOWN va + ((va + size - 1) / PGSIZE - va / PGSIZE) * PGSIZE) pa perm := by
  have hM : MAXVA = 2 ^ 38 := rfl
  have hP : PGSIZE = 4096 := rfl
  unfold mappages
  have e1 : u64 (va + size + (2 ^ 64 - 1)) = va + size - 1 := by
    unfold u64
    omega
  have hd : va / PGSIZE ≤ (va + size - 1) / PGSIZE := Nat.div_le_div_right (by omega)
  have e : va / PGSIZE + ((va + size - 1) / PGSIZE - va / PGSIZE) = (va + size - 1) / PGSIZE := by
    omega
  rw [e1, PGROUNDDOWN_eq (va + size - 1) (by omega), PGROUNDDOWN_eq va (by omega), ← Nat.add_mul, e]

/-- C15: for a consistent allocator, a tree-shaped page table whose root the
allocator does not hold, `size > 0`, `va + size <= MAXVA`, flag bits `perm` and
page-aligned frames from `pa` on that the allocator does not hold, `mappages`
either returns 0 or -1 or panics with "remap".  When it returns 0, every page
`PGROUNDDOWN(va) + k * PGSIZE` up to `PGROUNDDOWN(va + size - 1)` had an invalid
entry and now has exactly `PA2PTE(pa + k * PGSIZE) | perm | V`.  When it returns
-1 the allocator is empty and a page-table page of a page of the range is
missing.  Whenever it returns, the entry of every page outside the range and
every entry that was valid is unchanged; it panics with "remap" only at a page
of the range whose entry was valid. -/
theorem mappages_installs (m : Machine) (pt va size pa perm : Nat) (hok : AllocOK m)
    (hp : PtOK m pt) (hpt : pt ∉ m.freelist) (hsize : 0 < size) (hlim : va + size ≤ MAXVA)
    (hperm : perm < 1024) (hpa : pa % PGSIZE = 0)
    (hpa2 : pa + ((va + size - 1) / PGSIZE - va / PGSIZE) * PGSIZE < 2 ^ 64)
    (hpaf : ∀ k, k ≤ (va + size - 1) / PGSIZE - va / PGSIZE → pa + k * PGSIZE ∉ m.freelist) :
    (∃ r m1, mappages m pt va size pa perm = .ok (r, m1) ∧ (r = 0 ∨ r = -1) ∧
      (r = 0 → ∀ k, k ≤ (va + size - 1) / PGSIZE - va / PGSIZE →
        leafPte m pt (PGROUNDDOWN va + k * PGSIZE) &&& PTE_V = 0 ∧
        leafPte m1 pt (PGROUNDDOWN va + k * PGSIZE) = PA2PTE (pa + k * PGSIZE) ||| perm ||| PTE_V) ∧
      (r = -1 → m1.freelist = [] ∧ ∃ j, j ≤ (va + size - 1) / PGSIZE - va / PGSIZE ∧
        ¬ HasPath m1 pt (PGROUNDDOWN va + j * PGSIZE)) ∧
      (∀ vb, vb < MAXVA → (vb / PGSIZE < va / PGSIZE ∨ (va + size - 1) / PGSIZE < vb / PGSIZE) →
        leafPte m1 pt vb = leafPte m pt vb) ∧
      (∀ vb, vb < MAXVA → leafPte m pt vb &&& PTE_V ≠ 0 → leafPte m1 pt vb = leafPte m pt vb)) ∨
    (mappages m pt va size pa perm = .error "remap" ∧
      ∃ j, j ≤ (va + size - 1) / PGSIZE - va / PGSIZE ∧
        leafPte m pt (PGROUNDDOWN va + j * PGSIZE) &&& PTE_V ≠ 0) := by
  have hM : MAXVA = 2 ^ 38 := rfl
  have hP : PGSIZE = 4096 := rfl
  have hdiv : va / PGSIZE ≤ (va + size - 1) / PGSIZE := Nat.div_le_div_right (by omega)
  have hva : va < 2 ^ 64 := by omega
  obtain ⟨_, hal⟩ := PGROUNDDOWN_le va hva
  have hapg : PGROUNDDOWN va / PGSIZE = va / PGSIZE := by
    rw [PGROUNDDOWN_eq va hva]
    exact Nat.mul_div_cancel _ (by decide)
  have hlast : PGROUNDDOWN va + ((va + size - 1) / PGSIZE - va / PGSIZE) * PGSIZE < MAXVA := by
    rw [PGROUNDDOWN_eq va hva, ← Nat.add_mul]
    have e : va / PGSIZE + ((va + size - 1) / PGSIZE - va / PGSIZE) = (va + size - 1) / PGSIZE := by
      omega
    rw [e]
    have := Nat.div_mul_le_self (va + size - 1) PGSIZE
    omega
  have hfuel : (va + size - 1) / PGSIZE - va / PGSIZE < MAXVA / PGSIZE + 1 := by
    have : (va + size - 1) / PGSIZE ≤ MAXVA / PGSIZE := Nat.div_le_div_right (by omega)
    exact Nat.lt_succ_of_le (le_trans (Nat.sub_le _ _) this)
  rw [mappages_eq_loop m pt va size pa perm hsize hlim]
  rcases mappages_loop_spec pt perm hperm _ m (PGROUNDDOWN va) pa (MAXVA / PGSIZE + 1) hfuel hal
      hlast hok hp hpt hpa hpa2 hpaf with
    ⟨r, m1, e, ⟨_, _, _, _, _, _, d7⟩, hcase⟩ | ⟨e, j, hj, hjv, _⟩
  · have hout : ∀ vb, vb < MAXVA →
        (vb / PGSIZE < va / PGSIZE ∨ (va + size - 1) / PGSIZE < vb / PGSIZE) →
        leafPte m1 pt vb = leafPte m pt vb := by
      intro vb hb hc
      apply d7 vb hb
      rw [hapg]
      omega
    have hin : ∀ vb, ¬ (vb / PGSIZE < va / PGSIZE ∨ (va + size - 1) / PGSIZE < vb / PGSIZE) →
        ∃ k, k ≤ (va + size - 1) / PGSIZE - va / PGSIZE ∧
          vb / PGSIZE = (PGROUNDDOWN va + k * PGSIZE) / PGSIZE := by
      intro vb hc
      refine ⟨vb / PGSIZE - va / PGSIZE, by omega, ?_⟩
      rw [page_succ _ _ hal, hapg]
      omega
    refine Or.inl ⟨r, m1, e, ?_, ?_, ?_, hout, ?_⟩
    · rcases hcase with ⟨hr, _⟩ | ⟨hr, _⟩
      · exact Or.inl hr
      · exact Or.inr hr
    · intro hr
      rcases hcase with ⟨_, hall⟩ | ⟨hr1, _⟩
      · exact hall
      · rw [hr] at hr1
        exact absurd hr1 (by decide)
    · intro hr
      rcases hcase with ⟨hr1, _⟩ | ⟨_, hfl, j, hj, hjp, _⟩
      · rw [hr] at hr1
        exact absurd hr1 (by decide)
      · exact ⟨hfl, j, hj, hjp⟩
    · intro vb hb hv
      by_cases hc : vb / PGSIZE < va / PGSIZE ∨ (va + size - 1) / PGSIZE < vb / PGSIZE
      · exact hout vb hb hc
      · obtain ⟨k, hk, ek⟩ := hin vb hc
        rw [leafPte_page m pt vb _ ek] at hv
        rw [leafPte_page m pt vb _ ek, leafPte_page m1 pt vb _ ek]
        rcases hcase with ⟨_, hall⟩ | ⟨_, _, j, hj, _, hjb, hja⟩
        · exact absurd (hall k hk).1 hv
        · by_cases hkj : k < j
          · exact absurd (hjb k hkj).1 hv
          · exact hja k (by omega) hk
  · exact Or.inr ⟨e, j, hj, hjv⟩

theorem demoMachine_word (a : Nat) (hv : demoMachine.ptes a &&& PTE_V ≠ 0) :
    a = 0x80010000 ∨ a = 0x80011000 ∨ a = 0x80012000 ∨ a = 0x80012008 := by
  by_contra hc
  simp only [not_or] at hc
  obtain ⟨h1, h2, h3, h4⟩ := hc
  apply hv
  simp only [demoMachine, if_neg h1, if_neg h2, if_neg h3, if_neg h4]
  rfl

theorem demoMachine_l2 (va : Nat)
    (hv : demoMachine.ptes (l2slot 0x80010000 va) &&& PTE_V ≠ 0) :
    PX 2 va = 0 ∧ l2slot 0x80010000 va = 0x80010000 ∧ l1table demoMachine 0x80010000 va = 0x80011000 := by
  have hlt := PX_lt 2 va
  have h := demoMachine_word _ hv
  have e : l2slot 0x80010000 va = 0x80010000 := by
    unfold l2slot at h ⊢
    omega
  refine ⟨by unfold l2slot at e; omega, e, ?_⟩
  unfold l1table
  rw [e]
  decide

theorem demoMachine_l1 (va : Nat) (hv : HasPath demoMachine 0x80010000 va) :
    PX 2 va = 0 ∧ PX 1 va = 0 ∧ l0table demoMachine 0x80010000 va = 0x80012000 := by
  obtain ⟨a, b, c⟩ := demoMachine_l2 va hv.1
  have hlt := PX_lt 1 va
  have e0 : l1slot demoMachine 0x80010000 va = 0x80011000 + 8 * PX 1 va := by
    rw [l1slot_eq, c]
  have h := demoMachine_word _ hv.2
  have e : l1slot demoMachine 0x80010000 va = 0x80011000 := by
    rw [e0] at h ⊢
    omega
  refine ⟨a, by rw [e0] at e; omega, ?_⟩
  unfold l0table
  rw [e]
  decide

theorem demoMachine_ptOK : PtOK demoMachine 0x80010000 := by
  refine ⟨by decide, ?_, ?_, ?_, ?_, ?_⟩
  · intro va hv
    rw [(demoMachine_l2 va hv).2.2]
    decide
  · intro va hv
    rw [(demoMachine_l1 va hv).2.2]
    decide
  · intro va vb hv hb
    rw [(demoMachine_l1 va hv).2.2, (demoMachine_l2 vb hb).2.2]
    decide
  · intro va vb ha hb _
    rw [(demoMachine_l2 va ha).1, (demoMachine_l2 vb hb).1]
  · intro va vb ha hb _
    rw [(demoMachine_l1 va ha).1, (demoMachine_l1 vb hb).1, (demoMachine_l1 va ha).2.1,
      (demoMachine_l1 vb hb).2.1]
    exact ⟨rfl, rfl⟩

theorem mappages_installs_witness :
    (AllocOK demoMachine ∧ PtOK demoMachine 0x80010000 ∧ 0x80010000 ∉ demoMachine.freelist ∧
      0 < 0x2000 ∧ 0x2000 + 0x2000 ≤ MAXVA ∧ PTE_R ||| PTE_U < 1024 ∧ 0x80040000 % PGSIZE = 0 ∧
      0x80040000 + ((0x2000 + 0x2000 - 1) / PGSIZE - 0x2000 / PGSIZE) * PGSIZE < 2 ^ 64 ∧
      ∀ k, k ≤ (0x2000 + 0x2000 - 1) / PGSIZE - 0x2000 / PGSIZE →
        0x80040000 + k * PGSIZE ∉ demoMachine.freelist) ∧
    ((∃ r m1, mappages demoMachine 0x80010000 0x2000 0x2000 0x80040000 (PTE_R ||| PTE_U) =
        .ok (r, m1) ∧ (r = 0 ∨ r = -1) ∧
      (r = 0 → ∀ k, k ≤ (0x2000 + 0x2000 - 1) / PGSIZE - 0x2000 / PGSIZE →
        leafPte demoMachine 0x80010000 (PGROUNDDOWN 0x2000 + k * PGSIZE) &&& PTE_V = 0 ∧
        leafPte m1 0x80010000 (PGROUNDDOWN 0x2000 + k * PGSIZE) =
          PA2PTE (0x80040000 + k * PGSIZE) ||| (PTE_R ||| PTE_U) ||| PTE_V) ∧
      (r = -1 → m1.freelist = [] ∧ ∃ j, j ≤ (0x2000 + 0x2000 - 1) / PGSIZE - 0x2000 / PGSIZE ∧
        ¬ HasPath m1 0x80010000 (PGROUNDDOWN 0x2000 + j * PGSIZE)) ∧
      (∀ vb, vb < MAXVA →
        (vb / PGSIZE < 0x2000 / PGSIZE ∨ (0x2000 + 0x2000 - 1) / PGSIZE < vb / PGSIZE) →
        leafPte m1 0x80010000 vb = leafPte demoMachine 0x80010000 vb) ∧
      (∀ vb, vb < MAXVA → leafPte demoMachine 0x80010000 vb &&& PTE_V ≠ 0 →
        leafPte m1 0x80010000 vb = leafPte demoMachine 0x80010000 vb)) ∨
    (mappages demoMachine 0x80010000 0x2000 0x2000 0x80040000 (PTE_R ||| PTE_U) = .error "remap" ∧
      ∃ j, j ≤ (0x2000 + 0x2000 - 1) / PGSIZE - 0x2000 / PGSIZE ∧
        leafPte demoMachine 0x80010000 (PGROUNDDOWN 0x2000 + j * PGSIZE) &&& PTE_V ≠ 0)) :=
  have hf : ∀ k, k ≤ (0x2000 + 0x2000 - 1) / PGSIZE - 0x2000 / PGSIZE →
      0x80040000 + k * PGSIZE ∉ demoMachine.freelist := by
    intro k hk
    have hk1 : k ≤ 1 := hk
    interval_cases k <;> decide
  ⟨⟨demoMachine_allocOK, demoMachine_ptOK, by decide, by decide, by decide, by decide, by decide,
      by decide, hf⟩,
    mappages_installs demoMachine 0x80010000 0x2000 0x2000 0x80040000 (PTE_R ||| PTE_U)
      demoMachine_allocOK demoMachine_ptOK (by decide) (by decide) (by decide) (by decide)
      (by decide) (by decide) hf⟩

theorem hasPath_ptes (m m1 : Machine) (pt va : Nat) (h : m1.ptes = m.ptes) :
    HasPath m1 pt va ↔ HasPath m pt va := by
  unfold HasPath l1slot
  rw [h]

theorem leafPte_ptes (m m1 : Machine) (pt va : Nat) (h : m1.ptes = m.ptes) :
    leafPte m1 pt va = leafPte m pt va := by
  unfold leafPte l0slot l1slot
  rw [h]

theorem ptOK_ptes (m m1 : Machine) (pt : Nat) (h : m1.ptes = m.ptes) (hp : PtOK m pt) :
    PtOK m1 pt :=
  (ptOK_congr m m1 pt (fun _ => by rw [h]) (fun _ _ => by rw [h]) hp).1

theorem l0slot_ptes (m m1 : Machine) (pt va : Nat) (h : m1.ptes = m.ptes) :
    l0slot m1 pt va = l0slot m pt va := by
  unfold l0slot l1slot
  rw [h]

theorem uvmunmap_loop_stop (fuel : Nat) (m : Machine) (pt a lim : Nat) (free : Bool)
    (h : ¬ a < lim) : uvmunmap_loop (fuel + 1) m pt a lim free = .ok m := by
  rw [uvmunmap_loop, if_neg h]

theorem uvmunmap_loop_bad (fuel : Nat) (m : Machine) (pt a lim : Nat) (free : Bool)
    (hp : PtOK m pt) (ha : a < MAXVA) (h : a < lim) (hbad : ¬ LeafOK m pt a) :
    uvmunmap_loop (fuel + 1) m pt a lim free = .error (unmapPanic m pt a) := by
  rw [uvmunmap_loop, if_pos h]
  unfold unmapPanic
  by_cases hpath : HasPath m pt a
  · rw [walk_path m pt a ha hpath, if_pos (show _ ∧ _ from hpath)]
    simp only []
    rw [if_neg (l0_ne_zero m pt a hp hpath), ← leafPte_of_path m pt a hpath]
    by_cases hv : leafPte m pt a &&& PTE_V = 0
    · rw [if_pos hv, if_pos hv]
    · rw [if_neg hv, if_neg hv, if_pos]
      by_contra hc
      exact hbad ⟨hv, hc⟩
  · rw [walk_nopath m pt a ha hpath, if_neg (show ¬ (_ ∧ _) from hpath)]
    simp only [if_true]

theorem uvmunmap_loop_good (fuel : Nat) (m : Machine) (pt a lim : Nat) (free : Bool)
    (hp : PtOK m pt) (ha : a < MAXVA) (h : a < lim) (hgood : LeafOK m pt a) :
    uvmunmap_loop (fuel + 1) m pt a lim free =
      uvmunmap_loop fuel
        ((if free then kfree m (PTE2PA (leafPte m pt a)) else m).setPte (l0slot m pt a) 0) pt
        (u64 (a + PGSIZE)) lim free := by
  have hpath := hasPath_of_valid m pt a hgood.1
  rw [uvmunmap_loop, if_pos h, walk_path m pt a ha hpath]
  simp only []
  rw [if_neg (l0_ne_zero m pt a hp hpath), ← leafPte_of_path m pt a hpath, if_neg hgood.1,
    if_neg hgood.2]

/-- The state after one accepted page of `uvmunmap`. -/
theorem unmap_step (m : Machine) (pt a : Nat) (free : Bool) (hp : PtOK m pt) (ha : a < MAXVA)
    (hgood : LeafOK m pt a) :
    PtOK ((if free then kfree m (PTE2PA (leafPte m pt a)) else m).setPte (l0slot m pt a) 0) pt ∧
    (∀ vb, HasPath ((if free then kfree m (PTE2PA (leafPte m pt a)) else m).setPte
      (l0slot m pt a) 0) pt vb ↔ HasPath m pt vb) ∧
    (∀ vb, vb < MAXVA → leafPte ((if free then kfree m (PTE2PA (leafPte m pt a)) else m).setPte
      (l0slot m pt a) 0) pt vb = if vb / PGSIZE = a / PGSIZE then 0 else leafPte m pt vb) ∧
    ((if free then kfree m (PTE2PA (leafPte m pt a)) else m).setPte (l0slot m pt a) 0).bytes =
      m.bytes ∧
    ((if free then kfree m (PTE2PA (leafPte m pt a)) else m).setPte (l0slot m pt a) 0).cow_ref =
      m.cow_ref ∧
    ((if free then kfree m (PTE2PA (leafPte m pt a)) else m).setPte (l0slot m pt a) 0).freelist =
      if free then PTE2PA (leafPte m pt a) :: m.freelist else m.freelist := by
  have hpath := hasPath_of_valid m pt a hgood.1
  have hpt : (if free then kfree m (PTE2PA (leafPte m pt a)) else m).ptes = m.ptes := by
    cases free <;> rfl
  generalize hm1 : (if free then kfree m (PTE2PA (leafPte m pt a)) else m) = m1 at hpt
  have hp1 := ptOK_ptes m m1 pt hpt hp
  have hpath1 := (hasPath_ptes m m1 pt a hpt).2 hpath
  rw [← l0slot_ptes m m1 pt a hpt]
  obtain ⟨q1, q2, _⟩ := ptOK_setLeaf m1 pt a 0 hp1 hpath1
  refine ⟨q1, fun vb => (q2 vb).trans (hasPath_ptes m m1 pt vb hpt), ?_, ?_, ?_, ?_⟩
  · intro vb hb
    rw [leaf_setLeaf_page m1 pt a vb 0 hp1 hpath1 ha hb, leafPte_ptes m m1 pt vb hpt]
  · subst hm1
    cases free <;> rfl
  · subst hm1
    cases free <;> rfl
  · subst hm1
    cases free <;> rfl

theorem unmappedFrames_succ (m m2 : Machine) (pt a n : Nat)
    (h : ∀ k, k < n → leafPte m2 pt (a + PGSIZE + k * PGSIZE) = leafPte m pt (a + (k + 1) * PGSIZE)) :
    unmappedFrames m pt a (n + 1) = unmappedFrames m2 pt (a + PGSIZE) n ++ [PTE2PA (leafPte m pt a)] := by
  unfold unmappedFrames
  rw [List.range_succ_eq_map, List.map_cons, List.reverse_cons, List.map_map]
  simp only [Nat.zero_mul, Nat.add_zero]
  congr 2
  apply List.map_congr_left
  intro k hk
  simp only [Function.comp, List.mem_range] at hk ⊢
  rw [h k hk]

/-- The loop of `uvmunmap` over `n` pages that it accepts. -/
theorem uvmunmap_loop_all (pt : Nat) (free : Bool) :
    ∀ (n : Nat) (m : Machine) (a fuel : Nat), n < fuel → a % PGSIZE = 0 →
    a + n * PGSIZE ≤ MAXVA → PtOK m pt → (∀ k, k < n → LeafOK m pt (a + k * PGSIZE)) →
    ∃ m1, uvmunmap_loop fuel m pt a (a + n * PGSIZE) free = .ok m1 ∧ PtOK m1 pt ∧
      (∀ vb, HasPath m1 pt vb ↔ HasPath m pt vb) ∧
      (∀ vb, vb < MAXVA → leafPte m1 pt vb =
        if a / PGSIZE ≤ vb / PGSIZE ∧ vb / PGSIZE < a / PGSIZE + n then 0 else leafPte m pt vb) ∧
      m1.bytes = m.bytes ∧ m1.cow_ref = m.cow_ref ∧
      m1.freelist = if free then unmappedFrames m pt a n ++ m.freelist else m.freelist := by
  intro n
  induction n with
  | zero =>
    intro m a fuel hfu hal hlim hp hgood
    obtain ⟨fuel, rfl⟩ : ∃ f, fuel = f + 1 := ⟨fuel - 1, by omega⟩
    simp only [Nat.zero_mul, Nat.add_zero]
    rw [uvmunmap_loop_stop fuel m pt a a free (Nat.lt_irrefl a)]
    refine ⟨m, rfl, hp, fun _ => Iff.rfl, ?_, rfl, rfl, ?_⟩
    · intro vb _
      rw [if_neg (by omega)]
    · cases free
      · simp only [Bool.false_eq_true, if_false]
      · simp only [if_true, unmappedFrames, List.range_zero, List.map_nil, List.reverse_nil,
          List.nil_append]
  | succ n ih =>
    intro m a fuel hfu hal hlim hp hgood
    obtain ⟨fuel, rfl⟩ : ∃ f, fuel = f + 1 := ⟨fuel - 1, by omega⟩
    have hP : PGSIZE = 4096 := rfl
    have hM : MAXVA = 2 ^ 38 := rfl
    have hmul : ∀ k, (k + 1) * PGSIZE = k * PGSIZE + 4096 := fun k => by rw [Nat.succ_mul]; rfl
    have hlim1 := hlim
    rw [hmul n] at hlim1
    have ha : a < MAXVA := by omega
    have hlt : a < a + (n + 1) * PGSIZE := by rw [hmul n]; omega
    have ea : u64 (a + PGSIZE) = a + PGSIZE := by unfold u64; rw [hP]; omega
    have elast : a + (n + 1) * PGSIZE = a + PGSIZE + n * PGSIZE := by ring
    have hidx : ∀ k, a + PGSIZE + k * PGSIZE = a + (k + 1) * PGSIZE := fun k => by ring
    have hpg1 : (a + PGSIZE) / PGSIZE = a / PGSIZE + 1 := by
      have := page_succ a 1 hal
      rwa [Nat.one_mul] at this
    have hkle : ∀ k, k < n → a + (k + 1) * PGSIZE < MAXVA := by
      intro k hk
      have : (k + 1) * PGSIZE ≤ n * PGSIZE := Nat.mul_le_mul_right _ (by omega)
      omega
    have hg0 : LeafOK m pt a := by simpa using hgood 0 (Nat.succ_pos n)
    rw [uvmunmap_loop_good fuel m pt a _ free hp ha hlt hg0, ea, elast]
    obtain ⟨c1, c2, c3, c4, c5, c6⟩ := unmap_step m pt a free hp ha hg0
    generalize (if free then kfree m (PTE2PA (leafPte m pt a)) else m).setPte (l0slot m pt a) 0 = m2
      at c1 c2 c3 c4 c5 c6
    have hsame : ∀ k, k < n → leafPte m2 pt (a + PGSIZE + k * PGSIZE) =
        leafPte m pt (a + (k + 1) * PGSIZE) := by
      intro k hk
      rw [hidx, c3 _ (hkle k hk), if_neg]
      rw [page_succ a (k + 1) hal]
      omega
    have hal1 : (a + PGSIZE) % PGSIZE = 0 := by rw [hP] at hal ⊢; omega
    have hlim2 : a + PGSIZE + n * PGSIZE ≤ MAXVA := by rw [hP] at hlim1 ⊢; omega
    obtain ⟨m3, e3, d1, d2, d3, d4, d5, d6⟩ := ih m2 (a + PGSIZE) fuel (by omega) hal1 hlim2 c1
      (by
        intro k hk
        unfold LeafOK
        rw [hsame k hk]
        exact hgood (k + 1) (by omega))
    refine ⟨m3, e3, d1, fun vb => (d2 vb).trans (c2 vb), ?_, d4.trans c4, d5.trans c5, ?_⟩
    · intro vb hb
      rw [d3 vb hb, hpg1, c3 vb hb]
      by_cases h1 : a / PGSIZE + 1 ≤ vb / PGSIZE ∧ vb / PGSIZE < a / PGSIZE + 1 + n
      · rw [if_pos h1, if_pos (by omega)]
      · rw [if_neg h1]
        by_cases h2 : vb / PGSIZE = a / PGSIZE
        · rw [if_pos h2, if_pos (by omega)]
        · rw [if_neg h2, if_neg (by omega)]
    · rw [d6, c6]
      cases free
      · simp only [Bool.false_eq_true, if_false]
      · simp only [if_true]
        rw [unmappedFrames_succ m m2 pt a n hsame, List.append_assoc]
        simp only [List.singleton_append]

theorem unmapPanic_congr (m m2 : Machine) (pt va : Nat)
    (h1 : HasPath m2 pt va ↔ HasPath m pt va) (h2 : leafPte m2 pt va = leafPte m pt va) :
    unmapPanic m2 pt va = unmapPanic m pt va := by
  unfold unmapPanic
  rw [h2]
  by_cases h : HasPath m pt va
  · have h' := h1.2 h
    unfold HasPath at h h'
    rw [if_pos h, if_pos h']
  · have h' : ¬ HasPath m2 pt va := fun c => h (h1.1 c)
    unfold HasPath at h h'
    rw [if_neg h, if_neg h']

/-- The loop of `uvmunmap` panics at the first page that it does not accept. -/
theorem uvmunmap_loop_first_bad (pt lim : Nat) (free : Bool) :
    ∀ (j : Nat) (m : Machine) (a fuel : Nat), j < fuel → a % PGSIZE = 0 →
    a + j * PGSIZE < MAXVA → a + j * PGSIZE < lim → PtOK m pt →
    (∀ k, k < j → LeafOK m pt (a + k * PGSIZE)) → ¬ LeafOK m pt (a + j * PGSIZE) →
    uvmunmap_loop fuel m pt a lim free = .error (unmapPanic m pt (a + j * PGSIZE)) := by
  intro j
  induction j with
  | zero =>
    intro m a fuel hfu hal hlim hlt hp _ hbad
    obtain ⟨fuel, rfl⟩ : ∃ f, fuel = f + 1 := ⟨fuel - 1, by omega⟩
    simp only [Nat.zero_mul, Nat.add_zero] at *
    exact uvmunmap_loop_bad fuel m pt a lim free hp hlim hlt hbad
  | succ j ih =>
    intro m a fuel hfu hal hlim hlt hp hgood hbad
    obtain ⟨fuel, rfl⟩ : ∃ f, fuel = f + 1 := ⟨fuel - 1, by omega⟩
    have hP : PGSIZE = 4096 := rfl
    have hM : MAXVA = 2 ^ 38 := rfl
    have hmul : ∀ k, (k + 1) * PGSIZE = k * PGSIZE + 4096 := fun k => by rw [Nat.succ_mul]; rfl
    have hlim1 := hlim
    have hlt1 := hlt
    rw [hmul j] at hlim1 hlt1
    have ha : a < MAXVA := by omega
    have ea : u64 (a + PGSIZE) = a + PGSIZE := by unfold u64; rw [hP]; omega
    have hidx : ∀ k, a + PGSIZE + k * PGSIZE = a + (k + 1) * PGSIZE := fun k => by ring
    have hkle : ∀ k, k ≤ j → a + (k + 1) * PGSIZE < MAXVA := by
      intro k hk
      have : (k + 1) * PGSIZE ≤ (j + 1) * PGSIZE := Nat.mul_le_mul_right _ (by omega)
      omega
    have hg0 : LeafOK m pt a := by simpa using hgood 0 (Nat.succ_pos j)
    rw [uvmunmap_loop_good fuel m pt a lim free hp ha (by omega) hg0, ea]
    obtain ⟨c1, c2, c3, _, _, _⟩ := unmap_step m pt a free hp ha hg0
    generalize (if free then kfree m (PTE2PA (leafPte m pt a)) else m).setPte (l0slot m pt a) 0 = m2
      at c1 c2 c3
    have hsame : ∀ k, k ≤ j → leafPte m2 pt (a + PGSIZE + k * PGSIZE) =
        leafPte m pt (a + (k + 1) * PGSIZE) := by
      intro k hk
      rw [hidx, c3 _ (hkle k hk), if_neg]
      rw [page_succ a (k + 1) hal]
      omega
    have hal1 : (a + PGSIZE) % PGSIZE = 0 := by rw [hP] at hal ⊢; omega
    have hlim2 : a + PGSIZE + j * PGSIZE < MAXVA := by rw [hidx]; exact hlim
    have hlt2 : a + PGSIZE + j * PGSIZE < lim := by rw [hidx]; exact hlt
    have hgood2 : ∀ k, k < j → LeafOK m2 pt (a + PGSIZE + k * PGSIZE) := by
      intro k hk
      unfold LeafOK
      rw [hsame k (by omega)]
      exact hgood (k + 1) (by omega)
    have hbad2 : ¬ LeafOK m2 pt (a + PGSIZE + j * PGSIZE) := by
      unfold LeafOK
      rw [hsame j (le_refl _)]
      exact hbad
    have hs := hsame j (le_refl _)
    rw [hidx] at hs
    rw [ih m2 (a + PGSIZE) fuel (by omega) hal1 hlim2 hlt2 c1 hgood2 hbad2, hidx,
      unmapPanic_congr m m2 pt (a + (j + 1) * PGSIZE) (c2 _) hs]

/-- C16: for a tree-shaped page table and `va + npages * PGSIZE <= MAXVA`,
`uvmunmap` panics with "uvmunmap: not aligned" when `va` is not page-aligned.
For a page-aligned `va`, when each of the `npages` pages from `va` on has a valid
entry whose flags are not V alone, `uvmunmap` returns, the entry of each of
these pages is 0 and the entry of every other page is unchanged, and the
allocator has received the frames of these pages when `free` is set and nothing
otherwise; and it panics at the first page of the range that has no entry
("uvmunmap: walk"), an invalid entry ("uvmunmap: not mapped") or an entry
whose flags are V alone ("uvmunmap: not a leaf"). -/
theorem uvmunmap_clears (m : Machine) (pt va npages : Nat) (free : Bool) (hp : PtOK m pt)
    (hlim : va + npages * PGSIZE ≤ MAXVA) :
    (va % PGSIZE ≠ 0 → uvmunmap m pt va npages free = .error "uvmunmap: not aligned") ∧
    (va % PGSIZE = 0 → (∀ k, k < npages → LeafOK m pt (va + k * PGSIZE)) →
      ∃ m1, uvmunmap m pt va npages free = .ok m1 ∧ PtOK m1 pt ∧
        (∀ vb, vb < MAXVA → leafPte m1 pt vb =
          if va / PGSIZE ≤ vb / PGSIZE ∧ vb / PGSIZE < va / PGSIZE + npages then 0
          else leafPte m pt vb) ∧
        m1.bytes = m.bytes ∧ m1.cow_ref = m.cow_ref ∧
        m1.freelist = if free then unmappedFrames m pt va npages ++ m.freelist else m.freelist) ∧
    (va % PGSIZE = 0 → ∀ j, j < npages → (∀ k, k < j → LeafOK m pt (va + k * PGSIZE)) →
      ¬ LeafOK m pt (va + j * PGSIZE) →
      uvmunmap m pt va npages free = .error (unmapPanic m pt (va + j * PGSIZE))) := by
  have hM : MAXVA = 2 ^ 38 := rfl
  have e : u64 (va + npages * PGSIZE) = va + npages * PGSIZE := by
    unfold u64
    omega
  refine ⟨?_, ?_, ?_⟩
  · intro h
    unfold uvmunmap
    rw [if_pos h]
  · intro hal hgood
    unfold uvmunmap
    rw [if_neg (not_not.mpr hal), e]
    obtain ⟨m1, e1, d1, _, d3, d4, d5, d6⟩ := uvmunmap_loop_all pt free npages m va (npages + 1)
      (Nat.lt_succ_self _) hal hlim hp hgood
    exact ⟨m1, e1, d1, d3, d4, d5, d6⟩
  · intro hal j hj hgood hbad
    unfold uvmunmap
    rw [if_neg (not_not.mpr hal), e]
    have hP : PGSIZE = 4096 := rfl
    have hjn : (j + 1) * PGSIZE ≤ npages * PGSIZE := Nat.mul_le_mul_right _ hj
    rw [Nat.succ_mul] at hjn
    exact uvmunmap_loop_first_bad pt _ free j m va (npages + 1) (by omega) hal (by omega)
      (by omega) hp hgood hbad

theorem uvmunmap_clears_witness :
    (PtOK demoMachine 0x80010000 ∧ 0 + 2 * PGSIZE ≤ MAXVA) ∧
    (0 % PGSIZE ≠ 0 → uvmunmap demoMachine 0x80010000 0 2 true = .error "uvmunmap: not aligned") ∧
    (0 % PGSIZE = 0 → (∀ k, k < 2 → LeafOK demoMachine 0x80010000 (0 + k * PGSIZE)) →
      ∃ m1, uvmunmap demoMachine 0x80010000 0 2 true = .ok m1 ∧ PtOK m1 0x80010000 ∧
        (∀ vb, vb < MAXVA → leafPte m1 0x80010000 vb =
          if 0 / PGSIZE ≤ vb / PGSIZE ∧ vb / PGSIZE < 0 / PGSIZE + 2 then 0
          else leafPte demoMachine 0x80010000 vb) ∧
        m1.bytes = demoMachine.bytes ∧ m1.cow_ref = demoMachine.cow_ref ∧
        m1.freelist = if true then unmappedFrames demoMachine 0x80010000 0 2 ++ demoMachine.freelist
          else demoMachine.freelist) ∧
    (0 % PGSIZE = 0 → ∀ j, j < 2 → (∀ k, k < j → LeafOK demoMachine 0x80010000 (0 + k * PGSIZE)) →
      ¬ LeafOK demoMachine 0x80010000 (0 + j * PGSIZE) →
      uvmunmap demoMachine 0x80010000 0 2 true =
        .error (unmapPanic demoMachine 0x80010000 (0 + j * PGSIZE))) :=
  ⟨⟨demoMachine_ptOK, by decide⟩,
    uvmunmap_clears demoMachine 0x80010000 0 2 true demoMachine_ptOK (by decide)⟩
theorem freeClean_link (m : Machine) (f s : Nat) (rest : List Nat) (hok : AllocOK m)
    (hfc : FreeClean m) (hfl : m.freelist = f :: rest) :
    FreeClean ((({ m with freelist := rest } : Machine).zeroTable f).setPte s (PA2PTE f ||| PTE_V)) := by
  have hnd : (f :: rest).Nodup := hfl ▸ hok.nodup
  have hf := hok.aligned f (by rw [hfl]; exact List.mem_cons_self _ _)
  intro a hv
  simp only [Machine.setPte, Machine.zeroTable] at hv ⊢
  by_cases has : a = s
  · simp only [has, if_true]
    rw [PTE2PA_table f hf.1 hf.2.1]
    exact (List.nodup_cons.mp hnd).1
  · simp only [has, if_false] at hv ⊢
    by_cases hin : f ≤ a ∧ a < f + PGSIZE
    · rw [if_pos hin] at hv
      exact absurd rfl hv
    · rw [if_neg hin] at hv ⊢
      have := hfc a hv
      rw [hfl] at this
      exact fun hc => this (List.mem_cons_of_mem _ hc)

theorem walk_freeClean (level : Nat) : ∀ (m : Machine) (T va : Nat), AllocOK m → FreeClean m →
    FreeClean (walk_level level m T va true).2 := by
  induction level with
  | zero =>
    intro m T va _ hfc
    exact hfc
  | succ level ih =>
    intro m T va hok hfc
    by_cases hv : m.ptes (T + 8 * PX (level + 1) va) &&& PTE_V ≠ 0
    · rw [walk_level_valid level m T va true hv]
      exact ih m _ va hok hfc
    · by_cases hnil : m.freelist = []
      · rw [walk_level_alloc_nil level m T va hv hnil]
        exact hfc
      · obtain ⟨f, rest, hfl⟩ := List.exists_cons_of_ne_nil hnil
        have hf := hok.aligned f (by rw [hfl]; exact List.mem_cons_self _ _)
        rw [walk_level_alloc_cons level m T va f rest hv hfl hf.2.2]
        exact ih _ f va (allocOK_link m f _ rest hok hfl) (freeClean_link m f _ rest hok hfc hfl)

theorem freeClean_setPte (m : Machine) (a v : Nat) (hfc : FreeClean m)
    (hv : v &&& PTE_V ≠ 0 → PTE2PA v ∉ m.freelist) : FreeClean (m.setPte a v) := by
  intro b hb
  simp only [Machine.setPte] at hb ⊢
  by_cases e : b = a
  · simp only [e, if_true] at hb ⊢
    exact hv hb
  · simp only [e, if_false] at hb ⊢
    exact hfc b hb

/-- `mappages` of one page whose entry is not valid: it returns 0 with the
entry installed, or -1 with an empty allocator and every entry as before. -/
theorem mappages_single (m : Machine) (pt a pa perm : Nat) (hok : AllocOK m) (hfc : FreeClean m)
    (hp : PtOK m pt) (hpt : pt ∉ m.freelist) (ha : a < MAXVA) (hal : a % PGSIZE = 0)
    (hpa : pa % PGSIZE = 0) (hpa2 : pa < 2 ^ 64) (hpaf : pa ∉ m.freelist) (hperm : perm < 1024)
    (hinv : leafPte m pt a &&& PTE_V = 0) :
    ∃ r m1, mappages m pt a PGSIZE pa perm = .ok (r, m1) ∧ AllocOK m1 ∧ FreeClean m1 ∧
      PtOK m1 pt ∧ pt ∉ m1.freelist ∧ m1.freelist <:+ m.freelist ∧ m1.bytes = m.bytes ∧
      m1.cow_ref = m.cow_ref ∧
      ((r = 0 ∧ ∀ vb, vb < MAXVA → leafPte m1 pt vb =
          if vb / PGSIZE = a / PGSIZE then PA2PTE pa ||| perm ||| PTE_V else leafPte m pt vb) ∨
        (r = -1 ∧ m1.freelist = [] ∧ ∀ vb, leafPte m1 pt vb = leafPte m pt vb)) := by
  rw [mappages_one m pt a pa perm ha hal]
  obtain ⟨b1, b2, b3, b4, b5, b6, b7, b8, b9⟩ := walk_alloc_pt m pt a hok hp hpt
  have bfc := walk_freeClean 2 m pt a hok hfc
  by_cases h0 : (walk_level 2 m pt a true).1 = 0
  · rw [if_pos h0]
    exact ⟨_, _, rfl, b1, bfc, b2, b3, b4, b5, b6, Or.inr ⟨rfl, (b9 h0).1, b7⟩⟩
  · rw [if_neg h0]
    obtain ⟨c0, c1, c2, c3, c4, c5, c6⟩ := map_step m pt a pa perm hok hp hpt ha hpa hpa2 hpaf hperm h0
    rw [c0, if_neg (by rw [not_not]; exact hinv)]
    refine ⟨_, _, rfl, c1, ?_, c2, fun c => hpt (c3.subset c), c3, c4, c5, Or.inl ⟨rfl, c6⟩⟩
    apply freeClean_setPte _ _ _ bfc
    intro _
    rw [PTE2PA_leaf pa perm hpa hpa2 hperm]
    exact fun c => hpaf (b4.subset c)

/-- With the page-table pages for `va` in place, `walk` allocates nothing. -/
theorem walk_level_path (m : Machine) (pt va : Nat) (alloc : Bool) (h : HasPath m pt va) :
    walk_level 2 m pt va alloc = (l0slot m pt va, m) := by
  have h2 : m.ptes (pt + 8 * PX 2 va) &&& PTE_V ≠ 0 := h.1
  have h1 : m.ptes (PTE2PA (m.ptes (pt + 8 * PX 2 va)) + 8 * PX 1 va) &&& PTE_V ≠ 0 := h.2
  rw [walk_level_valid 1 m pt va alloc h2, walk_level_valid 0 m _ va alloc h1]
  rfl

/-- The function `walk` takes at most one frame per level from the allocator. -/
theorem walk_level_frames (level : Nat) : ∀ (m : Machine) (T va : Nat),
    (∀ f ∈ m.freelist, f ≠ 0) →
    m.freelist.length ≤ (walk_level level m T va true).2.freelist.length + level := by
  induction level with
  | zero =>
    intro m T va _
    exact Nat.le_refl _
  | succ level ih =>
    intro m T va hne
    by_cases hv : m.ptes (T + 8 * PX (level + 1) va) &&& PTE_V ≠ 0
    · rw [walk_level_valid level m T va true hv]
      exact Nat.le_succ_of_le (ih m _ va hne)
    · cases hfl : m.freelist with
      | nil =>
        rw [walk_level_alloc_nil level m T va hv hfl, hfl]
        exact Nat.zero_le _
      | cons f rest =>
        have hf : f ≠ 0 := hne f (by rw [hfl]; exact List.mem_cons_self _ _)
        rw [walk_level_alloc_cons level m T va f rest hv hfl hf]
        have := ih ((({ m with freelist := rest } : Machine).zeroTable f).setPte
          (T + 8 * PX (level + 1) va) (PA2PTE f ||| PTE_V)) f va (by
            intro g hg
            exact hne g (by rw [hfl]; exact List.mem_cons_of_mem _ hg))
        have e : ((({ m with freelist := rest } : Machine).zeroTable f).setPte
          (T + 8 * PX (level + 1) va) (PA2PTE f ||| PTE_V)).freelist = rest := rfl
        rw [e] at this
        rw [List.length_cons]
        omega

/-- With two frames in the allocator `walk` with allocation does not return
null: it needs at most the level-1 and the level-0 table of the page. -/
theorem walk_level_enough (m : Machine) (pt va : Nat) (hok : AllocOK m) (hp : PtOK m pt)
    (hpt : pt ∉ m.freelist) (h2 : 2 ≤ m.freelist.length) :
    (walk_level 2 m pt va true).1 ≠ 0 := by
  by_cases hv2 : m.ptes (pt + 8 * PX 2 va) &&& PTE_V ≠ 0
  · by_cases hv1 : m.ptes (PTE2PA (m.ptes (pt + 8 * PX 2 va)) + 8 * PX 1 va) &&& PTE_V ≠ 0
    · have hpath : HasPath m pt va := ⟨hv2, hv1⟩
      rw [walk_level_path m pt va true hpath]
      exact l0_ne_zero m pt va hp hpath
    · rw [walk_level_valid 1 m pt va true hv2]
      obtain ⟨f, rest, hfl⟩ : ∃ f rest, m.freelist = f :: rest := by
        cases hfl : m.freelist with
        | nil => rw [hfl] at h2; simp at h2
        | cons f rest => exact ⟨f, rest, rfl⟩
      have hf := (hok.aligned f (by rw [hfl]; exact List.mem_cons_self _ _)).2.2
      rw [walk_level_alloc_cons 0 m _ va f rest hv1 hfl hf]
      show f + 8 * PX 0 va ≠ 0
      omega
  · obtain ⟨f1, f2, rest, hfl⟩ : ∃ f1 f2 rest, m.freelist = f1 :: f2 :: rest := by
      cases hfl : m.freelist with
      | nil => rw [hfl] at h2; simp at h2
      | cons f1 r1 =>
        cases r1 with
        | nil => rw [hfl] at h2; simp at h2
        | cons f2 rest => exact ⟨f1, f2, rest, rfl⟩
    have hm1 : f1 ∈ m.freelist := by rw [hfl]; exact List.mem_cons_self _ _
    have hm2 : f2 ∈ m.freelist := by
      rw [hfl]; exact List.mem_cons_of_mem _ (List.mem_cons_self _ _)
    have hf1 := hok.aligned f1 hm1
    have hf2 := hok.aligned f2 hm2
    rw [walk_level_alloc_cons 1 m pt va f1 (f2 :: rest) hv2 hfl hf1.2.2]
    have hv1 : ¬ ((({ m with freelist := f2 :: rest } : Machine).zeroTable f1).setPte
        (pt + 8 * PX (1 + 1) va) (PA2PTE f1 ||| PTE_V)).ptes (f1 + 8 * PX (0 + 1) va) &&& PTE_V
          ≠ 0 := by
      rw [linked_ptes, if_neg, if_pos (in_page f1 _ (PX_lt _ _)), Nat.zero_and]
      · exact fun h => h rfl
      · intro e
        have := (slot_eq _ _ _ _ hf1.1 hp.root (PX_lt _ _) (PX_lt _ _) e).1
        exact hpt (this ▸ hm1)
    rw [walk_level_alloc_cons 0 _ f1 va f2 rest hv1 rfl hf2.2.2]
    show f2 + 8 * PX 0 va ≠ 0
    have := hf2.2.2
    omega

/-- The frames that `mappages` of one page takes: at most two, for page-table
pages; it fails only when a page-table page is missing and the allocator holds
fewer than two frames. -/
theorem mappages_frames (m : Machine) (pt a pa perm : Nat) (hok : AllocOK m) (hp : PtOK m pt)
    (hpt : pt ∉ m.freelist) (ha : a < MAXVA) (hal : a % PGSIZE = 0) (r : Int) (m1 : Machine)
    (e : mappages m pt a PGSIZE pa perm = .ok (r, m1)) :
    m.freelist.length ≤ m1.freelist.length + 2 ∧
    (r ≠ 0 → m.freelist.length < 2 ∧ ¬ HasPath m pt a) := by
  rw [mappages_one m pt a pa perm ha hal] at e
  have hlen := walk_level_frames 2 m pt a (fun f hf => (hok.aligned f hf).2.2)
  by_cases h0 : (walk_level 2 m pt a true).1 = 0
  · rw [if_pos h0] at e
    injection e with e
    injection e with e1 e2
    subst e2
    refine ⟨hlen, fun _ => ⟨?_, ((walk_alloc_pt m pt a hok hp hpt).2.2.2.2.2.2.2.2 h0).2.1⟩⟩
    by_contra hc
    exact walk_level_enough m pt a hok hp hpt (by omega) h0
  · rw [if_neg h0] at e
    by_cases hv : (walk_level 2 m pt a true).2.ptes (walk_level 2 m pt a true).1 &&& PTE_V ≠ 0
    · rw [if_pos hv] at e
      cases e
    · rw [if_neg hv] at e
      injection e with e
      injection e with e1 e2
      subst e1 e2
      exact ⟨hlen, fun h => absurd rfl h⟩

/-- The call `mappages` for one page whose entry is valid panics. -/
theorem mappages_remap (m : Machine) (pt a pa perm : Nat) (hp : PtOK m pt) (ha : a < MAXVA)
    (hal : a % PGSIZE = 0) (hv : leafPte m pt a &&& PTE_V ≠ 0) :
    mappages m pt a PGSIZE pa perm = .error "remap" := by
  have hpath := hasPath_of_valid m pt a hv
  rw [mappages_one m pt a pa perm ha hal, walk_level_path m pt a true hpath]
  simp only []
  rw [if_neg (l0_ne_zero m pt a hp hpath), ← leafPte_of_path m pt a hpath, if_pos hv]
theorem PGROUNDUP_eq (sz : Nat) (h : sz + 4095 < 2 ^ 64) :
    PGROUNDUP sz = (sz + 4095) / PGSIZE * PGSIZE := by
  have e : PGROUNDUP sz = PGROUNDDOWN (u64 (sz + PGSIZE - 1)) := rfl
  have e2 : u64 (sz + PGSIZE - 1) = sz + 4095 := by
    unfold u64 PGSIZE
    omega
  rw [e, e2, PGROUNDDOWN_eq _ h]

theorem allocOK_pop (m : Machine) (f : Nat) (rest : List Nat) (b : Nat → Nat) (hok : AllocOK m)
    (hfc : FreeClean m) (hfl : m.freelist = f :: rest) :
    AllocOK { m with freelist := rest, bytes := b } ∧
    FreeClean { m with freelist := rest, bytes := b } := by
  have hnd : (f :: rest).Nodup := hfl ▸ hok.nodup
  have hsub : ∀ g, g ∈ rest → g ∈ m.freelist := fun g hg => by
    rw [hfl]
    exact List.mem_cons_of_mem _ hg
  refine ⟨⟨(List.nodup_cons.mp hnd).2, fun g hg => hok.aligned g (hsub g hg), ?_⟩, ?_⟩
  · intro a hv _ hc
    exact hfc a hv (hsub _ hc)
  · intro a hv hc
    exact hfc a hv (hsub _ hc)

theorem mul_page_le (k i : Nat) (h : k ≤ i) : k * PGSIZE ≤ i * PGSIZE :=
  Nat.mul_le_mul_right _ h

/-- One iteration of the loop of `uvmalloc` after `kalloc` gave the frame
`mem`, at a page whose entry is not valid: `mappages` returns 0 with one more
page added, or -1 with an empty allocator and every entry as before. -/
theorem grown_step_at (m ms : Machine) (pt a0 i mem : Nat) (rest : List Nat)
    (hg : Grown m ms pt a0 i) (ha0 : a0 % PGSIZE = 0) (hlim : a0 + i * PGSIZE < MAXVA)
    (hun : leafPte m pt (a0 + i * PGSIZE) &&& PTE_V = 0)
    (hfl : ms.freelist = mem :: rest) :
    ∃ r m2, mappages (({ ms with freelist := rest } : Machine).zeroPage mem) pt (a0 + i * PGSIZE)
        PGSIZE mem (PTE_W ||| PTE_X ||| PTE_R ||| PTE_U) = .ok (r, m2) ∧
      ((r = 0 ∧ Grown m m2 pt a0 (i + 1)) ∨
        (r = -1 ∧ m2.freelist = [] ∧ PtOK m2 pt ∧ m2.cow_ref = m.cow_ref ∧
          ∀ vb, leafPte m2 pt vb = leafPte ms pt vb)) := by
  have hP : PGSIZE = 4096 := rfl
  have hmem : mem ∈ ms.freelist := by rw [hfl]; exact List.mem_cons_self _ _
  have hnd : (mem :: rest).Nodup := hfl ▸ hg.ok.nodup
  have hal := hg.ok.aligned mem hmem
  have hrs : rest <:+ ms.freelist := by rw [hfl]; exact List.suffix_cons mem rest
  obtain ⟨p1, p2⟩ := allocOK_pop ms mem rest
    (fun a => if mem ≤ a ∧ a < mem + PGSIZE then 0 else ms.bytes a) hg.ok hg.clean hfl
  have hpe : (({ ms with freelist := rest } : Machine).zeroPage mem).ptes = ms.ptes := rfl
  have haa : (a0 + i * PGSIZE) % PGSIZE = 0 := by
    rw [Nat.add_mul_mod_self_right]
    exact ha0
  have hpg : ∀ k, (a0 + k * PGSIZE) / PGSIZE = a0 / PGSIZE + k := fun k => page_succ a0 k ha0
  have hinv : leafPte (({ ms with freelist := rest } : Machine).zeroPage mem) pt
      (a0 + i * PGSIZE) &&& PTE_V = 0 := by
    rw [leafPte_ptes ms _ pt _ hpe, hg.other _ hlim (Or.inr (by rw [hpg])) ]
    exact hun
  obtain ⟨r, m2, e, q1, q2, q3, q4, q5, q6, q7, q8⟩ :=
    mappages_single (({ ms with freelist := rest } : Machine).zeroPage mem) pt (a0 + i * PGSIZE)
      mem (PTE_W ||| PTE_X ||| PTE_R ||| PTE_U) p1 p2 (ptOK_ptes ms _ pt hpe hg.tree)
      (fun c => hg.root (hrs.subset c)) hlim haa hal.1 hal.2.1 (List.nodup_cons.mp hnd).1
      (by decide) hinv
  refine ⟨r, m2, e, ?_⟩
  have hsuf2 : m2.freelist <:+ ms.freelist := q5.trans hrs
  rcases q8 with ⟨hr, hleaf⟩ | ⟨hr, hnil, hleaf⟩
  · left
    refine ⟨hr, ?_⟩
    have hold : ∀ k, k < i → leafPte m2 pt (a0 + k * PGSIZE) = leafPte ms pt (a0 + k * PGSIZE) := by
      intro k hk
      have hlt : a0 + k * PGSIZE < MAXVA :=
        lt_of_le_of_lt (Nat.add_le_add_left (mul_page_le k i (Nat.le_of_lt hk)) _) hlim
      rw [hleaf _ hlt, if_neg (by rw [hpg, hpg]; omega), leafPte_ptes ms _ pt _ hpe]
    have hnew : leafPte m2 pt (a0 + i * PGSIZE) =
        PA2PTE mem ||| (PTE_W ||| PTE_X ||| PTE_R ||| PTE_U) ||| PTE_V := by
      rw [hleaf _ hlim, if_pos rfl]
    have hfo : ∀ k, k < i → frameAt m2 pt a0 k = frameAt ms pt a0 k := by
      intro k hk
      unfold frameAt
      rw [hold k hk]
    have hfn : frameAt m2 pt a0 i = mem := by
      unfold frameAt
      rw [hnew, PTE2PA_leaf mem _ hal.1 hal.2.1 (by decide)]
    have hby : ∀ y, m2.bytes y = if mem ≤ y ∧ y < mem + PGSIZE then 0 else ms.bytes y := by
      intro y
      rw [q6]
      rfl
    refine ⟨q1, q2, q3, q4, hsuf2.trans hg.suffix, q7.trans hg.refs, ?_, ?_, ?_, ?_⟩
    · intro vb hvb hout
      rw [hleaf vb hvb, if_neg (by rw [hpg]; omega), leafPte_ptes ms _ pt _ hpe]
      exact hg.other vb hvb (by omega)
    · intro k hk
      by_cases hki : k < i
      · obtain ⟨g1, g2, g3, g4⟩ := hg.page k hki
        rw [hfo k hki, hold k hki]
        refine ⟨g1, g2, fun c => g3 (hsuf2.subset c), ?_⟩
        intro x hx
        rw [hby]
        by_cases hc : mem ≤ frameAt ms pt a0 k + x ∧ frameAt ms pt a0 k + x < mem + PGSIZE
        · rw [if_pos hc]
        · rw [if_neg hc]
          exact g4 x hx
      · have hki2 : k = i := by omega
        subst hki2
        rw [hfn, hnew]
        refine ⟨rfl, hg.suffix.subset hmem, fun c => (List.nodup_cons.mp hnd).1 (q5.subset c), ?_⟩
        intro x hx
        rw [hby, if_pos ⟨Nat.le_add_right _ _, Nat.add_lt_add_left hx _⟩]
    · intro k j hk hj hkj
      by_cases hki : k < i
      · by_cases hji : j < i
        · rw [hfo k hki, hfo j hji] at hkj
          exact hg.distinct k j hki hji hkj
        · have hj2 : j = i := by omega
          subst hj2
          rw [hfo k hki, hfn] at hkj
          exact absurd (hkj ▸ hmem) (hg.page k hki).2.2.1
      · have hk2 : k = i := by omega
        subst hk2
        by_cases hji : j < k
        · rw [hfo j hji, hfn] at hkj
          exact absurd (hkj ▸ hmem) (hg.page j hji).2.2.1
        · omega
    · intro b hb
      rw [hby, if_neg, hg.bytes b hb]
      intro hc
      exact hb ⟨mem, hg.suffix.subset hmem, hc⟩
  · right
    refine ⟨hr, hnil, q3, q7.trans hg.refs, ?_⟩
    intro vb
    rw [hleaf vb, leafPte_ptes ms _ pt _ hpe]

/-- The frames that one iteration of the loop of `uvmalloc` takes besides the
frame of the page: at most two, and `mappages` fails only when a page-table
page of the page is missing and fewer than two frames are left. -/
theorem grown_step_frames (m ms : Machine) (pt a0 i mem : Nat) (rest : List Nat)
    (hg : Grown m ms pt a0 i) (ha0 : a0 % PGSIZE = 0) (hlim : a0 + i * PGSIZE < MAXVA)
    (hfl : ms.freelist = mem :: rest) (r : Int) (m2 : Machine)
    (e : mappages (({ ms with freelist := rest } : Machine).zeroPage mem) pt (a0 + i * PGSIZE)
        PGSIZE mem (PTE_W ||| PTE_X ||| PTE_R ||| PTE_U) = .ok (r, m2)) :
    rest.length ≤ m2.freelist.length + 2 ∧
    (r ≠ 0 → rest.length < 2 ∧ ¬ HasPath ms pt (a0 + i * PGSIZE)) := by
  have hrs : rest <:+ ms.freelist := by rw [hfl]; exact List.suffix_cons mem rest
  obtain ⟨p1, _⟩ := allocOK_pop ms mem rest
    (fun a => if mem ≤ a ∧ a < mem + PGSIZE then 0 else ms.bytes a) hg.ok hg.clean hfl
  have hpe : (({ ms with freelist := rest } : Machine).zeroPage mem).ptes = ms.ptes := rfl
  have haa : (a0 + i * PGSIZE) % PGSIZE = 0 := by
    rw [Nat.add_mul_mod_self_right]
    exact ha0
  obtain ⟨f1, f2⟩ := mappages_frames (({ ms with freelist := rest } : Machine).zeroPage mem) pt
    (a0 + i * PGSIZE) mem (PTE_W ||| PTE_X ||| PTE_R ||| PTE_U) p1 (ptOK_ptes ms _ pt hpe hg.tree)
    (fun c => hg.root (hrs.subset c)) hlim haa r m2 e
  refine ⟨f1, fun hr => ⟨(f2 hr).1, fun hc => (f2 hr).2 ?_⟩⟩
  exact ⟨by rw [hpe]; exact hc.1, by
    have e1 : l1slot (({ ms with freelist := rest } : Machine).zeroPage mem) pt (a0 + i * PGSIZE) =
        l1slot ms pt (a0 + i * PGSIZE) := by unfold l1slot; rw [hpe]
    rw [e1, hpe]
    exact hc.2⟩
theorem PGROUNDUP_aligned (a : Nat) (h : a ≤ MAXVA) (ha : a % PGSIZE = 0) : PGROUNDUP a = a := by
  have hM : MAXVA = 2 ^ 38 := rfl
  rw [PGROUNDUP_eq a (by omega)]
  unfold PGSIZE at *
  omega

theorem intToU64_small (x : Nat) (h : x < 2 ^ 31) : intToU64 x = x := by
  unfold intToU64
  have e : x % 2 ^ 32 = x := Nat.mod_eq_of_lt (by omega)
  rw [e, if_pos h]

/-- The call of `uvmdealloc` with which `uvmalloc` gives up: it unmaps the
pages added so far and returns their frames to the allocator. -/
theorem grown_rewind (m ms ms2 : Machine) (pt a0 i : Nat) (hg : Grown m ms pt a0 i)
    (ha0 : a0 % PGSIZE = 0) (hlim : a0 + i * PGSIZE < MAXVA) (hp2 : PtOK ms2 pt)
    (hl2 : ∀ vb, leafPte ms2 pt vb = leafPte ms pt vb) :
    ∃ r m1, uvmdealloc ms2 pt (a0 + i * PGSIZE) a0 = .ok (r, m1) ∧ PtOK m1 pt ∧
      m1.freelist = unmappedFrames ms pt a0 i ++ ms2.freelist ∧
      (∀ vb, vb < MAXVA → leafPte m1 pt vb =
        if a0 / PGSIZE ≤ vb / PGSIZE ∧ vb / PGSIZE < a0 / PGSIZE + i then 0
        else leafPte m pt vb) ∧
      m1.cow_ref = ms2.cow_ref ∧ m1.bytes = ms2.bytes := by
  have hP : PGSIZE = 4096 := rfl
  have hM : MAXVA = 2 ^ 38 := rfl
  have hfr : unmappedFrames ms2 pt a0 i = unmappedFrames ms pt a0 i := by
    unfold unmappedFrames
    simp only [hl2]
  unfold uvmdealloc
  by_cases hi : i = 0
  · subst hi
    rw [if_pos (by omega)]
    refine ⟨_, _, rfl, hp2, ?_, ?_, rfl, rfl⟩
    · rfl
    · intro vb hvb
      rw [if_neg (by omega), hl2]
      exact hg.other vb hvb (by omega)
  · have hpos : 0 < i * PGSIZE := Nat.mul_pos (Nat.pos_of_ne_zero hi) (by decide)
    have hal : (a0 + i * PGSIZE) % PGSIZE = 0 := by
      rw [Nat.add_mul_mod_self_right]
      exact ha0
    rw [if_neg (by omega), PGROUNDUP_aligned a0 (by omega) ha0,
      PGROUNDUP_aligned _ (Nat.le_of_lt hlim) hal, if_pos (by omega)]
    have hn : (a0 + i * PGSIZE - a0) / PGSIZE = i := by
      rw [Nat.add_sub_cancel_left]
      exact Nat.mul_div_cancel _ (by decide)
    have hi2 : i < 2 ^ 31 := by
      rw [hP] at hlim
      omega
    simp only [hn, intToU64_small i hi2]
    unfold uvmunmap
    rw [if_neg (by rw [not_not]; exact ha0)]
    have hu : u64 (a0 + i * PGSIZE) = a0 + i * PGSIZE := Nat.mod_eq_of_lt (by omega)
    rw [hu]
    obtain ⟨m1, e, u1, _, u3, u4, u5, u6⟩ := uvmunmap_loop_all pt true i ms2 a0 (i + 1)
      (Nat.lt_succ_self _) ha0 (Nat.le_of_lt hlim) hp2 (by
        intro k hk
        unfold LeafOK
        rw [hl2, (hg.page k hk).1]
        refine ⟨leaf_entry_valid _ _, ?_⟩
        rw [PTE_FLAGS_leaf _ _ (by decide)]
        decide)
    rw [e]
    refine ⟨_, _, rfl, u1, ?_, ?_, u5, u4⟩
    · rw [u6, hfr]
      simp only [if_true]
    · intro vb hvb
      rw [u3 vb hvb]
      by_cases hc : a0 / PGSIZE ≤ vb / PGSIZE ∧ vb / PGSIZE < a0 / PGSIZE + i
      · rw [if_pos hc, if_pos hc]
      · rw [if_neg hc, if_neg hc, hl2]
        exact hg.other vb hvb (by omega)

/-- The loop of `uvmalloc`, entered at the page `a0 + i * PGSIZE` with `i`
pages added, when no page that it is to add is mapped: it ends with every page
below `newsz` added, or gives up with the pages added so far unmapped and
their frames returned.  It gives up only at a page where the allocator is
empty, or where a page-table page is missing and the allocator holds fewer
than three frames; every earlier page has taken at most three frames. -/
theorem uvmalloc_loop_spec (m : Machine) (pt a0 newsz : Nat) (ha0 : a0 % PGSIZE = 0)
    (hmax : newsz ≤ MAXVA)
    (hun : ∀ k, a0 + k * PGSIZE < newsz → leafPte m pt (a0 + k * PGSIZE) &&& PTE_V = 0) :
    ∀ (n i fuel : Nat) (ms : Machine), n < fuel → Grown m ms pt a0 i →
    newsz ≤ a0 + (i + n) * PGSIZE → (∀ k, k < i → a0 + k * PGSIZE < newsz) →
    ∃ r m1, uvmalloc_loop fuel ms pt (a0 + i * PGSIZE) a0 newsz = .ok (r, m1) ∧
      ((r = newsz ∧ ∃ j, Grown m m1 pt a0 j ∧ newsz ≤ a0 + j * PGSIZE ∧
          ∀ k, k < j → a0 + k * PGSIZE < newsz) ∨
        (r = 0 ∧ ∃ j ms0 tail, Grown m ms0 pt a0 j ∧ a0 + j * PGSIZE < newsz ∧
          i ≤ j ∧ ms.freelist.length ≤ ms0.freelist.length + 3 * (j - i) ∧
          ((tail = [] ∧ ms0.freelist = []) ∨
            ∃ mem rest, ms0.freelist = mem :: rest ∧ tail = [mem] ∧ rest.length < 2 ∧
              ¬ HasPath ms0 pt (a0 + j * PGSIZE)) ∧
          PtOK m1 pt ∧ m1.freelist = unmappedFrames ms0 pt a0 j ++ tail ∧
          (∀ vb, vb < MAXVA → leafPte m1 pt vb =
            if a0 / PGSIZE ≤ vb / PGSIZE ∧ vb / PGSIZE < a0 / PGSIZE + j then 0
            else leafPte m pt vb) ∧
          m1.cow_ref = m.cow_ref)) := by
  have hP : PGSIZE = 4096 := rfl
  have hM : MAXVA = 2 ^ 38 := rfl
  have hmul : ∀ k, (k + 1) * PGSIZE = k * PGSIZE + 4096 := fun k => by rw [Nat.succ_mul]; rfl
  intro n
  induction n with
  | zero =>
    intro i fuel ms hfu hg hend hlow
    obtain ⟨f, rfl⟩ : ∃ f, fuel = f + 1 := ⟨fuel - 1, by omega⟩
    rw [uvmalloc_loop, if_neg (by rw [Nat.add_zero] at hend; omega)]
    exact ⟨_, _, rfl, Or.inl ⟨rfl, i, hg, by rw [Nat.add_zero] at hend; exact hend, hlow⟩⟩
  | succ n ih =>
    intro i fuel ms hfu hg hend hlow
    obtain ⟨f, rfl⟩ : ∃ f, fuel = f + 1 := ⟨fuel - 1, by omega⟩
    rw [uvmalloc_loop]
    by_cases ha : a0 + i * PGSIZE < newsz
    · rw [if_pos ha]
      have hlim : a0 + i * PGSIZE < MAXVA := lt_of_lt_of_le ha hmax
      by_cases hnil : ms.freelist = []
      · have hk : kalloc ms = (0, ms) := by unfold kalloc; rw [hnil]
        rw [hk]
        simp only [if_true]
        obtain ⟨r, m1, e, w1, w2, w3, w4, _⟩ := grown_rewind m ms ms pt a0 i hg ha0 hlim hg.tree
          (fun _ => rfl)
        rw [e]
        refine ⟨_, _, rfl, Or.inr ⟨rfl, i, ms, [], hg, ha, Nat.le_refl _, Nat.le_add_right _ _,
          Or.inl ⟨rfl, hnil⟩, w1, ?_, w3, w4.trans hg.refs⟩⟩
        rw [w2, hnil]
      · obtain ⟨mem, rest, hfl⟩ := List.exists_cons_of_ne_nil hnil
        have hk : kalloc ms = (mem, { ms with freelist := rest }) := by unfold kalloc; rw [hfl]
        have hmem := hg.ok.aligned mem (by rw [hfl]; exact List.mem_cons_self _ _)
        rw [hk]
        simp only [if_neg hmem.2.2]
        obtain ⟨r, m2, e, hcase⟩ := grown_step_at m ms pt a0 i mem rest hg ha0 hlim (hun i ha) hfl
        obtain ⟨fr1, fr2⟩ := grown_step_frames m ms pt a0 i mem rest hg ha0 hlim hfl r m2 e
        rw [e]
        rcases hcase with ⟨hr, hg2⟩ | ⟨hr, hnil2, hp2, hc2, hl2⟩
        · subst hr
          have hu : u64 (a0 + i * PGSIZE + PGSIZE) = a0 + (i + 1) * PGSIZE := by
            rw [hmul]
            unfold u64
            rw [hP] at hlim ⊢
            omega
          simp only [ne_eq, not_true_eq_false, if_false, hu]
          obtain ⟨r, m1, e3, hres⟩ := ih (i + 1) f m2 (by omega) hg2 (by
              have e3 : i + 1 + n = i + (n + 1) := by omega
              rw [e3]
              exact hend) (by
              intro k hk2
              by_cases hki : k < i
              · exact hlow k hki
              · have : k = i := by omega
                rw [this]
                exact ha)
          refine ⟨r, m1, e3, ?_⟩
          rcases hres with hs | ⟨hr, j, ms0, tail, g1, g2, g3, g4, g5⟩
          · exact Or.inl hs
          · refine Or.inr ⟨hr, j, ms0, tail, g1, g2, by omega, ?_, g5⟩
            have hl : ms.freelist.length = rest.length + 1 := by rw [hfl]; rfl
            omega
        · subst hr
          have hne : (-1 : Int) ≠ 0 := by decide
          simp only [ne_eq, hne, not_false_eq_true, if_true]
          obtain ⟨r, m1, e2, w1, w2, w3, w4, _⟩ := grown_rewind m ms (kfree m2 mem) pt a0 i hg ha0
            hlim (ptOK_ptes m2 _ pt rfl hp2) (fun vb => (leafPte_ptes m2 _ pt vb rfl).trans (hl2 vb))
          rw [e2]
          refine ⟨_, _, rfl, Or.inr ⟨rfl, i, ms, [mem], hg, ha, Nat.le_refl _, Nat.le_add_right _ _,
            Or.inr ⟨mem, rest, hfl, rfl, (fr2 hne).1, (fr2 hne).2⟩, w1, ?_, w3, w4.trans hc2⟩⟩
          rw [w2]
          show _ ++ mem :: m2.freelist = _
          rw [hnil2]
    · rw [if_neg ha]
      exact ⟨_, _, rfl, Or.inl ⟨rfl, i, hg, Nat.le_of_not_lt ha, hlow⟩⟩

/-- A run of the loop of `uvmalloc` that returns a size other than 0 has found
the entry of every page that it has added not valid: at a valid entry
`mappages` panics. -/
theorem uvmalloc_loop_fresh (m : Machine) (pt a0 newsz : Nat) (ha0 : a0 % PGSIZE = 0)
    (hmax : newsz ≤ MAXVA) :
    ∀ (n i fuel : Nat) (ms : Machine), n < fuel → Grown m ms pt a0 i →
    newsz ≤ a0 + (i + n) * PGSIZE → ∀ (r : Nat) (m1 : Machine),
    uvmalloc_loop fuel ms pt (a0 + i * PGSIZE) a0 newsz = .ok (r, m1) → r ≠ 0 →
    ∀ k, i ≤ k → a0 + k * PGSIZE < newsz → leafPte m pt (a0 + k * PGSIZE) &&& PTE_V = 0 := by
  have hP : PGSIZE = 4096 := rfl
  have hM : MAXVA = 2 ^ 38 := rfl
  have hmul : ∀ k, (k + 1) * PGSIZE = k * PGSIZE + 4096 := fun k => by rw [Nat.succ_mul]; rfl
  have hdone : ∀ i k, i ≤ k → newsz ≤ a0 + i * PGSIZE → a0 + k * PGSIZE < newsz → False := by
    intro i k hik h1 h2
    have := mul_page_le i k hik
    omega
  intro n
  induction n with
  | zero =>
    intro i fuel ms _ _ hend r m1 _ _ k hik hk
    rw [Nat.add_zero] at hend
    exact absurd hk (fun h => hdone i k hik hend h)
  | succ n ih =>
    intro i fuel ms hfu hg hend r m1 h hr k hik hk
    obtain ⟨f, rfl⟩ : ∃ f, fuel = f + 1 := ⟨fuel - 1, by omega⟩
    rw [uvmalloc_loop] at h
    by_cases ha : a0 + i * PGSIZE < newsz
    · rw [if_pos ha] at h
      have hlim : a0 + i * PGSIZE < MAXVA := lt_of_lt_of_le ha hmax
      by_cases hnil : ms.freelist = []
      · have hk0 : kalloc ms = (0, ms) := by unfold kalloc; rw [hnil]
        rw [hk0] at h
        simp only [if_true] at h
        cases hd : uvmdealloc ms pt (a0 + i * PGSIZE) a0 with
        | error e => rw [hd] at h; cases h
        | ok p =>
          rw [hd] at h
          simp only [Except.ok.injEq, Prod.mk.injEq] at h
          exact absurd h.1.symm hr
      · obtain ⟨mem, rest, hfl⟩ := List.exists_cons_of_ne_nil hnil
        have hk0 : kalloc ms = (mem, { ms with freelist := rest }) := by unfold kalloc; rw [hfl]
        have hmem := hg.ok.aligned mem (by rw [hfl]; exact List.mem_cons_self _ _)
        rw [hk0] at h
        simp only [if_neg hmem.2.2] at h
        have hpe : (({ ms with freelist := rest } : Machine).zeroPage mem).ptes = ms.ptes := rfl
        have haa : (a0 + i * PGSIZE) % PGSIZE = 0 := by
          rw [Nat.add_mul_mod_self_right]
          exact ha0
        by_cases hvi : leafPte m pt (a0 + i * PGSIZE) &&& PTE_V = 0
        · obtain ⟨r2, m2, e, hcase⟩ := grown_step_at m ms pt a0 i mem rest hg ha0 hlim hvi hfl
          rw [e] at h
          rcases hcase with ⟨hr2, hg2⟩ | ⟨hr2, _⟩
          · subst hr2
            have hu : u64 (a0 + i * PGSIZE + PGSIZE) = a0 + (i + 1) * PGSIZE := by
              rw [hmul]
              unfold u64
              rw [hP] at hlim ⊢
              omega
            simp only [ne_eq, not_true_eq_false, if_false, hu] at h
            by_cases hki : k = i
            · rw [hki]
              exact hvi
            · exact ih (i + 1) f m2 (by omega) hg2 (by
                have e3 : i + 1 + n = i + (n + 1) := by omega
                rw [e3]
                exact hend) r m1 h hr k (by omega) hk
          · subst hr2
            have hne : (-1 : Int) ≠ 0 := by decide
            simp only [ne_eq, hne, not_false_eq_true, if_true] at h
            cases hd : uvmdealloc (kfree m2 mem) pt (a0 + i * PGSIZE) a0 with
            | error e => rw [hd] at h; cases h
            | ok p =>
              rw [hd] at h
              simp only [Except.ok.injEq, Prod.mk.injEq] at h
              exact absurd h.1.symm hr
        · have hv : leafPte (({ ms with freelist := rest } : Machine).zeroPage mem) pt
              (a0 + i * PGSIZE) &&& PTE_V ≠ 0 := by
            rw [leafPte_ptes ms _ pt _ hpe, hg.other _ hlim
              (Or.inr (by rw [page_succ a0 i ha0]))]
            exact hvi
          rw [mappages_remap _ pt _ mem _ (ptOK_ptes ms _ pt hpe hg.tree) hlim haa hv] at h
          cases h
    · exact absurd hk (fun h2 => hdone i k hik (Nat.le_of_not_lt ha) h2)
theorem grown_refl (m : Machine) (pt a0 : Nat) (hok : AllocOK m) (hfc : FreeClean m)
    (hp : PtOK m pt) (hpt : pt ∉ m.freelist) : Grown m m pt a0 0 :=
  ⟨hok, hfc, hp, hpt, List.suffix_refl _, rfl, fun _ _ _ => rfl,
    fun _ hk => absurd hk (Nat.not_lt_zero _), fun _ _ hk => absurd hk (Nat.not_lt_zero _),
    fun _ _ => rfl⟩

/-- The frames of the pages that `uvmalloc` has added have left the allocator. -/
theorem grown_frames (m ms : Machine) (pt a0 i : Nat) (hg : Grown m ms pt a0 i) :
    ms.freelist.length + i ≤ m.freelist.length := by
  have hnd : (ms.freelist ++ (List.range i).map (frameAt ms pt a0)).Nodup := by
    rw [List.nodup_append]
    refine ⟨hg.ok.nodup, ?_, ?_⟩
    · apply List.Nodup.map_on _ (List.nodup_range i)
      intro x hx y hy hxy
      exact hg.distinct x y (List.mem_range.mp hx) (List.mem_range.mp hy) hxy
    · intro x hx hx2
      obtain ⟨k, hk, rfl⟩ := List.mem_map.mp hx2
      exact (hg.page k (List.mem_range.mp hk)).2.2.1 hx
  have hsub : ms.freelist ++ (List.range i).map (frameAt ms pt a0) ⊆ m.freelist := by
    intro x hx
    rcases List.mem_append.mp hx with h | h
    · exact hg.suffix.subset h
    · obtain ⟨k, hk, rfl⟩ := List.mem_map.mp h
      exact (hg.page k (List.mem_range.mp hk)).2.1
  have := (List.subperm_of_subset hnd hsub).length_le
  rw [List.length_append, List.length_map, List.length_range] at this
  exact this

/-- The result of `uvmalloc` from an address space in which no page that it is
to add is mapped. -/
theorem uvmalloc_result (m : Machine) (pt oldsz newsz : Nat) (hok : AllocOK m) (hfc : FreeClean m)
    (hp : PtOK m pt) (hpt : pt ∉ m.freelist) (hle : oldsz ≤ newsz) (hmax : newsz ≤ MAXVA)
    (hun : ∀ k, PGROUNDUP oldsz + k * PGSIZE < newsz →
      leafPte m pt (PGROUNDUP oldsz + k * PGSIZE) &&& PTE_V = 0) :
    ∃ r m1, uvmalloc m pt oldsz newsz = .ok (r, m1) ∧
      ((r = newsz ∧
          Grown m m1 pt (PGROUNDUP oldsz) ((PGROUNDUP newsz - PGROUNDUP oldsz) / PGSIZE)) ∨
        (r = 0 ∧
          (∀ vb, vb < MAXVA →
            (leafPte m1 pt vb &&& PTE_V ≠ 0 ↔ leafPte m pt vb &&& PTE_V ≠ 0) ∧
            (leafPte m pt vb &&& PTE_V ≠ 0 → leafPte m1 pt vb = leafPte m pt vb)) ∧
          ∃ j ms tail, Grown m ms pt (PGROUNDUP oldsz) j ∧
            PGROUNDUP oldsz + j * PGSIZE < newsz ∧
            m.freelist.length ≤ ms.freelist.length + 3 * j ∧
            ((tail = [] ∧ ms.freelist = []) ∨
              ∃ mem rest, ms.freelist = mem :: rest ∧ tail = [mem] ∧ rest.length < 2 ∧
                ¬ HasPath ms pt (PGROUNDUP oldsz + j * PGSIZE)) ∧
            m1.freelist = unmappedFrames ms pt (PGROUNDUP oldsz) j ++ tail)) := by
  have hP : PGSIZE = 4096 := rfl
  have hM : MAXVA = 2 ^ 38 := rfl
  unfold uvmalloc
  rw [if_neg (not_lt.mpr hle)]
  have ea := PGROUNDUP_eq oldsz (by omega)
  have en := PGROUNDUP_eq newsz (by omega)
  rw [en]
  generalize PGROUNDUP oldsz = a0 at *
  have ha0 : a0 % PGSIZE = 0 := by
    rw [ea]
    exact Nat.mul_mod_left _ _
  have e0 : a0 + 0 * PGSIZE = a0 := by rw [Nat.zero_mul, Nat.add_zero]
  have hend : newsz ≤ a0 + (0 + (newsz / PGSIZE + 1)) * PGSIZE := by
    rw [hP]
    omega
  obtain ⟨r, m1, e, hcase⟩ := uvmalloc_loop_spec m pt a0 newsz ha0 hmax hun (newsz / PGSIZE + 1) 0
    (newsz / PGSIZE + 2) m (Nat.lt_succ_self _) (grown_refl m pt a0 hok hfc hp hpt) hend
    (fun _ hk => absurd hk (Nat.not_lt_zero _))
  rw [e0] at e
  refine ⟨r, m1, e, ?_⟩
  rcases hcase with ⟨hr, j, hg, h1, h2⟩ | ⟨hr, j, ms, tail, hg, h1, _, hlen, h2, _, h4, h5, _⟩
  · left
    refine ⟨hr, ?_⟩
    have hj : (newsz + 4095) / PGSIZE * PGSIZE - a0 = j * PGSIZE := by
      rcases Nat.eq_zero_or_pos j with h0 | hpos
      · subst h0
        rw [hP] at ha0 h1 ⊢
        omega
      · have := h2 (j - 1) (by omega)
        rw [hP] at ha0 h1 this ⊢
        omega
    rw [hj, Nat.mul_div_cancel _ (by decide)]
    exact hg
  · right
    refine ⟨hr, ?_, j, ms, tail, hg, h1, by rw [Nat.sub_zero] at hlen; exact hlen, h2, h4⟩
    intro vb hvb
    rw [h5 vb hvb]
    by_cases hc : a0 / PGSIZE ≤ vb / PGSIZE ∧ vb / PGSIZE < a0 / PGSIZE + j
    · rw [if_pos hc]
      have hpage : vb / PGSIZE = (a0 + (vb / PGSIZE - a0 / PGSIZE) * PGSIZE) / PGSIZE := by
        rw [page_succ a0 _ ha0]
        omega
      have hk : a0 + (vb / PGSIZE - a0 / PGSIZE) * PGSIZE < newsz := by
        have := mul_page_le (vb / PGSIZE - a0 / PGSIZE + 1) j (by omega)
        rw [Nat.succ_mul] at this
        rw [hP] at this h1 ⊢
        omega
      have hz := hun _ hk
      rw [← leafPte_page m pt vb _ hpage] at hz
      rw [hz]
      exact ⟨⟨fun h => absurd (Nat.zero_and _) h, fun h => absurd rfl h⟩, fun h => absurd rfl h⟩
    · rw [if_neg hc]
      exact ⟨Iff.rfl, fun _ => rfl⟩

theorem demoMachine_freeClean : FreeClean demoMachine := by
  intro a hv
  rcases demoMachine_word a hv with h | h | h | h <;> subst h <;> decide

theorem demoMachine_top (vb : Nat) (hvb : vb < MAXVA) (h : 0x2000 ≤ vb) :
    leafPte demoMachine 0x80010000 vb &&& PTE_V = 0 := by
  by_contra hc
  have hpath := hasPath_of_valid _ _ _ hc
  obtain ⟨a, b, c⟩ := demoMachine_l1 vb hpath
  rw [leafPte_of_path _ _ _ hpath, l0slot_eq, c] at hc
  have hlt := PX_lt 0 vb
  have hw := demoMachine_word _ hc
  have h0 : PX 0 vb = 0 ∨ PX 0 vb = 1 := by omega
  have hP : PGSIZE = 4096 := rfl
  rcases h0 with h0 | h0
  · have := page_of_PX vb 0 hvb (by decide) (a.trans (by decide)) (b.trans (by decide))
      (h0.trans (by decide))
    rw [hP] at this
    omega
  · have := page_of_PX vb 0x1000 hvb (by decide) (a.trans (by decide)) (b.trans (by decide))
      (h0.trans (by decide))
    rw [hP] at this
    omega

theorem demoStarved_allocOK : AllocOK demoStarved :=
  ⟨List.nodup_nil, fun _ hf => absurd hf (List.not_mem_nil _),
    fun _ _ _ hc => absurd hc (List.not_mem_nil _)⟩

theorem demoStarved_freeClean : FreeClean demoStarved :=
  fun _ _ hc => absurd hc (List.not_mem_nil _)

theorem demoStarved_ptOK : PtOK demoStarved 0x80010000 :=
  ptOK_ptes demoMachine demoStarved 0x80010000 rfl demoMachine_ptOK

/-- C17: let the allocator and the tree-shaped page table `pt` be consistent,
`oldsz <= newsz <= MAXVA`, and no page at or above `PGROUNDUP(oldsz)` be
mapped; let N be the number of pages of `[PGROUNDUP(oldsz), PGROUNDUP(newsz))`.
Then `uvmalloc` returns.  It returns `newsz` with each of the N pages mapped
with R, W, X, U and V to a frame of its own that is filled with zeros and
every other entry as before (`Grown`), the allocator at least N frames
shorter; or it returns 0, the valid entries are those of before the call with
their values, and the allocator holds the frames of the pages it had added,
followed by the frame it had just taken if `mappages` failed.  It returns 0
only after an allocation has failed: at the page where it gives up the
allocator is empty, or a page-table page of the page is missing and the
allocator holds fewer than three frames, every earlier page having taken at
most three.  So with `3 * N` frames in the allocator it returns `newsz`, and
with fewer than N frames it returns 0. -/
theorem uvmalloc_grows (m : Machine) (pt oldsz newsz : Nat) (hok : AllocOK m) (hfc : FreeClean m)
    (hp : PtOK m pt) (hpt : pt ∉ m.freelist) (hle : oldsz ≤ newsz) (hmax : newsz ≤ MAXVA)
    (hun : ∀ vb, vb < MAXVA → PGROUNDUP oldsz ≤ vb → leafPte m pt vb &&& PTE_V = 0) :
    ∃ r m1, uvmalloc m pt oldsz newsz = .ok (r, m1) ∧
      ((r = newsz ∧
          Grown m m1 pt (PGROUNDUP oldsz) ((PGROUNDUP newsz - PGROUNDUP oldsz) / PGSIZE) ∧
          m1.freelist.length + (PGROUNDUP newsz - PGROUNDUP oldsz) / PGSIZE ≤
            m.freelist.length) ∨
        (r = 0 ∧
          (∀ vb, vb < MAXVA →
            (leafPte m1 pt vb &&& PTE_V ≠ 0 ↔ leafPte m pt vb &&& PTE_V ≠ 0) ∧
            (leafPte m pt vb &&& PTE_V ≠ 0 → leafPte m1 pt vb = leafPte m pt vb)) ∧
          ∃ j ms tail, Grown m ms pt (PGROUNDUP oldsz) j ∧
            PGROUNDUP oldsz + j * PGSIZE < newsz ∧
            m.freelist.length ≤ ms.freelist.length + 3 * j ∧
            ((tail = [] ∧ ms.freelist = []) ∨
              ∃ mem rest, ms.freelist = mem :: rest ∧ tail = [mem] ∧ rest.length < 2 ∧
                ¬ HasPath ms pt (PGROUNDUP oldsz + j * PGSIZE)) ∧
            m1.freelist = unmappedFrames ms pt (PGROUNDUP oldsz) j ++ tail)) ∧
      (3 * ((PGROUNDUP newsz - PGROUNDUP oldsz) / PGSIZE) ≤ m.freelist.length → r = newsz) ∧
      (m.freelist.length < (PGROUNDUP newsz - PGROUNDUP oldsz) / PGSIZE → r = 0) := by
  have hP : PGSIZE = 4096 := rfl
  have hM : MAXVA = 2 ^ 38 := rfl
  obtain ⟨r, m1, e, hcase⟩ := uvmalloc_result m pt oldsz newsz hok hfc hp hpt hle hmax
    (fun k hk => hun _ (lt_of_lt_of_le hk hmax) (Nat.le_add_right _ _))
  have ea := PGROUNDUP_eq oldsz (by omega)
  have en := PGROUNDUP_eq newsz (by omega)
  refine ⟨r, m1, e, ?_, ?_, ?_⟩
  · rcases hcase with ⟨hr, hg⟩ | hf
    · exact Or.inl ⟨hr, hg, grown_frames m m1 pt _ _ hg⟩
    · exact Or.inr hf
  · intro h3
    rcases hcase with ⟨hr, _⟩ | ⟨_, _, j, ms, tail, _, h1, hlen, h2, _⟩
    · exact hr
    · exfalso
      have hms : ms.freelist.length ≤ 2 := by
        rcases h2 with ⟨_, h0⟩ | ⟨mem, rest, h0, _, hr2, _⟩
        · rw [h0]
          exact Nat.zero_le _
        · rw [h0, List.length_cons]
          omega
      rw [ea, en, hP] at h3
      rw [ea, hP] at h1
      omega
  · intro hl
    rcases hcase with ⟨_, hg⟩ | ⟨hr, _⟩
    · have := grown_frames m m1 pt _ _ hg
      omega
    · exact hr

theorem uvmalloc_grows_witness :
    (AllocOK demoMachine ∧ FreeClean demoMachine ∧ PtOK demoMachine 0x80010000 ∧
      0x80010000 ∉ demoMachine.freelist ∧ 0x1800 ≤ 0x3000 ∧ 0x3000 ≤ MAXVA ∧
      (∀ vb, vb < MAXVA → PGROUNDUP 0x1800 ≤ vb →
        leafPte demoMachine 0x80010000 vb &&& PTE_V = 0) ∧
      3 * ((PGROUNDUP 0x3000 - PGROUNDUP 0x1800) / PGSIZE) ≤ demoMachine.freelist.length) ∧
    (∃ m1, uvmalloc demoMachine 0x80010000 0x1800 0x3000 = .ok (0x3000, m1) ∧
      Grown demoMachine m1 0x80010000 (PGROUNDUP 0x1800)
        ((PGROUNDUP 0x3000 - PGROUNDUP 0x1800) / PGSIZE)) ∧
    (AllocOK demoStarved ∧ FreeClean demoStarved ∧ PtOK demoStarved 0x80010000 ∧
      0x80010000 ∉ demoStarved.freelist ∧
      (∀ vb, vb < MAXVA → PGROUNDUP 0x1800 ≤ vb →
        leafPte demoStarved 0x80010000 vb &&& PTE_V = 0) ∧
      demoStarved.freelist.length < (PGROUNDUP 0x3000 - PGROUNDUP 0x1800) / PGSIZE) ∧
    (∃ m1, uvmalloc demoStarved 0x80010000 0x1800 0x3000 = .ok (0, m1) ∧
      ∀ vb, vb < MAXVA →
        (leafPte m1 0x80010000 vb &&& PTE_V ≠ 0 ↔
          leafPte demoStarved 0x80010000 vb &&& PTE_V ≠ 0) ∧
        (leafPte demoStarved 0x80010000 vb &&& PTE_V ≠ 0 →
          leafPte m1 0x80010000 vb = leafPte demoStarved 0x80010000 vb)) := by
  have htop : ∀ vb, vb < MAXVA → PGROUNDUP 0x1800 ≤ vb →
      leafPte demoStarved 0x80010000 vb &&& PTE_V = 0 := fun vb hvb h => by
    rw [leafPte_ptes demoMachine demoStarved 0x80010000 vb rfl]
    exact demoMachine_top vb hvb h
  refine ⟨⟨demoMachine_allocOK, demoMachine_freeClean, demoMachine_ptOK, by decide, by decide,
    by decide, fun vb hvb h => demoMachine_top vb hvb h, by decide⟩, ?_,
    ⟨demoStarved_allocOK, demoStarved_freeClean, demoStarved_ptOK, by decide, htop, by decide⟩, ?_⟩
  · obtain ⟨r, m1, e, hcase, hs, _⟩ := uvmalloc_grows demoMachine 0x80010000 0x1800 0x3000
      demoMachine_allocOK demoMachine_freeClean demoMachine_ptOK (by decide) (by decide)
      (by decide) (fun vb hvb h => demoMachine_top vb hvb h)
    have hr := hs (by decide)
    subst hr
    rcases hcase with ⟨_, hg, _⟩ | ⟨h0, _⟩
    · exact ⟨m1, e, hg⟩
    · exact absurd h0 (by decide)
  · obtain ⟨r, m1, e, hcase, _, hn⟩ := uvmalloc_grows demoStarved 0x80010000 0x1800 0x3000
      demoStarved_allocOK demoStarved_freeClean demoStarved_ptOK (by decide) (by decide)
      (by decide) htop
    have hr := hn (by decide)
    subst hr
    rcases hcase with ⟨h0, _⟩ | ⟨_, hv, _⟩
    · exact absurd h0 (by decide)
    · exact ⟨m1, e, hv⟩
/-- C18 (counterexample): `uvmalloc` grows the address space of `demoMachine`
from `0x1800` to `0x3000` and returns `0x3000`; `uvmdealloc` from `0x3000` back
to `0x1800` returns `0x1800` and unmaps the page `0x2000`; the address `0x1800`
of the range `[0x1800, 0x3000)` still has the valid entry of the page `0x1000`. -/
theorem grow_shrink_partial_page_counterexample :
    uvmalloc demoMachine 0x80010000 0x1800 0x3000 = .ok (0x3000, demoGrown) ∧
    uvmdealloc demoGrown 0x80010000 0x3000 0x1800 = .ok (0x1800, demoShrunk) ∧
    walk demoGrown 0x80010000 0x2000 false = .ok (0x80012010, demoGrown) ∧
    demoGrown.ptes 0x80012010 =
      PA2PTE 0x80031000 ||| (PTE_W ||| PTE_X ||| PTE_R ||| PTE_U) ||| PTE_V ∧
    walk demoShrunk 0x80010000 0x2000 false = .ok (0x80012010, demoShrunk) ∧
    demoShrunk.ptes 0x80012010 = 0 ∧
    0x1800 ≤ 0x1800 ∧ 0x1800 < 0x3000 ∧
    walk demoShrunk 0x80010000 0x1800 false = .ok (0x80012008, demoShrunk) ∧
    demoShrunk.ptes 0x80012008 &&& PTE_V ≠ 0 ∧
    leafPte demoShrunk 0x80010000 0x1800 &&& PTE_V ≠ 0 :=
  ⟨eq_ok_pair _ _ demoMachine (by decide), eq_ok_pair _ _ demoGrown (by decide), rfl, by decide,
    rfl, by decide, by decide, by decide, rfl, by decide, by decide⟩
/-- C18 (amended): let the allocator and the tree-shaped page table `pt` be
consistent and `s <= t <= MAXVA`.  If `uvmalloc(pt, s, t)` returns `t`, then
`uvmdealloc(pt, t, s)` returns `s`; after it no address of
`[PGROUNDUP(s), PGROUNDUP(t))`, which contains `[PGROUNDUP(s), t)`, has a valid
entry, and the entry of every page outside that range, the page that contains
`s` when `s` is not page-aligned among them, is as before the two calls. -/
theorem grow_shrink_unmaps (m m1 : Machine) (pt s t : Nat) (hok : AllocOK m) (hfc : FreeClean m)
    (hp : PtOK m pt) (hpt : pt ∉ m.freelist) (hle : s ≤ t) (hmax : t ≤ MAXVA)
    (hgrow : uvmalloc m pt s t = .ok (t, m1)) :
    ∃ m2, uvmdealloc m1 pt t s = .ok (s, m2) ∧
      (∀ vb, vb < MAXVA → PGROUNDUP s ≤ vb → vb < PGROUNDUP t →
        leafPte m2 pt vb &&& PTE_V = 0) ∧
      (∀ vb, vb < MAXVA → (vb < PGROUNDUP s ∨ PGROUNDUP t ≤ vb) →
        leafPte m2 pt vb = leafPte m pt vb) := by
  have hP : PGSIZE = 4096 := rfl
  have hM : MAXVA = 2 ^ 38 := rfl
  have ea := PGROUNDUP_eq s (by omega)
  have en := PGROUNDUP_eq t (by omega)
  have ha0 : PGROUNDUP s % PGSIZE = 0 := by
    rw [ea]
    exact Nat.mul_mod_left _ _
  have hun : ∀ k, PGROUNDUP s + k * PGSIZE < t →
      leafPte m pt (PGROUNDUP s + k * PGSIZE) &&& PTE_V = 0 := by
    intro k hk
    have ht : t ≠ 0 := by omega
    have hrun := hgrow
    unfold uvmalloc at hrun
    rw [if_neg (not_lt.mpr hle)] at hrun
    have e0 : PGROUNDUP s = PGROUNDUP s + 0 * PGSIZE := by rw [Nat.zero_mul, Nat.add_zero]
    have hend : t ≤ PGROUNDUP s + (0 + (t / PGSIZE + 1)) * PGSIZE := by
      rw [hP]
      omega
    nth_rewrite 1 [e0] at hrun
    exact uvmalloc_loop_fresh m pt (PGROUNDUP s) t ha0 hmax (t / PGSIZE + 1) 0 (t / PGSIZE + 2) m
      (Nat.lt_succ_self _) (grown_refl m pt _ hok hfc hp hpt) hend t m1 hrun ht k (Nat.zero_le _) hk
  obtain ⟨r, m1', e, hcase⟩ := uvmalloc_result m pt s t hok hfc hp hpt hle hmax hun
  rw [hgrow] at e
  injection e with e
  injection e with e1 e2
  subst e1 e2
  have hg : Grown m m1 pt (PGROUNDUP s) ((PGROUNDUP t - PGROUNDUP s) / PGSIZE) := by
    rcases hcase with ⟨_, hg⟩ | ⟨hr, _, j, ms, tail, _, h1, _⟩
    · exact hg
    · rw [hr] at h1
      exact absurd h1 (Nat.not_lt_zero _)
  clear hcase hgrow hun
  unfold uvmdealloc
  generalize PGROUNDUP s = a0 at *
  generalize PGROUNDUP t = b0 at *
  have hsame : (b0 - a0) / PGSIZE = 0 → ∀ vb, vb < MAXVA →
      leafPte m1 pt vb = leafPte m pt vb := by
    intro h0 vb hvb
    rw [h0] at hg
    exact hg.other vb hvb (by omega)
  have hb0 : b0 % PGSIZE = 0 := by
    rw [en]
    exact Nat.mul_mod_left _ _
  have hempty : (b0 - a0) / PGSIZE = 0 → b0 ≤ a0 := by
    intro h0
    rw [hP] at ha0 hb0 h0
    omega
  by_cases h1 : s ≥ t
  · rw [if_pos h1]
    have hst : t = s := by omega
    subst hst
    have h0 : (b0 - a0) / PGSIZE = 0 := by
      rw [ea, en, Nat.sub_self]
      exact Nat.zero_div _
    refine ⟨m1, rfl, fun vb hvb h h' => ?_, fun vb hvb _ => hsame h0 vb hvb⟩
    have := hempty h0
    omega
  · rw [if_neg h1]
    by_cases h2 : a0 < b0
    · rw [if_pos h2]
      have hN : ∃ N, b0 = a0 + N * PGSIZE ∧ (b0 - a0) / PGSIZE = N := by
        refine ⟨(b0 - a0) / PGSIZE, ?_, rfl⟩
        rw [ea, en, hP]
        rw [ea, en, hP] at h2
        omega
      obtain ⟨N, hb, hN2⟩ := hN
      rw [hN2] at hg ⊢
      have hlim : a0 + N * PGSIZE ≤ MAXVA := by
        rw [← hb, en, hP]
        omega
      have hN3 : N < 2 ^ 31 := by
        rw [hP] at hlim
        omega
      simp only [intToU64_small N hN3]
      unfold uvmunmap
      rw [if_neg (by rw [not_not]; exact ha0)]
      have hu : u64 (a0 + N * PGSIZE) = a0 + N * PGSIZE := Nat.mod_eq_of_lt (by omega)
      rw [hu]
      obtain ⟨m2, e, _, _, u3, _⟩ := uvmunmap_loop_all pt true N m1 a0 (N + 1)
        (Nat.lt_succ_self _) ha0 hlim hg.tree (by
          intro k hk
          unfold LeafOK
          rw [(hg.page k hk).1]
          refine ⟨leaf_entry_valid _ _, ?_⟩
          rw [PTE_FLAGS_leaf _ _ (by decide)]
          decide)
      rw [e]
      refine ⟨m2, rfl, ?_, ?_⟩
      · intro vb hvb h h'
        rw [u3 vb hvb, if_pos (by rw [hP] at ha0 hb ⊢; omega)]
        exact Nat.zero_and _
      · intro vb hvb h
        rw [u3 vb hvb, if_neg (by rw [hP] at ha0 hb ⊢; omega)]
        exact hg.other vb hvb (by rw [hP] at ha0 hb ⊢; omega)
    · rw [if_neg h2]
      have h0 : (b0 - a0) / PGSIZE = 0 := by
        have : b0 - a0 = 0 := by omega
        rw [this]
        exact Nat.zero_div _
      exact ⟨m1, rfl, fun vb hvb h h' => by omega, fun vb hvb _ => hsame h0 vb hvb⟩

theorem demoAbove_ok :
    AllocOK demoAbove ∧ FreeClean demoAbove ∧ PtOK demoAbove 0x80010000 ∧
    0x80010000 ∉ demoAbove.freelist := by
  obtain ⟨r, m1, e, q1, q2, q3, q4, _⟩ := mappages_single demoMachine 0x80010000 0x3000 0x80040000
    (PTE_R ||| PTE_U) demoMachine_allocOK demoMachine_freeClean demoMachine_ptOK (by decide)
    (by decide) (by decide) (by decide) (by decide) (by decide) (by decide)
    (demoMachine_top 0x3000 (by decide) (by decide))
  have hm : demoAbove = m1 := by
    unfold demoAbove
    rw [e]
  rw [hm]
  exact ⟨q1, q2, q3, q4⟩

theorem grow_shrink_unmaps_witness :
    (AllocOK demoAbove ∧ FreeClean demoAbove ∧ PtOK demoAbove 0x80010000 ∧
      0x80010000 ∉ demoAbove.freelist ∧ 0x1800 ≤ 0x3000 ∧ 0x3000 ≤ MAXVA ∧
      uvmalloc demoAbove 0x80010000 0x1800 0x3000 = .ok (0x3000, demoAboveGrown) ∧
      leafPte demoAbove 0x80010000 0x3000 &&& PTE_V ≠ 0) ∧
    ∃ m2, uvmdealloc demoAboveGrown 0x80010000 0x3000 0x1800 = .ok (0x1800, m2) ∧
      (∀ vb, vb < MAXVA → PGROUNDUP 0x1800 ≤ vb → vb < PGROUNDUP 0x3000 →
        leafPte m2 0x80010000 vb &&& PTE_V = 0) ∧
      (∀ vb, vb < MAXVA → (vb < PGROUNDUP 0x1800 ∨ PGROUNDUP 0x3000 ≤ vb) →
        leafPte m2 0x80010000 vb = leafPte demoAbove 0x80010000 vb) :=
  ⟨⟨demoAbove_ok.1, demoAbove_ok.2.1, demoAbove_ok.2.2.1, demoAbove_ok.2.2.2, by decide, by decide,
      eq_ok_pair _ _ demoAbove (by decide), by decide⟩,
    grow_shrink_unmaps demoAbove demoAboveGrown 0x80010000 0x1800 0x3000 demoAbove_ok.1
      demoAbove_ok.2.1 demoAbove_ok.2.2.1 demoAbove_ok.2.2.2 (by decide) (by decide)
      (eq_ok_pair _ _ demoAbove (by decide))⟩
theorem walkaddr_user (m : Machine) (pt va : Nat) (hp : PtOK m pt) (h : UserOK m pt va) :
    walkaddr m pt va = .ok (PTE2PA (leafPte m pt va)) := by
  obtain ⟨hva, hv, hu⟩ := h
  have hpath := hasPath_of_valid m pt va hv
  rw [leafPte_of_path m pt va hpath] at hv hu ⊢
  unfold walkaddr
  rw [if_neg (by omega), walk_path m pt va hva hpath]
  simp only [if_neg (l0_ne_zero m pt va hp hpath), if_neg hv, if_neg hu]

theorem walkaddr_nouser (m : Machine) (pt va : Nat) (hp : PtOK m pt) (h : ¬ UserOK m pt va) :
    walkaddr m pt va = .ok 0 := by
  unfold walkaddr
  by_cases hva : va ≥ MAXVA
  · rw [if_pos hva]
  · rw [if_neg hva]
    by_cases hpath : HasPath m pt va
    · rw [walk_path m pt va (by omega) hpath]
      simp only [if_neg (l0_ne_zero m pt va hp hpath)]
      by_cases hv : m.ptes (l0slot m pt va) &&& PTE_V = 0
      · rw [if_pos hv]
      · rw [if_neg hv]
        by_cases hu : m.ptes (l0slot m pt va) &&& PTE_U = 0
        · rw [if_pos hu]
        · exfalso
          apply h
          unfold UserOK
          rw [leafPte_of_path m pt va hpath]
          exact ⟨by omega, hv, hu⟩
    · rw [walk_nopath m pt va (by omega) hpath]
      simp only [if_true]

theorem userOK_page (m : Machine) (pt va vb : Nat) (h : va / PGSIZE = vb / PGSIZE) :
    UserOK m pt va ↔ UserOK m pt vb := by
  have hP : PGSIZE = 4096 := rfl
  have hM : MAXVA = 2 ^ 38 := rfl
  unfold UserOK
  rw [leafPte_page m pt va vb h]
  have : va < MAXVA ↔ vb < MAXVA := by
    rw [hP] at h
    omega
  rw [this]

theorem userOK_ptes (m m1 : Machine) (pt va : Nat) (h : m1.ptes = m.ptes) :
    UserOK m1 pt va ↔ UserOK m pt va := by
  unfold UserOK
  rw [leafPte_ptes m m1 pt va h]

theorem physAddr_ptes (m m1 : Machine) (pt va : Nat) (h : m1.ptes = m.ptes) :
    physAddr m1 pt va = physAddr m pt va := by
  unfold physAddr
  rw [leafPte_ptes m m1 pt va h]

/-- The arithmetic of one iteration of the loops of `copyout`, `copyin` and
`copyinstr` at the user address `d`. -/
theorem chunk_facts (m : Machine) (pt d : Nat) (hd : d < 2 ^ 64) :
    PGROUNDDOWN d ≤ d ∧ d - PGROUNDDOWN d < PGSIZE ∧
    (UserOK m pt (PGROUNDDOWN d) ↔ UserOK m pt d) ∧
    (∀ k, k < PGSIZE - (d - PGROUNDDOWN d) →
      (UserOK m pt (d + k) ↔ UserOK m pt d) ∧
      physAddr m pt (d + k) = PTE2PA (leafPte m pt (PGROUNDDOWN d)) + (d - PGROUNDDOWN d) + k) ∧
    (PGROUNDDOWN d < MAXVA →
      u64 (PGROUNDDOWN d + PGSIZE) = d + (PGSIZE - (d - PGROUNDDOWN d)) ∧
      d + (PGSIZE - (d - PGROUNDDOWN d)) < 2 ^ 64) := by
  have hP : PGSIZE = 4096 := rfl
  have hM : MAXVA = 2 ^ 38 := rfl
  have e := PGROUNDDOWN_eq d hd
  rw [e, hP]
  refine ⟨by omega, by omega, ?_, ?_, ?_⟩
  · apply userOK_page
    rw [hP]
    omega
  · intro k hk
    refine ⟨?_, ?_⟩
    · apply userOK_page
      rw [hP]
      omega
    · unfold physAddr
      rw [leafPte_page m pt (d + k) (d / 4096 * 4096) (by rw [hP]; omega), hP]
      omega
  · intro hlt
    unfold u64
    omega
/-- The loop of `copyout` from the user address `d` on: it returns 0 when every
address of the range is user-accessible and otherwise -1, it writes only at
the physical addresses of the range, and after it returns 0 the bytes of a
range without aliases are those of the source. -/
theorem copyout_loop_spec (m0 : Machine) (pt : Nat) (hp : PtOK m0 pt)
    (hz : ∀ va, UserOK m0 pt va → PTE2PA (leafPte m0 pt va) ≠ 0) :
    ∀ (fuel : Nat) (m : Machine) (d : Nat) (src : Nat → Nat) (len : Nat), len < fuel →
    d < 2 ^ 64 → m.ptes = m0.ptes →
    ∃ r m1, copyout_loop fuel m pt d src len = .ok (r, m1) ∧ m1.ptes = m.ptes ∧
      m1.cow_ref = m.cow_ref ∧ m1.freelist = m.freelist ∧
      (∀ b, (∀ k, k < len → b ≠ physAddr m0 pt (d + k)) → m1.bytes b = m.bytes b) ∧
      ((r = 0 ∧ (∀ k, k < len → UserOK m0 pt (d + k)) ∧
          ((∀ j k, j < len → k < len → physAddr m0 pt (d + j) = physAddr m0 pt (d + k) → j = k) →
            ∀ k, k < len → m1.bytes (physAddr m0 pt (d + k)) = src k)) ∨
        (r = -1 ∧ ∃ k, k < len ∧ ¬ UserOK m0 pt (d + k))) := by
  intro fuel
  induction fuel with
  | zero =>
    intro m d src len hfu
    exact absurd hfu (Nat.not_lt_zero _)
  | succ fuel ih =>
    intro m d src len hfu hd hpe
    rw [copyout_loop]
    by_cases hl : len > 0
    · rw [if_pos hl]
      obtain ⟨c1, c2, c3, c4, c5⟩ := chunk_facts m0 pt d hd
      have hpm : PtOK m pt := ptOK_ptes m0 m pt hpe hp
      by_cases hu : UserOK m0 pt d
      · have hu0 : UserOK m0 pt (PGROUNDDOWN d) := c3.mpr hu
        have hw : walkaddr m pt (PGROUNDDOWN d) = .ok (PTE2PA (leafPte m0 pt (PGROUNDDOWN d))) := by
          rw [walkaddr_user m pt _ hpm ((userOK_ptes m0 m pt _ hpe).mpr hu0),
            leafPte_ptes m0 m pt _ hpe]
        have hpa := hz _ hu0
        obtain ⟨c5a, c5b⟩ := c5 hu0.1
        generalize PTE2PA (leafPte m0 pt (PGROUNDDOWN d)) = pa0 at *
        generalize PGROUNDDOWN d = va0 at *
        simp only [hw, if_neg hpa]
        obtain ⟨n, hn⟩ : ∃ n, n = if PGSIZE - (d - va0) > len then len else PGSIZE - (d - va0) :=
          ⟨_, rfl⟩
        rw [← hn]
        have hn1 : 1 ≤ n ∧ n ≤ len ∧ n ≤ PGSIZE - (d - va0) ∧
            (n < len → n = PGSIZE - (d - va0)) := by
          by_cases hc : PGSIZE - (d - va0) > len
          · rw [if_pos hc] at hn
            omega
          · rw [if_neg hc] at hn
            omega
        obtain ⟨hn1, hn2, hn3, hn4⟩ := hn1
        have hnext : ∀ k, k < len - n → u64 (va0 + PGSIZE) + k = d + (n + k) := by
          intro k hk
          rw [c5a, hn4 (by omega)]
          omega
        have hd2 : u64 (va0 + PGSIZE) < 2 ^ 64 := by
          rw [c5a]
          exact c5b
        obtain ⟨r, m1, e, i1, i2, i3, i4, i5⟩ := ih (m.write (pa0 + (d - va0)) src n)
          (u64 (va0 + PGSIZE)) (fun k => src (k + n)) (len - n) (by omega) hd2 hpe
        rw [e]
        have hwr : ∀ k, k < n → (m.write (pa0 + (d - va0)) src n).bytes (physAddr m0 pt (d + k)) =
            src k := by
          intro k hk
          rw [(c4 k (by omega)).2]
          show (if _ then _ else _) = _
          rw [if_pos (by omega)]
          have e1 : pa0 + (d - va0) + k - (pa0 + (d - va0)) = k := by omega
          rw [e1]
        have hwo : ∀ b, (∀ k, k < n → b ≠ physAddr m0 pt (d + k)) →
            (m.write (pa0 + (d - va0)) src n).bytes b = m.bytes b := by
          intro b hb
          show (if _ then _ else _) = _
          rw [if_neg]
          rintro ⟨h1, h2⟩
          apply hb (b - (pa0 + (d - va0))) (by omega)
          rw [(c4 _ (by omega)).2]
          omega
        refine ⟨r, m1, rfl, i1, i2, i3, ?_, ?_⟩
        · intro b hb
          rw [i4 b, hwo b (fun k hk => hb k (by omega))]
          intro k hk
          rw [hnext k hk]
          exact hb _ (by omega)
        · rcases i5 with ⟨hr, hall, hby⟩ | ⟨hr, k, hk, hbad⟩
          · left
            refine ⟨hr, ?_, ?_⟩
            · intro k hk
              by_cases hkn : k < n
              · exact (c4 k (by omega)).1.mpr hu
              · have := hall (k - n) (by omega)
                rw [hnext _ (by omega)] at this
                have e2 : n + (k - n) = k := by omega
                rw [e2] at this
                exact this
            · intro hinj k hk
              by_cases hkn : k < n
              · rw [i4, hwr k hkn]
                intro k2 hk2
                rw [hnext k2 hk2]
                intro hc
                have := hinj k (n + k2) hk (by omega) hc
                omega
              · have := hby (by
                  intro j k2 hj hk2
                  rw [hnext j hj, hnext k2 hk2]
                  intro hc
                  have := hinj (n + j) (n + k2) (by omega) (by omega) hc
                  omega) (k - n) (by omega)
                rw [hnext _ (by omega)] at this
                have e2 : n + (k - n) = k := by omega
                have e3 : k - n + n = k := by omega
                rw [e2] at this
                rw [this]
                show src (k - n + n) = src k
                rw [e3]
          · right
            refine ⟨hr, n + k, by omega, ?_⟩
            rw [← hnext k hk]
            exact hbad
      · have hw : walkaddr m pt (PGROUNDDOWN d) = .ok 0 :=
          walkaddr_nouser m pt _ hpm (fun h => hu (c3.mp ((userOK_ptes m0 m pt _ hpe).mp h)))
        simp only [hw, if_true]
        exact ⟨_, _, rfl, rfl, rfl, rfl, fun _ _ => rfl, Or.inr ⟨rfl, 0, hl, hu⟩⟩
    · rw [if_neg hl]
      have h0 : len = 0 := by omega
      subst h0
      exact ⟨_, _, rfl, rfl, rfl, rfl, fun _ _ => rfl,
        Or.inl ⟨rfl, fun _ hk => absurd hk (Nat.not_lt_zero _),
          fun _ _ hk => absurd hk (Nat.not_lt_zero _)⟩⟩
/-- The loop of `copyin` from the user address `s` on: it returns 0 when every
address of the range is user-accessible and otherwise -1, it stores only into
the `len` bytes of the buffer from `off` on, and after it returns 0 these are
the user bytes of the range. -/
theorem copyin_loop_spec (m : Machine) (pt : Nat) (hp : PtOK m pt)
    (hz : ∀ va, UserOK m pt va → PTE2PA (leafPte m pt va) ≠ 0) :
    ∀ (fuel : Nat) (dst : Nat → Nat) (off s len : Nat), len < fuel → s < 2 ^ 64 →
    ∃ r d1, copyin_loop fuel m pt dst off s len = .ok (r, d1) ∧
      (∀ k, (k < off ∨ off + len ≤ k) → d1 k = dst k) ∧
      ((r = 0 ∧ (∀ k, k < len → UserOK m pt (s + k)) ∧
          ∀ k, k < len → d1 (off + k) = userByte m pt (s + k)) ∨
        (r = -1 ∧ ∃ k, k < len ∧ ¬ UserOK m pt (s + k))) := by
  intro fuel
  induction fuel with
  | zero =>
    intro dst off s len hfu
    exact absurd hfu (Nat.not_lt_zero _)
  | succ fuel ih =>
    intro dst off s len hfu hs
    rw [copyin_loop]
    by_cases hl : len > 0
    · rw [if_pos hl]
      obtain ⟨c1, c2, c3, c4, c5⟩ := chunk_facts m pt s hs
      by_cases hu : UserOK m pt s
      · have hu0 : UserOK m pt (PGROUNDDOWN s) := c3.mpr hu
        have hw := walkaddr_user m pt _ hp hu0
        have hpa := hz _ hu0
        obtain ⟨c5a, c5b⟩ := c5 hu0.1
        generalize PTE2PA (leafPte m pt (PGROUNDDOWN s)) = pa0 at *
        generalize PGROUNDDOWN s = va0 at *
        simp only [hw, if_neg hpa]
        obtain ⟨n, hn⟩ : ∃ n, n = if PGSIZE - (s - va0) > len then len else PGSIZE - (s - va0) :=
          ⟨_, rfl⟩
        rw [← hn]
        have hn1 : 1 ≤ n ∧ n ≤ len ∧ n ≤ PGSIZE - (s - va0) ∧
            (n < len → n = PGSIZE - (s - va0)) := by
          by_cases hc : PGSIZE - (s - va0) > len
          · rw [if_pos hc] at hn
            omega
          · rw [if_neg hc] at hn
            omega
        obtain ⟨hn1, hn2, hn3, hn4⟩ := hn1
        have hnext : ∀ k, k < len - n → u64 (va0 + PGSIZE) + k = s + (n + k) := by
          intro k hk
          rw [c5a, hn4 (by omega)]
          omega
        have hs2 : u64 (va0 + PGSIZE) < 2 ^ 64 := by
          rw [c5a]
          exact c5b
        obtain ⟨r, d1, e, i1, i2⟩ := ih
          (fun k => if off ≤ k ∧ k < off + n then m.bytes (pa0 + (s - va0) + (k - off)) else dst k)
          (off + n) (u64 (va0 + PGSIZE)) (len - n) (by omega) hs2
        rw [e]
        refine ⟨r, d1, rfl, ?_, ?_⟩
        · intro k hk
          rw [i1 k (by omega)]
          show (if _ then _ else _) = _
          rw [if_neg (by omega)]
        · rcases i2 with ⟨hr, hall, hby⟩ | ⟨hr, k, hk, hbad⟩
          · left
            refine ⟨hr, ?_, ?_⟩
            · intro k hk
              by_cases hkn : k < n
              · exact (c4 k (by omega)).1.mpr hu
              · have := hall (k - n) (by omega)
                rw [hnext _ (by omega)] at this
                have e2 : n + (k - n) = k := by omega
                rw [e2] at this
                exact this
            · intro k hk
              by_cases hkn : k < n
              · rw [i1 (off + k) (by omega)]
                show (if _ then _ else _) = _
                rw [if_pos (by omega)]
                unfold userByte
                rw [(c4 k (by omega)).2]
                have e1 : off + k - off = k := by omega
                rw [e1]
              · have := hby (k - n) (by omega)
                rw [hnext _ (by omega)] at this
                have e2 : n + (k - n) = k := by omega
                have e3 : off + n + (k - n) = off + k := by omega
                rw [e2, e3] at this
                exact this
          · right
            refine ⟨hr, n + k, by omega, ?_⟩
            rw [← hnext k hk]
            exact hbad
      · have hw : walkaddr m pt (PGROUNDDOWN s) = .ok 0 :=
          walkaddr_nouser m pt _ hp (fun h => hu (c3.mp h))
        simp only [hw, if_true]
        exact ⟨_, _, rfl, fun _ _ => rfl, Or.inr ⟨rfl, 0, hl, hu⟩⟩
    · rw [if_neg hl]
      have h0 : len = 0 := by omega
      subst h0
      exact ⟨_, _, rfl, fun _ _ => rfl,
        Or.inl ⟨rfl, fun _ hk => absurd hk (Nat.not_lt_zero _),
          fun _ hk => absurd hk (Nat.not_lt_zero _)⟩⟩
theorem demoMachine_frames (va : Nat) (h : UserOK demoMachine 0x80010000 va) :
    PTE2PA (leafPte demoMachine 0x80010000 va) ≠ 0 := by
  have hc := h.2.1
  have hpath := hasPath_of_valid _ _ _ hc
  obtain ⟨_, _, c⟩ := demoMachine_l1 va hpath
  rw [leafPte_of_path _ _ _ hpath, l0slot_eq, c] at hc ⊢
  have hlt := PX_lt 0 va
  have hw := demoMachine_word _ hc
  have h0 : PX 0 va = 0 ∨ PX 0 va = 1 := by omega
  rcases h0 with h0 | h0 <;> rw [h0] <;> decide

/-- C13: let `pt` be a tree-shaped page table in which no user-accessible page
is mapped to physical address 0, and `va` a 64-bit address.  Then `copyout`
returns 0 or -1, and 0 exactly when every address of `[va, va + len)` lies
below `MAXVA` on a page whose entry is valid with U; it leaves the page table
alone, and after it returned 0 the `len` user bytes from `va` on are those of
`src`, provided no two addresses of the range translate to the same physical
address.  Likewise `copyin` returns 0 or -1, 0 exactly under the same
condition, and then `dst` holds the `len` user bytes from `va` on. -/
theorem copy_user_contract (m : Machine) (pt va len : Nat) (src dst : Nat → Nat)
    (hp : PtOK m pt) (hva : va < 2 ^ 64)
    (hz : ∀ vb, UserOK m pt vb → PTE2PA (leafPte m pt vb) ≠ 0) :
    (∃ r m1, copyout m pt va src len = .ok (r, m1) ∧ m1.ptes = m.ptes ∧ (r = 0 ∨ r = -1) ∧
      (r = 0 ↔ ∀ k, k < len → UserOK m pt (va + k)) ∧
      (r = 0 →
        (∀ j k, j < len → k < len → physAddr m pt (va + j) = physAddr m pt (va + k) → j = k) →
        ∀ k, k < len → userByte m1 pt (va + k) = src k)) ∧
    (∃ r d1, copyin m pt dst va len = .ok (r, d1) ∧ (r = 0 ∨ r = -1) ∧
      (r = 0 ↔ ∀ k, k < len → UserOK m pt (va + k)) ∧
      (r = 0 → ∀ k, k < len → d1 k = userByte m pt (va + k))) := by
  have hne : (-1 : Int) ≠ 0 := by decide
  constructor
  · obtain ⟨r, m1, e, i1, _, _, _, i5⟩ := copyout_loop_spec m pt hp hz (len + 1) m va src len
      (Nat.lt_succ_self _) hva rfl
    refine ⟨r, m1, e, i1, ?_⟩
    rcases i5 with ⟨hr, hall, hby⟩ | ⟨hr, k, hk, hbad⟩
    · refine ⟨Or.inl hr, ⟨fun _ => hall, fun _ => hr⟩, ?_⟩
      intro _ hinj k hk
      unfold userByte
      rw [physAddr_ptes m m1 pt _ i1]
      exact hby hinj k hk
    · subst hr
      exact ⟨Or.inr rfl, ⟨fun h => absurd h hne, fun h => absurd (h k hk) hbad⟩,
        fun h => absurd h hne⟩
  · obtain ⟨r, d1, e, _, i2⟩ := copyin_loop_spec m pt hp hz (len + 1) dst 0 va len
      (Nat.lt_succ_self _) hva
    refine ⟨r, d1, e, ?_⟩
    rcases i2 with ⟨hr, hall, hby⟩ | ⟨hr, k, hk, hbad⟩
    · refine ⟨Or.inl hr, ⟨fun _ => hall, fun _ => hr⟩, ?_⟩
      intro _ k hk
      have := hby k hk
      rw [Nat.zero_add] at this
      exact this
    · subst hr
      exact ⟨Or.inr rfl, ⟨fun h => absurd h hne, fun h => absurd (h k hk) hbad⟩,
        fun h => absurd h hne⟩

theorem copy_user_contract_witness :
    (PtOK demoMachine 0x80010000 ∧ 0xFFF < 2 ^ 64 ∧
      ∀ vb, UserOK demoMachine 0x80010000 vb →
        PTE2PA (leafPte demoMachine 0x80010000 vb) ≠ 0) ∧
    (∃ r m1, copyout demoMachine 0x80010000 0xFFF (fun k => 0x41 + k) 2 = .ok (r, m1) ∧
      m1.ptes = demoMachine.ptes ∧ (r = 0 ∨ r = -1) ∧
      (r = 0 ↔ ∀ k, k < 2 → UserOK demoMachine 0x80010000 (0xFFF + k)) ∧
      (r = 0 →
        (∀ j k, j < 2 → k < 2 → physAddr demoMachine 0x80010000 (0xFFF + j) =
          physAddr demoMachine 0x80010000 (0xFFF + k) → j = k) →
        ∀ k, k < 2 → userByte m1 0x80010000 (0xFFF + k) = (fun k => 0x41 + k) k)) ∧
    (∃ r d1, copyin demoMachine 0x80010000 (fun _ => 0) 0xFFF 2 = .ok (r, d1) ∧
      (r = 0 ∨ r = -1) ∧
      (r = 0 ↔ ∀ k, k < 2 → UserOK demoMachine 0x80010000 (0xFFF + k)) ∧
      (r = 0 → ∀ k, k < 2 → d1 k = userByte demoMachine 0x80010000 (0xFFF + k))) :=
  ⟨⟨demoMachine_ptOK, by decide, demoMachine_frames⟩,
    copy_user_contract demoMachine 0x80010000 0xFFF 2 (fun k => 0x41 + k) (fun _ => 0)
      demoMachine_ptOK (by decide) demoMachine_frames⟩
/-- The inner loop of `copyinstr` over the `n` bytes from the physical address
`p` on: it stops at the first NUL, which it copies, or copies all `n` bytes. -/
theorem copyinstr_chunk_spec (m : Machine) : ∀ (n : Nat) (dst : Nat → Nat) (off p max : Nat),
    ((copyinstr_chunk n m dst off p max).got_null = true ∧
      ∃ i, i < n ∧ m.bytes (p + i) = 0 ∧ (∀ k, k < i → m.bytes (p + k) ≠ 0) ∧
        ∀ k, (copyinstr_chunk n m dst off p max).dst k =
          if off ≤ k ∧ k < off + (i + 1) then m.bytes (p + (k - off)) else dst k) ∨
    ((copyinstr_chunk n m dst off p max).got_null = false ∧
      (∀ k, k < n → m.bytes (p + k) ≠ 0) ∧
      (copyinstr_chunk n m dst off p max).off = off + n ∧
      (copyinstr_chunk n m dst off p max).max = max - n ∧
      ∀ k, (copyinstr_chunk n m dst off p max).dst k =
        if off ≤ k ∧ k < off + n then m.bytes (p + (k - off)) else dst k) := by
  intro n
  induction n with
  | zero =>
    intro dst off p max
    right
    refine ⟨rfl, fun _ hk => absurd hk (Nat.not_lt_zero _), rfl, rfl, ?_⟩
    intro k
    rw [if_neg (by omega)]
    rfl
  | succ n ih =>
    intro dst off p max
    by_cases h : m.bytes p = 0
    · have e : copyinstr_chunk (n + 1) m dst off p max =
          ⟨true, fun k => if k = off then 0 else dst k, off, max⟩ := by
        rw [copyinstr_chunk, if_pos h]
      rw [e]
      left
      refine ⟨rfl, 0, Nat.succ_pos _, h, fun _ hk => absurd hk (Nat.not_lt_zero _), ?_⟩
      intro k
      show (if k = off then 0 else dst k) = _
      by_cases hk : k = off
      · subst hk
        rw [if_pos rfl, if_pos (by omega), Nat.sub_self]
        exact h.symm
      · rw [if_neg hk, if_neg (by omega)]
    · have e : copyinstr_chunk (n + 1) m dst off p max =
          copyinstr_chunk n m (fun k => if k = off then m.bytes p else dst k) (off + 1) (p + 1)
            (max - 1) := by
        rw [copyinstr_chunk, if_neg h]
      rw [e]
      have hd : ∀ (c : Nat) (k : Nat), 1 ≤ c →
          (if off + 1 ≤ k ∧ k < off + 1 + (c - 1) then m.bytes (p + 1 + (k - (off + 1)))
            else (if k = off then m.bytes p else dst k)) =
          if off ≤ k ∧ k < off + c then m.bytes (p + (k - off)) else dst k := by
        intro c k hc
        by_cases h1 : off + 1 ≤ k ∧ k < off + 1 + (c - 1)
        · rw [if_pos h1, if_pos (by omega)]
          have e2 : p + 1 + (k - (off + 1)) = p + (k - off) := by omega
          rw [e2]
        · rw [if_neg h1]
          by_cases h2 : k = off
          · subst h2
            rw [if_pos rfl, if_pos (by omega), Nat.sub_self, Nat.add_zero]
          · rw [if_neg h2, if_neg (by omega)]
      rcases ih (fun k => if k = off then m.bytes p else dst k) (off + 1) (p + 1) (max - 1) with
        ⟨g, i, hi, hz, hnz, hdst⟩ | ⟨g, hnz, ho, hm, hdst⟩
      · left
        refine ⟨g, i + 1, by omega, ?_, ?_, ?_⟩
        · have e2 : p + (i + 1) = p + 1 + i := by omega
          rw [e2]
          exact hz
        · intro k hk
          rcases Nat.eq_zero_or_pos k with h0 | hpos
          · subst h0
            exact h
          · have := hnz (k - 1) (by omega)
            have e2 : p + 1 + (k - 1) = p + k := by omega
            rw [e2] at this
            exact this
        · intro k
          rw [hdst k]
          exact hd (i + 1 + 1) k (by omega)
      · right
        refine ⟨g, ?_, by omega, by omega, ?_⟩
        · intro k hk
          rcases Nat.eq_zero_or_pos k with h0 | hpos
          · subst h0
            exact h
          · have := hnz (k - 1) (by omega)
            have e2 : p + 1 + (k - 1) = p + k := by omega
            rw [e2] at this
            exact this
        · intro k
          rw [hdst k]
          exact hd (n + 1) k (by omega)
/-- The outer loop of `copyinstr` over a range of user-accessible addresses:
it returns 0 when the range holds a NUL, having copied the bytes up to and
including the first one, and otherwise -1, having copied all `max` bytes. -/
theorem copyinstr_loop_spec (m : Machine) (pt : Nat) (hp : PtOK m pt)
    (hz : ∀ va, UserOK m pt va → PTE2PA (leafPte m pt va) ≠ 0) :
    ∀ (fuel : Nat) (dst : Nat → Nat) (off s max : Nat), max < fuel → s < 2 ^ 64 →
    (∀ k, k < max → UserOK m pt (s + k)) →
    ∃ r d1, copyinstr_loop fuel m pt dst off s max = .ok (r, d1) ∧
      ((r = 0 ∧ ∃ i, i < max ∧ userByte m pt (s + i) = 0 ∧
          (∀ k, k < i → userByte m pt (s + k) ≠ 0) ∧
          ∀ k, d1 k =
            if off ≤ k ∧ k < off + (i + 1) then userByte m pt (s + (k - off)) else dst k) ∨
        (r = -1 ∧ (∀ k, k < max → userByte m pt (s + k) ≠ 0) ∧
          ∀ k, d1 k =
            if off ≤ k ∧ k < off + max then userByte m pt (s + (k - off)) else dst k)) := by
  intro fuel
  induction fuel with
  | zero =>
    intro dst off s max hfu
    exact absurd hfu (Nat.not_lt_zero _)
  | succ fuel ih =>
    intro dst off s max hfu hs hall
    rw [copyinstr_loop]
    by_cases hl : max > 0
    · rw [if_pos hl]
      obtain ⟨c1, c2, c3, c4, c5⟩ := chunk_facts m pt s hs
      have hu : UserOK m pt s := hall 0 hl
      have hu0 : UserOK m pt (PGROUNDDOWN s) := c3.mpr hu
      have hw := walkaddr_user m pt _ hp hu0
      have hpa := hz _ hu0
      obtain ⟨c5a, c5b⟩ := c5 hu0.1
      have hub : ∀ k, k < PGSIZE - (s - PGROUNDDOWN s) →
          m.bytes (PTE2PA (leafPte m pt (PGROUNDDOWN s)) + (s - PGROUNDDOWN s) + k) =
            userByte m pt (s + k) := by
        intro k hk
        unfold userByte
        rw [(c4 k hk).2]
      clear c4
      generalize PTE2PA (leafPte m pt (PGROUNDDOWN s)) = pa0 at *
      generalize PGROUNDDOWN s = va0 at *
      simp only [hw, if_neg hpa]
      obtain ⟨n, hn⟩ : ∃ n, n = if PGSIZE - (s - va0) > max then max else PGSIZE - (s - va0) :=
        ⟨_, rfl⟩
      rw [← hn]
      have hn1 : 1 ≤ n ∧ n ≤ max ∧ n ≤ PGSIZE - (s - va0) ∧
          (n < max → n = PGSIZE - (s - va0)) := by
        by_cases hc : PGSIZE - (s - va0) > max
        · rw [if_pos hc] at hn
          omega
        · rw [if_neg hc] at hn
          omega
      obtain ⟨hn1, hn2, hn3, hn4⟩ := hn1
      have hnext : ∀ k, k < max - n → u64 (va0 + PGSIZE) + k = s + (n + k) := by
        intro k hk
        rw [c5a, hn4 (by omega)]
        omega
      have hs2 : u64 (va0 + PGSIZE) < 2 ^ 64 := by
        rw [c5a]
        exact c5b
      rcases copyinstr_chunk_spec m n dst off (pa0 + (s - va0)) max with
        ⟨g, i, hi, hzero, hnz, hdst⟩ | ⟨g, hnz, ho, hm, hdst⟩
      · rw [if_pos g]
        refine ⟨_, _, rfl, Or.inl ⟨rfl, i, by omega, ?_, ?_, ?_⟩⟩
        · rw [← hub i (by omega)]
          exact hzero
        · intro k hk
          rw [← hub k (by omega)]
          exact hnz k hk
        · intro k
          rw [hdst k]
          by_cases hc : off ≤ k ∧ k < off + (i + 1)
          · rw [if_pos hc, if_pos hc, hub _ (by omega)]
          · rw [if_neg hc, if_neg hc]
      · rw [if_neg (by rw [g]; decide), ho, hm]
        obtain ⟨r, d1, e, hcase⟩ := ih (copyinstr_chunk n m dst off (pa0 + (s - va0)) max).dst
          (off + n) (u64 (va0 + PGSIZE)) (max - n) (by omega) hs2 (by
            intro k hk
            rw [hnext k hk]
            exact hall _ (by omega))
        rw [e]
        have comb : ∀ c, c ≤ max - n → ∀ k,
            (if off + n ≤ k ∧ k < off + n + c then
                userByte m pt (u64 (va0 + PGSIZE) + (k - (off + n)))
              else (copyinstr_chunk n m dst off (pa0 + (s - va0)) max).dst k) =
            if off ≤ k ∧ k < off + (n + c) then userByte m pt (s + (k - off)) else dst k := by
          intro c hc k
          by_cases h1 : off + n ≤ k ∧ k < off + n + c
          · rw [if_pos h1, if_pos (by omega), hnext _ (by omega)]
            have e2 : n + (k - (off + n)) = k - off := by omega
            rw [e2]
          · rw [if_neg h1, hdst k]
            by_cases h2 : off ≤ k ∧ k < off + n
            · rw [if_pos h2, if_pos (by omega), hub _ (by omega)]
            · rw [if_neg h2, if_neg (by omega)]
        have hfirst : ∀ k, k < n → userByte m pt (s + k) ≠ 0 := by
          intro k hk
          rw [← hub k (by omega)]
          exact hnz k hk
        refine ⟨r, d1, rfl, ?_⟩
        rcases hcase with ⟨hr, i, hi, hzero, hnz2, hd1⟩ | ⟨hr, hnz2, hd1⟩
        · left
          refine ⟨hr, n + i, by omega, ?_, ?_, ?_⟩
          · rw [← hnext i hi]
            exact hzero
          · intro k hk
            by_cases hkn : k < n
            · exact hfirst k hkn
            · have := hnz2 (k - n) (by omega)
              rw [hnext _ (by omega)] at this
              have e2 : n + (k - n) = k := by omega
              rw [e2] at this
              exact this
          · intro k
            rw [hd1 k]
            exact comb (i + 1) (by omega) k
        · right
          refine ⟨hr, ?_, ?_⟩
          · intro k hk
            by_cases hkn : k < n
            · exact hfirst k hkn
            · have := hnz2 (k - n) (by omega)
              rw [hnext _ (by omega)] at this
              have e2 : n + (k - n) = k := by omega
              rw [e2] at this
              exact this
          · intro k
            rw [hd1 k, comb (max - n) (Nat.le_refl _) k]
            have e2 : n + (max - n) = max := by omega
            rw [e2]
    · rw [if_neg hl]
      have h0 : max = 0 := by omega
      subst h0
      refine ⟨_, _, rfl, Or.inr ⟨rfl, fun _ hk => absurd hk (Nat.not_lt_zero _), ?_⟩⟩
      intro k
      rw [if_neg (by omega)]
/-- C14: let `pt` be a tree-shaped page table in which no user-accessible page
is mapped to physical address 0, `srcva` a 64-bit address, and every address
of `[srcva, srcva + max)` lie below `MAXVA` on a page whose entry is valid with
U.  Then `copyinstr` returns 0 or -1; it returns -1 exactly when none of the
`max` user bytes from `srcva` on is NUL (so also for `max = 0`); when it
returns 0, `dst` holds the user bytes up to and including the first NUL and
is as before past it; and the same call on the resulting `dst` returns the
same value and the same `dst`. -/
theorem copyinstr_contract (m : Machine) (pt : Nat) (dst : Nat → Nat) (srcva max : Nat)
    (hp : PtOK m pt) (hz : ∀ vb, UserOK m pt vb → PTE2PA (leafPte m pt vb) ≠ 0)
    (hs : srcva < 2 ^ 64) (hall : ∀ k, k < max → UserOK m pt (srcva + k)) :
    ∃ r d1, copyinstr m pt dst srcva max = .ok (r, d1) ∧ (r = 0 ∨ r = -1) ∧
      (r = -1 ↔ ∀ k, k < max → userByte m pt (srcva + k) ≠ 0) ∧
      (r = 0 → ∃ i, i < max ∧ userByte m pt (srcva + i) = 0 ∧
        (∀ k, k < i → userByte m pt (srcva + k) ≠ 0) ∧
        (∀ k, k ≤ i → d1 k = userByte m pt (srcva + k)) ∧ (∀ k, i < k → d1 k = dst k)) ∧
      copyinstr m pt d1 srcva max = .ok (r, d1) := by
  have hne : (-1 : Int) ≠ 0 := by decide
  have hne2 : (0 : Int) ≠ -1 := by decide
  unfold copyinstr
  obtain ⟨r, d1, e, hcase⟩ := copyinstr_loop_spec m pt hp hz (max + 1) dst 0 srcva max
    (Nat.lt_succ_self _) hs hall
  obtain ⟨r2, d2, e2, hcase2⟩ := copyinstr_loop_spec m pt hp hz (max + 1) d1 0 srcva max
    (Nat.lt_succ_self _) hs hall
  refine ⟨r, d1, e, ?_⟩
  rcases hcase with ⟨hr, i, hi, hzero, hnz, hd1⟩ | ⟨hr, hnz, hd1⟩
  · subst hr
    refine ⟨Or.inl rfl, ⟨fun h => absurd h hne2, fun h => absurd hzero (h i hi)⟩, ?_, ?_⟩
    · intro _
      refine ⟨i, hi, hzero, hnz, ?_, ?_⟩
      · intro k hk
        rw [hd1 k, if_pos (by omega), Nat.sub_zero]
      · intro k hk
        rw [hd1 k, if_neg (by omega)]
    · rw [e2]
      rcases hcase2 with ⟨hr2, i2, hi2, hzero2, hnz2, hd2⟩ | ⟨hr2, hnz2, _⟩
      · have hii : i2 = i := by
          rcases Nat.lt_trichotomy i2 i with h | h | h
          · exact absurd hzero2 (hnz i2 h)
          · exact h
          · exact absurd hzero (hnz2 i h)
        subst hii
        have : d2 = d1 := by
          funext k
          rw [hd2 k]
          by_cases hc : 0 ≤ k ∧ k < 0 + (i2 + 1)
          · rw [if_pos hc, hd1 k, if_pos hc]
          · rw [if_neg hc]
        rw [hr2, this]
      · exact absurd hzero (hnz2 i hi)
  · subst hr
    refine ⟨Or.inr rfl, ⟨fun _ => hnz, fun _ => rfl⟩, fun h => absurd h hne, ?_⟩
    rw [e2]
    rcases hcase2 with ⟨_, i2, hi2, hzero2, _, _⟩ | ⟨hr2, _, hd2⟩
    · exact absurd hzero2 (hnz i2 hi2)
    · have : d2 = d1 := by
        funext k
        rw [hd2 k]
        by_cases hc : 0 ≤ k ∧ k < 0 + max
        · rw [if_pos hc, hd1 k, if_pos hc]
        · rw [if_neg hc]
      rw [hr2, this]

theorem demoMachine_string (k : Nat) (hk : k < 4) : UserOK demoMachine 0x80010000 (0x1000 + k) := by
  interval_cases k <;> exact ⟨by decide, by decide, by decide⟩

theorem copyinstr_contract_witness :
    (PtOK demoMachine 0x80010000 ∧
      (∀ vb, UserOK demoMachine 0x80010000 vb →
        PTE2PA (leafPte demoMachine 0x80010000 vb) ≠ 0) ∧
      0x1000 < 2 ^ 64 ∧ ∀ k, k < 4 → UserOK demoMachine 0x80010000 (0x1000 + k)) ∧
    ∃ r d1, copyinstr demoMachine 0x80010000 (fun _ => 0x55) 0x1000 4 = .ok (r, d1) ∧
      (r = 0 ∨ r = -1) ∧
      (r = -1 ↔ ∀ k, k < 4 → userByte demoMachine 0x80010000 (0x1000 + k) ≠ 0) ∧
      (r = 0 → ∃ i, i < 4 ∧ userByte demoMachine 0x80010000 (0x1000 + i) = 0 ∧
        (∀ k, k < i → userByte demoMachine 0x80010000 (0x1000 + k) ≠ 0) ∧
        (∀ k, k ≤ i → d1 k = userByte demoMachine 0x80010000 (0x1000 + k)) ∧
        (∀ k, i < k → d1 k = (fun _ => 0x55) k)) ∧
      copyinstr demoMachine 0x80010000 d1 0x1000 4 = .ok (r, d1) :=
  ⟨⟨demoMachine_ptOK, demoMachine_frames, by decide, demoMachine_string⟩,
    copyinstr_contract demoMachine 0x80010000 (fun _ => 0x55) 0x1000 4 demoMachine_ptOK
      demoMachine_frames (by decide) demoMachine_string⟩
theorem inFree_pop (m : Machine) (f : Nat) (rest : List Nat) (ptes : Nat → Nat) (a : Nat)
    (hfl : m.freelist = f :: rest) :
    InFree m a ↔ (f ≤ a ∧ a < f + PGSIZE) ∨ InFree { m with freelist := rest, ptes := ptes } a := by
  unfold InFree
  rw [hfl]
  constructor
  · rintro ⟨g, hg, h⟩
    rcases List.mem_cons.mp hg with e | e
    · left
      rw [← e]
      exact h
    · exact Or.inr ⟨g, e, h⟩
  · rintro (h | ⟨g, hg, h⟩)
    · exact ⟨f, List.mem_cons_self _ _, h⟩
    · exact ⟨g, List.mem_cons_of_mem _ hg, h⟩

/-- Addresses outside the free frames whose word `walk` changes while it
allocates lie in the page-table pages on its path. -/
theorem walk_footprint (level : Nat) : ∀ (m : Machine) (T va : Nat), AllocOK m → FreeClean m →
    T % PGSIZE = 0 → T ∉ m.freelist → ∀ a, ¬ InFree m a →
    (walk_level level m T va true).2.ptes a ≠ m.ptes a → OnPath level m T va a := by
  induction level with
  | zero =>
    intro m T va _ _ _ _ a _ hne
    exact absurd rfl hne
  | succ level ih =>
    intro m T va hok hfc hT hTf a hnf hne
    by_cases hv : m.ptes (T + 8 * PX (level + 1) va) &&& PTE_V ≠ 0
    · rw [walk_level_valid level m T va true hv] at hne
      right
      exact ⟨hv, ih m _ va hok hfc (PTE2PA_aligned _) (hfc _ hv) a hnf hne⟩
    · by_cases hnil : m.freelist = []
      · rw [walk_level_alloc_nil level m T va hv hnil] at hne
        exact absurd rfl hne
      · obtain ⟨f, rest, hfl⟩ := List.exists_cons_of_ne_nil hnil
        have hf := hok.aligned f (by rw [hfl]; exact List.mem_cons_self _ _)
        have hnd : (f :: rest).Nodup := hfl ▸ hok.nodup
        have hfT : T ≠ f := fun e => hTf (by rw [e, hfl]; exact List.mem_cons_self _ _)
        rw [walk_level_alloc_cons level m T va f rest hv hfl hf.2.2] at hne
        have hin : ¬ (f ≤ a ∧ a < f + PGSIZE) := fun h =>
          hnf ⟨f, by rw [hfl]; exact List.mem_cons_self _ _, h⟩
        by_cases has : a = T + 8 * PX (level + 1) va
        · left
          rw [has]
          exact in_page T _ (PX_lt _ _)
        · exfalso
          have e1 : ((({ m with freelist := rest } : Machine).zeroTable f).setPte
              (T + 8 * PX (level + 1) va) (PA2PTE f ||| PTE_V)).ptes a = m.ptes a := by
            rw [linked_ptes, if_neg has, if_neg hin]
          have hnf1 : ¬ InFree ((({ m with freelist := rest } : Machine).zeroTable f).setPte
              (T + 8 * PX (level + 1) va) (PA2PTE f ||| PTE_V)) a := by
            rintro ⟨g, hg, h⟩
            exact hnf ⟨g, by rw [hfl]; exact List.mem_cons_of_mem _ hg, h⟩
          have hp := ih _ f va (allocOK_link m f _ rest hok hfl) (freeClean_link m f _ rest hok hfc hfl)
            hf.1 (List.nodup_cons.mp hnd).1 a hnf1 (by rw [e1]; exact hne)
          cases level with
          | zero => exact hin hp
          | succ l =>
            rcases hp with hp | ⟨hp, _⟩
            · exact hin hp
            · rw [linked_ptes, if_neg, if_pos (in_page f _ (PX_lt _ _))] at hp
              · exact hp (Nat.zero_and _)
              · intro e
                exact hfT (slot_eq _ _ _ _ hf.1 hT (PX_lt _ _) (PX_lt _ _) e).1.symm

/-- A valid word outside the free frames after `walk` with allocation is a
word of before, or refers to a frame that was free. -/
theorem walk_origin (level : Nat) : ∀ (m : Machine) (T va : Nat), AllocOK m → FreeClean m →
    ∀ a, ¬ InFree (walk_level level m T va true).2 a →
    (walk_level level m T va true).2.ptes a &&& PTE_V ≠ 0 →
    (¬ InFree m a ∧ (walk_level level m T va true).2.ptes a = m.ptes a) ∨
      PTE2PA ((walk_level level m T va true).2.ptes a) ∈ m.freelist := by
  induction level with
  | zero =>
    intro m T va _ _ a hnf _
    exact Or.inl ⟨hnf, rfl⟩
  | succ level ih =>
    intro m T va hok hfc a
    by_cases hv : m.ptes (T + 8 * PX (level + 1) va) &&& PTE_V ≠ 0
    · rw [walk_level_valid level m T va true hv]
      exact ih m _ va hok hfc a
    · by_cases hnil : m.freelist = []
      · rw [walk_level_alloc_nil level m T va hv hnil]
        intro hnf _
        exact Or.inl ⟨hnf, rfl⟩
      · obtain ⟨f, rest, hfl⟩ := List.exists_cons_of_ne_nil hnil
        have hf := hok.aligned f (by rw [hfl]; exact List.mem_cons_self _ _)
        rw [walk_level_alloc_cons level m T va f rest hv hfl hf.2.2]
        intro hnf hval
        rcases ih _ f va (allocOK_link m f _ rest hok hfl) (freeClean_link m f _ rest hok hfc hfl)
          a hnf hval with ⟨h1, h2⟩ | h
        · rw [h2] at hval ⊢
          rw [linked_ptes] at hval ⊢
          by_cases has : a = T + 8 * PX (level + 1) va
          · right
            rw [if_pos has, PTE2PA_table f hf.1 hf.2.1, hfl]
            exact List.mem_cons_self _ _
          · rw [if_neg has] at hval ⊢
            by_cases hin : f ≤ a ∧ a < f + PGSIZE
            · rw [if_pos hin] at hval
              exact absurd (Nat.zero_and _) hval
            · rw [if_neg hin]
              left
              refine ⟨?_, rfl⟩
              rintro ⟨g, hg, h⟩
              rw [hfl] at hg
              rcases List.mem_cons.mp hg with e | e
              · exact hin (e ▸ h)
              · exact h1 ⟨g, e, h⟩
        · right
          rw [hfl]
          exact List.mem_cons_of_mem _ h
theorem tab_aligned (m : Machine) (r T : Nat) (hp : PtOK m r) (h : Tab m r T) : T % PGSIZE = 0 := by
  rcases h with h | ⟨vb, _, h⟩ | ⟨vb, _, h⟩
  · rw [h]
    exact hp.root
  · rw [h]
    exact PTE2PA_aligned _
  · rw [h]
    exact PTE2PA_aligned _

theorem tab_not_free (m : Machine) (r T : Nat) (hfc : FreeClean m) (hr : r ∉ m.freelist)
    (h : Tab m r T) : T ∉ m.freelist := by
  rcases h with h | ⟨vb, hv, h⟩ | ⟨vb, hv, h⟩
  · rw [h]
    exact hr
  · rw [h]
    exact hfc _ hv
  · rw [h]
    exact hfc _ hv.2

theorem tab_page_used (m : Machine) (r T a : Nat) (hok : AllocOK m) (hfc : FreeClean m)
    (hp : PtOK m r) (hr : r ∉ m.freelist) (h : Tab m r T) (ha : T ≤ a ∧ a < T + PGSIZE) :
    ¬ InFree m a := by
  rintro ⟨f, hf, h1⟩
  have hal := (hok.aligned f hf).1
  have hT := tab_aligned m r T hp h
  have : f = T := by
    unfold PGSIZE at *
    omega
  exact tab_not_free m r T hfc hr h (this ▸ hf)

theorem tab_congr (m m1 : Machine) (r : Nat)
    (h2 : ∀ vb, m1.ptes (l2slot r vb) = m.ptes (l2slot r vb))
    (h1 : ∀ vb, m.ptes (l2slot r vb) &&& PTE_V ≠ 0 →
      m1.ptes (l1slot m r vb) = m.ptes (l1slot m r vb)) (hp : PtOK m r) :
    ∀ T, Tab m1 r T ↔ Tab m r T := by
  obtain ⟨_, e1, eP, _⟩ := ptOK_congr m m1 r h2 h1 hp
  have et1 : ∀ vb, l1table m1 r vb = l1table m r vb := by
    intro vb
    unfold l1table
    rw [h2 vb]
  have et0 : ∀ vb, m.ptes (l2slot r vb) &&& PTE_V ≠ 0 → l0table m1 r vb = l0table m r vb := by
    intro vb hv
    unfold l0table
    rw [e1 vb, h1 vb hv]
  intro T
  unfold Tab
  constructor
  · rintro (h | ⟨vb, hv, h⟩ | ⟨vb, hv, h⟩)
    · exact Or.inl h
    · rw [h2 vb] at hv
      exact Or.inr (Or.inl ⟨vb, hv, by rw [h, et1]⟩)
    · have hv1 := (eP vb).1 hv
      exact Or.inr (Or.inr ⟨vb, hv1, by rw [h, et0 vb hv1.1]⟩)
  · rintro (h | ⟨vb, hv, h⟩ | ⟨vb, hv, h⟩)
    · exact Or.inl h
    · exact Or.inr (Or.inl ⟨vb, by rw [h2 vb]; exact hv, by rw [h, et1]⟩)
    · exact Or.inr (Or.inr ⟨vb, (eP vb).2 hv, by rw [h, et0 vb hv.1]⟩)

/-- A change of the memory outside the page-table pages of a tree keeps the
tree, its page-table pages and the entry of every page. -/
theorem tree_congr (m m1 : Machine) (r : Nat) (hp : PtOK m r)
    (h : ∀ T, Tab m r T → ∀ a, T ≤ a ∧ a < T + PGSIZE → m1.ptes a = m.ptes a) :
    PtOK m1 r ∧ (∀ vb, leafPte m1 r vb = leafPte m r vb) ∧ (∀ T, Tab m1 r T ↔ Tab m r T) := by
  have h2 : ∀ vb, m1.ptes (l2slot r vb) = m.ptes (l2slot r vb) := fun vb =>
    h r (Or.inl rfl) _ (in_page r _ (PX_lt 2 vb))
  have h1 : ∀ vb, m.ptes (l2slot r vb) &&& PTE_V ≠ 0 →
      m1.ptes (l1slot m r vb) = m.ptes (l1slot m r vb) := fun vb hv =>
    h _ (Or.inr (Or.inl ⟨vb, hv, rfl⟩)) _ (in_page _ _ (PX_lt 1 vb))
  obtain ⟨q1, _, eP, e0⟩ := ptOK_congr m m1 r h2 h1 hp
  refine ⟨q1, ?_, tab_congr m m1 r h2 h1 hp⟩
  intro vb
  by_cases hpath : HasPath m r vb
  · rw [leafPte_of_path m1 r vb ((eP vb).2 hpath), leafPte_of_path m r vb hpath, e0 vb hpath.1]
    exact h _ (Or.inr (Or.inr ⟨vb, hpath, rfl⟩)) _ (in_page _ _ (PX_lt 0 vb))
  · rw [leafPte_of_nopath m1 r vb (fun c => hpath ((eP vb).1 c)), leafPte_of_nopath m r vb hpath]

theorem onPath_tab (m : Machine) (c va a : Nat) (h : OnPath 2 m c va a) :
    ∃ T, Tab m c T ∧ (T ≤ a ∧ a < T + PGSIZE) := by
  rcases h with h | ⟨hv2, h | ⟨hv1, h⟩⟩
  · exact ⟨c, Or.inl rfl, h⟩
  · exact ⟨_, Or.inr (Or.inl ⟨va, hv2, rfl⟩), h⟩
  · exact ⟨_, Or.inr (Or.inr ⟨va, ⟨hv2, hv1⟩, rfl⟩), h⟩

/-- A page-table page of the tree after `walk` with allocation was one before,
or was free. -/
theorem walk_tabs (m : Machine) (c va : Nat) (hok : AllocOK m) (hfc : FreeClean m)
    (hp : PtOK m c) (hpt : c ∉ m.freelist) :
    ∀ T, Tab (walk_level 2 m c va true).2 c T → Tab m c T ∨ T ∈ m.freelist := by
  obtain ⟨b1, b2, b3, _⟩ := walk_alloc_pt m c va hok hp hpt
  have bfc := walk_freeClean 2 m c va hok hfc
  have org := walk_origin 2 m c va hok hfc
  generalize (walk_level 2 m c va true).2 = m1 at *
  have huse : ∀ T a, Tab m1 c T → (T ≤ a ∧ a < T + PGSIZE) → ¬ InFree m1 a := fun T a hT ha =>
    tab_page_used m1 c T a b1 bfc b2 b3 hT ha
  intro T hT
  rcases hT with h | ⟨vb, hv, h⟩ | ⟨vb, hv, h⟩
  · exact Or.inl (Or.inl h)
  · rcases org (l2slot c vb) (huse c _ (Or.inl rfl) (in_page c _ (PX_lt 2 vb))) hv with
      ⟨_, e⟩ | hfree
    · left
      rw [e] at hv
      refine Or.inr (Or.inl ⟨vb, hv, ?_⟩)
      rw [h]
      unfold l1table
      rw [e]
    · right
      rw [h]
      exact hfree
  · rcases org (l1slot m1 c vb) (huse _ _ (Or.inr (Or.inl ⟨vb, hv.1, rfl⟩))
      (in_page _ _ (PX_lt 1 vb))) hv.2 with ⟨hnf, e⟩ | hfree
    · rcases org (l2slot c vb) (huse c _ (Or.inl rfl) (in_page c _ (PX_lt 2 vb))) hv.1 with
        ⟨_, e2⟩ | hfree2
      · left
        have es : l1slot m1 c vb = l1slot m c vb := by
          unfold l1slot
          rw [e2]
        have hv2 := hv.1
        have hv1 := hv.2
        rw [e2] at hv2
        rw [e, es] at hv1
        refine Or.inr (Or.inr ⟨vb, ⟨hv2, hv1⟩, ?_⟩)
        rw [h]
        unfold l0table
        rw [e, es]
      · exfalso
        apply hnf
        exact ⟨_, hfree2, in_page _ _ (PX_lt 1 vb)⟩
    · right
      rw [h]
      exact hfree
theorem tab_setLeaf (m : Machine) (c va v : Nat) (hp : PtOK m c) (h : HasPath m c va) :
    ∀ T, Tab (m.setPte (l0slot m c va) v) c T ↔ Tab m c T := by
  apply tab_congr m _ c _ _ hp
  · intro vb
    simp only [Machine.setPte]
    rw [if_neg (Ne.symm (l0_ne_l2 m c va vb hp h))]
  · intro vb hv
    simp only [Machine.setPte]
    rw [if_neg (Ne.symm (l0_ne_l1 m c va vb hp h hv))]

/-- What `mappages` of one page in the tree `c` changes: words in frames that
were free or in page-table pages of `c`; and the page-table pages of `c`
afterwards were such before or were free. -/
theorem mappages_fp (m : Machine) (c a pa perm : Nat) (hok : AllocOK m) (hfc : FreeClean m)
    (hp : PtOK m c) (hpt : c ∉ m.freelist) (ha : a < MAXVA) (hal : a % PGSIZE = 0) (r : Int)
    (m1 : Machine) (h : mappages m c a PGSIZE pa perm = .ok (r, m1)) :
    (∀ b, ¬ InFree m b → (∀ T, Tab m c T → ¬ (T ≤ b ∧ b < T + PGSIZE)) → m1.ptes b = m.ptes b) ∧
    (∀ T, Tab m1 c T → Tab m c T ∨ T ∈ m.freelist) := by
  rw [mappages_one m c a pa perm ha hal] at h
  obtain ⟨b1, b2, b3, b4, b5, b6, b7, b8, b9⟩ := walk_alloc_pt m c a hok hp hpt
  have wt := walk_tabs m c a hok hfc hp hpt
  have wf : ∀ b, ¬ InFree m b → (∀ T, Tab m c T → ¬ (T ≤ b ∧ b < T + PGSIZE)) →
      (walk_level 2 m c a true).2.ptes b = m.ptes b := by
    intro b hb hT
    by_contra hne
    obtain ⟨T, t1, t2⟩ := onPath_tab m c a b (walk_footprint 2 m c a hok hfc hp.root hpt b hb hne)
    exact hT T t1 t2
  by_cases h0 : (walk_level 2 m c a true).1 = 0
  · rw [if_pos h0] at h
    injection h with h
    injection h with _ h
    subst h
    exact ⟨wf, wt⟩
  · rw [if_neg h0] at h
    obtain ⟨c1, c2⟩ := b8 h0
    by_cases hv : (walk_level 2 m c a true).2.ptes (walk_level 2 m c a true).1 &&& PTE_V ≠ 0
    · rw [if_pos hv] at h
      cases h
    · rw [if_neg hv] at h
      injection h with h
      injection h with _ h
      subst h
      generalize walk_level 2 m c a true = w at *
      obtain ⟨s, m2⟩ := w
      simp only at *
      subst c2
      constructor
      · intro b hb hT
        simp only [Machine.setPte]
        rw [if_neg, wf b hb hT]
        intro e
        rcases wt _ (Or.inr (Or.inr ⟨a, c1, rfl⟩)) with t | t
        · exact hT _ t (by rw [e, l0slot_eq]; exact in_page _ _ (PX_lt 0 a))
        · exact hb ⟨_, t, by rw [e, l0slot_eq]; exact in_page _ _ (PX_lt 0 a)⟩
      · intro T hT
        exact wt T ((tab_setLeaf m2 c a _ b2 c1 T).1 hT)
theorem countP_gain (S : List Nat) (P Q : Nat → Bool) (c : Nat) (hnd : S.Nodup) (hc : c ∈ S)
    (hP : P c = false) (hQ : Q c = true) (hrest : ∀ r, r ∈ S → r ≠ c → Q r = P r) :
    S.countP Q = S.countP P + 1 := by
  induction S with
  | nil => cases hc
  | cons x xs ih =>
    obtain ⟨hx, hxs⟩ := List.nodup_cons.mp hnd
    by_cases e : x = c
    · subst e
      have hsame : xs.countP Q = xs.countP P := by
        apply List.countP_congr
        intro r hr
        have hne : r ≠ x := fun e => hx (e ▸ hr)
        rw [hrest r (List.mem_cons_of_mem _ hr) hne]
      rw [List.countP_cons_of_pos _ _ hQ, List.countP_cons_of_neg _ _ (by rw [hP]; decide), hsame]
    · have hc2 : c ∈ xs := by
        rcases List.mem_cons.mp hc with h | h
        · exact absurd h.symm e
        · exact h
      have := ih hxs hc2 (fun r hr hne => hrest r (List.mem_cons_of_mem _ hr) hne)
      have hx2 := hrest x (List.mem_cons_self _ _) e
      by_cases hpx : P x = true
      · rw [List.countP_cons_of_pos _ _ hpx, List.countP_cons_of_pos _ _ (by rw [hx2]; exact hpx),
          this]
      · rw [List.countP_cons_of_neg _ _ hpx, List.countP_cons_of_neg _ _ (by rw [hx2]; exact hpx),
          this]

theorem countP_room (S : List Nat) (P : Nat → Bool) (c : Nat) (hc : c ∈ S) (hP : P c = false) :
    S.countP P + 1 ≤ S.length := by
  induction S with
  | nil => cases hc
  | cons x xs ih =>
    by_cases e : x = c
    · subst e
      rw [List.countP_cons_of_neg _ _ (by rw [hP]; decide), List.length_cons]
      exact Nat.succ_le_succ (List.countP_le_length _)
    · have hc2 : c ∈ xs := by
        rcases List.mem_cons.mp hc with h | h
        · exact absurd h.symm e
        · exact h
      have := ih hc2
      rw [List.length_cons]
      by_cases hpx : P x = true
      · rw [List.countP_cons_of_pos _ _ hpx]
        omega
      · rw [List.countP_cons_of_neg _ _ hpx]
        omega

theorem countP_pos_of (S : List Nat) (P : Nat → Bool) (c : Nat) (hc : c ∈ S) (hP : P c = true) :
    1 ≤ S.countP P :=
  List.countP_pos_iff.mpr ⟨c, hc, hP⟩

theorem mappers_congr (m m1 : Machine) (S : List Nat) (F : Nat)
    (h : ∀ r, r ∈ S → (Maps m1 r F ↔ Maps m r F)) :
    mappers ⟨m1, S⟩ F = mappers ⟨m, S⟩ F := by
  unfold mappers
  apply List.countP_congr
  intro r hr
  simp only [decide_eq_true_eq]
  exact h r hr

theorem mappers_gain (m m1 : Machine) (S : List Nat) (F c : Nat) (hnd : S.Nodup) (hc : c ∈ S)
    (h0 : ¬ Maps m c F) (h1 : Maps m1 c F)
    (h : ∀ r, r ∈ S → r ≠ c → (Maps m1 r F ↔ Maps m r F)) :
    mappers ⟨m1, S⟩ F = mappers ⟨m, S⟩ F + 1 := by
  unfold mappers
  apply countP_gain S _ _ c hnd hc
  · exact decide_eq_false h0
  · exact decide_eq_true h1
  · intro r hr hne
    exact decide_eq_decide.mpr (h r hr hne)

theorem mappers_room (m : Machine) (S : List Nat) (F c : Nat) (hc : c ∈ S) (h0 : ¬ Maps m c F) :
    mappers ⟨m, S⟩ F + 1 ≤ S.length :=
  countP_room S _ c hc (decide_eq_false h0)

theorem mappers_pos (m : Machine) (S : List Nat) (F c : Nat) (hc : c ∈ S) (h1 : Maps m c F) :
    1 ≤ mappers ⟨m, S⟩ F :=
  countP_pos_of S _ c hc (decide_eq_true h1)

theorem mappers_le (m : Machine) (S : List Nat) (F : Nat) : mappers ⟨m, S⟩ F ≤ S.length :=
  List.countP_le_length _

theorem mappers_cons (m : Machine) (S : List Nat) (F c : Nat) (h0 : ¬ Maps m c F) :
    mappers ⟨m, c :: S⟩ F = mappers ⟨m, S⟩ F := by
  unfold mappers
  exact List.countP_cons_of_neg _ _ (by simp only [decide_eq_true_eq]; exact h0)
theorem page_disjoint (T T1 a : Nat) (hT : T % PGSIZE = 0) (hT1 : T1 % PGSIZE = 0) (hne : T ≠ T1)
    (ha : T ≤ a ∧ a < T + PGSIZE) : ¬ (T1 ≤ a ∧ a < T1 + PGSIZE) := by
  unfold PGSIZE at *
  omega

/-- An operation on the tree `c` that changes only words in free frames or in
page-table pages of `c` leaves every other address space as it was. -/
theorem others_kept (w : World) (hs : Shape w) (c : Nat) (hc : c ∈ w.spaces) (m1 : Machine)
    (hfp : ∀ b, ¬ InFree w.m b → (∀ T, Tab w.m c T → ¬ (T ≤ b ∧ b < T + PGSIZE)) →
      m1.ptes b = w.m.ptes b) :
    ∀ r, r ∈ w.spaces → r ≠ c →
      PtOK m1 r ∧ (∀ vb, leafPte m1 r vb = leafPte w.m r vb) ∧ (∀ T, Tab m1 r T ↔ Tab w.m r T) := by
  intro r hr hne
  obtain ⟨hpr, hrf⟩ := hs.tree r hr
  obtain ⟨hpc, _⟩ := hs.tree c hc
  apply tree_congr w.m m1 r hpr
  intro T hT a ha
  apply hfp a (tab_page_used w.m r T a hs.ok hs.clean hpr hrf hT ha)
  intro T1 hT1
  apply page_disjoint T T1 a (tab_aligned w.m r T hpr hT) (tab_aligned w.m c T1 hpc hT1) _ ha
  intro e
  exact hs.sep r c hr hc hne T hT (e ▸ hT1)

theorem maps_congr (m m1 : Machine) (r F : Nat) (h : ∀ vb, leafPte m1 r vb = leafPte m r vb) :
    Maps m1 r F ↔ Maps m r F := by
  unfold Maps
  simp only [h]

/-- The shape of the world after an operation on the tree `c`. -/
theorem shape_step (w : World) (hs : Shape w) (c : Nat) (hc : c ∈ w.spaces) (m1 : Machine)
    (hok : AllocOK m1) (hfc : FreeClean m1) (hpc : PtOK m1 c)
    (hsub : ∀ f, f ∈ m1.freelist → f ∈ w.m.freelist)
    (hfp : ∀ b, ¬ InFree w.m b → (∀ T, Tab w.m c T → ¬ (T ≤ b ∧ b < T + PGSIZE)) →
      m1.ptes b = w.m.ptes b)
    (htb : ∀ T, Tab m1 c T → Tab w.m c T ∨ T ∈ w.m.freelist)
    (hsingle : ∀ va vb, va < MAXVA → vb < MAXVA →
      leafPte m1 c va &&& PTE_V ≠ 0 → leafPte m1 c vb &&& PTE_V ≠ 0 →
      PTE2PA (leafPte m1 c va) = PTE2PA (leafPte m1 c vb) → va / PGSIZE = vb / PGSIZE) :
    Shape ⟨m1, w.spaces⟩ := by
  have hk := others_kept w hs c hc m1 hfp
  have hcross : ∀ r, r ∈ w.spaces → r ≠ c → ∀ T, Tab m1 c T → ¬ Tab m1 r T := by
    intro r hr hne T hT hT2
    have hT3 := ((hk r hr hne).2.2 T).1 hT2
    rcases htb T hT with h | h
    · exact hs.sep c r hc hr (Ne.symm hne) T h hT3
    · exact tab_not_free w.m r T hs.clean (hs.tree r hr).2 hT3 h
  refine ⟨hok, hfc, hs.nodup, hs.few, ?_, ?_, ?_⟩
  · intro r hr
    by_cases e : r = c
    · subst e
      exact ⟨hpc, fun h => (hs.tree r hr).2 (hsub _ h)⟩
    · exact ⟨(hk r hr e).1, fun h => (hs.tree r hr).2 (hsub _ h)⟩
  · intro r r1 hr hr1 hne T hT hT1
    by_cases e : r = c
    · subst e
      exact hcross r1 hr1 (Ne.symm hne) T hT hT1
    · by_cases e1 : r1 = c
      · subst e1
        exact hcross r hr e T hT1 hT
      · exact hs.sep r r1 hr hr1 hne T (((hk r hr e).2.2 T).1 hT) (((hk r1 hr1 e1).2.2 T).1 hT1)
  · intro r hr
    by_cases e : r = c
    · subst e
      exact hsingle
    · intro va vb hva hvb
      rw [(hk r hr e).2.1 va, (hk r hr e).2.1 vb]
      exact hs.single r hr va vb hva hvb
/-- The world after a store of `v` into the entry of the page of `va` in the
address space `c`, possibly with frames taken from the allocator. -/
theorem leaf_store (w : World) (hs : Shape w) (c va v : Nat) (hc : c ∈ w.spaces) (hva : va < MAXVA)
    (hpath : HasPath w.m c va) (m1 : Machine)
    (hpt : ∀ b, m1.ptes b = if b = l0slot w.m c va then v else w.m.ptes b)
    (hfl : m1.freelist <:+ w.m.freelist)
    (hv : v &&& PTE_V ≠ 0 → PTE2PA v ∉ m1.freelist)
    (hone : v &&& PTE_V ≠ 0 → ∀ vb, vb < MAXVA → leafPte w.m c vb &&& PTE_V ≠ 0 →
      PTE2PA (leafPte w.m c vb) = PTE2PA v → vb / PGSIZE = va / PGSIZE) :
    Shape ⟨m1, w.spaces⟩ ∧
    (∀ vb, vb < MAXVA → leafPte m1 c vb =
      if vb / PGSIZE = va / PGSIZE then v else leafPte w.m c vb) ∧
    (∀ r, r ∈ w.spaces → r ≠ c → ∀ vb, leafPte m1 r vb = leafPte w.m r vb) := by
  obtain ⟨hpc, hcf⟩ := hs.tree c hc
  have hpe : m1.ptes = (w.m.setPte (l0slot w.m c va) v).ptes := by
    funext b
    rw [hpt b]
    rfl
  have hleaf : ∀ vb, vb < MAXVA → leafPte m1 c vb =
      if vb / PGSIZE = va / PGSIZE then v else leafPte w.m c vb := by
    intro vb hvb
    rw [leafPte_ptes _ m1 c vb hpe]
    exact leaf_setLeaf_page w.m c va vb v hpc hpath hva hvb
  have hfc : FreeClean m1 := by
    intro b hb
    rw [hpt b] at hb ⊢
    by_cases e : b = l0slot w.m c va
    · rw [if_pos e] at hb ⊢
      exact hv hb
    · rw [if_neg e] at hb ⊢
      exact fun h => hs.clean b hb (hfl.subset h)
  have hok : AllocOK m1 :=
    ⟨hs.ok.nodup.sublist hfl.sublist, fun f hf => hs.ok.aligned f (hfl.subset hf),
      fun a ha _ => hfc a ha⟩
  have hfp : ∀ b, ¬ InFree w.m b → (∀ T, Tab w.m c T → ¬ (T ≤ b ∧ b < T + PGSIZE)) →
      m1.ptes b = w.m.ptes b := by
    intro b _ hT
    rw [hpt b, if_neg]
    intro e
    exact hT _ (Or.inr (Or.inr ⟨va, hpath, rfl⟩)) (by rw [e, l0slot_eq]; exact in_page _ _ (PX_lt 0 va))
  have htb : ∀ T, Tab m1 c T → Tab w.m c T ∨ T ∈ w.m.freelist := by
    intro T hT
    left
    have h1 : Tab (w.m.setPte (l0slot w.m c va) v) c T := by
      refine (tab_congr _ m1 c (fun vb => by rw [hpe]) (fun vb _ => by rw [hpe])
        (ptOK_setLeaf w.m c va v hpc hpath).1 T).1 hT
    exact (tab_setLeaf w.m c va v hpc hpath T).1 h1
  refine ⟨shape_step w hs c hc m1 hok hfc (ptOK_ptes _ m1 c hpe (ptOK_setLeaf w.m c va v hpc hpath).1)
    (fun f hf => hfl.subset hf) hfp htb ?_, hleaf, ?_⟩
  · intro x y hx hy
    rw [hleaf x hx, hleaf y hy]
    by_cases ex : x / PGSIZE = va / PGSIZE
    · by_cases ey : y / PGSIZE = va / PGSIZE
      · intro _ _ _
        rw [ex, ey]
      · rw [if_pos ex, if_neg ey]
        intro h1 h2 h3
        exact absurd (hone h1 y hy h2 h3.symm) ey
    · by_cases ey : y / PGSIZE = va / PGSIZE
      · rw [if_neg ex, if_pos ey]
        intro h1 h2 h3
        exact absurd (hone h2 x hx h1 h3) ex
      · rw [if_neg ex, if_neg ey]
        exact hs.single c hc x y hx hy
  · intro r hr hne
    exact (others_kept w hs c hc m1 hfp r hr hne).2.1
/-- C21 (failing input): in `demoShared` the process has one mapping, the
shared region `[0x2000, 0x4000)` in slot 0.  The call `munmap(0x2001, 8191)`
lies inside the region and reaches its end, so it passes both range checks as
a tail trim, and then calls `uvmunmap` on the address `0x2001`, which panics
with "uvmunmap: not aligned".  The page-aligned tail trim
`munmap(0x3000, 4096)` returns 0. -/
theorem munmap_unaligned_panics :
    demoShared.p.vmaep 0 = some 0 ∧ (demoShared.vmae 0).start = 0x2000 ∧
    (demoShared.vmae 0).length = 8192 ∧
    (demoShared.vmae 0).start ≤ 0x2001 ∧
    0x2001 + 8191 ≤ (demoShared.vmae 0).start + (demoShared.vmae 0).length ∧
    sys_munmap demoShared 0x2001 8191 = .error "uvmunmap: not aligned" ∧
    (sys_munmap demoShared 0x3000 4096).toOption.map Prod.fst = some 0 :=
  ⟨by decide, by decide, by decide, by decide, by decide, rfl, by decide⟩

/-- C23 (counterexample): `uvmdealloc` with `oldsz = 0x1000` and
`newsz = 0x2000` on `demoMachine` returns `0x1000`, the old size, not the new
one, and leaves the machine as it was. -/
theorem uvmdealloc_returns_old_counterexample :
    uvmdealloc demoMachine 0x80010000 0x1000 0x2000 = .ok (0x1000, demoMachine) ∧
    (0x1000 : Nat) ≠ 0x2000 :=
  ⟨rfl, by decide⟩

/-- C26 (failing input): in `demoPoolFull` no entry of the global pool is
free, in `demoSlots` none of the 16 slots of the process is.  In both states
`mmap(0, 4096, PROT_READ, MAP_PRIVATE, 3, 0)` returns -1 with the reference
count of the file as before the call, but the process has grown by a page,
the allocator has lost a frame, and the new page is still mapped; in
`demoSlots` the call has moreover left its region in entry 16 of the global
pool, which was free. -/
theorem mmap_no_slot_leaves_pages :
    sys_mmap demoPoolFull 0 4096 PROT_READ MAP_PRIVATE 3 0 = .ok (minusOne, demoPoolRejected) ∧
    (demoPoolFull.p.sz, demoPoolRejected.p.sz) = (0x2000, 0x3000) ∧
    (demoPoolFull.mem.freelist, demoPoolRejected.mem.freelist) =
      ([0x80031000, 0x80032000, 0x80033000], [0x80032000, 0x80033000]) ∧
    walk demoPoolFull.mem 0x80010000 0x2000 false = .ok (0x80012010, demoPoolFull.mem) ∧
    walk demoPoolRejected.mem 0x80010000 0x2000 false = .ok (0x80012010, demoPoolRejected.mem) ∧
    (demoPoolFull.mem.ptes 0x80012010, demoPoolRejected.mem.ptes 0x80012010) =
      (0, PA2PTE 0x80031000 ||| PTE_R ||| PTE_V) ∧
    ((demoPoolFull.file 1).ref, (demoPoolRejected.file 1).ref) = (1, 1) ∧
    (sys_mmap demoSlots 0 4096 PROT_READ MAP_PRIVATE 3 0).toOption.map
        (fun r => (r.1, r.2.p.sz, (r.2.vmae 16).start, (r.2.vmae 16).length,
          r.2.mem.freelist.length, (r.2.file 1).ref)) =
      some (minusOne, 0x13000, 0x12000, 4096, 7, 17) ∧
    (demoSlots.p.sz, (demoSlots.vmae 16).start, (demoSlots.vmae 16).length,
      demoSlots.mem.freelist.length, (demoSlots.file 1).ref) = (0x12000, 0, 0, 8, 17) ∧
    (List.range 16).map demoSlots.p.vmaep = (List.range 16).map some :=
  ⟨eq_ok_pair _ _ demoPoolFull (by decide), by decide, by decide, rfl, rfl, by decide, by decide,
    by decide, by decide, by decide⟩

/-- C29 (failing input): in `demoSys`, `mmap(0, 4096, 0, MAP_PRIVATE, 3, 0)`
returns `0x2000`, and the level-0 entry that it has installed for the page
`0x2000` is valid with none of R, W and X set: its flags are V alone, which
`uvmunmap` and `freewalk` take for a pointer to a lower-level table. -/
theorem mmap_prot_none_installs_pointer_like_entry :
    (sys_mmap demoSys 0 4096 0 MAP_PRIVATE 3 0).toOption.map Prod.fst = some 0x2000 ∧
    walk demoSys.mem demoSys.p.pagetable 0x2000 false = .ok (0x80012010, demoSys.mem) ∧
    demoSys.mem.ptes 0x80012010 = 0 ∧
    walk demoMapped.mem demoMapped.p.pagetable 0x2000 false = .ok (0x80012010, demoMapped.mem) ∧
    demoMapped.mem.ptes 0x80012010 = PA2PTE 0x80031000 ||| 0 ||| PTE_V ∧
    demoMapped.mem.ptes 0x80012010 &&& PTE_V ≠ 0 ∧
    demoMapped.mem.ptes 0x80012010 &&& (PTE_R ||| PTE_W ||| PTE_X) = 0 ∧
    mmap_perm 0 = 0 :=
  ⟨by decide, rfl, by decide, rfl, by decide, by decide, by decide, by decide⟩
/-- C23 (amended): `uvmdealloc` returns `oldsz` and leaves the machine as it
was when `newsz >= oldsz`.  When `newsz < oldsz <= MAXVA`, the page table is
tree-shaped and every page of `[PGROUNDUP(newsz), PGROUNDUP(oldsz))` has a
valid leaf entry, it returns `newsz`, the entries of exactly these pages are 0
afterwards and their frames are back in the allocator. -/
theorem uvmdealloc_returns (m : Machine) (pt oldsz newsz : Nat) (hp : PtOK m pt)
    (hmax : oldsz ≤ MAXVA) :
    (newsz ≥ oldsz → uvmdealloc m pt oldsz newsz = .ok (oldsz, m)) ∧
    (newsz < oldsz →
      (∀ k, k < (PGROUNDUP oldsz - PGROUNDUP newsz) / PGSIZE →
        LeafOK m pt (PGROUNDUP newsz + k * PGSIZE)) →
      ∃ m1, uvmdealloc m pt oldsz newsz = .ok (newsz, m1) ∧
        (∀ vb, vb < MAXVA → leafPte m1 pt vb =
          if PGROUNDUP newsz / PGSIZE ≤ vb / PGSIZE ∧
              vb / PGSIZE < PGROUNDUP newsz / PGSIZE + (PGROUNDUP oldsz - PGROUNDUP newsz) / PGSIZE
          then 0 else leafPte m pt vb) ∧
        m1.freelist =
          unmappedFrames m pt (PGROUNDUP newsz) ((PGROUNDUP oldsz - PGROUNDUP newsz) / PGSIZE) ++
            m.freelist) := by
  have hP : PGSIZE = 4096 := rfl
  have hM : MAXVA = 2 ^ 38 := rfl
  constructor
  · intro h
    unfold uvmdealloc
    rw [if_pos h]
  · intro hlt hleaf
    have ea := PGROUNDUP_eq newsz (by omega)
    have eb := PGROUNDUP_eq oldsz (by omega)
    unfold uvmdealloc
    rw [if_neg (by omega)]
    generalize PGROUNDUP newsz = a0 at *
    generalize PGROUNDUP oldsz = b0 at *
    have ha0 : a0 % PGSIZE = 0 := by
      rw [ea]
      exact Nat.mul_mod_left _ _
    by_cases h2 : a0 < b0
    · rw [if_pos h2]
      obtain ⟨N, hb, hN2⟩ : ∃ N, b0 = a0 + N * PGSIZE ∧ (b0 - a0) / PGSIZE = N := by
        refine ⟨(b0 - a0) / PGSIZE, ?_, rfl⟩
        rw [ea, eb, hP]
        rw [ea, eb, hP] at h2
        omega
      rw [hN2] at hleaf ⊢
      have hlim : a0 + N * PGSIZE ≤ MAXVA := by
        rw [← hb, eb, hP]
        omega
      have hN3 : N < 2 ^ 31 := by
        rw [hP] at hlim
        omega
      simp only [intToU64_small N hN3]
      unfold uvmunmap
      rw [if_neg (by rw [not_not]; exact ha0)]
      have hu : u64 (a0 + N * PGSIZE) = a0 + N * PGSIZE := Nat.mod_eq_of_lt (by omega)
      rw [hu]
      obtain ⟨m2, e, _, _, u3, _, _, u6⟩ := uvmunmap_loop_all pt true N m a0 (N + 1)
        (Nat.lt_succ_self _) ha0 hlim hp hleaf
      rw [e]
      refine ⟨m2, rfl, u3, ?_⟩
      rw [u6]
      simp only [if_true]
    · rw [if_neg h2]
      have h0 : (b0 - a0) / PGSIZE = 0 := by
        have : b0 - a0 = 0 := by omega
        rw [this]
        exact Nat.zero_div _
      rw [h0]
      refine ⟨m, rfl, ?_, rfl⟩
      intro vb _
      rw [if_neg (by omega)]

theorem uvmdealloc_returns_witness :
    (PtOK demoMachine 0x80010000 ∧ 0x2000 ≤ MAXVA) ∧
    ((0x1000 ≥ 0x2000 → uvmdealloc demoMachine 0x80010000 0x2000 0x1000 = .ok (0x2000, demoMachine)) ∧
    (0x1000 < 0x2000 →
      (∀ k, k < (PGROUNDUP 0x2000 - PGROUNDUP 0x1000) / PGSIZE →
        LeafOK demoMachine 0x80010000 (PGROUNDUP 0x1000 + k * PGSIZE)) →
      ∃ m1, uvmdealloc demoMachine 0x80010000 0x2000 0x1000 = .ok (0x1000, m1) ∧
        (∀ vb, vb < MAXVA → leafPte m1 0x80010000 vb =
          if PGROUNDUP 0x1000 / PGSIZE ≤ vb / PGSIZE ∧
              vb / PGSIZE < PGROUNDUP 0x1000 / PGSIZE + (PGROUNDUP 0x2000 - PGROUNDUP 0x1000) / PGSIZE
          then 0 else leafPte demoMachine 0x80010000 vb) ∧
        m1.freelist =
          unmappedFrames demoMachine 0x80010000 (PGROUNDUP 0x1000)
              ((PGROUNDUP 0x2000 - PGROUNDUP 0x1000) / PGSIZE) ++
            demoMachine.freelist)) :=
  ⟨⟨demoMachine_ptOK, by decide⟩,
    uvmdealloc_returns demoMachine 0x80010000 0x2000 0x1000 demoMachine_ptOK (by decide)⟩
theorem testBit_uncow_entry (x i : Nat) :
    ((x ||| uvmuncow_flags x) &&& not64 (PTE_COW_R ||| PTE_COW_W)).testBit i =
      ((x.testBit i || (uvmuncow_flags x).testBit i) &&
        (decide (i < 64) && !(decide (i = 8) || decide (i = 9)))) := by
  rw [Nat.testBit_and, Nat.testBit_or, testBit_not64_COW]

/-- The branch of `uvmuncow` for the last reference to a frame. -/
theorem uvmuncow_last_eq (idx : Nat → Nat) (m : Machine) (pt va p_sz : Nat) (hp : PtOK m pt)
    (hsz : va < p_sz) (hva : va < MAXVA) (hv : leafPte m pt va &&& PTE_V ≠ 0)
    (hu : leafPte m pt va &&& PTE_U ≠ 0 ∨ leafPte m pt va &&& (PTE_COW_R ||| PTE_COW_W) ≠ 0)
    (href : m.cow_ref (idx (PTE2PA (leafPte m pt va))) = 1) :
    uvmuncow idx m pt va p_sz =
      .ok (0, (m.setRef (idx (PTE2PA (leafPte m pt va))) 0).setPte (l0slot m pt va)
        ((leafPte m pt va ||| uvmuncow_flags (leafPte m pt va)) &&&
          not64 (PTE_COW_R ||| PTE_COW_W))) := by
  have hpath := hasPath_of_valid m pt va hv
  rw [leafPte_of_path m pt va hpath] at hu href ⊢
  unfold uvmuncow
  rw [if_neg (by omega), walk_path m pt va hva hpath]
  simp only [if_neg (l0_ne_zero m pt va hp hpath)]
  rw [if_neg (by omega), if_neg, if_neg (by omega), if_pos href]
  rintro ⟨h1, h2⟩
  rcases hu with h | h
  · exact h h1
  · exact h h2

/-- C22: for a tree-shaped page table and `va < proc.size` below `MAXVA` whose
entry is valid with U and whose frame F has COW reference count 1, `uvmuncow`
returns 0 and leaves the allocator and the bytes of memory as they were;
afterwards the entry of `va` is valid and maps F, has COW_R and COW_W clear,
has R set exactly when R or COW_R was set and W set exactly when W or COW_W
was set, the count of F is 0, and the entry of every other page is as before. -/
theorem uvmuncow_last_reference (COWREFINDEX : Nat → Nat) (m : Machine) (pt va p_sz : Nat)
    (hp : PtOK m pt) (hsz : va < p_sz) (hva : va < MAXVA) (hv : leafPte m pt va &&& PTE_V ≠ 0)
    (hu : leafPte m pt va &&& PTE_U ≠ 0)
    (href : m.cow_ref (COWREFINDEX (PTE2PA (leafPte m pt va))) = 1) :
    ∃ m1, uvmuncow COWREFINDEX m pt va p_sz = .ok (0, m1) ∧ m1.freelist = m.freelist ∧
      m1.bytes = m.bytes ∧ leafPte m1 pt va &&& PTE_V ≠ 0 ∧
      PTE2PA (leafPte m1 pt va) = PTE2PA (leafPte m pt va) ∧
      leafPte m1 pt va &&& PTE_COW_R = 0 ∧ leafPte m1 pt va &&& PTE_COW_W = 0 ∧
      (leafPte m1 pt va &&& PTE_R ≠ 0 ↔
        (leafPte m pt va &&& PTE_R ≠ 0 ∨ leafPte m pt va &&& PTE_COW_R ≠ 0)) ∧
      (leafPte m1 pt va &&& PTE_W ≠ 0 ↔
        (leafPte m pt va &&& PTE_W ≠ 0 ∨ leafPte m pt va &&& PTE_COW_W ≠ 0)) ∧
      m1.cow_ref (COWREFINDEX (PTE2PA (leafPte m pt va))) = 0 ∧
      (∀ vb, vb < MAXVA → vb / PGSIZE ≠ va / PGSIZE → leafPte m1 pt vb = leafPte m pt vb) := by
  have hpath := hasPath_of_valid m pt va hv
  refine ⟨_, uvmuncow_last_eq COWREFINDEX m pt va p_sz hp hsz hva hv (Or.inl hu) href, rfl, rfl, ?_⟩
  have hleaf : ∀ vb, vb < MAXVA →
      leafPte ((m.setRef (COWREFINDEX (PTE2PA (leafPte m pt va))) 0).setPte (l0slot m pt va)
        ((leafPte m pt va ||| uvmuncow_flags (leafPte m pt va)) &&&
          not64 (PTE_COW_R ||| PTE_COW_W))) pt vb =
      if vb / PGSIZE = va / PGSIZE then
        (leafPte m pt va ||| uvmuncow_flags (leafPte m pt va)) &&& not64 (PTE_COW_R ||| PTE_COW_W)
      else leafPte m pt vb := by
    intro vb hvb
    have e : leafPte ((m.setRef (COWREFINDEX (PTE2PA (leafPte m pt va))) 0).setPte (l0slot m pt va)
        ((leafPte m pt va ||| uvmuncow_flags (leafPte m pt va)) &&&
          not64 (PTE_COW_R ||| PTE_COW_W))) pt vb =
        leafPte (m.setPte (l0slot m pt va)
          ((leafPte m pt va ||| uvmuncow_flags (leafPte m pt va)) &&&
            not64 (PTE_COW_R ||| PTE_COW_W))) pt vb := leafPte_ptes _ _ pt vb rfl
    rw [e]
    exact leaf_setLeaf_page m pt va vb _ hp hpath hva hvb
  rw [hleaf va hva, if_pos rfl]
  generalize leafPte m pt va = x at *
  refine ⟨?_, ?_, ?_, ?_, ?_, ?_, ?_, ?_⟩
  · rw [and_V, testBit_uncow_entry, testBit_uvmuncow_flags]
    simp
  · apply PTE2PA_congr
    intro i h10 h62
    rw [testBit_uncow_entry, testBit_uvmuncow_flags]
    have e0 : ¬ i = 0 := by omega
    have e1 : ¬ i = 1 := by omega
    have e2 : ¬ i = 2 := by omega
    have e3 : ¬ i = 3 := by omega
    have e4 : ¬ i = 4 := by omega
    have e8 : ¬ i = 8 := by omega
    have e9 : ¬ i = 9 := by omega
    have e64 : i < 64 := by omega
    simp [e0, e1, e2, e3, e4, e8, e9, e64]
  · have := (not_congr (and_COW_R ((x ||| uvmuncow_flags x) &&& not64 (PTE_COW_R ||| PTE_COW_W)))).2
      (by rw [testBit_uncow_entry]; simp)
    exact not_not.mp this
  · have := (not_congr (and_COW_W ((x ||| uvmuncow_flags x) &&& not64 (PTE_COW_R ||| PTE_COW_W)))).2
      (by rw [testBit_uncow_entry]; simp)
    exact not_not.mp this
  · rw [and_R, and_R, and_COW_R, testBit_uncow_entry, testBit_uvmuncow_flags]
    simp
  · rw [and_W, and_W, and_COW_W, testBit_uncow_entry, testBit_uvmuncow_flags]
    simp
  · simp only [Machine.setPte, Machine.setRef, if_true]
  · intro vb hvb hne
    rw [hleaf vb hvb, if_neg hne]

theorem demoLastRef_ptOK : PtOK demoLastRef 0x80010000 :=
  ptOK_ptes (demoMachine.setPte (l0slot demoMachine 0x80010000 0x1000)
      (PA2PTE 0x80021000 ||| (PTE_R ||| PTE_X ||| PTE_U ||| PTE_COW_R ||| PTE_COW_W) ||| PTE_V))
    demoLastRef 0x80010000 rfl
    (ptOK_setLeaf demoMachine 0x80010000 0x1000 _ demoMachine_ptOK
      ⟨by decide, by decide⟩).1

theorem uvmuncow_last_reference_witness :
    (PtOK demoLastRef 0x80010000 ∧ 0x1000 < 0x2000 ∧ 0x1000 < MAXVA ∧
      leafPte demoLastRef 0x80010000 0x1000 &&& PTE_V ≠ 0 ∧
      leafPte demoLastRef 0x80010000 0x1000 &&& PTE_U ≠ 0 ∧
      demoLastRef.cow_ref (demoIndex (PTE2PA (leafPte demoLastRef 0x80010000 0x1000))) = 1) ∧
    ∃ m1, uvmuncow demoIndex demoLastRef 0x80010000 0x1000 0x2000 = .ok (0, m1) ∧
      m1.freelist = demoLastRef.freelist ∧ m1.bytes = demoLastRef.bytes ∧
      leafPte m1 0x80010000 0x1000 &&& PTE_V ≠ 0 ∧
      PTE2PA (leafPte m1 0x80010000 0x1000) = PTE2PA (leafPte demoLastRef 0x80010000 0x1000) ∧
      leafPte m1 0x80010000 0x1000 &&& PTE_COW_R = 0 ∧
      leafPte m1 0x80010000 0x1000 &&& PTE_COW_W = 0 ∧
      (leafPte m1 0x80010000 0x1000 &&& PTE_R ≠ 0 ↔
        (leafPte demoLastRef 0x80010000 0x1000 &&& PTE_R ≠ 0 ∨
          leafPte demoLastRef 0x80010000 0x1000 &&& PTE_COW_R ≠ 0)) ∧
      (leafPte m1 0x80010000 0x1000 &&& PTE_W ≠ 0 ↔
        (leafPte demoLastRef 0x80010000 0x1000 &&& PTE_W ≠ 0 ∨
          leafPte demoLastRef 0x80010000 0x1000 &&& PTE_COW_W ≠ 0)) ∧
      m1.cow_ref (demoIndex (PTE2PA (leafPte demoLastRef 0x80010000 0x1000))) = 0 ∧
      (∀ vb, vb < MAXVA → vb / PGSIZE ≠ 0x1000 / PGSIZE →
        leafPte m1 0x80010000 vb = leafPte demoLastRef 0x80010000 vb) :=
  ⟨⟨demoLastRef_ptOK, by decide, by decide, by decide, by decide, by decide⟩,
    uvmuncow_last_reference demoIndex demoLastRef 0x80010000 0x1000 0x2000 demoLastRef_ptOK
      (by decide) (by decide) (by decide) (by decide) (by decide)⟩
theorem filter_erase_ne (l : List BufId) (b : BufId) :
    (l.erase b).filter (fun c => decide (c ≠ b)) = l.filter (fun c => decide (c ≠ b)) := by
  induction l with
  | nil => rfl
  | cons x xs ih =>
    by_cases e : x = b
    · subst e
      rw [List.erase_cons_head, List.filter_cons_of_neg (by simp)]
    · rw [List.erase_cons_tail (by simpa using e), List.filter_cons_of_pos (by simpa using e),
        List.filter_cons_of_pos (by simpa using e), ih]

/-- C24: for a buffer `b` whose sleep-lock is held and whose reference count
is at least 1 (and an `uint`), `brelse(b)` returns; the count of `b` is one
less, its other fields but the released lock are as before, no other buffer
and not the disk has changed; when the new count is 0, `b` is the first
element of the list of bucket `b.blockno % 17`, followed by the former list
without `b`, and `b` is on no other list; when the new count is positive, the
lists are as before.  In both cases the buffers other than `b` keep their
order in every list. -/
theorem brelse_decrements_and_moves (s : Bio) (b : BufId) (hl : (s.buf b).locked = true)
    (hr : 1 ≤ (s.buf b).refcnt) (hr2 : (s.buf b).refcnt < 2 ^ 32) :
    ∃ s1, brelse s b = .ok s1 ∧
      s1.buf b = { s.buf b with refcnt := (s.buf b).refcnt - 1, locked := false } ∧
      (∀ c, c ≠ b → s1.buf c = s.buf c) ∧ s1.disk = s.disk ∧ s1.diskops = s.diskops ∧
      ((s.buf b).refcnt = 1 →
        s1.lru ((s.buf b).blockno % BCACHE_BUCKET) =
          b :: (s.lru ((s.buf b).blockno % BCACHE_BUCKET)).erase b ∧
        ∀ k, k ≠ (s.buf b).blockno % BCACHE_BUCKET → s1.lru k = (s.lru k).erase b) ∧
      (1 < (s.buf b).refcnt → s1.lru = s.lru) ∧
      (∀ k, (s1.lru k).filter (fun c => decide (c ≠ b)) =
        (s.lru k).filter (fun c => decide (c ≠ b))) := by
  have hdec : ((s.buf b).refcnt + (2 ^ 32 - 1)) % 2 ^ 32 = (s.buf b).refcnt - 1 := by omega
  have hbuf : ((releasesleep s b).setBuf b { (releasesleep s b).buf b with
      refcnt := (((releasesleep s b).buf b).refcnt + (2 ^ 32 - 1)) % 2 ^ 32 }).buf b =
      { s.buf b with refcnt := (s.buf b).refcnt - 1, locked := false } := by
    simp only [releasesleep, Bio.setBuf, if_true, hdec]
  have hoth : ∀ c, c ≠ b → ((releasesleep s b).setBuf b { (releasesleep s b).buf b with
      refcnt := (((releasesleep s b).buf b).refcnt + (2 ^ 32 - 1)) % 2 ^ 32 }).buf c = s.buf c := by
    intro c hc
    simp only [releasesleep, Bio.setBuf, if_neg hc]
  have hbn : ((releasesleep s b).buf b).blockno = (s.buf b).blockno := by
    simp only [releasesleep, Bio.setBuf, if_true]
  unfold brelse
  rw [if_neg (by unfold holdingsleep; rw [hl]; decide)]
  simp only []
  by_cases h1 : (s.buf b).refcnt = 1
  · rw [if_pos (by rw [hbuf]; show (s.buf b).refcnt - 1 = 0; omega)]
    refine ⟨_, rfl, hbuf, hoth, rfl, rfl, ?_, fun h => absurd h1 (by omega), ?_⟩
    · intro _
      refine ⟨?_, ?_⟩
      · show (if _ then _ else _) = _
        rw [hbn, if_pos rfl]
        rfl
      · intro k hk
        show (if _ then _ else _) = _
        rw [hbn, if_neg hk]
        rfl
    · intro k
      show (if k = _ then b :: (s.lru k).erase b else (s.lru k).erase b).filter _ = _
      by_cases hk : k = ((releasesleep s b).buf b).blockno % BCACHE_BUCKET
      · rw [if_pos hk, List.filter_cons_of_neg (by simp), filter_erase_ne]
      · rw [if_neg hk, filter_erase_ne]
  · rw [if_neg (by rw [hbuf]; show ¬ (s.buf b).refcnt - 1 = 0; omega)]
    exact ⟨_, rfl, hbuf, hoth, rfl, rfl, fun h => absurd h h1, fun _ => rfl, fun _ => rfl⟩

theorem brelse_decrements_and_moves_witness :
    ((demoHeld.buf ⟨0, 0⟩).locked = true ∧ 1 ≤ (demoHeld.buf ⟨0, 0⟩).refcnt ∧
      (demoHeld.buf ⟨0, 0⟩).refcnt < 2 ^ 32) ∧
    ∃ s1, brelse demoHeld ⟨0, 0⟩ = .ok s1 ∧
      s1.buf ⟨0, 0⟩ = { demoHeld.buf ⟨0, 0⟩ with
        refcnt := (demoHeld.buf ⟨0, 0⟩).refcnt - 1, locked := false } ∧
      (∀ c, c ≠ (⟨0, 0⟩ : BufId) → s1.buf c = demoHeld.buf c) ∧ s1.disk = demoHeld.disk ∧
      s1.diskops = demoHeld.diskops ∧
      ((demoHeld.buf ⟨0, 0⟩).refcnt = 1 →
        s1.lru ((demoHeld.buf ⟨0, 0⟩).blockno % BCACHE_BUCKET) =
          ⟨0, 0⟩ :: (demoHeld.lru ((demoHeld.buf ⟨0, 0⟩).blockno % BCACHE_BUCKET)).erase ⟨0, 0⟩ ∧
        ∀ k, k ≠ (demoHeld.buf ⟨0, 0⟩).blockno % BCACHE_BUCKET →
          s1.lru k = (demoHeld.lru k).erase ⟨0, 0⟩) ∧
      (1 < (demoHeld.buf ⟨0, 0⟩).refcnt → s1.lru = demoHeld.lru) ∧
      (∀ k, (s1.lru k).filter (fun c => decide (c ≠ (⟨0, 0⟩ : BufId))) =
        (demoHeld.lru k).filter (fun c => decide (c ≠ (⟨0, 0⟩ : BufId)))) :=
  ⟨⟨by decide, by decide, by decide⟩,
    brelse_decrements_and_moves demoHeld ⟨0, 0⟩ (by decide) (by decide) (by decide)⟩
theorem and_W_zero (x : Nat) : x &&& PTE_W = 0 ↔ x.testBit 2 = false := and_two_pow_eq_zero x 2

theorem cowOK_iff (v : Nat) :
    CowOK v ↔ (v.testBit 0 = true → v.testBit 9 = true → v.testBit 2 = false) := by
  unfold CowOK
  rw [and_V, and_COW_W, and_W_zero]

theorem permOK_iff (p : Nat) : PermOK p ↔ (p.testBit 9 = true → p.testBit 2 = false) := by
  unfold PermOK
  rw [and_COW_W, and_W_zero]

theorem cowOK_zero : CowOK 0 := by
  rw [cowOK_iff]
  simp

theorem cowOK_link (f : Nat) : CowOK (PA2PTE f ||| PTE_V) := by
  rw [cowOK_iff]
  simp [Nat.testBit_or, testBit_PA2PTE, testBit_V]

theorem cowOK_leaf (pa perm : Nat) (h : PermOK perm) : CowOK (PA2PTE pa ||| perm ||| PTE_V) := by
  rw [permOK_iff] at h
  rw [cowOK_iff]
  simp only [Nat.testBit_or, testBit_PA2PTE, testBit_V]
  simpa using h

theorem cowOK_uvmcopy_pte (x : Nat) (h : CowOK x) : CowOK (uvmcopy_pte x) := by
  rw [cowOK_iff] at h ⊢
  rw [testBit_uvmcopy_pte x 0, testBit_uvmcopy_pte x 9, testBit_uvmcopy_pte x 2]
  by_cases hU : x.testBit 4 = true
  · simp [hU]
  · simpa [hU] using h

theorem permOK_uvmcopy_flags (x : Nat) (h : CowOK x) (hv : x &&& PTE_V ≠ 0) :
    PermOK (uvmcopy_flags (PTE_FLAGS x)) := by
  rw [cowOK_iff] at h
  rw [and_V] at hv
  rw [permOK_iff, testBit_uvmcopy_flags _ 9 (PTE_FLAGS_lt x), testBit_uvmcopy_flags _ 2 (PTE_FLAGS_lt x)]
  by_cases hU : (PTE_FLAGS x).testBit 4 = true
  · simp [hU]
  · simp only [hU, testBit_PTE_FLAGS]
    simpa using h hv

theorem permOK_uvmuncow_flags (x : Nat) : PermOK (uvmuncow_flags x) := by
  rw [permOK_iff, testBit_uvmuncow_flags]
  simp

theorem cowOK_uncow_entry (x : Nat) :
    CowOK ((x ||| uvmuncow_flags x) &&& not64 (PTE_COW_R ||| PTE_COW_W)) := by
  rw [cowOK_iff, testBit_uncow_entry x 9]
  simp

theorem copyout_cow_flags_W (fl : Nat) :
    (copyout_cow_flags fl).testBit 2 = false ∨ copyout_cow_flags fl = fl := by
  unfold copyout_cow_flags
  by_cases h0 : fl ≠ 0
  · rw [if_pos h0]
    simp only []
    by_cases hw : (if fl &&& (PTE_R ||| PTE_COW_R) ≠ 0 then fl ||| PTE_COW_R else fl) &&&
        (PTE_W ||| PTE_COW_W) ≠ 0
    · rw [if_pos hw]
      left
      simp [Nat.testBit_or, Nat.testBit_and, testBit_not64_W, testBit_COW_W]
    · rw [if_neg hw]
      left
      rw [and_or_ne_zero, not_or, and_W, and_COW_W] at hw
      simpa using hw.1
  · rw [if_neg h0]
    exact Or.inr rfl

theorem copyout_cow_pte_W (x : Nat) :
    (copyout_cow_pte x).testBit 2 = false ∨ copyout_cow_pte x = x := by
  unfold copyout_cow_pte
  by_cases h0 : PTE_FLAGS x ≠ 0
  · simp only [if_pos h0]
    by_cases hr : PTE_FLAGS x &&& (PTE_R ||| PTE_COW_R) ≠ 0
    · simp only [if_pos hr]
      by_cases hw : (PTE_FLAGS x ||| PTE_COW_R) &&& (PTE_W ||| PTE_COW_W) ≠ 0
      · rw [if_pos hw]
        left
        simp [Nat.testBit_or, Nat.testBit_and, testBit_not64_W]
      · rw [if_neg hw]
        left
        rw [and_or_ne_zero, not_or, and_W, and_COW_W] at hw
        have := hw.1
        simp only [Nat.testBit_or, testBit_PTE_FLAGS, testBit_COW_R] at this ⊢
        simpa using this
    · simp only [if_neg hr]
      by_cases hw : PTE_FLAGS x &&& (PTE_W ||| PTE_COW_W) ≠ 0
      · rw [if_pos hw]
        left
        simp [Nat.testBit_or, Nat.testBit_and, testBit_not64_W]
      · rw [if_neg hw]
        left
        rw [and_or_ne_zero, not_or, and_W, and_COW_W] at hw
        have := hw.1
        simp only [testBit_PTE_FLAGS] at this
        simpa using this
  · simp only [if_neg h0]
    exact Or.inr trivial

theorem cowOK_copyout_cow_pte (x : Nat) (h : CowOK x) : CowOK (copyout_cow_pte x) := by
  rcases copyout_cow_pte_W x with hw | he
  · rw [cowOK_iff]
    exact fun _ _ => hw
  · rw [he]
    exact h

theorem permOK_copyout_cow_flags (x : Nat) (h : CowOK x) (hv : x &&& PTE_V ≠ 0) :
    PermOK (copyout_cow_flags (PTE_FLAGS x)) := by
  rcases copyout_cow_flags_W (PTE_FLAGS x) with hw | he
  · rw [permOK_iff]
    exact fun _ => hw
  · rw [he, permOK_iff]
    rw [cowOK_iff] at h
    rw [and_V] at hv
    simp only [testBit_PTE_FLAGS]
    simpa using h hv
theorem winv_setPte (m : Machine) (a v : Nat) (h : WInv m) (hv : CowOK v) : WInv (m.setPte a v) := by
  intro b
  show CowOK (if b = a then v else m.ptes b)
  by_cases e : b = a
  · rw [if_pos e]
    exact hv
  · rw [if_neg e]
    exact h b

theorem winv_ptes (m m1 : Machine) (e : m1.ptes = m.ptes) (h : WInv m) : WInv m1 := by
  intro b
  rw [e]
  exact h b

theorem winv_link (m : Machine) (f s : Nat) (rest : List Nat) (h : WInv m) :
    WInv ((({ m with freelist := rest } : Machine).zeroTable f).setPte s (PA2PTE f ||| PTE_V)) := by
  intro b
  rw [linked_ptes]
  by_cases e : b = s
  · rw [if_pos e]
    exact cowOK_link f
  · rw [if_neg e]
    by_cases hin : f ≤ b ∧ b < f + PGSIZE
    · rw [if_pos hin]
      exact cowOK_zero
    · rw [if_neg hin]
      exact h b

theorem winv_walk (level : Nat) : ∀ (m : Machine) (T va : Nat), WInv m →
    WInv (walk_level level m T va true).2 := by
  induction level with
  | zero =>
    intro m T va h
    exact h
  | succ level ih =>
    intro m T va h
    by_cases hv : m.ptes (T + 8 * PX (level + 1) va) &&& PTE_V ≠ 0
    · rw [walk_level_valid level m T va true hv]
      exact ih m _ va h
    · by_cases hnil : m.freelist = []
      · rw [walk_level_alloc_nil level m T va hv hnil]
        exact h
      · obtain ⟨f, rest, hfl⟩ := List.exists_cons_of_ne_nil hnil
        by_cases hf : f = 0
        · have e : walk_level (level + 1) m T va true = (0, { m with freelist := rest }) := by
            rw [walk_level_succ, if_neg hv, if_neg (by decide)]
            have hk : kalloc m = (f, { m with freelist := rest }) := by unfold kalloc; rw [hfl]
            rw [hk]
            show (if f = 0 then _ else _) = _
            rw [if_pos hf]
          rw [e]
          exact h
        · rw [walk_level_alloc_cons level m T va f rest hv hfl hf]
          exact ih _ f va (winv_link m f _ rest h)

/-- The loop of `mappages` with permission bits that respect the invariant
keeps it. -/
theorem winv_mappages_loop (pt perm : Nat) (hperm : PermOK perm) :
    ∀ (fuel : Nat) (m : Machine) (a last pa : Nat) (r : Int) (m1 : Machine), WInv m →
    mappages_loop fuel m pt a last pa perm = .ok (r, m1) → WInv m1 := by
  intro fuel
  induction fuel with
  | zero =>
    intro m a last pa r m1 _ h
    cases h
  | succ fuel ih =>
    intro m a last pa r m1 hw h
    rw [mappages_loop] at h
    unfold walk at h
    by_cases hva : a ≥ MAXVA
    · rw [if_pos hva] at h
      cases h
    · rw [if_neg hva] at h
      have hw1 := winv_walk 2 m pt a hw
      generalize walk_level 2 m pt a true = w at h hw1
      obtain ⟨s, m2⟩ := w
      simp only at h hw1
      by_cases h0 : s = 0
      · rw [if_pos h0] at h
        injection h with h
        injection h with _ h
        rw [← h]
        exact hw1
      · rw [if_neg h0] at h
        by_cases hv : m2.ptes s &&& PTE_V ≠ 0
        · rw [if_pos hv] at h
          cases h
        · rw [if_neg hv] at h
          have hw2 := winv_setPte m2 s (PA2PTE pa ||| perm ||| PTE_V) hw1 (cowOK_leaf pa perm hperm)
          by_cases hl : a = last
          · rw [if_pos hl] at h
            injection h with h
            injection h with _ h
            rw [← h]
            exact hw2
          · rw [if_neg hl] at h
            exact ih _ _ _ _ r m1 hw2 h

theorem winv_mappages (m : Machine) (pt va size pa perm : Nat) (r : Int) (m1 : Machine)
    (hperm : PermOK perm) (hw : WInv m) (h : mappages m pt va size pa perm = .ok (r, m1)) :
    WInv m1 :=
  winv_mappages_loop pt perm hperm _ m _ _ pa r m1 hw h

theorem winv_uvmunmap_loop (pt : Nat) (free : Bool) :
    ∀ (fuel : Nat) (m : Machine) (a lim : Nat) (m1 : Machine), WInv m →
    uvmunmap_loop fuel m pt a lim free = .ok m1 → WInv m1 := by
  intro fuel
  induction fuel with
  | zero =>
    intro m a lim m1 _ h
    cases h
  | succ fuel ih =>
    intro m a lim m1 hw h
    rw [uvmunmap_loop] at h
    by_cases hl : a < lim
    · rw [if_pos hl] at h
      unfold walk at h
      by_cases hva : a ≥ MAXVA
      · rw [if_pos hva] at h
        cases h
      · rw [if_neg hva] at h
        simp only at h
        by_cases h0 : (walk_level 2 m pt a false).1 = 0
        · rw [if_pos h0] at h
          cases h
        · rw [if_neg h0] at h
          by_cases hv : m.ptes (walk_level 2 m pt a false).1 &&& PTE_V = 0
          · rw [if_pos hv] at h
            cases h
          · rw [if_neg hv] at h
            by_cases hf : PTE_FLAGS (m.ptes (walk_level 2 m pt a false).1) = PTE_V
            · rw [if_pos hf] at h
              cases h
            · rw [if_neg hf] at h
              refine ih _ _ _ m1 ?_ h
              apply winv_setPte _ _ _ _ cowOK_zero
              cases free
              · exact hw
              · exact hw
    · rw [if_neg hl] at h
      injection h with h
      rw [← h]
      exact hw

theorem winv_uvmunmap (m : Machine) (pt va npages : Nat) (free : Bool) (m1 : Machine)
    (hw : WInv m) (h : uvmunmap m pt va npages free = .ok m1) : WInv m1 := by
  unfold uvmunmap at h
  by_cases hal : va % PGSIZE ≠ 0
  · rw [if_pos hal] at h
    cases h
  · rw [if_neg hal] at h
    exact winv_uvmunmap_loop pt free _ m va _ m1 hw h
theorem winv_uvmcopy_loop (idx : Nat → Nat) (old new sz : Nat) :
    ∀ (fuel : Nat) (m : Machine) (i : Nat) (r : Int) (m1 : Machine), WInv m →
    uvmcopy_loop idx fuel m old new i sz = .ok (r, m1) → WInv m1 := by
  intro fuel
  induction fuel with
  | zero =>
    intro m i r m1 _ h
    cases h
  | succ fuel ih =>
    intro m i r m1 hw h
    rw [uvmcopy_loop] at h
    by_cases hl : i < sz
    · rw [if_pos hl] at h
      unfold walk at h
      by_cases hva : i ≥ MAXVA
      · rw [if_pos hva] at h
        cases h
      · rw [if_neg hva] at h
        simp only at h
        generalize (walk_level 2 m old i false).1 = pte at h
        by_cases h0 : pte = 0
        · rw [if_pos h0] at h
          cases h
        · rw [if_neg h0] at h
          by_cases hv : m.ptes pte &&& PTE_V = 0
          · rw [if_pos hv] at h
            cases h
          · rw [if_neg hv] at h
            have hw2 : WInv ((m.setPte pte (uvmcopy_pte (m.ptes pte))).setRef
                (idx (PTE2PA (m.ptes pte)))
                (cow_share ((m.setPte pte (uvmcopy_pte (m.ptes pte))).cow_ref
                  (idx (PTE2PA (m.ptes pte)))))) :=
              winv_ptes (m.setPte pte (uvmcopy_pte (m.ptes pte))) _ rfl
                (winv_setPte m pte _ hw (cowOK_uvmcopy_pte _ (hw pte)))
            generalize hm : mappages ((m.setPte pte (uvmcopy_pte (m.ptes pte))).setRef
                (idx (PTE2PA (m.ptes pte)))
                (cow_share ((m.setPte pte (uvmcopy_pte (m.ptes pte))).cow_ref
                  (idx (PTE2PA (m.ptes pte)))))) new i PGSIZE (PTE2PA (m.ptes pte))
                (uvmcopy_flags (PTE_FLAGS (m.ptes pte))) = res at h
            cases res with
            | error e => cases h
            | ok p =>
              obtain ⟨r1, m3⟩ := p
              simp only at h
              have hw3 := winv_mappages _ new i PGSIZE _ _ r1 m3
                (permOK_uvmcopy_flags _ (hw pte) hv) hw2 hm
              by_cases hr : r1 ≠ 0
              · rw [if_pos hr] at h
                cases h
              · rw [if_neg hr] at h
                exact ih m3 _ r m1 hw3 h
    · rw [if_neg hl] at h
      injection h with h
      injection h with _ h
      rw [← h]
      exact hw

theorem winv_copyout_cow_loop (idx : Nat → Nat) (kpt pt lim : Nat) :
    ∀ (fuel : Nat) (m : Machine) (i dstva : Nat) (r : Int) (m1 : Machine), WInv m →
    copyout_cow_loop idx fuel m kpt pt i dstva lim = .ok (r, m1) → WInv m1 := by
  intro fuel
  induction fuel with
  | zero =>
    intro m i dstva r m1 _ h
    cases h
  | succ fuel ih =>
    intro m i dstva r m1 hw h
    rw [copyout_cow_loop] at h
    by_cases hl : i < lim
    · rw [if_pos hl] at h
      unfold walk at h
      by_cases hva : i ≥ MAXVA
      · rw [if_pos hva] at h
        cases h
      · rw [if_neg hva] at h
        simp only at h
        generalize (walk_level 2 m kpt i false).1 = pte at h
        by_cases h0 : pte = 0
        · rw [if_pos h0] at h
          cases h
        · rw [if_neg h0] at h
          by_cases hv : m.ptes pte &&& PTE_V = 0
          · rw [if_pos hv] at h
            cases h
          · rw [if_neg hv] at h
            have hw2 : WInv ((m.setPte pte (copyout_cow_pte (m.ptes pte))).setRef
                (idx (PTE2PA (m.ptes pte)))
                (cow_share ((m.setPte pte (copyout_cow_pte (m.ptes pte))).cow_ref
                  (idx (PTE2PA (m.ptes pte)))))) :=
              winv_ptes (m.setPte pte (copyout_cow_pte (m.ptes pte))) _ rfl
                (winv_setPte m pte _ hw (cowOK_copyout_cow_pte _ (hw pte)))
            generalize hm : mappages ((m.setPte pte (copyout_cow_pte (m.ptes pte))).setRef
                (idx (PTE2PA (m.ptes pte)))
                (cow_share ((m.setPte pte (copyout_cow_pte (m.ptes pte))).cow_ref
                  (idx (PTE2PA (m.ptes pte)))))) pt dstva PGSIZE (PTE2PA (m.ptes pte))
                (copyout_cow_flags (PTE_FLAGS (m.ptes pte))) = res at h
            cases res with
            | error e => cases h
            | ok p =>
              obtain ⟨r1, m3⟩ := p
              simp only at h
              have hw3 := winv_mappages _ pt dstva PGSIZE _ _ r1 m3
                (permOK_copyout_cow_flags _ (hw pte) hv) hw2 hm
              by_cases hr : r1 ≠ 0
              · rw [if_pos hr] at h
                cases h
              · rw [if_neg hr] at h
                exact ih m3 _ _ r m1 hw3 h
    · rw [if_neg hl] at h
      injection h with h
      injection h with _ h
      rw [← h]
      exact hw

theorem winv_uvmuncow (idx : Nat → Nat) (m : Machine) (pt va p_sz : Nat) (r : Int) (m1 : Machine)
    (hw : WInv m) (h : uvmuncow idx m pt va p_sz = .ok (r, m1)) : WInv m1 := by
  unfold uvmuncow at h
  by_cases hsz : va ≥ p_sz
  · rw [if_pos hsz] at h
    injection h with h
    injection h with _ h
    rw [← h]
    exact hw
  · rw [if_neg hsz] at h
    unfold walk at h
    by_cases hva : va ≥ MAXVA
    · rw [if_pos hva] at h
      cases h
    · rw [if_neg hva] at h
      simp only at h
      generalize (walk_level 2 m pt va false).1 = pte at h
      by_cases h0 : pte = 0
      · rw [if_pos h0] at h
        injection h with h
        injection h with _ h
        rw [← h]
        exact hw
      · rw [if_neg h0] at h
        by_cases hz : m.cow_ref (idx (PTE2PA (m.ptes pte))) = 0
        · rw [if_pos hz] at h
          cases h
        · rw [if_neg hz] at h
          by_cases hu : m.ptes pte &&& PTE_U = 0 ∧ m.ptes pte &&& (PTE_COW_R ||| PTE_COW_W) = 0
          · rw [if_pos hu] at h
            injection h with h
            injection h with _ h
            rw [← h]
            exact hw
          · rw [if_neg hu] at h
            by_cases h2 : m.cow_ref (idx (PTE2PA (m.ptes pte))) ≥ 2
            · rw [if_pos h2] at h
              generalize hk : kalloc m = k at h
              obtain ⟨mem, mk⟩ := k
              have hkp : mk.ptes = m.ptes := by
                unfold kalloc at hk
                cases hfl : m.freelist with
                | nil =>
                  rw [hfl] at hk
                  injection hk with _ hk
                  rw [← hk]
                | cons f rest =>
                  rw [hfl] at hk
                  injection hk with _ hk
                  rw [← hk]
              simp only at h
              by_cases hmem : mem = 0
              · rw [if_pos hmem] at h
                injection h with h
                injection h with _ h
                rw [← h]
                exact winv_ptes m mk hkp hw
              · rw [if_neg hmem] at h
                generalize hun : uvmunmap (mk.setRef (idx (PTE2PA (m.ptes pte)))
                    ((mk.cow_ref (idx (PTE2PA (m.ptes pte))) + 255) % 256)) pt (PGROUNDDOWN va) 1
                    false = un at h
                cases un with
                | error e => cases h
                | ok m3 =>
                  simp only at h
                  have hwk : WInv mk := winv_ptes m mk hkp hw
                  have hw3 : WInv m3 := winv_uvmunmap (mk.setRef (idx (PTE2PA (m.ptes pte)))
                    ((mk.cow_ref (idx (PTE2PA (m.ptes pte))) + 255) % 256)) pt _ 1 false m3
                    (fun b => hwk b) hun
                  generalize hmp : mappages (m3.memmove mem (PTE2PA (m.ptes pte)) PGSIZE) pt
                      (PGROUNDDOWN va) PGSIZE mem (uvmuncow_flags (m.ptes pte)) = res at h
                  cases res with
                  | error e => cases h
                  | ok p =>
                    obtain ⟨r1, m5⟩ := p
                    simp only at h
                    have hw5 := winv_mappages (m3.memmove mem (PTE2PA (m.ptes pte)) PGSIZE) pt _
                      PGSIZE mem _ r1 m5 (permOK_uvmuncow_flags _) (fun b => hw3 b) hmp
                    by_cases hr : r1 ≠ 0
                    · rw [if_pos hr] at h
                      injection h with h
                      injection h with _ h
                      rw [← h]
                      exact hw5
                    · rw [if_neg hr] at h
                      injection h with h
                      injection h with _ h
                      rw [← h]
                      exact hw5
            · rw [if_neg h2] at h
              by_cases h1 : m.cow_ref (idx (PTE2PA (m.ptes pte))) = 1
              · rw [if_pos h1] at h
                injection h with h
                injection h with _ h
                rw [← h]
                apply winv_setPte _ _ _ (winv_ptes m _ rfl hw)
                exact cowOK_uncow_entry _
              · rw [if_neg h1] at h
                cases h
/-- C28: if every valid page-table word of the machine, in whichever table,
satisfies "COW_W implies not W", then so does every valid page-table word
after a call of `uvmcopy`, of `uvmuncow` or of `copyout_cow` that returns. -/
theorem cow_w_excludes_w_preserved (COWREFINDEX : Nat → Nat) (m : Machine) (hw : WInv m) :
    (∀ old new sz r m1, uvmcopy COWREFINDEX m old new sz = .ok (r, m1) → WInv m1) ∧
    (∀ pt va p_sz r m1, uvmuncow COWREFINDEX m pt va p_sz = .ok (r, m1) → WInv m1) ∧
    (∀ kpt pt dstva src len r m1,
      copyout_cow COWREFINDEX m kpt pt dstva src len = .ok (r, m1) → WInv m1) :=
  ⟨fun old new sz r m1 h => winv_uvmcopy_loop COWREFINDEX old new sz _ m 0 r m1 hw h,
    fun pt va p_sz r m1 h => winv_uvmuncow COWREFINDEX m pt va p_sz r m1 hw h,
    fun kpt pt dstva _ _ r m1 h =>
      winv_copyout_cow_loop COWREFINDEX kpt pt _ _ m _ dstva r m1 hw h⟩

theorem demoMachine_winv : WInv demoMachine := by
  intro a
  by_cases hv : demoMachine.ptes a &&& PTE_V ≠ 0
  · rcases demoMachine_word a hv with h | h | h | h <;> subst h <;>
      exact fun _ h2 => absurd (by decide) h2
  · exact fun h => absurd h hv

theorem cow_w_excludes_w_preserved_witness :
    WInv demoMachine ∧
    uvmcopy demoIndex demoMachine 0x80010000 0x80030000 0x2000 = .ok (0, demoForked) ∧
    WInv demoForked ∧
    uvmuncow demoIndex demoForked 0x80030000 0x1000 0x2000 = .ok (0, demoUncowed) ∧
    WInv demoUncowed ∧
    (copyout_cow demoIndex demoMachine 0x80010000 0x80030000 0 0x1000 0x1000).toOption.map
      Prod.fst = some 0 :=
  ⟨demoMachine_winv, demoForked_eq,
    (cow_w_excludes_w_preserved demoIndex demoMachine demoMachine_winv).1 _ _ _ _ _ demoForked_eq,
    demoUncowed_eq,
    (cow_w_excludes_w_preserved demoIndex demoForked
      ((cow_w_excludes_w_preserved demoIndex demoMachine demoMachine_winv).1 _ _ _ _ _
        demoForked_eq)).2.1 _ _ _ _ _ demoUncowed_eq,
    by decide⟩
theorem shard_of_same (NBUF : Nat) (s s1 : Bio) (hi : ShardInv NBUF s) (hl : s1.lru = s.lru)
    (hb : ∀ c, (s1.buf c).refcnt ≠ 0 →
      ((s.buf c).refcnt ≠ 0 ∧ (s1.buf c).blockno = (s.buf c).blockno) ∨
      (c ∈ s.lru ((s1.buf c).blockno % BCACHE_BUCKET))) :
    ShardInv NBUF s1 := by
  refine ⟨fun k => by rw [hl]; exact hi.nodup k, fun k b => by rw [hl]; exact hi.members k b, ?_⟩
  intro c hc
  rcases hb c hc with ⟨h1, h2⟩ | h
  · rw [h2]
    exact hi.home c h1
  · obtain ⟨a1, a2, a3⟩ := (hi.members _ c).1 h
    exact ⟨by rw [a2]; exact a1, a3, a2.symm⟩

theorem shard_bget (NBUF : Nat) (s s2 : Bio) (dev blockno : Nat) (b : BufId)
    (hi : ShardInv NBUF s) (h : bget s dev blockno = .ok (b, s2)) : ShardInv NBUF s2 := by
  obtain ⟨sa, hf, ha⟩ := bget_split s s2 dev blockno b h
  obtain ⟨_, e2⟩ := acquiresleep_fields sa s2 b ha
  have hsa : ShardInv NBUF sa := by
    rcases bget_find_cases s sa dev blockno b hf with ⟨hfind, ea⟩ | ⟨_, hmem, _, ea⟩
    · rw [ea]
      refine shard_of_same NBUF s _ hi rfl ?_
      intro c hc
      by_cases e : c = b
      · subst e
        right
        have hm := List.mem_of_find?_eq_some hfind
        have hp := List.find?_some hfind
        simp only [holdsBlock, decide_eq_true_eq] at hp
        simp only [Bio.setBuf, if_true]
        rw [hp.2]
        exact hm
      · left
        simp only [Bio.setBuf, if_neg e] at hc ⊢
        exact ⟨hc, trivial⟩
    · rw [ea]
      refine shard_of_same NBUF s _ hi rfl ?_
      intro c hc
      by_cases e : c = b
      · subst e
        right
        simp only [Bio.setBuf, if_true]
        exact hmem
      · left
        simp only [Bio.setBuf, if_neg e] at hc ⊢
        exact ⟨hc, trivial⟩
  rw [e2]
  refine shard_of_same NBUF sa _ hsa rfl ?_
  intro c hc
  left
  by_cases e : c = b
  · subst e
    simp only [Bio.setBuf, if_true] at hc ⊢
    exact ⟨hc, trivial⟩
  · simp only [Bio.setBuf, if_neg e] at hc ⊢
    exact ⟨hc, trivial⟩

theorem shard_bread (NBUF : Nat) (s s3 : Bio) (dev blockno : Nat) (b : BufId)
    (hi : ShardInv NBUF s) (h : bread s dev blockno = .ok (b, s3)) : ShardInv NBUF s3 := by
  obtain ⟨s2, hg, hcase⟩ := bread_split s s3 dev blockno b h
  have h2 := shard_bget NBUF s s2 dev blockno b hi hg
  rcases hcase with ⟨_, e⟩ | ⟨_, e⟩
  · subst e
    apply shard_of_same NBUF s2 _ h2
    · simp only [virtio_disk_rw, Bool.false_eq_true, if_false, Bio.setBuf]
    · intro c hc
      left
      rw [read_buf s2 b c] at hc ⊢
      by_cases e : c = b
      · subst e
        rw [if_pos rfl] at hc ⊢
        exact ⟨hc, rfl⟩
      · rw [if_neg e] at hc ⊢
        exact ⟨hc, rfl⟩
  · subst e
    exact h2

theorem shard_brelse (NBUF : Nat) (s s3 : Bio) (b : BufId) (hi : ShardInv NBUF s)
    (hheld : (s.buf b).refcnt ≠ 0) (h : brelse s b = .ok s3) : ShardInv NBUF s3 := by
  obtain ⟨_, hb, hcase, _, _⟩ := brelse_ok s s3 b h
  obtain ⟨g1, g2, g3⟩ := hi.home b hheld
  have hbm : b ∈ s.lru ((s.buf b).blockno % BCACHE_BUCKET) :=
    (hi.members _ b).2 ⟨by rw [g3]; exact g1, g3.symm, g2⟩
  have hhome : ∀ c, (s3.buf c).refcnt ≠ 0 →
      c.bucket < BCACHE_BUCKET ∧ c.idx < NBUF ∧ (s3.buf c).blockno % BCACHE_BUCKET = c.bucket := by
    intro c hc
    rw [hb c] at hc ⊢
    by_cases e : c = b
    · subst e
      rw [if_pos rfl]
      exact ⟨g1, g2, g3⟩
    · rw [if_neg e] at hc ⊢
      exact hi.home c hc
  rcases hcase with ⟨_, hl⟩ | ⟨_, hl⟩
  · refine ⟨?_, ?_, hhome⟩
    · intro k
      rw [hl]
      simp only []
      by_cases hk : k = (s.buf b).blockno % BCACHE_BUCKET
      · rw [if_pos hk, List.nodup_cons]
        exact ⟨(hi.nodup k).not_mem_erase, (hi.nodup k).erase b⟩
      · rw [if_neg hk]
        exact (hi.nodup k).erase b
    · intro k c
      rw [hl]
      simp only []
      by_cases hk : k = (s.buf b).blockno % BCACHE_BUCKET
      · rw [if_pos hk, List.mem_cons, (hi.nodup k).mem_erase_iff, ← hi.members k c]
        constructor
        · rintro (e | ⟨_, h2⟩)
          · rw [e, hk]
            exact hbm
          · exact h2
        · intro hc
          by_cases e : c = b
          · exact Or.inl e
          · exact Or.inr ⟨e, hc⟩
      · rw [if_neg hk, List.erase_of_not_mem, hi.members k c]
        intro hc
        apply hk
        rw [g3]
        exact ((hi.members k b).1 hc).2.1.symm
  · exact ⟨fun k => by rw [hl]; exact hi.nodup k, fun k c => by rw [hl]; exact hi.members k c,
      hhome⟩

theorem shard_pin (NBUF : Nat) (s : Bio) (b : BufId) (v : Nat) (hi : ShardInv NBUF s)
    (hheld : (s.buf b).refcnt ≠ 0) : ShardInv NBUF (s.setBuf b { s.buf b with refcnt := v }) := by
  refine shard_of_same NBUF s _ hi rfl ?_
  intro c hc
  by_cases e : c = b
  · subst e
    right
    simp only [Bio.setBuf, if_true]
    obtain ⟨g1, g2, g3⟩ := hi.home c hheld
    exact (hi.members _ c).2 ⟨by rw [g3]; exact g1, g3.symm, g2⟩
  · left
    simp only [Bio.setBuf, if_neg e] at hc ⊢
    exact ⟨hc, trivial⟩

theorem shard_run (NBUF : Nat) (c : BioCall) (s s1 : Bio) (hi : ShardInv NBUF s)
    (hh : c.unheld s = false) (h : c.run s = .ok s1) : ShardInv NBUF s1 := by
  cases c with
  | bget dev blockno =>
    simp only [BioCall.run] at h
    cases hg : bget s dev blockno with
    | error e => rw [hg] at h; cases h
    | ok p =>
      obtain ⟨b, s2⟩ := p
      rw [hg] at h
      simp only [Except.map, Except.ok.injEq] at h
      subst h
      exact shard_bget NBUF s s2 dev blockno b hi hg
  | bread dev blockno =>
    simp only [BioCall.run] at h
    cases hg : bread s dev blockno with
    | error e => rw [hg] at h; cases h
    | ok p =>
      obtain ⟨b, s2⟩ := p
      rw [hg] at h
      simp only [Except.map, Except.ok.injEq] at h
      subst h
      exact shard_bread NBUF s s2 dev blockno b hi hg
  | bwrite b =>
    simp only [BioCall.run, bwrite] at h
    by_cases hl : holdingsleep s b = false
    · rw [if_pos hl] at h
      cases h
    · rw [if_neg hl] at h
      simp only [Except.ok.injEq] at h
      subst h
      apply shard_of_same NBUF s _ hi
      · simp only [virtio_disk_rw, if_true]
      · intro c hc
        left
        simp only [virtio_disk_rw, if_true] at hc ⊢
        exact ⟨hc, trivial⟩
  | brelse b =>
    simp only [BioCall.unheld, decide_eq_false_iff_not] at hh
    exact shard_brelse NBUF s s1 b hi hh h
  | bpin b =>
    simp only [BioCall.unheld, decide_eq_false_iff_not] at hh
    simp only [BioCall.run, Except.ok.injEq] at h
    subst h
    exact shard_pin NBUF s b _ hi hh
  | bunpin b =>
    simp only [BioCall.unheld, decide_eq_false_iff_not] at hh
    simp only [BioCall.run, Except.ok.injEq] at h
    subst h
    exact shard_pin NBUF s b _ hi hh

theorem shard_runHeld (NBUF : Nat) (cs : List BioCall) : ∀ (s s1 : Bio), ShardInv NBUF s →
    runHeld s cs = .ok s1 → ShardInv NBUF s1 := by
  induction cs with
  | nil =>
    intro s s1 hi h
    simp only [runHeld, Except.ok.injEq] at h
    exact h ▸ hi
  | cons c cs ih =>
    intro s s1 hi h
    simp only [runHeld] at h
    by_cases hh : c.unheld s = true
    · rw [if_pos hh] at h
      cases h
    · rw [if_neg hh] at h
      cases hc : c.run s with
      | error e => rw [hc] at h; cases h
      | ok s2 =>
        rw [hc] at h
        exact ih s2 s1 (shard_run NBUF c s s2 hi (by simpa using hh) hc) h

theorem shard_binit (NBUF : Nat) (disk : Nat → Nat → Nat → Nat) :
    ShardInv NBUF (binit NBUF (bcacheZero disk)) := by
  obtain ⟨j1, j2, _, _⟩ := binit_spec NBUF disk
  refine ⟨?_, ?_, ?_⟩
  · intro k
    rw [j2 k]
    split
    · rw [List.nodup_reverse]
      apply List.Nodup.map
      · intro a b e
        injection e
      · exact List.nodup_range' 0 NBUF
    · exact List.nodup_nil
  · intro k b
    rw [j2 k]
    by_cases hk : k < BCACHE_BUCKET
    · rw [if_pos hk]
      simp only [List.mem_reverse, List.mem_map, List.mem_range'_1]
      constructor
      · rintro ⟨i, hi, e⟩
        rw [← e]
        exact ⟨hk, rfl, by show i < NBUF; omega⟩
      · rintro ⟨_, h2, h3⟩
        exact ⟨b.idx, by omega, by rw [← h2]⟩
    · rw [if_neg hk]
      constructor
      · intro h
        cases h
      · intro h
        exact absurd h.1 hk
  · intro b hb
    rw [j1 b] at hb
    exact absurd rfl hb

theorem shard_length (NBUF : Nat) (s : Bio) (hi : ShardInv NBUF s) (k : Nat)
    (hk : k < BCACHE_BUCKET) : (s.lru k).length = NBUF := by
  have hp : (s.lru k).Perm ((List.range NBUF).map (BufId.mk k)) := by
    rw [List.perm_ext_iff_of_nodup (hi.nodup k)]
    · intro b
      rw [hi.members k b]
      simp only [List.mem_map, List.mem_range]
      constructor
      · rintro ⟨_, h2, h3⟩
        exact ⟨b.idx, h3, by rw [← h2]⟩
      · rintro ⟨i, h1, e⟩
        rw [← e]
        exact ⟨hk, rfl, h1⟩
    · apply List.Nodup.map
      · intro a b e
        injection e
      · exact List.nodup_range NBUF
  rw [hp.length_eq, List.length_map, List.length_range]

/-- C30: in every state reached from `binit` by calls of `bget`, `bread`,
`bwrite`, `brelse`, `bpin` and `bunpin` that return, the last three applied to
buffers with a reference only, the list of bucket `k` has no repetition, holds
exactly the buffers `bcache.buf[k][0 .. NBUF-1]` and so `NBUF` of them, lists
of buckets beyond the 17 are empty, and every buffer with a reference has a
block number that selects the bucket of its own array, on whose list it is. -/
theorem shard_membership (NBUF : Nat) (disk : Nat → Nat → Nat → Nat) (cs : List BioCall)
    (s : Bio) (h : runHeld (binit NBUF (bcacheZero disk)) cs = .ok s) :
    (∀ k, (s.lru k).Nodup) ∧
    (∀ k b, b ∈ s.lru k ↔ (k < BCACHE_BUCKET ∧ b.bucket = k ∧ b.idx < NBUF)) ∧
    (∀ k, k < BCACHE_BUCKET → (s.lru k).length = NBUF) ∧
    (∀ b, (s.buf b).refcnt ≠ 0 →
      (s.buf b).blockno % BCACHE_BUCKET = b.bucket ∧
      b ∈ s.lru ((s.buf b).blockno % BCACHE_BUCKET)) := by
  have hi := shard_runHeld NBUF cs _ s (shard_binit NBUF disk) h
  refine ⟨hi.nodup, hi.members, shard_length NBUF s hi, ?_⟩
  intro b hb
  obtain ⟨g1, g2, g3⟩ := hi.home b hb
  exact ⟨g3, (hi.members _ b).2 ⟨by rw [g3]; exact g1, g3.symm, g2⟩⟩

theorem shard_membership_witness :
    runHeld (binit 3 (bcacheZero (fun _ _ _ => 0)))
      [.bread 1 17, .bpin ⟨0, 0⟩, .brelse ⟨0, 0⟩, .bread 1 5] = .ok demoSharded ∧
    (∀ k, (demoSharded.lru k).Nodup) ∧
    (∀ k b, b ∈ demoSharded.lru k ↔ (k < BCACHE_BUCKET ∧ b.bucket = k ∧ b.idx < 3)) ∧
    (∀ k, k < BCACHE_BUCKET → (demoSharded.lru k).length = 3) ∧
    (∀ b, (demoSharded.buf b).refcnt ≠ 0 →
      (demoSharded.buf b).blockno % BCACHE_BUCKET = b.bucket ∧
      b ∈ demoSharded.lru ((demoSharded.buf b).blockno % BCACHE_BUCKET)) :=
  ⟨eq_ok_state _ (bootCache 3) (by decide),
    shard_membership 3 (fun _ _ _ => 0)
      [.bread 1 17, .bpin ⟨0, 0⟩, .brelse ⟨0, 0⟩, .bread 1 5] demoSharded
      (eq_ok_state _ (bootCache 3) (by decide))⟩

theorem find_range_first (p : Nat → Bool) : ∀ (n i : Nat), i < n → p i = true →
    (∀ j, j < i → p j = false) → (List.range n).find? p = some i := by
  intro n
  induction n with
  | zero => intro i hi; omega
  | succ n ih =>
    intro i hi hp hfirst
    rw [List.range_succ, List.find?_append]
    by_cases h : i < n
    · rw [ih i h hp hfirst]
      rfl
    · have e : i = n := by omega
      subst e
      have hnone : (List.range i).find? p = none := by
        rw [List.find?_eq_none]
        intro x hx
        rw [List.mem_range] at hx
        rw [hfirst x hx]
        simp
      rw [hnone]
      simp only [Option.none_or, List.find?_cons, hp, List.find?_nil]

/-- The write-back loop of `sys_munmap` over `n` pages with page-table entries
returns and touches the files only. -/
theorem munmap_writeback_runs (g addr : Nat) : ∀ (n : Nat) (s : Sys) (pg fuel lim : Nat),
    n < fuel → pg + n * PGSIZE ≤ MAXVA → lim ≤ pg + n * PGSIZE →
    PtOK s.mem s.p.pagetable →
    (∀ k, k < n → HasPath s.mem s.p.pagetable (pg + k * PGSIZE)) →
    ∃ s1, munmap_writeback fuel s g pg addr lim = .ok s1 ∧ s1.mem = s.mem ∧ s1.p = s.p ∧
      s1.vmae = s.vmae ∧ ∀ k, (s1.file k).ref = (s.file k).ref := by
  have hP : PGSIZE = 4096 := rfl
  have hM : MAXVA = 2 ^ 38 := rfl
  intro n
  induction n with
  | zero =>
    intro s pg fuel lim hf _ hlim _ _
    obtain ⟨f, rfl⟩ : ∃ f, fuel = f + 1 := ⟨fuel - 1, by omega⟩
    refine ⟨s, ?_, rfl, rfl, rfl, fun _ => rfl⟩
    rw [munmap_writeback, if_neg (by omega)]
  | succ n ih =>
    intro s pg fuel lim hf hmax hlim hp hpath
    obtain ⟨f, rfl⟩ : ∃ f, fuel = f + 1 := ⟨fuel - 1, by omega⟩
    rw [Nat.succ_mul] at hmax hlim
    by_cases hlt : pg < lim
    · have h0 := hpath 0 (Nat.succ_pos n)
      rw [Nat.zero_mul, Nat.add_zero] at h0
      have e : u64 (pg + PGSIZE) = pg + PGSIZE := by
        unfold u64
        omega
      rw [munmap_writeback, if_pos hlt, walk_path s.mem s.p.pagetable pg (by omega) h0]
      simp only []
      rw [if_neg (l0_ne_zero s.mem s.p.pagetable pg hp h0), e]
      have hnext : ∀ s2 : Sys, s2.mem = s.mem → s2.p = s.p → s2.vmae = s.vmae →
          (∀ k, (s2.file k).ref = (s.file k).ref) →
          ∃ s1, munmap_writeback f s2 g (pg + PGSIZE) addr lim = .ok s1 ∧ s1.mem = s.mem ∧
            s1.p = s.p ∧ s1.vmae = s.vmae ∧ ∀ k, (s1.file k).ref = (s.file k).ref := by
        intro s2 e1 e2 e3 e4
        obtain ⟨s1, r1, r2, r3, r4, r5⟩ := ih s2 (pg + PGSIZE) f lim (by omega) (by omega)
          (by omega) (by rw [e1, e2]; exact hp) (by
            intro k hk
            rw [e1, e2]
            have := hpath (k + 1) (by omega)
            rw [Nat.succ_mul] at this
            have e5 : pg + PGSIZE + k * PGSIZE = pg + (k * PGSIZE + PGSIZE) := by omega
            rw [e5]
            exact this)
        exact ⟨s1, r1, r2.trans e1, r3.trans e2, r4.trans e3, fun k => (r5 k).trans (e4 k)⟩
      have hfile : ∀ k, ((if k = (s.vmae g).file_t then
          { s.file (s.vmae g).file_t with off := ((s.vmae g).offset + pg - addr) % 2 ^ 32 }
          else s.file k) : File).ref = (s.file k).ref := by
        intro k
        by_cases hk : k = (s.vmae g).file_t
        · rw [if_pos hk, hk]
        · rw [if_neg hk]
      split
      · exact hnext _ rfl rfl rfl hfile
      · exact hnext _ rfl rfl rfl hfile
    · refine ⟨s, ?_, rfl, rfl, rfl, fun _ => rfl⟩
      rw [munmap_writeback, if_neg hlt]

/-- The last loop of `sys_munmap` over `n` pages that `uvmunmap` accepts
returns with the entries of these pages cleared. -/
theorem munmap_pages_runs (pt : Nat) : ∀ (n : Nat) (m : Machine) (a fuel lim : Nat),
    n < fuel → a % PGSIZE = 0 → a + n * PGSIZE ≤ MAXVA → lim ≤ a + n * PGSIZE →
    (0 < n → a + (n - 1) * PGSIZE < lim) → PtOK m pt →
    (∀ k, k < n → LeafOK m pt (a + k * PGSIZE)) →
    ∃ m1, munmap_pages fuel m pt a lim = .ok m1 ∧ PtOK m1 pt ∧
      (∀ vb, vb < MAXVA → leafPte m1 pt vb =
        if a / PGSIZE ≤ vb / PGSIZE ∧ vb / PGSIZE < a / PGSIZE + n then 0 else leafPte m pt vb) := by
  have hP : PGSIZE = 4096 := rfl
  have hM : MAXVA = 2 ^ 38 := rfl
  intro n
  induction n with
  | zero =>
    intro m a fuel lim hf _ _ hlim _ hp _
    obtain ⟨f, rfl⟩ : ∃ f, fuel = f + 1 := ⟨fuel - 1, by omega⟩
    refine ⟨m, ?_, hp, ?_⟩
    · rw [munmap_pages, if_neg (by omega)]
    · intro vb _
      rw [if_neg (by omega)]
  | succ n ih =>
    intro m a fuel lim hf hal hmax hlim hlow hp hgood
    obtain ⟨f, rfl⟩ : ∃ f, fuel = f + 1 := ⟨fuel - 1, by omega⟩
    have hlow1 := hlow (Nat.succ_pos n)
    clear hlow
    rw [Nat.add_sub_cancel] at hlow1
    rw [Nat.succ_mul] at hmax hlim
    rw [hP] at hal hmax hlim hlow1
    rw [hM] at hmax
    have hlt : a < lim := by omega
    have e : u64 (a + PGSIZE) = a + 4096 := by
      unfold u64
      rw [hP]
      omega
    obtain ⟨_, hone, _⟩ := uvmunmap_clears m pt a 1 true hp (by rw [hP, hM]; omega)
    obtain ⟨m2, e2, hp2, hleaf2, _⟩ := hone hal (by
      intro k hk
      have ek : k = 0 := by omega
      subst ek
      exact hgood 0 (Nat.succ_pos n))
    rw [munmap_pages, if_pos hlt, e2]
    simp only []
    rw [e]
    have hk1 : ∀ k, a + 4096 + k * 4096 = a + (k + 1) * PGSIZE := by
      intro k
      rw [Nat.succ_mul, hP]
      omega
    obtain ⟨m1, r1, r2, r3⟩ := ih m2 (a + 4096) f lim (by omega) (by rw [hP]; omega)
      (by rw [hP, hM]; omega) (by rw [hP]; omega) (by
        intro hn
        rw [hP]
        have en : (n - 1) * 4096 + 4096 = n * 4096 := by
          have := Nat.succ_mul (n - 1) 4096
          have en1 : (n - 1).succ = n := by omega
          rw [en1] at this
          omega
        omega) hp2 (by
        intro k hk
        have hkn := Nat.mul_le_mul_right 4096 (show k + 1 ≤ n by omega)
        have hin : a + (k + 1) * PGSIZE < MAXVA := by
          rw [hP, hM]
          omega
        rw [hP, hk1 k]
        unfold LeafOK
        rw [hleaf2 _ hin, if_neg]
        · exact hgood (k + 1) (by omega)
        · rw [hP, Nat.succ_mul]
          omega)
    refine ⟨m1, r1, r2, ?_⟩
    intro vb hvb
    rw [r3 vb hvb]
    rw [hP] at hleaf2 ⊢
    by_cases hin : (a + 4096) / 4096 ≤ vb / 4096 ∧ vb / 4096 < (a + 4096) / 4096 + n
    · rw [if_pos hin, if_pos (by omega)]
    · rw [if_neg hin, hleaf2 vb hvb]
      by_cases h0 : a / 4096 ≤ vb / 4096 ∧ vb / 4096 < a / 4096 + 1
      · rw [if_pos h0, if_pos (by omega)]
      · rw [if_neg h0, if_neg (by omega)]

/-- C27 (counterexample): two calls of `mmap` in `demoSys`, the first of
length 0, leave the slots 0 and 1 of the process both pointing to entry 0 of
the pool, the region `[0x2000, 0x3000)`.  For the mapping of slot 1,
`munmap(0x2000, 4096)` covers the whole region and returns 0; it clears the
entry and empties slot 0, the slot that its search has met first, and slot 1
still points to the cleared entry. -/
theorem munmap_second_slot_counterexample :
    sys_mmap demoSys 0 0 PROT_READ MAP_PRIVATE 3 0 = .ok (0x2000, demoEmptyMapped) ∧
    sys_mmap demoEmptyMapped 0 4096 PROT_READ MAP_PRIVATE 3 0 = .ok (0x2000, demoAliased) ∧
    (demoAliased.p.vmaep 0, demoAliased.p.vmaep 1) = (some 0, some 0) ∧
    ((demoAliased.vmae 0).start, (demoAliased.vmae 0).length) = (0x2000, 4096) ∧
    (sys_munmap demoAliased 0x2000 4096).toOption.map
        (fun r => (r.1, r.2.p.vmaep 0, r.2.p.vmaep 1, (r.2.vmae 0).start, (r.2.vmae 0).length)) =
      some (0, none, some 0, 0, 0) :=
  ⟨eq_ok_pair _ _ demoSys (by decide), eq_ok_pair _ _ demoEmptyMapped (by decide), by decide,
    by decide, by decide⟩
/-- The update of the entry in `sys_munmap` for a range inside the region that
does not punch a hole. -/
theorem munmap_evict_spec (s : Sys) (i g addr length : Nat)
    (hin : (s.vmae g).start ≤ addr ∧ addr + length ≤ (s.vmae g).start + (s.vmae g).length)
    (hlim : (s.vmae g).start + (s.vmae g).length ≤ MAXVA)
    (hnh : ¬ ((s.vmae g).start < addr ∧ addr + length < (s.vmae g).start + (s.vmae g).length))
    (href : 1 ≤ (s.file (s.vmae g).file_t).ref) :
    ∃ s2, munmap_evict s i g addr length = .ok s2 ∧ s2.mem = s.mem ∧
      s2.p.pagetable = s.p.pagetable ∧
      (addr = (s.vmae g).start ∧ length = (s.vmae g).length →
        s2.vmae g = ⟨0, 0, 0, 0, 0, 0⟩ ∧ s2.p.vmaep i = none) ∧
      (addr = (s.vmae g).start ∧ length < (s.vmae g).length →
        s2.vmae g = { s.vmae g with
          start := (s.vmae g).start + length, length := (s.vmae g).length - length } ∧
        s2.p.vmaep = s.p.vmaep) ∧
      ((s.vmae g).start < addr ∧ addr + length = (s.vmae g).start + (s.vmae g).length →
        s2.vmae g = { s.vmae g with length := addr - (s.vmae g).start } ∧
        s2.p.vmaep = s.p.vmaep) ∧
      (∀ k, k ≠ g → s2.vmae k = s.vmae k) ∧ (∀ k, k ≠ i → s2.p.vmaep k = s.p.vmaep k) := by
  have hM : MAXVA = 2 ^ 38 := rfl
  unfold munmap_evict
  simp only []
  by_cases hw : (s.vmae g).start = addr ∧ length = (s.vmae g).length
  · rw [if_pos hw]
    unfold vmaeclear fileclose
    rw [if_neg (by omega)]
    simp only []
    refine ⟨_, rfl, rfl, rfl, ?_, ?_, ?_, ?_, ?_⟩
    · intro _
      simp only [if_true, and_self]
    · intro h
      omega
    · intro h
      omega
    · intro k hk
      simp only [if_neg hk]
    · intro k hk
      simp only [if_neg hk]
  · rw [if_neg hw]
    by_cases hh : (s.vmae g).start = addr
    · rw [if_pos hh]
      have e : u64 (addr + length) = (s.vmae g).start + length := by
        unfold u64
        omega
      refine ⟨_, rfl, rfl, rfl, ?_, ?_, ?_, ?_, fun _ _ => rfl⟩
      · intro h
        exact absurd ⟨h.1.symm, h.2⟩ hw
      · intro _
        simp only [if_true, e, and_self]
      · intro h
        omega
      · intro k hk
        simp only [if_neg hk]
    · rw [if_neg hh]
      have e1 : addr + length = (s.vmae g).start + (s.vmae g).length := by omega
      rw [if_pos (by rw [e1])]
      refine ⟨_, rfl, rfl, rfl, ?_, ?_, ?_, ?_, fun _ _ => rfl⟩
      · intro h
        exact absurd h.1.symm hh
      · intro h
        exact absurd h.1.symm hh
      · intro _
        simp only [if_true, and_self]
      · intro k hk
        simp only [if_neg hk]

theorem pgroundup_pages (length : Nat) (h : length ≤ MAXVA) :
    PGROUNDUP length / PGSIZE < length / PGSIZE + 2 ∧
    length ≤ PGROUNDUP length / PGSIZE * PGSIZE ∧
    PGROUNDUP length / PGSIZE * PGSIZE < length + PGSIZE := by
  have hM : MAXVA = 2 ^ 38 := rfl
  have hP : PGSIZE = 4096 := rfl
  rw [PGROUNDUP_eq length (by omega), hP, Nat.mul_div_cancel _ (by decide)]
  omega

/-- C27 (amended): let slot `i` of the process point to the entry `g` of the
pool, with region `[S, S+L)` below `MAXVA`, let the range `[addr, addr+length)`
lie inside the region, and let `i` be the first slot of the process whose entry
encloses the range.  If the range punches a hole, `sys_munmap` returns -1 and
leaves the whole state as it was.  Otherwise, when `addr` is page-aligned,
each page of the range has a valid entry whose flags are not V alone, and the
file of the entry has a reference, `sys_munmap` returns 0; the whole region
leaves the entry cleared and slot `i` empty, a head leaves the entry with start
`S + length` and length `L - length`, a tail leaves it with start `S` and
length `addr - S`, with prot, flags, file and offset as before; the other
entries and slots are unchanged, and the entries of the pages of the range are
cleared in the page table. -/
theorem munmap_updates_entry (s : Sys) (i g addr length : Nat) (hi : i < 16)
    (hslot : s.p.vmaep i = some g)
    (hfirst : ∀ j g1, j < i → s.p.vmaep j = some g1 → ¬ munmap_encloses (s.vmae g1) addr length)
    (hin : (s.vmae g).start ≤ addr ∧ addr + length ≤ (s.vmae g).start + (s.vmae g).length)
    (hlim : (s.vmae g).start + (s.vmae g).length ≤ MAXVA) :
    ((s.vmae g).start < addr ∧ addr + length < (s.vmae g).start + (s.vmae g).length →
      sys_munmap s addr length = .ok (minusOne, s)) ∧
    (¬ ((s.vmae g).start < addr ∧ addr + length < (s.vmae g).start + (s.vmae g).length) →
      PtOK s.mem s.p.pagetable → addr % PGSIZE = 0 →
      (∀ k, k < PGROUNDUP length / PGSIZE → LeafOK s.mem s.p.pagetable (addr + k * PGSIZE)) →
      1 ≤ (s.file (s.vmae g).file_t).ref →
      ∃ s1, sys_munmap s addr length = .ok (0, s1) ∧
        (addr = (s.vmae g).start ∧ length = (s.vmae g).length →
          s1.vmae g = ⟨0, 0, 0, 0, 0, 0⟩ ∧ s1.p.vmaep i = none) ∧
        (addr = (s.vmae g).start ∧ length < (s.vmae g).length →
          s1.vmae g = { s.vmae g with
            start := (s.vmae g).start + length, length := (s.vmae g).length - length } ∧
          s1.p.vmaep = s.p.vmaep) ∧
        ((s.vmae g).start < addr ∧ addr + length = (s.vmae g).start + (s.vmae g).length →
          s1.vmae g = { s.vmae g with length := addr - (s.vmae g).start } ∧
          s1.p.vmaep = s.p.vmaep) ∧
        (∀ k, k ≠ g → s1.vmae k = s.vmae k) ∧ (∀ k, k ≠ i → s1.p.vmaep k = s.p.vmaep k) ∧
        (∀ vb, vb < MAXVA → leafPte s1.mem s.p.pagetable vb =
          if addr / PGSIZE ≤ vb / PGSIZE ∧ vb / PGSIZE < addr / PGSIZE + PGROUNDUP length / PGSIZE
          then 0 else leafPte s.mem s.p.pagetable vb)) := by
  have hM : MAXVA = 2 ^ 38 := rfl
  have hP : PGSIZE = 4096 := rfl
  have e1 : u64 (addr + length) = addr + length := by
    unfold u64
    omega
  have e2 : u64 ((s.vmae g).start + (s.vmae g).length) = (s.vmae g).start + (s.vmae g).length := by
    unfold u64
    omega
  constructor
  · intro hole
    unfold sys_munmap
    simp only []
    rw [find_range_first _ 16 i hi (by
      simp only [hslot, e1, e2, decide_eq_true_eq]
      exact hin) (by
      intro j hj
      cases hc : s.p.vmaep j with
      | none => simp only [hc]
      | some g1 =>
        simp only [hc, decide_eq_false_iff_not]
        exact hfirst j g1 hj hc)]
    simp only [hslot]
    rw [if_pos (by rw [e1, e2]; exact hole)]
  · intro hnh hp hal hgood href
    obtain ⟨n1, n2, n3⟩ := pgroundup_pages length (by omega)
    have hmaxn : addr + PGROUNDUP length / PGSIZE * PGSIZE ≤ MAXVA := by
      rw [hP] at n2 n3 hal ⊢
      omega
    have hlown : 0 < PGROUNDUP length / PGSIZE →
        addr + (PGROUNDUP length / PGSIZE - 1) * PGSIZE < addr + length := by
      intro hn
      rw [hP] at n2 n3 hn ⊢
      omega
    have hwb : ∃ sa, (if (s.vmae g).flags &&& MAP_SHARED ≠ 0 then
        munmap_writeback (length / PGSIZE + 2) s g addr addr (u64 (addr + length))
        else .ok s) = .ok sa ∧ sa.mem = s.mem ∧ sa.p = s.p ∧ sa.vmae = s.vmae ∧
        ∀ k, (sa.file k).ref = (s.file k).ref := by
      by_cases hs : (s.vmae g).flags &&& MAP_SHARED ≠ 0
      · rw [if_pos hs, e1]
        exact munmap_writeback_runs g addr (PGROUNDUP length / PGSIZE) s addr _ _ n1
          hmaxn (by omega) hp (fun k hk => hasPath_of_valid _ _ _ (hgood k hk).1)
      · rw [if_neg hs]
        exact ⟨s, rfl, rfl, rfl, rfl, fun _ => rfl⟩
    obtain ⟨sa, ha, a1, a2, a3, a4⟩ := hwb
    obtain ⟨s2, hb, b1, b2, b3, b4, b5, b6, b7⟩ := munmap_evict_spec sa i g addr length
      (by rw [a3]; exact hin) (by rw [a3]; exact hlim) (by rw [a3]; exact hnh)
      (by rw [a3, a4]; exact href)
    obtain ⟨m1, hc, _, c2⟩ := munmap_pages_runs s.p.pagetable (PGROUNDUP length / PGSIZE) s.mem addr
      (length / PGSIZE + 2) (addr + length) n1 hal hmaxn (by omega) hlown hp hgood
    refine ⟨{ s2 with mem := m1 }, ?_, ?_, ?_, ?_, ?_, ?_, c2⟩
    · unfold sys_munmap
      simp only []
      rw [find_range_first _ 16 i hi (by
      simp only [hslot, e1, e2, decide_eq_true_eq]
      exact hin) (by
      intro j hj
      cases hc : s.p.vmaep j with
      | none => simp only [hc]
      | some g1 =>
        simp only [hc, decide_eq_false_iff_not]
        exact hfirst j g1 hj hc)]
      simp only [hslot]
      rw [if_neg (by rw [e1, e2]; exact hnh), ha]
      simp only []
      rw [hb]
      simp only []
      rw [b1, b2, a1, a2, e1, hc]
    · rw [a3] at b3
      exact b3
    · rw [a3, a2] at b4
      exact b4
    · rw [a3, a2] at b5
      exact b5
    · rw [a3] at b6
      exact b6
    · rw [a2] at b7
      exact b7

theorem munmap_updates_entry_witness :
    (demoOwner.p.vmaep 0 = some 0 ∧
      ((demoOwner.vmae 0).start ≤ 0x1000 ∧
        0x1000 + 0x1000 ≤ (demoOwner.vmae 0).start + (demoOwner.vmae 0).length) ∧
      (demoOwner.vmae 0).start + (demoOwner.vmae 0).length ≤ MAXVA) ∧
    ∃ s1, sys_munmap demoOwner 0x1000 0x1000 = .ok (0, s1) ∧
      s1.vmae 0 = ⟨0, 0x1000, PROT_READ ||| PROT_WRITE, MAP_SHARED, 1, 0⟩ ∧
      s1.p.vmaep = demoOwner.p.vmaep ∧
      leafPte s1.mem 0x80010000 0x1000 = 0 ∧
      leafPte s1.mem 0x80010000 0 = leafPte demoMachine 0x80010000 0 :=
  ⟨⟨rfl, by decide, by decide⟩, by
    have hone : PGROUNDUP 0x1000 / PGSIZE = 1 := by decide
    obtain ⟨s1, h1, _, _, h4, _, _, h7⟩ :=
      (munmap_updates_entry demoOwner 0 0 0x1000 0x1000 (by decide) rfl
        (fun j _ hj => absurd hj (Nat.not_lt_zero j)) (by decide) (by decide)).2
        (by decide) demoMachine_ptOK (by decide)
        (fun k hk => by
          have e : k = 0 := by omega
          subst e
          unfold LeafOK
          decide) (by decide)
    refine ⟨s1, h1, (h4 (by decide)).1.trans rfl, (h4 (by decide)).2, ?_, ?_⟩
    · exact (h7 0x1000 (by decide)).trans (if_pos (by rw [hone]; decide))
    · exact (h7 0 (by decide)).trans (if_neg (by rw [hone]; decide))⟩

/-- The call `mappages` for one page whose entry exists and is not valid
installs the entry. -/
theorem mappages_at_path (m : Machine) (pt a pa perm : Nat) (ha : a < MAXVA)
    (hal : a % PGSIZE = 0) (hpath : HasPath m pt a) (hinv : leafPte m pt a &&& PTE_V = 0)
    (hp : PtOK m pt) :
    mappages m pt a PGSIZE pa perm =
      .ok (0, m.setPte (l0slot m pt a) (PA2PTE pa ||| perm ||| PTE_V)) := by
  rw [mappages_one m pt a pa perm ha hal, walk_level_path m pt a true hpath]
  simp only []
  rw [if_neg (l0_ne_zero m pt a hp hpath), ← leafPte_of_path m pt a hpath,
    if_neg (by rw [not_not]; exact hinv)]

theorem drop_cons_getD (l : List Nat) : ∀ (i x : Nat) (r : List Nat), l.drop i = x :: r →
    i < l.length ∧ l.getD i 0 = x ∧ l.drop (i + 1) = r := by
  induction l with
  | nil =>
    intro i x r h
    rw [List.drop_nil] at h
    cases h
  | cons y t ih =>
    intro i x r h
    cases i with
    | zero =>
      rw [List.drop_zero] at h
      injection h with e1 e2
      subst e1 e2
      exact ⟨Nat.succ_pos _, rfl, rfl⟩
    | succ i =>
      rw [List.drop_succ_cons] at h
      obtain ⟨a1, a2, a3⟩ := ih i x r h
      exact ⟨Nat.succ_lt_succ a1, a2, a3⟩

/-- One iteration of the allocation loop of `sys_mmap` at a page whose entry
exists and is not valid, after `kalloc` gave the frame `mem`. -/
theorem placed_step (perm : Nat) (m ms : Machine) (pt a0 i mem : Nat) (rest : List Nat)
    (hperm : perm < 1024) (hg : Placed perm m ms pt a0 i) (ha0 : a0 % PGSIZE = 0)
    (hlim : a0 + i * PGSIZE < MAXVA) (hpath : HasPath m pt (a0 + i * PGSIZE))
    (hun : leafPte m pt (a0 + i * PGSIZE) &&& PTE_V = 0)
    (hfl : ms.freelist = mem :: rest) :
    ∃ m2, mappages (({ ms with freelist := rest } : Machine).zeroPage mem) pt (a0 + i * PGSIZE)
        PGSIZE mem perm = .ok (0, m2) ∧ Placed perm m m2 pt a0 (i + 1) := by
  have hP : PGSIZE = 4096 := rfl
  have hmem : mem ∈ ms.freelist := by rw [hfl]; exact List.mem_cons_self _ _
  have hnd : (mem :: rest).Nodup := hfl ▸ hg.ok.nodup
  have hal := hg.ok.aligned mem hmem
  have hrs : rest <:+ ms.freelist := by rw [hfl]; exact List.suffix_cons mem rest
  obtain ⟨d1, d2, d3⟩ := drop_cons_getD m.freelist i mem rest (by rw [← hg.rest]; exact hfl)
  obtain ⟨p1, p2⟩ := allocOK_pop ms mem rest
    (fun a => if mem ≤ a ∧ a < mem + PGSIZE then 0 else ms.bytes a) hg.ok hg.clean hfl
  have hpe : (({ ms with freelist := rest } : Machine).zeroPage mem).ptes = ms.ptes := rfl
  have haa : (a0 + i * PGSIZE) % PGSIZE = 0 := by
    rw [Nat.add_mul_mod_self_right]
    exact ha0
  have hpg : ∀ k, (a0 + k * PGSIZE) / PGSIZE = a0 / PGSIZE + k := fun k => page_succ a0 k ha0
  have hinv : leafPte (({ ms with freelist := rest } : Machine).zeroPage mem) pt
      (a0 + i * PGSIZE) &&& PTE_V = 0 := by
    rw [leafPte_ptes ms _ pt _ hpe, hg.other _ hlim (Or.inr (by rw [hpg]))]
    exact hun
  have hpath1 : HasPath (({ ms with freelist := rest } : Machine).zeroPage mem) pt
      (a0 + i * PGSIZE) :=
    (hasPath_ptes ms _ pt _ hpe).2 ((hg.path _).2 hpath)
  have htree1 := ptOK_ptes ms _ pt hpe hg.tree
  have hroot1 : pt ∉ (({ ms with freelist := rest } : Machine).zeroPage mem).freelist :=
    fun c => hg.root (hrs.subset c)
  have e := mappages_at_path (({ ms with freelist := rest } : Machine).zeroPage mem) pt
    (a0 + i * PGSIZE) mem perm hlim haa hpath1 hinv htree1
  obtain ⟨r, m2, e2, q1, q2, q3, q4, q5, q6, q7, q8⟩ :=
    mappages_single (({ ms with freelist := rest } : Machine).zeroPage mem) pt (a0 + i * PGSIZE)
      mem perm p1 p2 htree1 hroot1 hlim haa hal.1 hal.2.1 (List.nodup_cons.mp hnd).1 hperm hinv
  rw [e] at e2
  simp only [Except.ok.injEq, Prod.mk.injEq] at e2
  obtain ⟨er, em⟩ := e2
  subst er
  refine ⟨_, e, ?_⟩
  rw [em]
  have hfree2 : m2.freelist = rest := by rw [← em]; rfl
  have hleaf : ∀ vb, vb < MAXVA → leafPte m2 pt vb =
      if vb / PGSIZE = (a0 + i * PGSIZE) / PGSIZE then PA2PTE mem ||| perm ||| PTE_V
      else leafPte ms pt vb := by
    rcases q8 with ⟨_, hl⟩ | ⟨hr, _⟩
    · intro vb hvb
      rw [hl vb hvb, leafPte_ptes ms _ pt _ hpe]
    · exact absurd hr (by decide)
  have hby : ∀ y, m2.bytes y = if mem ≤ y ∧ y < mem + PGSIZE then 0 else ms.bytes y := by
    intro y
    rw [q6]
    rfl
  have hpath2 : ∀ vb, HasPath m2 pt vb ↔ HasPath m pt vb := by
    intro vb
    rw [← em]
    exact ((ptOK_setLeaf _ pt (a0 + i * PGSIZE) _ htree1 hpath1).2.1 vb).trans
      ((hasPath_ptes ms _ pt vb hpe).trans (hg.path vb))
  refine ⟨q1, q2, q3, q4, hpath2, ?_, d1, q7.trans hg.refs, ?_, ?_, ?_⟩
  · rw [hfree2, d3]
  · intro vb hvb hout
    rw [hleaf vb hvb, if_neg (by rw [hpg]; omega)]
    exact hg.other vb hvb (by omega)
  · intro k hk
    by_cases hki : k < i
    · obtain ⟨g1, g2⟩ := hg.page k hki
      have hlt : a0 + k * PGSIZE < MAXVA :=
        lt_of_le_of_lt (Nat.add_le_add_left (mul_page_le k i (Nat.le_of_lt hki)) _) hlim
      rw [hleaf _ hlt, if_neg (by rw [hpg, hpg]; omega)]
      refine ⟨g1, ?_⟩
      intro x hx
      rw [hby]
      split
      · rfl
      · exact g2 x hx
    · have hki2 : k = i := by omega
      subst hki2
      rw [hleaf _ hlim, if_pos rfl, d2]
      refine ⟨rfl, ?_⟩
      intro x hx
      rw [hby, if_pos ⟨Nat.le_add_right _ _, Nat.add_lt_add_left hx _⟩]
  · intro b hb
    rw [hby, if_neg, hg.bytes b hb]
    intro hc
    refine hb ⟨mem, ?_, hc⟩
    have : ms.freelist <:+ m.freelist := by
      rw [hg.rest]
      exact List.drop_suffix i _
    exact this.subset hmem
theorem placed_refl (perm : Nat) (m : Machine) (pt a0 : Nat) (hok : AllocOK m) (hfc : FreeClean m)
    (hp : PtOK m pt) (hpt : pt ∉ m.freelist) : Placed perm m m pt a0 0 :=
  ⟨hok, hfc, hp, hpt, fun _ => Iff.rfl, rfl, Nat.zero_le _, rfl, fun _ _ _ => rfl,
    fun k hk => absurd hk (Nat.not_lt_zero k), fun _ _ => rfl⟩

/-- The allocation loop of `sys_mmap`, entered at the page `a0 + i * PGSIZE`
with `i` pages mapped, when it returns: the `n` pages are mapped. -/
theorem mmap_alloc_spec (perm : Nat) (m : Machine) (pt a0 n : Nat) (hperm : perm < 1024)
    (ha0 : a0 % PGSIZE = 0) (hmax : a0 + n * PGSIZE ≤ MAXVA)
    (hpages : ∀ k, k < n → HasPath m pt (a0 + k * PGSIZE) ∧
      leafPte m pt (a0 + k * PGSIZE) &&& PTE_V = 0) :
    ∀ (fuel i : Nat) (ms m1 : Machine), i ≤ n → Placed perm m ms pt a0 i →
    mmap_alloc fuel ms pt (a0 + i * PGSIZE) (a0 + n * PGSIZE) perm = .ok m1 →
    Placed perm m m1 pt a0 n := by
  have hP : PGSIZE = 4096 := rfl
  have hM : MAXVA = 2 ^ 38 := rfl
  intro fuel
  induction fuel with
  | zero =>
    intro i ms m1 _ _ h
    rw [mmap_alloc] at h
    cases h
  | succ fuel ih =>
    intro i ms m1 hin hg h
    rw [mmap_alloc] at h
    by_cases hlt : i < n
    · have hmul := mul_page_le (i + 1) n hlt
      rw [Nat.succ_mul] at hmul
      have hlim : a0 + i * PGSIZE < MAXVA := by
        rw [hP] at hmul hmax ⊢
        omega
      rw [if_pos (by rw [hP] at hmul ⊢; omega)] at h
      by_cases hnil : ms.freelist = []
      · have hk : kalloc ms = (0, ms) := by unfold kalloc; rw [hnil]
        rw [hk] at h
        simp only [if_true] at h
        cases h
      · obtain ⟨mem, rest, hfl⟩ := List.exists_cons_of_ne_nil hnil
        have hk : kalloc ms = (mem, { ms with freelist := rest }) := by unfold kalloc; rw [hfl]
        have hmem := hg.ok.aligned mem (by rw [hfl]; exact List.mem_cons_self _ _)
        rw [hk] at h
        simp only [if_neg hmem.2.2] at h
        obtain ⟨m2, e, hg2⟩ := placed_step perm m ms pt a0 i mem rest hperm hg ha0 hlim
          (hpages i hlt).1 (hpages i hlt).2 hfl
        rw [e] at h
        simp only [] at h
        have hu : u64 (a0 + i * PGSIZE + PGSIZE) = a0 + (i + 1) * PGSIZE := by
          rw [Nat.succ_mul]
          unfold u64
          rw [hP, hM] at hlim
          rw [hP]
          omega
        rw [hu] at h
        exact ih (i + 1) m2 m1 hlt hg2 h
    · have e : i = n := by omega
      subst e
      rw [if_neg (Nat.lt_irrefl _)] at h
      simp only [Except.ok.injEq] at h
      exact h ▸ hg

/-- The scan of `sys_mmap` for a valid entry, when it finds none: every page
from `j` up to `lim` has an entry, which is not valid. -/
theorem mmap_scan_none (m : Machine) (pt lim : Nat) :
    ∀ (fuel j : Nat), mmap_scan fuel m pt j lim = .ok none →
    ∀ k, j + k * PGSIZE < lim →
      j + k * PGSIZE < MAXVA ∧ HasPath m pt (j + k * PGSIZE) ∧
      leafPte m pt (j + k * PGSIZE) &&& PTE_V = 0 := by
  have hP : PGSIZE = 4096 := rfl
  have hM : MAXVA = 2 ^ 38 := rfl
  intro fuel
  induction fuel with
  | zero =>
    intro j h
    rw [mmap_scan] at h
    cases h
  | succ fuel ih =>
    intro j h k hk
    rw [mmap_scan] at h
    by_cases hlt : j < lim
    · rw [if_pos hlt] at h
      cases hw : walk m pt j false with
      | error e =>
        rw [hw] at h
        cases h
      | ok r =>
        obtain ⟨pte, mw⟩ := r
        rw [hw] at h
        simp only [] at h
        by_cases h0 : pte = 0
        · rw [if_pos h0] at h
          cases h
        · rw [if_neg h0] at h
          obtain ⟨hva, _, hmp⟩ := mapped_of_walk m mw pt j pte hw h0
          have hpath : HasPath m pt j := ⟨hmp.1, hmp.2.1⟩
          by_cases hv : m.ptes pte &&& PTE_V ≠ 0
          · rw [if_pos hv] at h
            cases h
          · rw [if_neg hv] at h
            have hu : u64 (j + PGSIZE) = j + PGSIZE := by
              unfold u64
              rw [hM] at hva
              rw [hP]
              omega
            rw [hu] at h
            cases k with
            | zero =>
              rw [Nat.zero_mul, Nat.add_zero]
              refine ⟨hva, hpath, ?_⟩
              rw [leafPte_of_path m pt j hpath, ← hmp.2.2]
              exact not_not.mp hv
            | succ k =>
              have e : j + (k + 1) * PGSIZE = j + PGSIZE + k * PGSIZE := by
                rw [Nat.succ_mul]
                omega
              rw [e] at hk ⊢
              exact ih (j + PGSIZE) h k hk
    · exfalso
      have := Nat.le_add_right j (k * PGSIZE)
      omega

/-- The scan of `sys_mmap` for a valid entry, when it finds one: the page is a
page from `j` on. -/
theorem mmap_scan_some (m : Machine) (pt lim : Nat) :
    ∀ (fuel j r : Nat), mmap_scan fuel m pt j lim = .ok (some r) → j % PGSIZE = 0 →
    j ≤ r ∧ r % PGSIZE = 0 := by
  have hP : PGSIZE = 4096 := rfl
  have hM : MAXVA = 2 ^ 38 := rfl
  intro fuel
  induction fuel with
  | zero =>
    intro j r h
    rw [mmap_scan] at h
    cases h
  | succ fuel ih =>
    intro j r h hj
    rw [mmap_scan] at h
    by_cases hlt : j < lim
    · rw [if_pos hlt] at h
      cases hw : walk m pt j false with
      | error e =>
        rw [hw] at h
        cases h
      | ok q =>
        obtain ⟨pte, mw⟩ := q
        rw [hw] at h
        simp only [] at h
        by_cases h0 : pte = 0
        · rw [if_pos h0] at h
          cases h
        · rw [if_neg h0] at h
          obtain ⟨hva, _, _⟩ := mapped_of_walk m mw pt j pte hw h0
          by_cases hv : m.ptes pte &&& PTE_V ≠ 0
          · rw [if_pos hv] at h
            simp only [Except.ok.injEq, Option.some.injEq] at h
            subst h
            exact ⟨Nat.le_refl _, hj⟩
          · rw [if_neg hv] at h
            have hu : u64 (j + PGSIZE) = j + PGSIZE := by
              unfold u64
              rw [hM] at hva
              rw [hP]
              omega
            rw [hu] at h
            obtain ⟨a1, a2⟩ := ih (j + PGSIZE) r h (by rw [hP] at hj ⊢; omega)
            exact ⟨by omega, a2⟩
    · rw [if_neg hlt] at h
      cases h

/-- The search loop of `sys_mmap`, when it breaks at `r`: `r` is a page from
`istart` on, and every page of `[r, r + len)` has an entry, which is not
valid. -/
theorem mmap_try_spec (m : Machine) (pt len : Nat) (hlen : len < 2 ^ 32) :
    ∀ (fuel istart r : Nat), mmap_try fuel m pt istart len = .ok (some r) →
    istart % PGSIZE = 0 →
    istart ≤ r ∧ r % PGSIZE = 0 ∧ r < MAXVA ∧
    ∀ k, k * PGSIZE < len →
      r + k * PGSIZE < MAXVA ∧ HasPath m pt (r + k * PGSIZE) ∧
      leafPte m pt (r + k * PGSIZE) &&& PTE_V = 0 := by
  have hP : PGSIZE = 4096 := rfl
  have hM : MAXVA = 2 ^ 38 := rfl
  intro fuel
  induction fuel with
  | zero =>
    intro istart r h
    rw [mmap_try] at h
    cases h
  | succ fuel ih =>
    intro istart r h hal
    rw [mmap_try] at h
    cases hw : walk m pt istart false with
    | error e =>
      rw [hw] at h
      cases h
    | ok q =>
      obtain ⟨pte, mw⟩ := q
      rw [hw] at h
      simp only [] at h
      by_cases h0 : pte = 0
      · rw [if_pos h0] at h
        cases h
      · rw [if_neg h0] at h
        obtain ⟨hva, _, _⟩ := mapped_of_walk m mw pt istart pte hw h0
        have hu1 : u64 (istart + len) = istart + len := by
          unfold u64
          rw [hM] at hva
          omega
        have hu2 : u64 (istart + PGSIZE) = istart + PGSIZE := by
          unfold u64
          rw [hM] at hva
          rw [hP]
          omega
        by_cases hv : m.ptes pte &&& PTE_V = 0
        · rw [if_pos hv, hu1] at h
          cases hs : mmap_scan (len / PGSIZE + 1) m pt istart (istart + len) with
          | error e =>
            rw [hs] at h
            cases h
          | ok o =>
            rw [hs] at h
            cases o with
            | none =>
              simp only [Except.ok.injEq, Option.some.injEq] at h
              subst h
              refine ⟨Nat.le_refl _, hal, hva, ?_⟩
              intro k hk
              exact mmap_scan_none m pt _ _ istart hs k (by omega)
            | some j =>
              simp only [] at h
              obtain ⟨b1, b2⟩ := mmap_scan_some m pt _ _ istart j hs hal
              obtain ⟨c1, c2⟩ := ih j r h b2
              exact ⟨by omega, c2⟩
        · rw [if_neg hv, hu2] at h
          by_cases hb : u64 (istart + PGSIZE + len) < KERNBASE
          · rw [if_pos hb] at h
            obtain ⟨c1, c2⟩ := ih (istart + PGSIZE) r h (by rw [hP] at hal ⊢; omega)
            exact ⟨by omega, c2⟩
          · rw [if_neg hb] at h
            cases h
theorem getD_inj (l : List Nat) (hn : l.Nodup) (i j : Nat) (hi : i < l.length) (hj : j < l.length)
    (h : l.getD i 0 = l.getD j 0) : i = j := by
  rw [List.getD_eq_getElem l 0 hi, List.getD_eq_getElem l 0 hj] at h
  exact (List.Nodup.getElem_inj_iff hn).1 h

theorem getD_mem (l : List Nat) (i : Nat) (hi : i < l.length) : l.getD i 0 ∈ l := by
  rw [List.getD_eq_getElem l 0 hi]
  exact List.getElem_mem hi

/-- The local `perm` of `sys_mmap` holds R, W and X as `prot` asks for them,
and never U. -/
theorem mmap_perm_facts (prot : Nat) :
    mmap_perm prot < 1024 ∧ (mmap_perm prot ||| PTE_V) &&& PTE_U = 0 ∧
    mmap_perm prot &&& PTE_U = 0 ∧
    (mmap_perm prot &&& PTE_R ≠ 0 ↔ prot &&& PROT_READ ≠ 0) ∧
    (mmap_perm prot &&& PTE_W ≠ 0 ↔ prot &&& PROT_WRITE ≠ 0) ∧
    (mmap_perm prot &&& PTE_X ≠ 0 ↔ prot &&& PROT_EXEC ≠ 0) := by
  unfold mmap_perm
  by_cases hx : prot &&& PROT_EXEC ≠ 0 <;> by_cases hw : prot &&& PROT_WRITE ≠ 0 <;>
    by_cases hr : prot &&& PROT_READ ≠ 0 <;>
    simp only [hx, hw, hr, if_true, if_false, not_true_eq_false, not_false_eq_true,
      iff_true, iff_false, ne_eq] <;> decide

/-- The part of `sys_mmap` after the pages are mapped, when it does not return
-1: it returns `start` and leaves memory and the page table alone. -/
theorem mmap_record_ok (s0 s1 : Sys) (start length prot flags f offset r : Nat)
    (h : mmap_record s0 start length prot flags f offset = .ok (r, s1)) (hr : r ≠ minusOne) :
    r = start ∧ s1.mem = s0.mem ∧ s1.p.pagetable = s0.p.pagetable := by
  have hclose : ∀ sx : Sys, mmap_fileclose sx f = .ok (r, s1) → False := by
    intro sx hc
    unfold mmap_fileclose at hc
    cases hf : fileclose sx f with
    | error e =>
      rw [hf] at hc
      cases hc
    | ok s2 =>
      rw [hf] at hc
      simp only [Except.ok.injEq, Prod.mk.injEq] at hc
      exact hr hc.1.symm
  unfold mmap_record at h
  simp only [] at h
  split at h
  · simp only [Except.ok.injEq, Prod.mk.injEq] at h
    exact absurd h.1.symm hr
  · split at h
    · exact absurd h (fun c => hclose _ c)
    · split at h
      · exact absurd h (fun c => hclose _ c)
      · split at h
        · exact absurd h (fun c => hclose _ c)
        · simp only [Except.ok.injEq, Prod.mk.injEq] at h
          obtain ⟨e1, e2⟩ := h
          subst e2
          exact ⟨e1.symm, rfl, rfl⟩

/-- A copy from or to a page whose entry lacks U returns -1 at once. -/
theorem copy_nouser (m : Machine) (pt va len : Nat) (dst src : Nat → Nat) (hp : PtOK m pt)
    (hlen : 0 < len) (hu : leafPte m pt va &&& PTE_U = 0) (hva : va < 2 ^ 64) :
    copyin m pt dst va len = .ok (-1, dst) ∧ copyout m pt va src len = .ok (-1, m) := by
  have hP : PGSIZE = 4096 := rfl
  have hno : ¬ UserOK m pt (PGROUNDDOWN va) := by
    intro hc
    apply hc.2.2
    rw [leafPte_page m pt (PGROUNDDOWN va) va (by
      rw [PGROUNDDOWN_eq va hva, hP]
      omega)]
    exact hu
  have hw := walkaddr_nouser m pt (PGROUNDDOWN va) hp hno
  constructor
  · unfold copyin
    rw [copyin_loop, if_pos hlen]
    simp only []
    rw [hw]
    simp only [if_true]
  · unfold copyout
    rw [copyout_loop, if_pos hlen]
    simp only []
    rw [hw]
    simp only [if_true]
/-- The search and the allocation of a call of `sys_mmap` that does not return
-1: the returned address is where the search has stopped, and the allocation
loop has mapped the pages of the region. -/
theorem mmap_success_placed (s s1 : Sys) (addr length prot flags fd offset start : Nat)
    (hok : AllocOK s.mem) (hfc : FreeClean s.mem) (hp : PtOK s.mem s.p.pagetable)
    (hpt : s.p.pagetable ∉ s.mem.freelist) (hlen : length + 4095 < 2 ^ 31)
    (h : sys_mmap s addr length prot flags fd offset = .ok (start, s1)) (hs : start ≠ minusOne) :
    start % PGSIZE = 0 ∧ PGROUNDUP addr ≤ start ∧ s1.p.pagetable = s.p.pagetable ∧
    start + PGROUNDUP length / PGSIZE * PGSIZE ≤ MAXVA ∧
    PGROUNDUP length / PGSIZE * PGSIZE = PGROUNDUP length ∧
    (∀ k, k < PGROUNDUP length / PGSIZE →
      leafPte s.mem s.p.pagetable (start + k * PGSIZE) &&& PTE_V = 0) ∧
    Placed (mmap_perm prot) s.mem s1.mem s.p.pagetable start (PGROUNDUP length / PGSIZE) := by
  have hP : PGSIZE = 4096 := rfl
  have hM : MAXVA = 2 ^ 38 := rfl
  have hup : PGROUNDUP length = (length + 4095) / PGSIZE * PGSIZE := PGROUNDUP_eq length (by omega)
  have hn : PGROUNDUP length / PGSIZE * PGSIZE = PGROUNDUP length := by
    rw [hup, Nat.mul_div_cancel _ (by decide)]
  have hl32 : PGROUNDUP length < 2 ^ 32 := by
    rw [hup, hP]
    omega
  have hal : PGROUNDUP addr % PGSIZE = 0 := by
    have e : PGROUNDUP addr = PGROUNDDOWN (u64 (addr + PGSIZE - 1)) := rfl
    rw [e]
    exact (PGROUNDDOWN_le _ (Nat.mod_lt _ (by decide))).2
  unfold sys_mmap at h
  simp only [] at h
  by_cases hf : s.p.ofile fd = 0
  · rw [if_pos hf] at h
    simp only [Except.ok.injEq, Prod.mk.injEq] at h
    exact absurd h.1.symm hs
  · rw [if_neg hf] at h
    by_cases hb : u64 (PGROUNDUP addr + PGROUNDUP length) < KERNBASE
    · rw [if_pos hb] at h
      cases hsearch : mmap_try (2 * (KERNBASE / PGSIZE) + 2) s.mem s.p.pagetable (PGROUNDUP addr)
          (PGROUNDUP length) with
      | error e =>
        rw [hsearch] at h
        cases h
      | ok o =>
        rw [hsearch] at h
        cases o with
        | none =>
          simp only [Except.ok.injEq, Prod.mk.injEq] at h
          exact absurd h.1.symm hs
        | some istart =>
          simp only [] at h
          obtain ⟨t1, t2, t3, t4⟩ := mmap_try_spec s.mem s.p.pagetable (PGROUNDUP length) hl32 _
            (PGROUNDUP addr) istart hsearch hal
          have hpages : ∀ k, k < PGROUNDUP length / PGSIZE →
              istart + k * PGSIZE < MAXVA ∧ HasPath s.mem s.p.pagetable (istart + k * PGSIZE) ∧
              leafPte s.mem s.p.pagetable (istart + k * PGSIZE) &&& PTE_V = 0 := by
            intro k hk
            apply t4 k
            have := mul_page_le (k + 1) _ hk
            rw [hn, Nat.succ_mul, hP] at this
            rw [hP]
            omega
          have hmax : istart + PGROUNDUP length / PGSIZE * PGSIZE ≤ MAXVA := by
            by_cases h0 : PGROUNDUP length / PGSIZE = 0
            · rw [h0, Nat.zero_mul]
              omega
            · have hlast := (hpages (PGROUNDUP length / PGSIZE - 1)
                (Nat.sub_lt (Nat.pos_of_ne_zero h0) Nat.one_pos)).1
              have hsm := Nat.succ_mul (PGROUNDUP length / PGSIZE - 1) PGSIZE
              rw [Nat.succ_eq_add_one, Nat.sub_add_cancel (Nat.pos_of_ne_zero h0)] at hsm
              have hmod : ((PGROUNDUP length / PGSIZE - 1) * PGSIZE) % 4096 = 0 :=
                Nat.mul_mod_left _ _
              rw [hsm]
              rw [hP, hM] at hlast ⊢
              rw [hP] at t2 hmod
              omega
          have hu : u64 (istart + PGROUNDUP length) = istart + PGROUNDUP length / PGSIZE * PGSIZE := by
            rw [hn]
            unfold u64
            rw [hM] at t3
            omega
          rw [hu] at h
          cases halloc : mmap_alloc (PGROUNDUP length / PGSIZE + 1) s.mem s.p.pagetable istart
              (istart + PGROUNDUP length / PGSIZE * PGSIZE) (mmap_perm prot) with
          | error e =>
            rw [halloc] at h
            cases h
          | ok m1 =>
            rw [halloc] at h
            simp only [] at h
            obtain ⟨r1, r2, r3⟩ := mmap_record_ok _ s1 istart length prot flags _ offset start h hs
            have hplaced := mmap_alloc_spec (mmap_perm prot) s.mem s.p.pagetable istart
              (PGROUNDUP length / PGSIZE) (mmap_perm_facts prot).1 t2 hmax
              (fun k hk => (hpages k hk).2) (PGROUNDUP length / PGSIZE + 1) 0 s.mem m1
              (Nat.zero_le _) (placed_refl _ s.mem s.p.pagetable istart hok hfc hp hpt)
              (by rw [Nat.zero_mul, Nat.add_zero]; exact halloc)
            subst r1
            refine ⟨t2, t1, ?_, hmax, hn, fun k hk => (hpages k hk).2.2, ?_⟩
            · rw [r3]
              split <;> rfl
            · rw [r2]
              exact hplaced
    · rw [if_neg hb] at h
      simp only [Except.ok.injEq, Prod.mk.injEq] at h
      exact absurd h.1.symm hs

/-- C25: let the allocator and the page table of the process be consistent
and `length` be an `int` with `length + 4095` in range.  After a call of
`sys_mmap` that returns `start` and not -1, `start` is page-aligned and at
least `PGROUNDUP(addr)`; the local `perm` holds R, W and X as `prot` has
`PROT_READ`, `PROT_WRITE` and `PROT_EXEC`, and never U; and every address
`va` of `[start, start + PGROUNDUP(length))` lies on a page whose entry was not
valid before the call and is now `PA2PTE(frame) | perm | V`, with flags
`perm | V`, for the frame that was at the place of the page in the allocator's
list, which is filled with zeros, and `copyin` from `va` and `copyout` to `va`
of a positive number of bytes return -1.  Two addresses of the region with the
same frame lie on the same page. -/
theorem mmap_success_maps (s s1 : Sys) (addr length prot flags fd offset start : Nat)
    (hok : AllocOK s.mem) (hfc : FreeClean s.mem) (hp : PtOK s.mem s.p.pagetable)
    (hpt : s.p.pagetable ∉ s.mem.freelist) (hlen : length + 4095 < 2 ^ 31)
    (h : sys_mmap s addr length prot flags fd offset = .ok (start, s1)) (hs : start ≠ minusOne) :
    start % PGSIZE = 0 ∧ PGROUNDUP addr ≤ start ∧ s1.p.pagetable = s.p.pagetable ∧
    (mmap_perm prot &&& PTE_U = 0 ∧
      (mmap_perm prot &&& PTE_R ≠ 0 ↔ prot &&& PROT_READ ≠ 0) ∧
      (mmap_perm prot &&& PTE_W ≠ 0 ↔ prot &&& PROT_WRITE ≠ 0) ∧
      (mmap_perm prot &&& PTE_X ≠ 0 ↔ prot &&& PROT_EXEC ≠ 0)) ∧
    (∀ va, start ≤ va → va < start + PGROUNDUP length →
      leafPte s.mem s.p.pagetable va &&& PTE_V = 0 ∧
      (va - start) / PGSIZE < s.mem.freelist.length ∧
      leafPte s1.mem s.p.pagetable va =
        PA2PTE (s.mem.freelist.getD ((va - start) / PGSIZE) 0) ||| mmap_perm prot ||| PTE_V ∧
      PTE_FLAGS (leafPte s1.mem s.p.pagetable va) = mmap_perm prot ||| PTE_V ∧
      PTE2PA (leafPte s1.mem s.p.pagetable va) = s.mem.freelist.getD ((va - start) / PGSIZE) 0 ∧
      (∀ x, x < PGSIZE → s1.mem.bytes (s.mem.freelist.getD ((va - start) / PGSIZE) 0 + x) = 0) ∧
      (∀ (len : Nat) (dst src : Nat → Nat), 0 < len →
        copyin s1.mem s1.p.pagetable dst va len = .ok (-1, dst) ∧
        copyout s1.mem s1.p.pagetable va src len = .ok (-1, s1.mem))) ∧
    (∀ va vb, start ≤ va → va < start + PGROUNDUP length → start ≤ vb →
      vb < start + PGROUNDUP length →
      PTE2PA (leafPte s1.mem s.p.pagetable va) = PTE2PA (leafPte s1.mem s.p.pagetable vb) →
      va / PGSIZE = vb / PGSIZE) := by
  have hP : PGSIZE = 4096 := rfl
  have hM : MAXVA = 2 ^ 38 := rfl
  obtain ⟨a1, a2, a3, a4, a5, a6, hg⟩ := mmap_success_placed s s1 addr length prot flags fd offset
    start hok hfc hp hpt hlen h hs
  obtain ⟨f1, f2, f3, f4, f5, f6⟩ := mmap_perm_facts prot
  have hpage : ∀ va, start ≤ va → va < start + PGROUNDUP length →
      (va - start) / PGSIZE < PGROUNDUP length / PGSIZE ∧ va < MAXVA ∧
      va / PGSIZE = (start + (va - start) / PGSIZE * PGSIZE) / PGSIZE := by
    intro va h1 h2
    rw [← a5] at h2
    rw [hP] at a1 a4 h2 ⊢
    rw [hM] at a4 ⊢
    omega
  have hfr : ∀ k, k < PGROUNDUP length / PGSIZE →
      (s.mem.freelist.getD k 0) % PGSIZE = 0 ∧ s.mem.freelist.getD k 0 < 2 ^ 64 := by
    intro k hk
    have := hok.aligned _ (getD_mem s.mem.freelist k (lt_of_lt_of_le hk hg.room))
    exact ⟨this.1, this.2.1⟩
  have hleaf : ∀ va, start ≤ va → va < start + PGROUNDUP length →
      leafPte s1.mem s.p.pagetable va =
        PA2PTE (s.mem.freelist.getD ((va - start) / PGSIZE) 0) ||| mmap_perm prot ||| PTE_V := by
    intro va h1 h2
    obtain ⟨b1, b2, b3⟩ := hpage va h1 h2
    rw [leafPte_page s1.mem s.p.pagetable va _ b3]
    exact (hg.page _ b1).1
  have hpa : ∀ va, start ≤ va → va < start + PGROUNDUP length →
      PTE2PA (leafPte s1.mem s.p.pagetable va) = s.mem.freelist.getD ((va - start) / PGSIZE) 0 := by
    intro va h1 h2
    obtain ⟨b1, b2, b3⟩ := hpage va h1 h2
    rw [hleaf va h1 h2, PTE2PA_leaf _ _ (hfr _ b1).1 (hfr _ b1).2 f1]
  refine ⟨a1, a2, a3, ⟨f3, f4, f5, f6⟩, ?_, ?_⟩
  · intro va h1 h2
    obtain ⟨b1, b2, b3⟩ := hpage va h1 h2
    have hflags : PTE_FLAGS (leafPte s1.mem s.p.pagetable va) = mmap_perm prot ||| PTE_V := by
      rw [hleaf va h1 h2, PTE_FLAGS_leaf _ _ f1]
    refine ⟨?_, lt_of_lt_of_le b1 hg.room, hleaf va h1 h2, hflags, hpa va h1 h2,
      (hg.page _ b1).2, ?_⟩
    · rw [leafPte_page s.mem s.p.pagetable va _ b3]
      exact a6 _ b1
    · intro len dst src hl
      rw [a3]
      refine copy_nouser s1.mem s.p.pagetable va len dst src hg.tree hl ?_
        (by rw [hM] at b2; omega)
      by_contra hc
      have hb := (and_U _).1 hc
      rw [testBit_of_PTE_FLAGS _ 4 (by decide), hflags] at hb
      exact (and_U _).2 hb f2
  · intro va vb h1 h2 h3 h4 he
    obtain ⟨b1, b2, b3⟩ := hpage va h1 h2
    obtain ⟨c1, c2, c3⟩ := hpage vb h3 h4
    rw [hpa va h1 h2, hpa vb h3 h4] at he
    have := getD_inj s.mem.freelist hok.nodup _ _ (lt_of_lt_of_le b1 hg.room)
      (lt_of_lt_of_le c1 hg.room) he
    rw [b3, c3, this]
theorem mmap_success_maps_witness :
    (AllocOK demoSys.mem ∧ FreeClean demoSys.mem ∧ PtOK demoSys.mem demoSys.p.pagetable ∧
      demoSys.p.pagetable ∉ demoSys.mem.freelist ∧ 8192 + 4095 < 2 ^ 31 ∧
      sys_mmap demoSys 0 8192 (PROT_READ ||| PROT_WRITE) MAP_SHARED 3 0 =
        .ok (0x2000, demoShared) ∧ 0x2000 ≠ minusOne) ∧
    0x2000 % PGSIZE = 0 ∧ PGROUNDUP 0 ≤ 0x2000 ∧
    leafPte demoSys.mem demoSys.p.pagetable 0x3004 &&& PTE_V = 0 ∧
    leafPte demoShared.mem demoSys.p.pagetable 0x3004 =
      PA2PTE 0x80032000 ||| (PTE_W ||| PTE_R) ||| PTE_V ∧
    (∀ x, x < PGSIZE → demoShared.mem.bytes (0x80032000 + x) = 0) ∧
    copyin demoShared.mem demoShared.p.pagetable (fun _ => 7) 0x3004 2 = .ok (-1, fun _ => 7) ∧
    copyout demoShared.mem demoShared.p.pagetable 0x3004 (fun _ => 7) 2 =
      .ok (-1, demoShared.mem) := by
  have hcall : sys_mmap demoSys 0 8192 (PROT_READ ||| PROT_WRITE) MAP_SHARED 3 0 =
      .ok (0x2000, demoShared) := eq_ok_pair _ _ demoSys (by decide)
  have hroot : demoSys.p.pagetable ∉ demoSys.mem.freelist := by decide
  obtain ⟨w1, w2, _, _, w5, _⟩ := mmap_success_maps demoSys demoShared 0 8192
    (PROT_READ ||| PROT_WRITE) MAP_SHARED 3 0 0x2000 demoMachine_allocOK demoMachine_freeClean
    demoMachine_ptOK hroot (by decide) hcall (by decide)
  obtain ⟨v1, _, v3, _, _, v6, v7⟩ := w5 0x3004 (by decide) (by decide)
  exact ⟨⟨demoMachine_allocOK, demoMachine_freeClean, demoMachine_ptOK, hroot, by decide, hcall,
    by decide⟩, w1, w2, v1, v3, v6, v7 2 (fun _ => 7) (fun _ => 7) (by decide)⟩
theorem tab_ptes (m m1 : Machine) (r T : Nat) (h : m1.ptes = m.ptes) : Tab m1 r T ↔ Tab m r T := by
  unfold Tab l1table l0table HasPath l1slot
  rw [h]

/-- The shape of a world depends on the page-table words and on the
allocator only. -/
theorem shape_same (m m1 : Machine) (S : List Nat) (hs : Shape ⟨m, S⟩) (hp : m1.ptes = m.ptes)
    (hf : m1.freelist = m.freelist) : Shape ⟨m1, S⟩ := by
  have hfc : FreeClean m1 := by
    intro a ha
    rw [hp] at ha
    rw [hp, hf]
    exact hs.clean a ha
  refine ⟨⟨by rw [hf]; exact hs.ok.nodup, by rw [hf]; exact hs.ok.aligned,
    fun a ha _ => hfc a ha⟩, hfc, hs.nodup, hs.few, ?_, ?_, ?_⟩
  · intro r hr
    refine ⟨ptOK_ptes m m1 r hp (hs.tree r hr).1, ?_⟩
    show r ∉ m1.freelist
    rw [hf]
    exact (hs.tree r hr).2
  · intro r r1 hr hr1 hne T hT hT1
    exact hs.sep r r1 hr hr1 hne T ((tab_ptes m m1 r T hp).1 hT) ((tab_ptes m m1 r1 T hp).1 hT1)
  · intro r hr va vb hva hvb
    show leafPte m1 r va &&& PTE_V ≠ 0 → leafPte m1 r vb &&& PTE_V ≠ 0 →
      PTE2PA (leafPte m1 r va) = PTE2PA (leafPte m1 r vb) → va / PGSIZE = vb / PGSIZE
    rw [leafPte_ptes m m1 r va hp, leafPte_ptes m m1 r vb hp]
    exact hs.single r hr va vb hva hvb

theorem mappers_same (m m1 : Machine) (S : List Nat) (F : Nat) (hp : m1.ptes = m.ptes) :
    mappers ⟨m1, S⟩ F = mappers ⟨m, S⟩ F :=
  mappers_congr m m1 S F (fun r _ => maps_congr m m1 r F (fun vb => leafPte_ptes m m1 r vb hp))

/-- A valid entry of a page of an address space refers to a frame that the
allocator does not hold. -/
theorem leaf_not_free (m : Machine) (r va : Nat) (hfc : FreeClean m)
    (hv : leafPte m r va &&& PTE_V ≠ 0) : PTE2PA (leafPte m r va) ∉ m.freelist := by
  have hpath := hasPath_of_valid m r va hv
  rw [leafPte_of_path m r va hpath] at hv ⊢
  exact hfc _ hv

/-- The world after `uvmcreate` has taken the frame `f` for the root of a new
address space: the new address space maps nothing, and the others are as
before. -/
theorem create_step (idx : Nat → Nat) (w : World) (hs : Shape w) (hl : RefLaw idx w)
    (f : Nat) (rest : List Nat) (hfl : w.m.freelist = f :: rest) (hfew : w.spaces.length < 255) :
    Shape ⟨({ w.m with freelist := rest } : Machine).zeroTable f, f :: w.spaces⟩ ∧
    RefLaw idx ⟨({ w.m with freelist := rest } : Machine).zeroTable f, f :: w.spaces⟩ ∧
    (∀ vb, leafPte (({ w.m with freelist := rest } : Machine).zeroTable f) f vb = 0) ∧
    (∀ r, r ∈ w.spaces → ∀ vb,
      leafPte (({ w.m with freelist := rest } : Machine).zeroTable f) r vb = leafPte w.m r vb) := by
  have hfm : f ∈ w.m.freelist := by rw [hfl]; exact List.mem_cons_self _ _
  have hnd : (f :: rest).Nodup := hfl ▸ hs.ok.nodup
  have hsub : ∀ g, g ∈ rest → g ∈ w.m.freelist := fun g hg => by
    rw [hfl]
    exact List.mem_cons_of_mem _ hg
  have hfal := hs.ok.aligned f hfm
  generalize hm1 : ({ w.m with freelist := rest } : Machine).zeroTable f = m1
  have hpt : ∀ a, m1.ptes a = if f ≤ a ∧ a < f + PGSIZE then 0 else w.m.ptes a := by
    intro a
    rw [← hm1]
    rfl
  have hfr : m1.freelist = rest := by rw [← hm1]; rfl
  have href : m1.cow_ref = w.m.cow_ref := by rw [← hm1]; rfl
  have hno : ∀ vb, ¬ (m1.ptes (l2slot f vb) &&& PTE_V ≠ 0) := by
    intro vb
    rw [hpt, if_pos (show f ≤ l2slot f vb ∧ l2slot f vb < f + PGSIZE from in_page f _ (PX_lt 2 vb))]
    exact fun h => h (Nat.zero_and _)
  have hleaf : ∀ vb, leafPte m1 f vb = 0 := by
    intro vb
    unfold leafPte
    rw [if_neg (fun h => hno vb h.1)]
  have hnp : ∀ vb, ¬ HasPath m1 f vb := fun vb h => hno vb h.1
  have hpf : PtOK m1 f :=
    ⟨hfal.1, fun va h => absurd h (hno va), fun va h => absurd h (hnp va),
      fun va _ h _ => absurd h (hnp va), fun va _ h _ _ => absurd h (hno va),
      fun va _ h _ _ => absurd h (hnp va)⟩
  have htabf : ∀ T, Tab m1 f T → T = f := by
    rintro T (h | ⟨vb, hv, _⟩ | ⟨vb, hv, _⟩)
    · exact h
    · exact absurd hv (hno vb)
    · exact absurd hv (hnp vb)
  have hkeep : ∀ r, r ∈ w.spaces →
      PtOK m1 r ∧ (∀ vb, leafPte m1 r vb = leafPte w.m r vb) ∧
      (∀ T, Tab m1 r T ↔ Tab w.m r T) := by
    intro r hr
    obtain ⟨hpr, hrf⟩ := hs.tree r hr
    apply tree_congr w.m m1 r hpr
    intro T hT a ha
    rw [hpt, if_neg]
    apply page_disjoint T f a (tab_aligned w.m r T hpr hT) hfal.1 _ ha
    intro e
    exact tab_not_free w.m r T hs.clean hrf hT (e ▸ hfm)
  have hfc : FreeClean m1 := by
    intro a ha
    rw [hpt] at ha ⊢
    by_cases e : f ≤ a ∧ a < f + PGSIZE
    · rw [if_pos e] at ha
      exact absurd (Nat.zero_and _) ha
    · rw [if_neg e] at ha ⊢
      rw [hfr]
      exact fun h => hs.clean a ha (hsub _ h)
  have hfs : f ∉ w.spaces := fun h => (hs.tree f h).2 hfm
  refine ⟨⟨⟨by rw [hfr]; exact (List.nodup_cons.mp hnd).2,
      fun g hg => hs.ok.aligned g (hsub g (hfr ▸ hg)), fun a ha _ => hfc a ha⟩, hfc,
      List.nodup_cons.mpr ⟨hfs, hs.nodup⟩, ?_, ?_, ?_, ?_⟩, ?_, hleaf,
    fun r hr => (hkeep r hr).2.1⟩
  · show (f :: w.spaces).length ≤ 255
    rw [List.length_cons]
    omega
  · intro r hr
    show PtOK m1 r ∧ r ∉ m1.freelist
    rw [hfr]
    rcases List.mem_cons.mp hr with e | hr1
    · subst e
      exact ⟨hpf, (List.nodup_cons.mp hnd).1⟩
    · exact ⟨(hkeep r hr1).1, fun h => (hs.tree r hr1).2 (hsub _ h)⟩
  · intro r r1 hr hr1 hne T hT hT1
    have hT : Tab m1 r T := hT
    have hT1 : Tab m1 r1 T := hT1
    rcases List.mem_cons.mp hr with e | hra
    · subst e
      rcases List.mem_cons.mp hr1 with e1 | hrb
      · exact hne e1.symm
      · have := htabf T hT
        subst this
        exact tab_not_free w.m r1 T hs.clean (hs.tree r1 hrb).2 (((hkeep r1 hrb).2.2 T).1 hT1) hfm
    · rcases List.mem_cons.mp hr1 with e1 | hrb
      · subst e1
        have := htabf T hT1
        subst this
        exact tab_not_free w.m r T hs.clean (hs.tree r hra).2 (((hkeep r hra).2.2 T).1 hT) hfm
      · exact hs.sep r r1 hra hrb hne T (((hkeep r hra).2.2 T).1 hT) (((hkeep r1 hrb).2.2 T).1 hT1)
  · intro r hr va vb hva hvb
    show leafPte m1 r va &&& PTE_V ≠ 0 → leafPte m1 r vb &&& PTE_V ≠ 0 →
      PTE2PA (leafPte m1 r va) = PTE2PA (leafPte m1 r vb) → va / PGSIZE = vb / PGSIZE
    rcases List.mem_cons.mp hr with e | hr1
    · subst e
      rw [hleaf va]
      exact fun h => absurd (Nat.zero_and _) h
    · rw [(hkeep r hr1).2.1 va, (hkeep r hr1).2.1 vb]
      exact hs.single r hr1 va vb hva hvb
  · intro F hF
    have hmf : ¬ Maps m1 f F := by
      rintro ⟨va, _, hv, _⟩
      rw [hleaf va] at hv
      exact hv (Nat.zero_and _)
    have e1 : mappers ⟨m1, f :: w.spaces⟩ F = mappers w F := by
      rw [mappers_cons m1 w.spaces F f hmf]
      exact mappers_congr w.m m1 w.spaces F
        (fun r hr => maps_congr w.m m1 r F (hkeep r hr).2.1)
    show m1.cow_ref (idx F) = mappers ⟨m1, f :: w.spaces⟩ F ∨
      (m1.cow_ref (idx F) = 0 ∧ mappers ⟨m1, f :: w.spaces⟩ F ≤ 1)
    rw [e1, href]
    exact hl F hF

theorem maps_of_leaves (m m1 : Machine) (r F : Nat)
    (h : ∀ vb, vb < MAXVA → (leafPte m1 r vb &&& PTE_V ≠ 0 ↔ leafPte m r vb &&& PTE_V ≠ 0) ∧
      PTE2PA (leafPte m1 r vb) = PTE2PA (leafPte m r vb)) :
    Maps m1 r F ↔ Maps m r F := by
  unfold Maps
  constructor
  · rintro ⟨va, hva, hv, hF⟩
    exact ⟨va, hva, (h va hva).1.1 hv, by rw [← (h va hva).2]; exact hF⟩
  · rintro ⟨va, hva, hv, hF⟩
    exact ⟨va, hva, (h va hva).1.2 hv, by rw [(h va hva).2]; exact hF⟩

theorem cow_share_law (ref n len : Nat) (hn : 1 ≤ n) (hroom : n + 1 ≤ len) (hlen : len ≤ 255)
    (h : ref = n ∨ (ref = 0 ∧ n ≤ 1)) : cow_share ref = n + 1 := by
  unfold cow_share
  rcases h with h | ⟨h0, h1⟩
  · subst h
    simp only [if_neg (show ¬ ref = 0 by omega)]
    omega
  · subst h0
    have : n = 1 := by omega
    subst this
    rfl

/-- One iteration of the loop of `uvmcopy` for the page number `k`, seen in
the world of all address spaces. -/
theorem fork_page (idx : Nat → Nat)
    (hinj : ∀ F G, F % PGSIZE = 0 → G % PGSIZE = 0 → idx F = idx G → F = G)
    (S : List Nat) (m : Machine) (parent child k : Nat) (hs : Shape ⟨m, S⟩)
    (hl : RefLaw idx ⟨m, S⟩) (hmir : Mirror m parent child k) (hp : parent ∈ S) (hc : child ∈ S)
    (hne : parent ≠ child) (hk : k * PGSIZE < MAXVA)
    (hv : leafPte m parent (k * PGSIZE) &&& PTE_V ≠ 0) (m3 : Machine)
    (hmap : mappages ((m.setPte (l0slot m parent (k * PGSIZE))
        (uvmcopy_pte (leafPte m parent (k * PGSIZE)))).setRef
          (idx (PTE2PA (leafPte m parent (k * PGSIZE))))
          (cow_share (m.cow_ref (idx (PTE2PA (leafPte m parent (k * PGSIZE)))))))
      child (k * PGSIZE) PGSIZE (PTE2PA (leafPte m parent (k * PGSIZE)))
      (uvmcopy_flags (PTE_FLAGS (leafPte m parent (k * PGSIZE)))) = .ok (0, m3)) :
    Shape ⟨m3, S⟩ ∧ RefLaw idx ⟨m3, S⟩ ∧ Mirror m3 parent child (k + 1) := by
  have hP : PGSIZE = 4096 := rfl
  have hpath := hasPath_of_valid m parent _ hv
  have hpg : k * PGSIZE / PGSIZE = k := Nat.mul_div_cancel _ (by decide)
  have hal : k * PGSIZE % PGSIZE = 0 := Nat.mul_mod_left _ _
  generalize hleaf0 : leafPte m parent (k * PGSIZE) = leaf at hv hmap
  generalize hF0 : PTE2PA leaf = F at hmap
  have hFal : F % PGSIZE = 0 := hF0 ▸ PTE2PA_aligned leaf
  have hF64 : F < 2 ^ 64 := hF0 ▸ PTE2PA_lt leaf
  have hFfree : F ∉ m.freelist := by
    rw [← hF0, ← hleaf0]
    exact leaf_not_free m parent _ hs.clean (hleaf0 ▸ hv)
  have hsingleP := hs.single parent hp
  -- the parent's entry
  generalize hma : m.setPte (l0slot m parent (k * PGSIZE)) (uvmcopy_pte leaf) = ma at hmap
  obtain ⟨hsa, hleafPa, hotha⟩ := leaf_store ⟨m, S⟩ hs parent (k * PGSIZE) (uvmcopy_pte leaf) hp hk
    hpath ma (fun b => by rw [← hma]; rfl) (by rw [← hma]; exact List.suffix_refl _)
    (fun _ => by
      rw [PTE2PA_uvmcopy_pte, hF0, ← hma]
      exact hFfree)
    (fun _ vb hvb hvv he => by
      rw [PTE2PA_uvmcopy_pte, ← hleaf0] at he
      exact hsingleP vb (k * PGSIZE) hvb hk hvv (hleaf0 ▸ hv) he)
  generalize hmb : ma.setRef (idx F) (cow_share (m.cow_ref (idx F))) = mb at hmap
  have hpb : mb.ptes = ma.ptes := by rw [← hmb]; rfl
  have hfb : mb.freelist = m.freelist := by rw [← hmb, ← hma]; rfl
  have hsb : Shape ⟨mb, S⟩ := shape_same ma mb S hsa hpb (by rw [← hmb]; rfl)
  have hrefb : ∀ j, mb.cow_ref j = if j = idx F then cow_share (m.cow_ref (idx F))
      else m.cow_ref j := by
    intro j
    rw [← hmb, ← hma]
    rfl
  have hleafPb : ∀ vb, vb < MAXVA → leafPte mb parent vb =
      if vb / PGSIZE = k then uvmcopy_pte leaf else leafPte m parent vb := by
    intro vb hvb
    rw [leafPte_ptes ma mb parent vb hpb, hleafPa vb hvb, hpg]
  have hothb : ∀ r, r ∈ S → r ≠ parent → ∀ vb, leafPte mb r vb = leafPte m r vb := by
    intro r hr hrp vb
    rw [leafPte_ptes ma mb r vb hpb]
    exact hotha r hr hrp vb
  -- the child's entry
  have hinv : leafPte mb child (k * PGSIZE) &&& PTE_V = 0 := by
    rw [hothb child hc (Ne.symm hne)]
    by_contra hcv
    have := (hmir _ hk hcv).1
    rw [hpg] at this
    exact Nat.lt_irrefl _ this
  have hflags := uvmcopy_flags_lt (PTE_FLAGS leaf) (PTE_FLAGS_lt leaf)
  obtain ⟨hpcb, hcfb⟩ := hsb.tree child hc
  obtain ⟨r, m3x, e2, q1, q2, q3, q4, q5, q6, q7, q8⟩ :=
    mappages_single mb child (k * PGSIZE) F (uvmcopy_flags (PTE_FLAGS leaf)) hsb.ok hsb.clean hpcb
      hcfb hk hal hFal hF64 (by rw [hfb]; exact hFfree) hflags hinv
  rw [hmap] at e2
  simp only [Except.ok.injEq, Prod.mk.injEq] at e2
  obtain ⟨er, em⟩ := e2
  subst er em
  have hleafC : ∀ vb, vb < MAXVA → leafPte m3 child vb =
      if vb / PGSIZE = k then PA2PTE F ||| uvmcopy_flags (PTE_FLAGS leaf) ||| PTE_V
      else leafPte m child vb := by
    rcases q8 with ⟨_, hlf⟩ | ⟨hr, _⟩
    · intro vb hvb
      rw [hlf vb hvb, hpg, hothb child hc (Ne.symm hne)]
    · exact absurd hr (by decide)
  obtain ⟨hfp, htb⟩ := mappages_fp mb child (k * PGSIZE) F (uvmcopy_flags (PTE_FLAGS leaf))
    hsb.ok hsb.clean hpcb hcfb hk hal 0 m3 hmap
  have hnew : PTE2PA (PA2PTE F ||| uvmcopy_flags (PTE_FLAGS leaf) ||| PTE_V) = F :=
    PTE2PA_leaf F _ hFal hF64 hflags
  have hnewv := leaf_entry_valid F (uvmcopy_flags (PTE_FLAGS leaf))
  have hnoF : ∀ y, y < MAXVA → leafPte m child y &&& PTE_V ≠ 0 →
      PTE2PA (leafPte m child y) ≠ F := by
    intro y hy hyv he
    obtain ⟨g1, g2, g3⟩ := hmir y hy hyv
    rw [g3, ← hF0, ← hleaf0] at he
    have := hsingleP y (k * PGSIZE) hy hk g2 (hleaf0 ▸ hv) he
    rw [hpg] at this
    omega
  have hkeep := others_kept ⟨mb, S⟩ hsb child hc m3 hfp
  have hs3 : Shape ⟨m3, S⟩ := by
    apply shape_step ⟨mb, S⟩ hsb child hc m3 q1 q2 q3 (fun f hf => q5.subset hf) hfp htb
    intro x y hx hy
    rw [hleafC x hx, hleafC y hy]
    by_cases ex : x / PGSIZE = k
    · by_cases ey : y / PGSIZE = k
      · intro _ _ _
        rw [ex, ey]
      · rw [if_pos ex, if_neg ey, hnew]
        intro _ h2 h3
        exact absurd h3.symm (hnoF y hy h2)
    · by_cases ey : y / PGSIZE = k
      · rw [if_neg ex, if_pos ey, hnew]
        intro h1 _ h3
        exact absurd h3 (hnoF x hx h1)
      · rw [if_neg ex, if_neg ey]
        exact hs.single child hc x y hx hy
  have hleafP3 : ∀ vb, vb < MAXVA → leafPte m3 parent vb =
      if vb / PGSIZE = k then uvmcopy_pte leaf else leafPte m parent vb := by
    intro vb hvb
    rw [(hkeep parent hp hne).2.1 vb]
    exact hleafPb vb hvb
  have hmapsO : ∀ G r, r ∈ S → r ≠ child → (Maps m3 r G ↔ Maps m r G) := by
    intro G r hr hrc
    by_cases hrp : r = parent
    · subst hrp
      apply maps_of_leaves
      intro vb hvb
      rw [hleafP3 vb hvb]
      by_cases e : vb / PGSIZE = k
      · rw [if_pos e]
        have e2 : leafPte m r vb = leaf := by
          rw [← hleaf0]
          exact leafPte_page m r vb _ (by rw [e, hpg])
        rw [e2, PTE2PA_uvmcopy_pte]
        exact ⟨and_V_uvmcopy_pte leaf, rfl⟩
      · rw [if_neg e]
        exact ⟨Iff.rfl, rfl⟩
    · apply maps_congr
      intro vb
      rw [(hkeep r hr hrc).2.1 vb]
      exact hothb r hr hrp vb
  refine ⟨hs3, ?_, ?_⟩
  · intro G hG
    show m3.cow_ref (idx G) = mappers ⟨m3, S⟩ G ∨
      (m3.cow_ref (idx G) = 0 ∧ mappers ⟨m3, S⟩ G ≤ 1)
    rw [q7, hrefb]
    by_cases eG : G = F
    · subst eG
      rw [if_pos rfl]
      have hnot : ¬ Maps m child G := by
        rintro ⟨y, hy, hyv, he⟩
        exact hnoF y hy hyv he
      have hyes : Maps m3 child G := by
        refine ⟨k * PGSIZE, hk, ?_, ?_⟩
        · rw [hleafC _ hk, if_pos hpg]
          exact hnewv
        · rw [hleafC _ hk, if_pos hpg]
          exact hnew
      have hgain := mappers_gain m m3 S G child hs.nodup hc hnot hyes (hmapsO G)
      have hroom := mappers_room m S G child hc hnot
      have hpos := mappers_pos m S G parent hp
        ⟨k * PGSIZE, hk, by rw [hleaf0]; exact hv, by rw [hleaf0]; exact hF0⟩
      left
      rw [hgain]
      exact cow_share_law _ _ S.length hpos hroom hs.few (hl G hG)
    · rw [if_neg (fun e => eG (hinj G F hG hFal e))]
      have hsame : mappers ⟨m3, S⟩ G = mappers ⟨m, S⟩ G := by
        apply mappers_congr
        intro r hr
        by_cases hrc : r = child
        · subst hrc
          unfold Maps
          constructor
          · rintro ⟨y, hy, hyv, he⟩
            rw [hleafC y hy] at hyv he
            by_cases e : y / PGSIZE = k
            · rw [if_pos e, hnew] at he
              exact absurd he.symm eG
            · rw [if_neg e] at hyv he
              exact ⟨y, hy, hyv, he⟩
          · rintro ⟨y, hy, hyv, he⟩
            have e : ¬ y / PGSIZE = k := by
              have := (hmir y hy hyv).1
              omega
            exact ⟨y, hy, by rw [hleafC y hy, if_neg e]; exact hyv,
              by rw [hleafC y hy, if_neg e]; exact he⟩
        · exact hmapsO G r hr hrc
      rw [hsame]
      exact hl G hG
  · intro vb hvb hvv
    rw [hleafC vb hvb] at hvv ⊢
    rw [hleafP3 vb hvb]
    by_cases e : vb / PGSIZE = k
    · rw [if_pos e] at hvv ⊢
      rw [if_pos e, hnew, PTE2PA_uvmcopy_pte]
      exact ⟨by omega, (and_V_uvmcopy_pte leaf).2 hv, hF0.symm⟩
    · rw [if_neg e] at hvv ⊢
      rw [if_neg e]
      obtain ⟨g1, g2, g3⟩ := hmir vb hvb hvv
      exact ⟨by omega, g2, g3⟩
/-- The loop of `uvmcopy`, entered at page number `k`, when it returns: the
world keeps its shape and the law of the reference counts. -/
theorem fork_loop (idx : Nat → Nat)
    (hinj : ∀ F G, F % PGSIZE = 0 → G % PGSIZE = 0 → idx F = idx G → F = G)
    (S : List Nat) (parent child sz : Nat) (hp : parent ∈ S) (hc : child ∈ S)
    (hne : parent ≠ child) :
    ∀ (fuel k : Nat) (m : Machine) (r : Int) (m1 : Machine), Shape ⟨m, S⟩ → RefLaw idx ⟨m, S⟩ →
    Mirror m parent child k →
    uvmcopy_loop idx fuel m parent child (k * PGSIZE) sz = .ok (r, m1) →
    Shape ⟨m1, S⟩ ∧ RefLaw idx ⟨m1, S⟩ := by
  have hP : PGSIZE = 4096 := rfl
  have hM : MAXVA = 2 ^ 38 := rfl
  intro fuel
  induction fuel with
  | zero =>
    intro k m r m1 _ _ _ h
    rw [uvmcopy_loop] at h
    cases h
  | succ fuel ih =>
    intro k m r m1 hs hl hmir h
    rw [uvmcopy_loop] at h
    by_cases hlt : k * PGSIZE < sz
    · rw [if_pos hlt] at h
      cases hw : walk m parent (k * PGSIZE) false with
      | error e =>
        rw [hw] at h
        cases h
      | ok q =>
        obtain ⟨pte, mw⟩ := q
        rw [hw] at h
        simp only [] at h
        by_cases h0 : pte = 0
        · rw [if_pos h0] at h
          cases h
        · rw [if_neg h0] at h
          obtain ⟨hva, _, hmp⟩ := mapped_of_walk m mw parent (k * PGSIZE) pte hw h0
          have hpath : HasPath m parent (k * PGSIZE) := ⟨hmp.1, hmp.2.1⟩
          have hpte : pte = l0slot m parent (k * PGSIZE) := hmp.2.2
          have hleaf : m.ptes pte = leafPte m parent (k * PGSIZE) := by
            rw [leafPte_of_path m parent _ hpath, hpte]
          rw [hleaf, hpte] at h
          by_cases hv : leafPte m parent (k * PGSIZE) &&& PTE_V = 0
          · rw [if_pos hv] at h
            cases h
          · rw [if_neg hv] at h
            cases hm : mappages ((m.setPte (l0slot m parent (k * PGSIZE))
                (uvmcopy_pte (leafPte m parent (k * PGSIZE)))).setRef
                  (idx (PTE2PA (leafPte m parent (k * PGSIZE))))
                  (cow_share (m.cow_ref (idx (PTE2PA (leafPte m parent (k * PGSIZE)))))))
                child (k * PGSIZE) PGSIZE (PTE2PA (leafPte m parent (k * PGSIZE)))
                (uvmcopy_flags (PTE_FLAGS (leafPte m parent (k * PGSIZE)))) with
            | error e =>
              have h' := h
              simp only [Machine.setPte, Machine.setRef] at h' hm
              rw [hm] at h'
              cases h'
            | ok q2 =>
              obtain ⟨r2, m3⟩ := q2
              have h' := h
              simp only [Machine.setPte, Machine.setRef] at h' hm
              rw [hm] at h'
              simp only [] at h'
              by_cases hr : r2 ≠ 0
              · rw [if_pos hr] at h'
                cases h'
              · rw [if_neg hr] at h'
                have hr0 : r2 = 0 := not_not.mp hr
                subst hr0
                have hu : u64 (k * PGSIZE + PGSIZE) = (k + 1) * PGSIZE := by
                  rw [Nat.succ_mul]
                  unfold u64
                  rw [hM] at hva
                  rw [hP] at hva ⊢
                  omega
                rw [hu] at h'
                obtain ⟨s3, l3, mir3⟩ := fork_page idx hinj S m parent child k hs hl hmir hp hc hne
                  hva hv m3 (by simp only [Machine.setPte, Machine.setRef]; exact hm)
                exact ih (k + 1) m3 r m1 s3 l3 mir3 h'
    · rw [if_neg hlt] at h
      simp only [Except.ok.injEq, Prod.mk.injEq] at h
      rw [← h.2]
      exact ⟨hs, hl⟩

/-- A fork that returns keeps the shape of the world and the law of the
reference counts. -/
theorem fork_keeps (idx : Nat → Nat)
    (hinj : ∀ F G, F % PGSIZE = 0 → G % PGSIZE = 0 → idx F = idx G → F = G)
    (w w1 : World) (parent sz : Nat) (hs : Shape w) (hl : RefLaw idx w)
    (hlegal : Legal w (.fork parent sz)) (h : cowStep idx w (.fork parent sz) = .ok w1) :
    Shape w1 ∧ RefLaw idx w1 := by
  obtain ⟨hp, hfew⟩ := hlegal
  unfold cowStep uvmcreate kalloc at h
  cases hfl : w.m.freelist with
  | nil =>
    rw [hfl] at h
    simp only [if_true] at h
    cases h
  | cons f rest =>
    rw [hfl] at h
    have hf0 : f ≠ 0 := (hs.ok.aligned f (by rw [hfl]; exact List.mem_cons_self _ _)).2.2
    simp only [if_neg hf0] at h
    obtain ⟨c1, c2, c3, c4⟩ := create_step idx w hs hl f rest hfl hfew
    have hfs : f ∉ w.spaces :=
      fun hc => (hs.tree f hc).2 (by rw [hfl]; exact List.mem_cons_self _ _)
    cases hcopy : uvmcopy idx (({ w.m with freelist := rest } : Machine).zeroTable f) parent f sz with
    | error e =>
      rw [hcopy] at h
      cases h
    | ok q =>
      obtain ⟨r, m2⟩ := q
      rw [hcopy] at h
      simp only [Except.ok.injEq] at h
      subst h
      unfold uvmcopy at hcopy
      have hmir : Mirror (({ w.m with freelist := rest } : Machine).zeroTable f) parent f 0 := by
        intro vb _ hv
        rw [c3 vb] at hv
        exact absurd (Nat.zero_and _) hv
      exact fork_loop idx hinj (f :: w.spaces) parent f sz (List.mem_cons_of_mem _ hp)
        (List.mem_cons_self _ _) (fun e => hfs (e ▸ hp)) _ 0 _ r m2 c1 c2 hmir
        (by rw [Nat.zero_mul]; exact hcopy)
theorem uncow_entry_facts (x : Nat) :
    ((x ||| uvmuncow_flags x) &&& not64 (PTE_COW_R ||| PTE_COW_W)) &&& PTE_V ≠ 0 ∧
    PTE2PA ((x ||| uvmuncow_flags x) &&& not64 (PTE_COW_R ||| PTE_COW_W)) = PTE2PA x := by
  constructor
  · rw [and_V, testBit_uncow_entry, testBit_uvmuncow_flags]
    simp
  · apply PTE2PA_congr
    intro i h10 h62
    rw [testBit_uncow_entry, testBit_uvmuncow_flags]
    have e0 : ¬ i = 0 := by omega
    have e1 : ¬ i = 1 := by omega
    have e2 : ¬ i = 2 := by omega
    have e3 : ¬ i = 3 := by omega
    have e4 : ¬ i = 4 := by omega
    have e8 : ¬ i = 8 := by omega
    have e9 : ¬ i = 9 := by omega
    have e64 : i < 64 := by omega
    simp [e0, e1, e2, e3, e4, e8, e9, e64]

theorem flags_ne_V_of_COW (x : Nat) (h : x &&& (PTE_COW_R ||| PTE_COW_W) ≠ 0) :
    PTE_FLAGS x ≠ PTE_V := by
  intro he
  rcases (and_or_ne_zero x PTE_COW_R PTE_COW_W).1 h with h8 | h9
  · have := congrArg (fun n => Nat.testBit n 8) he
    simp only [testBit_PTE_FLAGS, testBit_V] at this
    rw [(and_COW_R x).mp h8] at this
    simp at this
  · have := congrArg (fun n => Nat.testBit n 9) he
    simp only [testBit_PTE_FLAGS, testBit_V] at this
    rw [(and_COW_W x).mp h9] at this
    simp at this

/-- The branch of `uvmuncow` for a frame with at least two references, for an
entry with U or with a COW mark. -/
theorem uvmuncow_copy_any (idx : Nat → Nat) (m : Machine) (pagetable va p_sz a mem : Nat)
    (rest : List Nat) (hsz : va < p_sz) (hva : va < MAXVA) (hm : Mapped m pagetable va a)
    (ha : a ≠ 0) (hv : m.ptes a &&& PTE_V ≠ 0)
    (hu : ¬ (m.ptes a &&& PTE_U = 0 ∧ m.ptes a &&& (PTE_COW_R ||| PTE_COW_W) = 0))
    (h2 : a ≠ l2slot pagetable va) (h1 : a ≠ l1slot m pagetable va)
    (href : 2 ≤ m.cow_ref (idx (PTE2PA (m.ptes a))))
    (hfree : m.freelist = mem :: rest) (hmem : mem ≠ 0) :
    uvmuncow idx m pagetable va p_sz = .ok (0, uncowCopied idx m a mem rest) := by
  have h64 : va < 2 ^ 64 := by unfold MAXVA at hva; omega
  obtain ⟨gle, gal⟩ := PGROUNDDOWN_le va h64
  have gva : PGROUNDDOWN va < MAXVA := by omega
  have hlf : PTE_FLAGS (m.ptes a) ≠ PTE_V := by
    by_cases hU : m.ptes a &&& PTE_U = 0
    · exact flags_ne_V_of_COW _ (fun hc => hu ⟨hU, hc⟩)
    · exact flags_ne_V_of_U _ hU
  unfold uvmuncow
  rw [if_neg (by omega), walk_of_mapped m pagetable va a hva hm]
  simp only [if_neg ha]
  rw [if_neg (by omega), if_neg hu, if_pos href]
  have ek : kalloc m = (mem, { m with freelist := rest }) := by simp only [kalloc, hfree]
  rw [ek]
  simp only [if_neg hmem]
  have hm2 : Mapped ((({ m with freelist := rest } : Machine).setRef (idx (PTE2PA (m.ptes a)))
      ((m.cow_ref (idx (PTE2PA (m.ptes a))) + 255) % 256))) pagetable (PGROUNDDOWN va) a :=
    mapped_PGROUNDDOWN _ _ _ _ h64 hm
  rw [uvmunmap_one _ pagetable (PGROUNDDOWN va) a gva gal hm2 ha hv hlf]
  simp only
  have hm3 : Mapped (((({ m with freelist := rest } : Machine).setRef (idx (PTE2PA (m.ptes a)))
      ((m.cow_ref (idx (PTE2PA (m.ptes a))) + 255) % 256)).setPte a 0).memmove mem
        (PTE2PA (m.ptes a)) PGSIZE) pagetable (PGROUNDDOWN va) a := by
    apply mapped_PGROUNDDOWN _ _ _ _ h64
    exact (mapped_setPte m _ pagetable va a 0 hm h2 h1 rfl).1
  rw [mappages_existing _ pagetable (PGROUNDDOWN va) a mem _ gva gal hm3 ha
    (by simp only [Machine.memmove, Machine.setPte, if_true]; rfl)]
  rfl

theorem mappers_none (m : Machine) (S : List Nat) (F : Nat) (h : ∀ r, r ∈ S → ¬ Maps m r F) :
    mappers ⟨m, S⟩ F = 0 := by
  unfold mappers
  rw [List.countP_eq_zero]
  intro r hr
  simpa using h r hr

/-- The world after `uvmuncow` has given the page of `va` in the address
space `root` a private copy of its frame. -/
theorem fault_copy (idx : Nat → Nat)
    (hinj : ∀ F G, F % PGSIZE = 0 → G % PGSIZE = 0 → idx F = idx G → F = G)
    (w : World) (hs : Shape w) (hl : RefLaw idx w) (root va mem : Nat) (rest : List Nat)
    (hroot : root ∈ w.spaces) (hva : va < MAXVA) (hv : leafPte w.m root va &&& PTE_V ≠ 0)
    (href : 2 ≤ w.m.cow_ref (idx (PTE2PA (leafPte w.m root va))))
    (hfl : w.m.freelist = mem :: rest) (m1 : Machine)
    (hpt : ∀ b, m1.ptes b = if b = l0slot w.m root va then
      PA2PTE mem ||| uvmuncow_flags (leafPte w.m root va) ||| PTE_V else w.m.ptes b)
    (hfr : m1.freelist = rest)
    (hcr : ∀ j, m1.cow_ref j = if j = idx (PTE2PA (leafPte w.m root va)) then
      (w.m.cow_ref (idx (PTE2PA (leafPte w.m root va))) + 255) % 256 else w.m.cow_ref j) :
    Shape ⟨m1, w.spaces⟩ ∧ RefLaw idx ⟨m1, w.spaces⟩ := by
  have hpath := hasPath_of_valid w.m root va hv
  have hmemf : mem ∈ w.m.freelist := by rw [hfl]; exact List.mem_cons_self _ _
  have hnd : (mem :: rest).Nodup := hfl ▸ hs.ok.nodup
  obtain ⟨hmal, hm64, _⟩ := hs.ok.aligned mem hmemf
  have hfl1 := uvmuncow_flags_lt (leafPte w.m root va)
  generalize hF0 : PTE2PA (leafPte w.m root va) = F at href hcr
  have hFal : F % PGSIZE = 0 := hF0 ▸ PTE2PA_aligned _
  have hFfree : F ∉ w.m.freelist := hF0 ▸ leaf_not_free w.m root va hs.clean hv
  have hFmem : mem ≠ F := fun e => hFfree (e ▸ hmemf)
  have hnew : PTE2PA (PA2PTE mem ||| uvmuncow_flags (leafPte w.m root va) ||| PTE_V) = mem :=
    PTE2PA_leaf mem _ hmal hm64 hfl1
  have hnewv := leaf_entry_valid mem (uvmuncow_flags (leafPte w.m root va))
  have hnomem : ∀ r vb, leafPte w.m r vb &&& PTE_V ≠ 0 → PTE2PA (leafPte w.m r vb) ≠ mem :=
    fun r vb hvv e => leaf_not_free w.m r vb hs.clean hvv (e ▸ hmemf)
  obtain ⟨hs1, hleaf, hoth⟩ := leaf_store w hs root va _ hroot hva hpath m1 hpt
    (by rw [hfr, hfl]; exact List.suffix_cons mem rest)
    (fun _ => by rw [hnew, hfr]; exact (List.nodup_cons.mp hnd).1)
    (fun _ vb _ hvv e => absurd (e.trans hnew) (hnomem root vb hvv))
  refine ⟨hs1, ?_⟩
  have hmapsO : ∀ G r, r ∈ w.spaces → r ≠ root → (Maps m1 r G ↔ Maps w.m r G) :=
    fun G r hr hne => maps_congr w.m m1 r G (hoth r hr hne)
  have hsingle := hs.single root hroot
  intro G hG
  show m1.cow_ref (idx G) = mappers ⟨m1, w.spaces⟩ G ∨
    (m1.cow_ref (idx G) = 0 ∧ mappers ⟨m1, w.spaces⟩ G ≤ 1)
  rw [hcr]
  by_cases eF : G = F
  · subst eF
    rw [if_pos rfl]
    have hnot : ¬ Maps m1 root G := by
      rintro ⟨y, hy, hyv, he⟩
      rw [hleaf y hy] at hyv he
      by_cases e : y / PGSIZE = va / PGSIZE
      · rw [if_pos e, hnew] at he
        exact hFmem he
      · rw [if_neg e] at hyv he
        exact e (hsingle y va hy hva hyv hv (he.trans hF0.symm))
    have hgain := mappers_gain m1 w.m w.spaces G root hs.nodup hroot hnot ⟨va, hva, hv, hF0⟩
      (fun r hr hne => (hmapsO G r hr hne).symm)
    have hle := mappers_le w.m w.spaces G
    have hfew := hs.few
    have hw : mappers ⟨w.m, w.spaces⟩ G = mappers w G := rfl
    rcases hl G hG with h | ⟨h, _⟩
    · left
      rw [hw] at hgain hle
      omega
    · omega
  · rw [if_neg (fun e => eF (hinj G F hG hFal e))]
    by_cases eM : G = mem
    · subst eM
      have hzero : mappers w G = 0 :=
        mappers_none w.m w.spaces G (fun r _ ⟨vb, _, hvv, e⟩ => hnomem r vb hvv e)
      have hyes : Maps m1 root G :=
        ⟨va, hva, by rw [hleaf va hva, if_pos rfl]; exact hnewv,
          by rw [hleaf va hva, if_pos rfl]; exact hnew⟩
      have hgain := mappers_gain w.m m1 w.spaces G root hs.nodup hroot
        (fun ⟨vb, _, hvv, e⟩ => hnomem root vb hvv e) hyes (hmapsO G)
      have hw : mappers ⟨w.m, w.spaces⟩ G = mappers w G := rfl
      right
      rw [hw, hzero] at hgain
      rcases hl G hG with h | ⟨h, _⟩
      · exact ⟨by omega, by omega⟩
      · exact ⟨h, by omega⟩
    · have hsame : mappers ⟨m1, w.spaces⟩ G = mappers w G := by
        apply mappers_congr
        intro r hr
        by_cases hrr : r = root
        · subst hrr
          unfold Maps
          constructor
          · rintro ⟨y, hy, hyv, he⟩
            rw [hleaf y hy] at hyv he
            by_cases e : y / PGSIZE = va / PGSIZE
            · rw [if_pos e, hnew] at he
              exact absurd he.symm eM
            · rw [if_neg e] at hyv he
              exact ⟨y, hy, hyv, he⟩
          · rintro ⟨y, hy, hyv, he⟩
            have e : ¬ y / PGSIZE = va / PGSIZE := by
              intro e
              apply eF
              rw [← he, ← hF0, leafPte_page w.m r y va e]
            exact ⟨y, hy, by rw [hleaf y hy, if_neg e]; exact hyv,
              by rw [hleaf y hy, if_neg e]; exact he⟩
        · exact hmapsO G r hr hrr
      rw [hsame]
      exact hl G hG

/-- The world after `uvmuncow` has made the last reference to a frame
private. -/
theorem fault_last (idx : Nat → Nat)
    (hinj : ∀ F G, F % PGSIZE = 0 → G % PGSIZE = 0 → idx F = idx G → F = G)
    (w : World) (hs : Shape w) (hl : RefLaw idx w) (root va : Nat)
    (hroot : root ∈ w.spaces) (hva : va < MAXVA) (hv : leafPte w.m root va &&& PTE_V ≠ 0)
    (href : w.m.cow_ref (idx (PTE2PA (leafPte w.m root va))) = 1) :
    Shape ⟨(w.m.setRef (idx (PTE2PA (leafPte w.m root va))) 0).setPte (l0slot w.m root va)
      ((leafPte w.m root va ||| uvmuncow_flags (leafPte w.m root va)) &&&
        not64 (PTE_COW_R ||| PTE_COW_W)), w.spaces⟩ ∧
    RefLaw idx ⟨(w.m.setRef (idx (PTE2PA (leafPte w.m root va))) 0).setPte (l0slot w.m root va)
      ((leafPte w.m root va ||| uvmuncow_flags (leafPte w.m root va)) &&&
        not64 (PTE_COW_R ||| PTE_COW_W)), w.spaces⟩ := by
  have hpath := hasPath_of_valid w.m root va hv
  obtain ⟨hvv, hpa⟩ := uncow_entry_facts (leafPte w.m root va)
  generalize hm1 : (w.m.setRef (idx (PTE2PA (leafPte w.m root va))) 0).setPte (l0slot w.m root va)
      ((leafPte w.m root va ||| uvmuncow_flags (leafPte w.m root va)) &&&
        not64 (PTE_COW_R ||| PTE_COW_W)) = m1
  have hcr : ∀ j, m1.cow_ref j = if j = idx (PTE2PA (leafPte w.m root va)) then 0
      else w.m.cow_ref j := by
    intro j
    rw [← hm1]
    rfl
  have hsingle := hs.single root hroot
  obtain ⟨hs1, hleaf, hoth⟩ := leaf_store w hs root va _ hroot hva hpath m1
    (fun b => by rw [← hm1]; rfl) (by rw [← hm1]; exact List.suffix_refl _)
    (fun _ => by
      rw [hpa, ← hm1]
      exact leaf_not_free w.m root va hs.clean hv)
    (fun _ vb hvb hvv e => hsingle vb va hvb hva hvv hv (e.trans hpa))
  refine ⟨hs1, ?_⟩
  have hsame : ∀ G, mappers ⟨m1, w.spaces⟩ G = mappers w G := by
    intro G
    apply mappers_congr
    intro r hr
    by_cases hrr : r = root
    · subst hrr
      apply maps_of_leaves
      intro vb hvb
      rw [hleaf vb hvb]
      by_cases e : vb / PGSIZE = va / PGSIZE
      · rw [if_pos e, leafPte_page w.m r vb va e]
        exact ⟨⟨fun _ => hv, fun _ => hvv⟩, hpa⟩
      · rw [if_neg e]
        exact ⟨Iff.rfl, rfl⟩
    · exact maps_congr w.m m1 r G (hoth r hr hrr)
  intro G hG
  show m1.cow_ref (idx G) = mappers ⟨m1, w.spaces⟩ G ∨
    (m1.cow_ref (idx G) = 0 ∧ mappers ⟨m1, w.spaces⟩ G ≤ 1)
  rw [hcr, hsame]
  by_cases e : idx G = idx (PTE2PA (leafPte w.m root va))
  · rw [if_pos e]
    have eG := hinj G _ hG (PTE2PA_aligned _) e
    right
    refine ⟨rfl, ?_⟩
    rcases hl G hG with h | ⟨h, _⟩
    · rw [← h, eG, href]
    · rw [eG, href] at h
      cases h
  · rw [if_neg e]
    exact hl G hG
/-- The resolution of a fault that returns keeps the shape of the world and
the law of the reference counts. -/
theorem fault_keeps (idx : Nat → Nat)
    (hinj : ∀ F G, F % PGSIZE = 0 → G % PGSIZE = 0 → idx F = idx G → F = G)
    (w w1 : World) (root va sz : Nat) (hs : Shape w) (hl : RefLaw idx w)
    (hlegal : Legal w (.fault root va sz)) (h : cowStep idx w (.fault root va sz) = .ok w1) :
    Shape w1 ∧ RefLaw idx w1 := by
  obtain ⟨hroot, hv⟩ := hlegal
  obtain ⟨hp, _⟩ := hs.tree root hroot
  have hpath := hasPath_of_valid w.m root va hv
  have hsame : ∀ m1, m1 = w.m → Shape ⟨m1, w.spaces⟩ ∧ RefLaw idx ⟨m1, w.spaces⟩ := by
    intro m1 e
    subst e
    exact ⟨hs, hl⟩
  simp only [cowStep] at h
  cases hu : uvmuncow idx w.m root va sz with
  | error e =>
    rw [hu] at h
    cases h
  | ok q =>
    obtain ⟨r, m1⟩ := q
    rw [hu] at h
    simp only [Except.ok.injEq] at h
    subst h
    show Shape ⟨m1, w.spaces⟩ ∧ RefLaw idx ⟨m1, w.spaces⟩
    by_cases hsz : va ≥ sz
    · unfold uvmuncow at hu
      rw [if_pos hsz] at hu
      simp only [Except.ok.injEq, Prod.mk.injEq] at hu
      exact hsame m1 hu.2.symm
    · have hva : va < MAXVA := by
        by_contra hc
        unfold uvmuncow walk at hu
        rw [if_neg hsz, if_pos (by omega)] at hu
        cases hu
      have hu2 := hu
      unfold uvmuncow at hu2
      rw [if_neg hsz, walk_path w.m root va hva hpath] at hu2
      simp only [if_neg (l0_ne_zero w.m root va hp hpath)] at hu2
      rw [← leafPte_of_path w.m root va hpath] at hu2
      by_cases href0 : w.m.cow_ref (idx (PTE2PA (leafPte w.m root va))) = 0
      · rw [if_pos href0] at hu2
        cases hu2
      · rw [if_neg href0] at hu2
        by_cases hnot : leafPte w.m root va &&& PTE_U = 0 ∧
            leafPte w.m root va &&& (PTE_COW_R ||| PTE_COW_W) = 0
        · rw [if_pos hnot] at hu2
          simp only [Except.ok.injEq, Prod.mk.injEq] at hu2
          exact hsame m1 hu2.2.symm
        · rw [if_neg hnot] at hu2
          by_cases href2 : 2 ≤ w.m.cow_ref (idx (PTE2PA (leafPte w.m root va)))
          · rw [if_pos href2] at hu2
            cases hfl : w.m.freelist with
            | nil =>
              have hk : kalloc w.m = (0, w.m) := by unfold kalloc; rw [hfl]
              rw [hk] at hu2
              simp only [if_true, Except.ok.injEq, Prod.mk.injEq] at hu2
              exact hsame m1 hu2.2.symm
            | cons mem rest =>
              have hmem := (hs.ok.aligned mem (by rw [hfl]; exact List.mem_cons_self _ _)).2.2
              have hleaf := leafPte_of_path w.m root va hpath
              have heq := uvmuncow_copy_any idx w.m root va sz (l0slot w.m root va) mem rest
                (by omega) hva ⟨hpath.1, hpath.2, rfl⟩ (l0_ne_zero w.m root va hp hpath)
                (by rw [← hleaf]; exact hv) (by rw [← hleaf]; exact hnot)
                (l0_ne_l2 w.m root va va hp hpath) (l0_ne_l1 w.m root va va hp hpath hpath.1)
                (by rw [← hleaf]; exact href2) hfl hmem
              rw [heq] at hu
              simp only [Except.ok.injEq, Prod.mk.injEq] at hu
              obtain ⟨_, em⟩ := hu
              subst em
              apply fault_copy idx hinj w hs hl root va mem rest hroot hva hv href2 hfl
              · intro b
                rw [hleaf]
                simp only [uncowCopied, Machine.setPte, Machine.memmove, Machine.setRef]
                by_cases e : b = l0slot w.m root va
                · rw [if_pos e, if_pos e]
                · rw [if_neg e, if_neg e, if_neg e]
              · rfl
              · intro j
                rw [hleaf]
                rfl
          · rw [if_neg href2] at hu2
            have href1 : w.m.cow_ref (idx (PTE2PA (leafPte w.m root va))) = 1 := by omega
            have hu1 : leafPte w.m root va &&& PTE_U ≠ 0 ∨
                leafPte w.m root va &&& (PTE_COW_R ||| PTE_COW_W) ≠ 0 := by
              by_cases hU : leafPte w.m root va &&& PTE_U = 0
              · exact Or.inr (fun hc => hnot ⟨hU, hc⟩)
              · exact Or.inl hU
            have heq := uvmuncow_last_eq idx w.m root va sz hp (by omega) hva hv hu1 href1
            rw [heq] at hu
            simp only [Except.ok.injEq, Prod.mk.injEq] at hu
            obtain ⟨_, em⟩ := hu
            subst em
            exact fault_last idx hinj w hs hl root va hroot hva hv href1

/-- Every world reached by forks and faults has the shape of the first one
and obeys the law of the reference counts. -/
theorem reach_keeps (idx : Nat → Nat)
    (hinj : ∀ F G, F % PGSIZE = 0 → G % PGSIZE = 0 → idx F = idx G → F = G)
    (w0 w : World) (hs : Shape w0) (hl : RefLaw idx w0) (hr : Reach idx w0 w) :
    Shape w ∧ RefLaw idx w := by
  induction hr with
  | init => exact ⟨hs, hl⟩
  | step wa wb a _ hlegal hstep ih =>
    cases a with
    | fork parent sz => exact fork_keeps idx hinj wa wb parent sz ih.1 ih.2 hlegal hstep
    | fault root va sz => exact fault_keeps idx hinj wa wb root va sz ih.1 ih.2 hlegal hstep

theorem refLaw_private (idx : Nat → Nat) (w0 : World) (h0 : ∀ i, w0.m.cow_ref i = 0)
    (hpriv : ∀ F, F % PGSIZE = 0 → mappers w0 F ≤ 1) : RefLaw idx w0 :=
  fun F hF => Or.inr ⟨h0 _, hpriv F hF⟩

theorem demoIndex_inj (F G : Nat) (hF : F % PGSIZE = 0) (hG : G % PGSIZE = 0)
    (h : demoIndex F = demoIndex G) : F = G := by
  unfold demoIndex at h
  unfold PGSIZE at *
  omega

theorem demoMachine_pages (vb : Nat) (hvb : vb < MAXVA)
    (hv : leafPte demoMachine 0x80010000 vb &&& PTE_V ≠ 0) :
    (vb / PGSIZE = 0 ∧ PTE2PA (leafPte demoMachine 0x80010000 vb) = 0x80020000) ∨
    (vb / PGSIZE = 1 ∧ PTE2PA (leafPte demoMachine 0x80010000 vb) = 0x80021000) := by
  have hP : PGSIZE = 4096 := rfl
  have hlt : vb < 0x2000 := by
    by_contra hc
    exact hv (demoMachine_top vb hvb (by omega))
  by_cases h0 : vb / PGSIZE = 0
  · left
    refine ⟨h0, ?_⟩
    rw [leafPte_page demoMachine 0x80010000 vb 0 (by rw [h0]; rfl)]
    decide
  · right
    have h1 : vb / PGSIZE = 1 := by
      rw [hP] at h0 ⊢
      omega
    refine ⟨h1, ?_⟩
    rw [leafPte_page demoMachine 0x80010000 vb 0x1000 (by rw [h1]; rfl)]
    decide

theorem demoWorld_shape : Shape demoWorld := by
  have hpe : demoWorld.m.ptes = demoMachine.ptes := rfl
  have hfc : FreeClean demoWorld.m := by
    intro a hv
    rw [hpe] at hv ⊢
    rcases demoMachine_word a hv with h | h | h | h <;> subst h <;> decide
  have hroot : ∀ r, r ∈ demoWorld.spaces → r = 0x80010000 := by
    intro r hr
    exact List.mem_singleton.mp hr
  refine ⟨⟨by decide, by decide, fun a ha _ => hfc a ha⟩, hfc, by decide, by decide, ?_, ?_, ?_⟩
  · intro r hr
    rw [hroot r hr]
    exact ⟨ptOK_ptes demoMachine _ _ hpe demoMachine_ptOK, by decide⟩
  · intro r r1 hr hr1 hne
    exact absurd ((hroot r hr).trans (hroot r1 hr1).symm) hne
  · intro r hr va vb hva hvb
    rw [hroot r hr, leafPte_ptes demoMachine _ _ va hpe, leafPte_ptes demoMachine _ _ vb hpe]
    intro h1 h2 h3
    rcases demoMachine_pages va hva h1 with ⟨a1, a2⟩ | ⟨a1, a2⟩ <;>
      rcases demoMachine_pages vb hvb h2 with ⟨b1, b2⟩ | ⟨b1, b2⟩
    · rw [a1, b1]
    · rw [a2, b2] at h3
      exact absurd h3 (by decide)
    · rw [a2, b2] at h3
      exact absurd h3 (by decide)
    · rw [a1, b1]

theorem demoWorld_private :
    (∀ i, demoWorld.m.cow_ref i = 0) ∧ ∀ F, F % PGSIZE = 0 → mappers demoWorld F ≤ 1 :=
  ⟨fun _ => rfl, fun F _ => mappers_le demoWorld.m demoWorld.spaces F⟩

theorem demoWorld_reach :
    Reach demoIndex demoWorld demoWorldForked ∧ Reach demoIndex demoWorld demoWorldUncowed := by
  have h1 : Reach demoIndex demoWorld demoWorldForked :=
    Reach.step demoWorld demoWorldForked (.fork 0x80010000 0x2000) Reach.init
      ⟨by decide, by decide⟩ (eq_ok_state _ demoWorld (by decide))
  exact ⟨h1, Reach.step demoWorldForked demoWorldUncowed (.fault 0x80040000 0x1000 0x2000) h1
    ⟨by decide, by decide⟩ (eq_ok_state _ demoWorldForked (by decide))⟩

/-- C19 (counterexample): in `demoWorld` one address space holds two private
frames and every count is 0.  After a fork and the child's resolution of a
write fault at `0x1000`, which gives the child a copy of the frame
`0x80021000`, exactly one address space maps this frame, and its count is 1,
not 0. -/
theorem cow_single_mapper_refcount_counterexample :
    Shape demoWorld ∧ (∀ i, demoWorld.m.cow_ref i = 0) ∧
    (∀ F, F % PGSIZE = 0 → mappers demoWorld F ≤ 1) ∧
    Reach demoIndex demoWorld demoWorldUncowed ∧
    mappers demoWorldUncowed 0x80021000 = 1 ∧
    demoWorldUncowed.m.cow_ref (demoIndex 0x80021000) = 1 ∧
    ¬ (mappers demoWorldUncowed 0x80021000 ≥ 2) ∧
    ¬ (demoWorldUncowed.m.cow_ref (demoIndex 0x80021000) = 0) := by
  have hlaw := (reach_keeps demoIndex demoIndex_inj demoWorld demoWorldUncowed demoWorld_shape
    (refLaw_private demoIndex demoWorld demoWorld_private.1 demoWorld_private.2)
    demoWorld_reach.2).2 0x80021000 (by decide)
  have href : demoWorldUncowed.m.cow_ref (demoIndex 0x80021000) = 1 := by decide
  have hone : mappers demoWorldUncowed 0x80021000 = 1 := by
    rcases hlaw with h | ⟨h, _⟩
    · rw [← h, href]
    · rw [href] at h
      cases h
  exact ⟨demoWorld_shape, demoWorld_private.1, demoWorld_private.2, demoWorld_reach.2, hone, href,
    by rw [hone]; decide, by rw [href]; decide⟩

/-- C19 (amended): let `COWREFINDEX` tell page-aligned frames apart, and let a
world of address spaces with tree-shaped page tables that share no
page-table page, none of which maps a frame at two pages, start with every
count 0 and no frame mapped by two address spaces.  In every world reached
from it by forks (`uvmcreate` and `uvmcopy` from one of the address spaces,
while fewer than 255 exist) and by calls of `uvmuncow` at a page with a valid
entry in one of the address spaces, each of which returns, the count of every
page-aligned frame F is the number of address spaces that map F when that
number is at least 2, is 0 or 1 when exactly one address space maps F, and is
0 when none does. -/
theorem cow_refcount_reachable (COWREFINDEX : Nat → Nat)
    (hinj : ∀ F G, F % PGSIZE = 0 → G % PGSIZE = 0 → COWREFINDEX F = COWREFINDEX G → F = G)
    (w0 w : World) (hs : Shape w0) (h0 : ∀ i, w0.m.cow_ref i = 0)
    (hpriv : ∀ F, F % PGSIZE = 0 → mappers w0 F ≤ 1) (hr : Reach COWREFINDEX w0 w) :
    ∀ F, F % PGSIZE = 0 →
      (2 ≤ mappers w F → w.m.cow_ref (COWREFINDEX F) = mappers w F) ∧
      (mappers w F = 1 →
        w.m.cow_ref (COWREFINDEX F) = 0 ∨ w.m.cow_ref (COWREFINDEX F) = 1) ∧
      (mappers w F = 0 → w.m.cow_ref (COWREFINDEX F) = 0) := by
  intro F hF
  have hlaw := (reach_keeps COWREFINDEX hinj w0 w hs (refLaw_private COWREFINDEX w0 h0 hpriv)
    hr).2 F hF
  rcases hlaw with h | ⟨h, h1⟩
  · exact ⟨fun _ => h, fun h1 => Or.inr (h.trans h1), fun h1 => h.trans h1⟩
  · exact ⟨fun h2 => absurd h2 (by omega), fun _ => Or.inl h, fun _ => h⟩

theorem cow_refcount_reachable_witness :
    (Shape demoWorld ∧ (∀ i, demoWorld.m.cow_ref i = 0) ∧
      (∀ F, F % PGSIZE = 0 → mappers demoWorld F ≤ 1) ∧
      Reach demoIndex demoWorld demoWorldForked) ∧
    ∀ F, F % PGSIZE = 0 →
      (2 ≤ mappers demoWorldForked F →
        demoWorldForked.m.cow_ref (demoIndex F) = mappers demoWorldForked F) ∧
      (mappers demoWorldForked F = 1 →
        demoWorldForked.m.cow_ref (demoIndex F) = 0 ∨
          demoWorldForked.m.cow_ref (demoIndex F) = 1) ∧
      (mappers demoWorldForked F = 0 → demoWorldForked.m.cow_ref (demoIndex F) = 0) :=
  ⟨⟨demoWorld_shape, demoWorld_private.1, demoWorld_private.2, demoWorld_reach.1⟩,
    cow_refcount_reachable demoIndex demoIndex_inj demoWorld demoWorldForked demoWorld_shape
      demoWorld_private.1 demoWorld_private.2 demoWorld_reach.1⟩
/-- C31 (failing input): the page table of `demoSys` is a tree with one
level-0 table, which covers the addresses below `0x200000`.  For the hint
`0x200000` the first lookup of the search, `walk(pagetable, 0x200000, 0)`,
returns the null result, and `sys_mmap` dereferences it in the test of the V
bit.  For the hint `0x1FF000` and length 8192 the first candidate has an
entry, which is not valid, and the lookup of the inner scan at `0x200000`
returns the null result, which is dereferenced in the same way.  With the hint
0 and length 4096 every lookup yields an entry and the call returns
`0x2000`. -/
theorem mmap_search_dereferences_null :
    PtOK demoSys.mem demoSys.p.pagetable ∧
    walk demoSys.mem demoSys.p.pagetable 0x200000 false = .ok (0, demoSys.mem) ∧
    PGROUNDUP 0x200000 = 0x200000 ∧
    mmap_try (2 * (KERNBASE / PGSIZE) + 2) demoSys.mem demoSys.p.pagetable 0x200000 4096 =
      .error "kerneltrap" ∧
    sys_mmap demoSys 0x200000 4096 PROT_READ MAP_PRIVATE 3 0 = .error "kerneltrap" ∧
    walk demoSys.mem demoSys.p.pagetable 0x1FF000 false = .ok (0x80012FF8, demoSys.mem) ∧
    demoSys.mem.ptes 0x80012FF8 &&& PTE_V = 0 ∧
    mmap_scan (8192 / PGSIZE + 1) demoSys.mem demoSys.p.pagetable 0x1FF000 (0x1FF000 + 8192) =
      .error "kerneltrap" ∧
    sys_mmap demoSys 0x1FF000 8192 PROT_READ MAP_PRIVATE 3 0 = .error "kerneltrap" ∧
    (sys_mmap demoSys 0 4096 PROT_READ MAP_PRIVATE 3 0).toOption.map Prod.fst = some 0x2000 :=
  ⟨demoMachine_ptOK, rfl, by decide, rfl, rfl, rfl, by decide, rfl, rfl, by decide⟩

/-- The branch of `uvmuncow` for the last reference to a frame, for an entry
with U or with a COW mark. -/
theorem uvmuncow_last_any (idx : Nat → Nat) (m : Machine) (pagetable va p_sz a : Nat)
    (hsz : va < p_sz) (hva : va < MAXVA) (hm : Mapped m pagetable va a) (ha : a ≠ 0)
    (hu : ¬ (m.ptes a &&& PTE_U = 0 ∧ m.ptes a &&& (PTE_COW_R ||| PTE_COW_W) = 0))
    (href : m.cow_ref (idx (PTE2PA (m.ptes a))) = 1) :
    uvmuncow idx m pagetable va p_sz =
      .ok (0, (m.setRef (idx (PTE2PA (m.ptes a))) 0).setPte a
        ((m.ptes a ||| uvmuncow_flags (m.ptes a)) &&& not64 (PTE_COW_R ||| PTE_COW_W))) := by
  unfold uvmuncow
  rw [if_neg (by omega), walk_of_mapped m pagetable va a hva hm]
  simp only [if_neg ha]
  rw [if_neg (by omega), if_neg hu, if_neg (by omega), if_pos href]

/-- The branch of `uvmuncow` for a frame with at least two references when
the allocator is empty. -/
theorem uvmuncow_copy_nomem (idx : Nat → Nat) (m : Machine) (pagetable va p_sz a : Nat)
    (hsz : va < p_sz) (hva : va < MAXVA) (hm : Mapped m pagetable va a) (ha : a ≠ 0)
    (hu : ¬ (m.ptes a &&& PTE_U = 0 ∧ m.ptes a &&& (PTE_COW_R ||| PTE_COW_W) = 0))
    (href : 2 ≤ m.cow_ref (idx (PTE2PA (m.ptes a)))) (hfree : m.freelist = []) :
    uvmuncow idx m pagetable va p_sz = .ok (-1, m) := by
  unfold uvmuncow
  rw [if_neg (by omega), walk_of_mapped m pagetable va a hva hm]
  simp only [if_neg ha]
  rw [if_neg (by omega), if_neg hu, if_pos href]
  have ek : kalloc m = (0, m) := by simp only [kalloc, hfree]
  rw [ek]
  simp only [if_true]

/-- C20 (amended): for `va < proc.size` whose entry is valid and carries
COW_R or COW_W, with or without U, and the COW reference count of its frame F.
With count 1 `uvmuncow` returns 0 and rewrites the entry in place: it
still maps F, R is set exactly when R or COW_R was set, W exactly when W or
COW_W was set, and the count becomes 0.  With count at least 2 and a frame in
the allocator it returns 0 and maps a private copy of F with R exactly when
COW_R was set and W exactly when COW_W was set, the count (an `uint8`) one
less.  In both
cases the COW marks are clear and the resulting entry has X and U set: the
page has become accessible to user code.  With count at least 2 and an empty
allocator it returns -1 and changes nothing. -/
theorem uvmuncow_kernel_page (COWREFINDEX : Nat → Nat) (m : Machine)
    (pagetable va p_sz a : Nat) (hsz : va < p_sz)
    (hw : walk m pagetable va false = .ok (a, m)) (ha : a ≠ 0)
    (hv : m.ptes a &&& PTE_V ≠ 0)
    (hcow : m.ptes a &&& (PTE_COW_R ||| PTE_COW_W) ≠ 0)
    (hleaf : a ≠ l2slot pagetable va ∧ a ≠ l1slot m pagetable va) :
    (m.cow_ref (COWREFINDEX (PTE2PA (m.ptes a))) = 1 →
      ∃ m1, uvmuncow COWREFINDEX m pagetable va p_sz = .ok (0, m1) ∧
        walk m1 pagetable va false = .ok (a, m1) ∧ m1.ptes a &&& PTE_V ≠ 0 ∧
        PTE2PA (m1.ptes a) = PTE2PA (m.ptes a) ∧
        (m1.ptes a &&& PTE_R ≠ 0 ↔ (m.ptes a &&& PTE_R ≠ 0 ∨ m.ptes a &&& PTE_COW_R ≠ 0)) ∧
        (m1.ptes a &&& PTE_W ≠ 0 ↔ (m.ptes a &&& PTE_W ≠ 0 ∨ m.ptes a &&& PTE_COW_W ≠ 0)) ∧
        m1.ptes a &&& PTE_COW_R = 0 ∧ m1.ptes a &&& PTE_COW_W = 0 ∧
        m1.ptes a &&& PTE_X ≠ 0 ∧ m1.ptes a &&& PTE_U ≠ 0 ∧
        m1.freelist = m.freelist ∧ m1.bytes = m.bytes ∧
        m1.cow_ref (COWREFINDEX (PTE2PA (m.ptes a))) = 0) ∧
    (2 ≤ m.cow_ref (COWREFINDEX (PTE2PA (m.ptes a))) → ∀ mem rest, m.freelist = mem :: rest →
      mem ≠ 0 ∧ mem % PGSIZE = 0 ∧ mem < 2 ^ 64 →
      ∃ m1, uvmuncow COWREFINDEX m pagetable va p_sz = .ok (0, m1) ∧
        walk m1 pagetable va false = .ok (a, m1) ∧ m1.ptes a &&& PTE_V ≠ 0 ∧
        PTE2PA (m1.ptes a) = mem ∧
        (∀ k, k < PGSIZE → m1.bytes (mem + k) = m.bytes (PTE2PA (m.ptes a) + k)) ∧
        (m1.ptes a &&& PTE_R ≠ 0 ↔ m.ptes a &&& PTE_COW_R ≠ 0) ∧
        (m1.ptes a &&& PTE_W ≠ 0 ↔ m.ptes a &&& PTE_COW_W ≠ 0) ∧
        m1.ptes a &&& PTE_COW_R = 0 ∧ m1.ptes a &&& PTE_COW_W = 0 ∧
        m1.ptes a &&& PTE_X ≠ 0 ∧ m1.ptes a &&& PTE_U ≠ 0 ∧
        m1.freelist = rest ∧
        m1.cow_ref (COWREFINDEX (PTE2PA (m.ptes a))) =
          (m.cow_ref (COWREFINDEX (PTE2PA (m.ptes a))) + 255) % 256 ∧
        (m.cow_ref (COWREFINDEX (PTE2PA (m.ptes a))) < 256 →
          m1.cow_ref (COWREFINDEX (PTE2PA (m.ptes a))) + 1 =
            m.cow_ref (COWREFINDEX (PTE2PA (m.ptes a))))) ∧
    (2 ≤ m.cow_ref (COWREFINDEX (PTE2PA (m.ptes a))) → m.freelist = [] →
      uvmuncow COWREFINDEX m pagetable va p_sz = .ok (-1, m)) := by
  obtain ⟨hva, _, hm⟩ := mapped_of_walk m m pagetable va a hw ha
  have hu : ¬ (m.ptes a &&& PTE_U = 0 ∧ m.ptes a &&& (PTE_COW_R ||| PTE_COW_W) = 0) :=
    fun hc => hcow hc.2
  refine ⟨fun h1 => ?_, fun h2 mem rest hfree hmem => ?_, fun h2 hfree =>
    uvmuncow_copy_nomem COWREFINDEX m pagetable va p_sz a hsz hva hm ha hu h2 hfree⟩
  · have heq := uvmuncow_last_any COWREFINDEX m pagetable va p_sz a hsz hva hm ha hu h1
    have hp : ((m.setRef (COWREFINDEX (PTE2PA (m.ptes a))) 0).setPte a
        ((m.ptes a ||| uvmuncow_flags (m.ptes a)) &&& not64 (PTE_COW_R ||| PTE_COW_W))).ptes a =
        (m.ptes a ||| uvmuncow_flags (m.ptes a)) &&& not64 (PTE_COW_R ||| PTE_COW_W) := by
      simp only [Machine.setPte, if_true]
    have hmp := mapped_setPte m ((m.setRef (COWREFINDEX (PTE2PA (m.ptes a))) 0).setPte a
        ((m.ptes a ||| uvmuncow_flags (m.ptes a)) &&& not64 (PTE_COW_R ||| PTE_COW_W)))
      pagetable va a
      ((m.ptes a ||| uvmuncow_flags (m.ptes a)) &&& not64 (PTE_COW_R ||| PTE_COW_W))
      hm hleaf.1 hleaf.2 (by
        funext b
        simp only [Machine.setPte, Machine.setRef])
    refine ⟨_, heq, walk_of_mapped _ _ _ _ hva hmp.1, ?_, ?_, ?_, ?_, ?_, ?_, ?_, ?_, rfl, rfl, ?_⟩
    · rw [hp]; exact (uncow_entry_facts _).1
    · rw [hp]; exact (uncow_entry_facts _).2
    · rw [hp, and_R, and_R, and_COW_R, testBit_uncow_entry, testBit_uvmuncow_flags]
      simp
    · rw [hp, and_W, and_W, and_COW_W, testBit_uncow_entry, testBit_uvmuncow_flags]
      simp
    · rw [hp]
      by_contra hc
      have h8 := (and_COW_R _).mp hc
      rw [testBit_uncow_entry] at h8
      simp at h8
    · rw [hp]
      by_contra hc
      have h9 := (and_COW_W _).mp hc
      rw [testBit_uncow_entry] at h9
      simp at h9
    · rw [hp, and_X, testBit_uncow_entry, testBit_uvmuncow_flags]
      simp
    · rw [hp, and_U, testBit_uncow_entry, testBit_uvmuncow_flags]
      simp
    · simp only [Machine.setPte, Machine.setRef, if_true]
  · have heq := uvmuncow_copy_any COWREFINDEX m pagetable va p_sz a mem rest hsz hva hm ha hv hu
      hleaf.1 hleaf.2 h2 hfree hmem.1
    have hp : (uncowCopied COWREFINDEX m a mem rest).ptes a =
        PA2PTE mem ||| uvmuncow_flags (m.ptes a) ||| PTE_V := by
      simp only [uncowCopied, Machine.setPte, if_true]
    have hmp := mapped_setPte m (uncowCopied COWREFINDEX m a mem rest) pagetable va a
      (PA2PTE mem ||| uvmuncow_flags (m.ptes a) ||| PTE_V) hm hleaf.1 hleaf.2 (by
        funext b
        simp only [uncowCopied, Machine.setPte, Machine.memmove, Machine.setRef]
        by_cases e : b = a
        · simp only [e, if_true]
        · simp only [e, if_false])
    have bit : ∀ k, k < 10 → ((uncowCopied COWREFINDEX m a mem rest).ptes a).testBit k =
        (uvmuncow_flags (m.ptes a) ||| PTE_V).testBit k := by
      intro k hk
      have e1 := congrArg (fun n => Nat.testBit n k)
        (PTE_FLAGS_leaf mem (uvmuncow_flags (m.ptes a)) (uvmuncow_flags_lt _))
      simp only [testBit_PTE_FLAGS, hk, decide_True, Bool.true_and] at e1
      rw [hp]
      exact e1
    refine ⟨uncowCopied COWREFINDEX m a mem rest, heq, walk_of_mapped _ _ _ _ hva hmp.1, ?_, ?_,
      ?_, ?_, ?_, ?_, ?_, ?_, ?_, rfl, ?_, ?_⟩
    · rw [hp]; exact leaf_entry_valid _ _
    · rw [hp]; exact PTE2PA_leaf mem _ hmem.2.1 hmem.2.2 (uvmuncow_flags_lt _)
    · intro k hk
      simp only [uncowCopied, Machine.setPte, Machine.memmove, Machine.setRef]
      rw [if_pos (by omega)]
      congr 1
      omega
    · rw [and_R, bit 1 (by omega), Nat.testBit_or, testBit_V, testBit_uvmuncow_flags, and_COW_R]
      simp
    · rw [and_W, bit 2 (by omega), Nat.testBit_or, testBit_V, testBit_uvmuncow_flags, and_COW_W]
      simp
    · rw [show PTE_COW_R = 2 ^ 8 from rfl, and_two_pow_eq_zero, bit 8 (by omega), Nat.testBit_or,
        testBit_V, testBit_uvmuncow_flags]
      simp
    · rw [show PTE_COW_W = 2 ^ 9 from rfl, and_two_pow_eq_zero, bit 9 (by omega), Nat.testBit_or,
        testBit_V, testBit_uvmuncow_flags]
      simp
    · rw [and_X, bit 3 (by omega), Nat.testBit_or, testBit_V, testBit_uvmuncow_flags]
      simp
    · rw [and_U, bit 4 (by omega), Nat.testBit_or, testBit_V, testBit_uvmuncow_flags]
      simp
    · simp only [uncowCopied, Machine.setPte, Machine.memmove, Machine.setRef, if_true]
    · intro h8
      simp only [uncowCopied, Machine.setPte, Machine.memmove, Machine.setRef, if_true]
      omega

/-- C20 (counterexample): `copyout_cow` shares the kernel page `0x80060000`,
mapped with R and W and without U, into the user address space at `0x2000`.
The entry of `0x2000` is then valid, lacks U and carries COW_R and COW_W, and
the reference count of the frame is 2.  The call of `uvmuncow` for `0x2000`
returns 0, and the resulting entry has U set. -/
theorem uvmuncow_grants_user_access :
    demoKernel.ptes 0x80042300 = PA2PTE 0x80060000 ||| (PTE_R ||| PTE_W) ||| PTE_V ∧
    copyout_cow demoIndex demoKernel 0x80040000 0x80010000 0x2000 0x80060000 0x1000 =
      .ok (0, demoLent) ∧
    walk demoLent 0x80010000 0x2000 false = .ok (0x80012010, demoLent) ∧
    demoLent.ptes 0x80012010 =
      PA2PTE 0x80060000 ||| (PTE_R ||| PTE_COW_R ||| PTE_COW_W) ||| PTE_V ∧
    demoLent.ptes 0x80012010 &&& PTE_V ≠ 0 ∧ demoLent.ptes 0x80012010 &&& PTE_U = 0 ∧
    demoLent.ptes 0x80012010 &&& PTE_COW_R ≠ 0 ∧ demoLent.ptes 0x80012010 &&& PTE_COW_W ≠ 0 ∧
    demoLent.cow_ref (demoIndex (PTE2PA (demoLent.ptes 0x80012010))) = 2 ∧
    uvmuncow demoIndex demoLent 0x80010000 0x2000 0x3000 = .ok (0, demoLentUncowed) ∧
    walk demoLentUncowed 0x80010000 0x2000 false = .ok (0x80012010, demoLentUncowed) ∧
    demoLentUncowed.ptes 0x80012010 =
      PA2PTE 0x80043000 ||| (PTE_R ||| PTE_W ||| PTE_X ||| PTE_U) ||| PTE_V ∧
    demoLentUncowed.ptes 0x80012010 &&& PTE_U ≠ 0 :=
  ⟨by decide, eq_ok_pair _ _ demoKernel (by decide), rfl, by decide, by decide, by decide,
    by decide, by decide, by decide, eq_ok_pair _ _ demoLent (by decide), rfl, by decide,
    by decide⟩

theorem uvmuncow_kernel_page_witness :
    (walk demoLent 0x80010000 0x2000 false = .ok (0x80012010, demoLent) ∧
      demoLent.ptes 0x80012010 &&& PTE_V ≠ 0 ∧ demoLent.ptes 0x80012010 &&& PTE_U = 0 ∧
      demoLent.ptes 0x80012010 &&& (PTE_COW_R ||| PTE_COW_W) ≠ 0 ∧
      2 ≤ demoLent.cow_ref (demoIndex (PTE2PA (demoLent.ptes 0x80012010))) ∧
      demoLent.freelist = 0x80043000 :: demoLentUncowed.freelist) ∧
    (∃ m1, uvmuncow demoIndex demoLent 0x80010000 0x2000 0x3000 = .ok (0, m1) ∧
      walk m1 0x80010000 0x2000 false = .ok (0x80012010, m1) ∧ m1.ptes 0x80012010 &&& PTE_V ≠ 0 ∧
      PTE2PA (m1.ptes 0x80012010) = 0x80043000 ∧
      (∀ k, k < PGSIZE → m1.bytes (0x80043000 + k) =
        demoLent.bytes (PTE2PA (demoLent.ptes 0x80012010) + k)) ∧
      (m1.ptes 0x80012010 &&& PTE_R ≠ 0 ↔ demoLent.ptes 0x80012010 &&& PTE_COW_R ≠ 0) ∧
      (m1.ptes 0x80012010 &&& PTE_W ≠ 0 ↔ demoLent.ptes 0x80012010 &&& PTE_COW_W ≠ 0) ∧
      m1.ptes 0x80012010 &&& PTE_COW_R = 0 ∧ m1.ptes 0x80012010 &&& PTE_COW_W = 0 ∧
      m1.ptes 0x80012010 &&& PTE_X ≠ 0 ∧ m1.ptes 0x80012010 &&& PTE_U ≠ 0 ∧
      m1.freelist = demoLentUncowed.freelist ∧
      m1.cow_ref (demoIndex (PTE2PA (demoLent.ptes 0x80012010))) =
        (demoLent.cow_ref (demoIndex (PTE2PA (demoLent.ptes 0x80012010))) + 255) % 256 ∧
      (demoLent.cow_ref (demoIndex (PTE2PA (demoLent.ptes 0x80012010))) < 256 →
        m1.cow_ref (demoIndex (PTE2PA (demoLent.ptes 0x80012010))) + 1 =
          demoLent.cow_ref (demoIndex (PTE2PA (demoLent.ptes 0x80012010))))) ∧
    (walk demoLentUncowed 0x80040000 0x80060000 false = .ok (0x80042300, demoLentUncowed) ∧
      demoLentUncowed.ptes 0x80042300 &&& PTE_V ≠ 0 ∧
      demoLentUncowed.ptes 0x80042300 &&& PTE_U = 0 ∧
      demoLentUncowed.ptes 0x80042300 &&& (PTE_COW_R ||| PTE_COW_W) ≠ 0 ∧
      demoLentUncowed.cow_ref (demoIndex (PTE2PA (demoLentUncowed.ptes 0x80042300))) = 1) ∧
    (∃ m1, uvmuncow demoIndex demoLentUncowed 0x80040000 0x80060000 0x80061000 = .ok (0, m1) ∧
      walk m1 0x80040000 0x80060000 false = .ok (0x80042300, m1) ∧
      m1.ptes 0x80042300 &&& PTE_V ≠ 0 ∧
      PTE2PA (m1.ptes 0x80042300) = PTE2PA (demoLentUncowed.ptes 0x80042300) ∧
      (m1.ptes 0x80042300 &&& PTE_R ≠ 0 ↔ (demoLentUncowed.ptes 0x80042300 &&& PTE_R ≠ 0 ∨
        demoLentUncowed.ptes 0x80042300 &&& PTE_COW_R ≠ 0)) ∧
      (m1.ptes 0x80042300 &&& PTE_W ≠ 0 ↔ (demoLentUncowed.ptes 0x80042300 &&& PTE_W ≠ 0 ∨
        demoLentUncowed.ptes 0x80042300 &&& PTE_COW_W ≠ 0)) ∧
      m1.ptes 0x80042300 &&& PTE_COW_R = 0 ∧ m1.ptes 0x80042300 &&& PTE_COW_W = 0 ∧
      m1.ptes 0x80042300 &&& PTE_X ≠ 0 ∧ m1.ptes 0x80042300 &&& PTE_U ≠ 0 ∧
      m1.freelist = demoLentUncowed.freelist ∧ m1.bytes = demoLentUncowed.bytes ∧
      m1.cow_ref (demoIndex (PTE2PA (demoLentUncowed.ptes 0x80042300))) = 0) :=
  ⟨⟨rfl, by decide, by decide, by decide, by decide, by decide⟩,
   (uvmuncow_kernel_page demoIndex demoLent 0x80010000 0x2000 0x3000 0x80012010 (by decide) rfl
      (by decide) (by decide) (by decide) ⟨by decide, by decide⟩).2.1 (by decide) 0x80043000
      demoLentUncowed.freelist (by decide) ⟨by decide, by decide, by decide⟩,
   ⟨rfl, by decide, by decide, by decide, by decide⟩,
   (uvmuncow_kernel_page demoIndex demoLentUncowed 0x80040000 0x80060000 0x80061000 0x80042300
      (by decide) rfl (by decide) (by decide) (by decide) ⟨by decide, by decide⟩).1 (by decide)⟩
end Kernel
